import Mathlib

/-!
# Extent-index leaf (`dleaf`) of `user/kernel/dleaf.c`

A leaf is one block.  The header holds four big-endian 16-bit fields
(`magic`, `groups`, `free`, `used`); the body is modelled as a memory of
32-bit words addressed by byte offset from the start of the block.  Extents
are 64-bit big-endian words (two memory words) growing upwards from offset 8,
group words grow downwards from the end of the block and the entry words
follow below the group table.

Pointers of the C code are byte offsets into the block.  `assert` failures
and loops that run out of fuel yield `none`.
-/

namespace Dleaf

/-! ## Declarations the leaf code uses from `tux3.h` -/

/-- Modelled from the spec: `sizeof(struct dleaf)`, the fixed header
`{magic, free-offset, used-offset, group-count}` of four 16-bit fields. -/
def sizeof_dleaf : Nat := 8

/-- Modelled from the spec: `sizeof(struct diskextent)`, a 64-bit word. -/
def sizeof_extent : Nat := 8

/-- Modelled from the spec: `sizeof(struct group)`, a 32-bit word. -/
def sizeof_group : Nat := 4

/-- Modelled from the spec: `sizeof(struct entry)`, a 32-bit word. -/
def sizeof_entry : Nat := 4

/-- Modelled from the spec: `MAX_GROUP_ENTRIES = 255`. -/
def MAX_GROUP_ENTRIES : Nat := 255

/-- Modelled from the spec: `to_be_u16`, the store of a value into a 16-bit
big-endian header field (the value is truncated to 16 bits); fields are kept
in host order, so `from_be_u16` is the identity on a stored field. -/
def to_be_u16 (x : Nat) : Nat := x % 65536

/-- The leaf block: header fields and the body as 32-bit words by byte offset. -/
structure dleaf where
  magic : Nat
  groups : Nat
  free : Nat
  used : Nat
  mem : Nat → Nat

/-- The cursor `struct dwalk`; every pointer is a byte offset into the leaf
(the `leaf` pointer itself is passed alongside). -/
structure dwalk where
  gdict : Nat
  gstop : Nat
  group : Nat
  estop : Nat
  entry : Nat
  exbase : Nat
  extent : Nat
  exstop : Nat
  deriving DecidableEq, Repr

/-- Store of one 32-bit word. -/
def store32 (leaf : dleaf) (p v : Nat) : dleaf :=
  { leaf with mem := fun a => if a = p then v % 2 ^ 32 else leaf.mem a }

/-- Modelled from the spec: `dleaf_groups`, the header's group count. -/
def dleaf_groups (leaf : dleaf) : Nat := leaf.groups

/-- Modelled from the spec: `set_dleaf_groups`. -/
def set_dleaf_groups (leaf : dleaf) (n : Nat) : dleaf := { leaf with groups := to_be_u16 n }

/-- Assignment to the header field free (the caller passes the big-endian 16-bit value). -/
def set_dleaf_free (leaf : dleaf) (v : Nat) : dleaf := { leaf with free := v }

/-- Assignment to the header field used (the caller passes the big-endian 16-bit value). -/
def set_dleaf_used (leaf : dleaf) (v : Nat) : dleaf := { leaf with used := v }

/-- Modelled from the spec: `inc_dleaf_groups`. -/
def inc_dleaf_groups (leaf : dleaf) (n : Nat) : dleaf :=
  set_dleaf_groups leaf (dleaf_groups leaf + n)

/-- Modelled from the spec: a group word packs `{keyhi:24, count:8}`. -/
def make_group (keyhi count : Nat) : Nat := (count % 256) * 2 ^ 24 + keyhi % 2 ^ 24

/-- Modelled from the spec: an entry word packs `{keylo:24, limit:8}`. -/
def make_entry (keylo limit : Nat) : Nat := (limit % 256) * 2 ^ 24 + keylo % 2 ^ 24

/-- Modelled from the spec: `group_keyhi`, the 24-bit key field of the group at `p`. -/
def group_keyhi (leaf : dleaf) (p : Nat) : Nat := leaf.mem p % 2 ^ 24

/-- Modelled from the spec: `group_count`, the 8-bit count field of the group at `p`. -/
def group_count (leaf : dleaf) (p : Nat) : Nat := leaf.mem p / 2 ^ 24 % 256

/-- Modelled from the spec: `entry_keylo`, the 24-bit key field of the entry at `p`. -/
def entry_keylo (leaf : dleaf) (p : Nat) : Nat := leaf.mem p % 2 ^ 24

/-- Modelled from the spec: `entry_limit`, the 8-bit limit field of the entry at `p`. -/
def entry_limit (leaf : dleaf) (p : Nat) : Nat := leaf.mem p / 2 ^ 24 % 256

/-- Modelled from the spec: `set_group_count`, a store into the 8-bit count field. -/
def set_group_count (leaf : dleaf) (p n : Nat) : dleaf :=
  store32 leaf p (make_group (group_keyhi leaf p) n)

/-- Modelled from the spec: `inc_group_count`, an 8-bit add (of a C `int`) to the count field. -/
def inc_group_count (leaf : dleaf) (p : Nat) (n : Int) : dleaf :=
  set_group_count leaf p (((group_count leaf p : Int) + n) % 256).toNat

/-- Modelled from the spec: `inc_entry_limit`, an 8-bit add (of a C `int`) to the limit field. -/
def inc_entry_limit (leaf : dleaf) (p : Nat) (n : Int) : dleaf :=
  store32 leaf p (make_entry (entry_keylo leaf p) (((entry_limit leaf p : Int) + n) % 256).toNat)

/-- Load of the 64-bit big-endian extent word at `p`. -/
def extent_at (leaf : dleaf) (p : Nat) : Nat := leaf.mem p * 2 ^ 32 + leaf.mem (p + 4)

/-- Store of a 64-bit big-endian extent word at `p`. -/
def store_extent (leaf : dleaf) (p w : Nat) : dleaf :=
  store32 (store32 leaf p (w / 2 ^ 32)) (p + 4) w

/-- Modelled from the spec: the extent word packs `{block:48, count:6, version:10}`;
`extent_block` is the 48-bit block field. -/
def extent_block (w : Nat) : Nat := w % 2 ^ 48

/-- Modelled from the spec: `extent_count`, the 6-bit count field of the extent word. -/
def extent_count (w : Nat) : Nat := w / 2 ^ 48 % 64

/-- Modelled from the spec: `make_extent`, the extent word of `(block, count)`, version 0. -/
def make_extent (block count : Nat) : Nat := (count % 64) * 2 ^ 48 + block % 2 ^ 48

/-- The `memmove` of `n` bytes inside one leaf (source bytes are read before any is written). -/
def memmove (leaf : dleaf) (dst src n : Nat) : dleaf :=
  { leaf with mem := fun a => if dst ≤ a ∧ a < dst + n then leaf.mem (a - dst + src) else leaf.mem a }

/-- The `memcpy` of `n` bytes from leaf `src_leaf` at `src` into `leaf` at `dst`. -/
def memcpy (leaf : dleaf) (dst : Nat) (src_leaf : dleaf) (src n : Nat) : dleaf :=
  { leaf with mem := fun a => if dst ≤ a ∧ a < dst + n then src_leaf.mem (a - dst + src) else leaf.mem a }

/-- The `memset` of `n` zero bytes at `dst`. -/
def memset0 (leaf : dleaf) (dst n : Nat) : dleaf :=
  { leaf with mem := fun a => if dst ≤ a ∧ a < dst + n then 0 else leaf.mem a }

/-- Modelled from the spec: `vecmove(d, s, n)` moves `n` 4-byte elements inside one leaf. -/
def vecmove (leaf : dleaf) (dst src n : Nat) : dleaf := memmove leaf dst src (4 * n)

/-- Modelled from the spec: `veccopy(d, s, n)` copies `n` 4-byte elements between leaves. -/
def veccopy (leaf : dleaf) (dst : Nat) (src_leaf : dleaf) (src n : Nat) : dleaf :=
  memcpy leaf dst src_leaf src (4 * n)

/-! ## Leaf operations -/

/-- The `dleaf_init` of the source (the leaf pointer is never null here): a fresh
header over the block's bytes, which are left as they were. -/
def dleaf_init (blocksize : Nat) (leaf : dleaf) : dleaf :=
  { leaf with magic := to_be_u16 0x1eaf, groups := 0,
              free := to_be_u16 sizeof_dleaf, used := to_be_u16 blocksize }

/-- The `dleaf_sniff` of the source. -/
def dleaf_sniff (leaf : dleaf) : Bool := leaf.magic == 0x1eaf

/-- The `dleaf_free` of the source: `used - free` returned as `unsigned`. -/
def dleaf_free (leaf : dleaf) : Nat :=
  (((leaf.used : Int) - (leaf.free : Int)) % 2 ^ 32).toNat

/-- The `dleaf_need` of the source, in `unsigned` arithmetic. -/
def dleaf_need (blocksize : Nat) (leaf : dleaf) : Nat :=
  ((((blocksize : Int) - (dleaf_free leaf : Int)) - (sizeof_dleaf : Int)) % 2 ^ 32).toNat

/-- The loop of `dleaf_free2`: `for (group = gdict; group-- > gstop;)`. -/
def dleaf_free2_loop (leaf : dleaf) (gstop : Nat) : Nat → Nat → Nat → Nat → Option (Nat × Nat)
  | 0, group, entry, extents => if group > gstop then none else some (entry, extents)
  | fuel + 1, group, entry, extents =>
    if group > gstop then
      let group := group - 4
      let entry := entry - 4 * group_count leaf group
      let extents := extents + 8 * entry_limit leaf entry
      dleaf_free2_loop leaf gstop fuel group entry extents
    else some (entry, extents)

/-- The `dleaf_free2` of the source: the gap between the lowest entry and the end
of the extents, found by walking the group and entry tables. -/
def dleaf_free2 (blocksize : Nat) (leaf : dleaf) : Option Int :=
  let gdict := blocksize
  let gstop := gdict - 4 * dleaf_groups leaf
  let edict := gstop
  match dleaf_free2_loop leaf gstop (dleaf_groups leaf) gdict edict sizeof_dleaf with
  | none => none
  | some (entry, extents) => some ((entry : Int) - (extents : Int))

/-- The `get_index` of the source for the group at `group` and the entry at `entry`. -/
def get_index (leaf : dleaf) (group entry : Nat) : Nat :=
  (group_keyhi leaf group <<< 24) ||| entry_keylo leaf entry

/-- The loop of `dleaf_check`: `for (group = gdict - 1; group >= gstop; group--)`. -/
def dleaf_check_loop (leaf : dleaf) (gstop : Nat) :
    Nat → Nat → Nat → Nat → Nat → Option (Nat × Nat)
  | 0, group, _, excount, encount => if group ≥ gstop then none else some (excount, encount)
  | fuel + 1, group, entry, excount, encount =>
    if group ≥ gstop then
      let entry := entry - 4 * group_count leaf group
      let excount := (excount + entry_limit leaf entry) % 2 ^ 32
      let encount := (encount + group_count leaf group) % 2 ^ 32
      dleaf_check_loop leaf gstop fuel (group - 4) entry excount encount
    else some (excount, encount)

/-- The `dleaf_check` of the source: 0 when `used`, `free` and the free gap agree
with the totals read from the group and entry tables, -1 otherwise. -/
def dleaf_check (blocksize : Nat) (leaf : dleaf) : Option Int :=
  let gdict := blocksize
  let gstop := gdict - 4 * dleaf_groups leaf
  let edict := gstop
  match dleaf_check_loop leaf gstop (dleaf_groups leaf) (gdict - 4) edict 0 0 with
  | none => none
  | some (excount, encount) =>
    if (leaf.used : Int) ≠ (edict : Int) - 4 * (encount : Int) then some (-1)
    else if (leaf.free : Int) ≠ (sizeof_dleaf : Int) + 8 * (excount : Int) then some (-1)
    else match dleaf_free2 blocksize leaf with
      | none => none
      | some gap => if (leaf.used : Int) - (leaf.free : Int) ≠ gap then some (-1) else some 0

/-- The group loop of `dleaf_split_at`:
`for (group = gdict - 1; group >= gbase; group--, grsplit++)`, left by `break`
at the group that holds entry number `split`.  Yields `edict`, `recount`,
`grsplit` and `exsplit`. -/
def dleaf_split_at_loop (leaf : dleaf) (gbase split : Nat) :
    Nat → Nat → Nat → Nat → Nat → Nat → Option (Nat × Nat × Nat × Nat)
  | 0, group, edict, recount, grsplit, exsplit =>
    if group ≥ gbase then
      if recount + group_count leaf group > split then some (edict, recount, grsplit, exsplit)
      else none
    else some (edict, recount, grsplit, exsplit)
  | fuel + 1, group, edict, recount, grsplit, exsplit =>
    if group ≥ gbase then
      if recount + group_count leaf group > split then some (edict, recount, grsplit, exsplit)
      else
        let edict := edict - 4 * group_count leaf group
        let exsplit := exsplit + entry_limit leaf edict
        let recount := recount + group_count leaf group
        dleaf_split_at_loop leaf gbase split fuel (group - 4) edict recount (grsplit + 1) exsplit
    else some (edict, recount, grsplit, exsplit)

/-- The loop `for (i = 1; i <= group_count(gdict2 - 1); i++) inc_entry_limit(top - i, n)`
shared by `dleaf_split_at` and `dleaf_merge`; the bound `count` and the
increment `n` are re-read on every round from the leaf being adjusted. -/
def adjust_limits_loop (count : dleaf → Nat) (top : Nat) (n : dleaf → Int) :
    Nat → Nat → dleaf → Option dleaf
  | 0, i, leaf => if i ≤ count leaf then none else some leaf
  | fuel + 1, i, leaf =>
    if i ≤ count leaf then
      adjust_limits_loop count top n fuel (i + 1) (inc_entry_limit leaf (top - 4 * i) (n leaf))
    else some leaf

/-- The `dleaf_split_at` of the source: the returned group count of the new
leaf, the old leaf and the new leaf.  `entry` is the first entry to move. -/
def dleaf_split_at (from_leaf into : dleaf) (entry blocksize : Nat) :
    Option (Nat × dleaf × dleaf) :=
  let leaf := from_leaf
  let leaf2 := into
  let groups := dleaf_groups leaf
  let gdict := blocksize
  let gbase := gdict - 4 * groups
  let edict := gbase
  let ebase := leaf.used
  let entries := (edict - ebase) / 4
  let split := (edict - 4 - entry) / 4
  if groups = 0 then some (0, leaf, leaf2)
  else if ¬ (ebase ≤ entry ∧ entry < edict) then none
  else if ¬ (split < entries) then none
  else
    match dleaf_split_at_loop leaf gbase split groups (gdict - 4) edict 0 0 0 with
    | none => none
    | some (edict_cut, recount, grsplit, exsplit) =>
      /- have to split a group? -/
      let cut := split - recount
      let exsplit := if cut ≠ 0 then exsplit + entry_limit leaf (edict_cut - 4 * cut) else exsplit
      /- copy extents -/
      let size := leaf.free - (sizeof_dleaf + 8 * exsplit)
      let leaf2 := memcpy leaf2 sizeof_dleaf leaf (sizeof_dleaf + 8 * exsplit) size
      /- copy groups -/
      let gdict2 := blocksize
      let groups2 := groups - grsplit
      let leaf2 := set_dleaf_groups leaf2 groups2
      let leaf2 := veccopy leaf2 (gdict2 - 4 * dleaf_groups leaf2) leaf gbase (dleaf_groups leaf2)
      let leaf2 := inc_group_count leaf2 (gdict2 - 4) (-(cut : Int))
      let groups := grsplit + (if cut ≠ 0 then 1 else 0)
      let leaf := set_dleaf_groups leaf groups
      let gbase := gdict - 4 * groups
      let leaf := if cut ≠ 0 then set_group_count leaf (gdict - 4 * groups) cut else leaf
      /- copy entries -/
      let edict2 := gdict2 - 4 * groups2
      if ¬ (leaf.used = edict - 4 * entries) then none
      else
        let encopy := entries - split
        let leaf2 := veccopy leaf2 (edict2 - 4 * encopy) leaf ebase encopy
        let rebased : Option dleaf :=
          if cut ≠ 0 then
            adjust_limits_loop (fun l => group_count l (gdict2 - 4)) edict2
              (fun _ => -(entry_limit leaf (edict - 4 * split) : Int)) 256 1 leaf2
          else some leaf2
        match rebased with
        | none => none
        | some leaf2 =>
          let leaf := vecmove leaf (gdict - 4 * groups - 4 * split) (edict - 4 * split) split
          /- clean up -/
          let leaf := set_dleaf_free leaf (to_be_u16 (sizeof_dleaf + 8 * exsplit))
          let leaf := set_dleaf_used leaf (to_be_u16 (gbase - 4 * split))
          let leaf2 := set_dleaf_free leaf2 (to_be_u16 (sizeof_dleaf + size))
          let leaf2 := set_dleaf_used leaf2 (to_be_u16 (gdict - 4 * groups2 - 4 * encopy))
          /- `memset(from + free, 0, used - free)`: with `used` below `free` the
          size is a huge `size_t` and the store runs off the block -/
          if leaf.used < leaf.free then none
          else some (groups2, memset0 leaf leaf.free (leaf.used - leaf.free), leaf2)

/-- The `dleaf_split` of the source: split at the middle entry; returns the key
of the first entry of the new leaf with both leaves. -/
def dleaf_split (blocksize : Nat) (from_leaf into : dleaf) : Option (Nat × dleaf × dleaf) :=
  if ¬ dleaf_sniff from_leaf then none
  else
    let gdict := blocksize
    let gbase := gdict - 4 * dleaf_groups from_leaf
    let edict := gbase
    let ebase := from_leaf.used
    let entries := (edict - ebase) / 4
    match dleaf_split_at from_leaf into (edict - 4 * (entries / 2)) blocksize with
    | none => none
    | some (groups2, leaf, leaf2) =>
      let gdict2 := blocksize
      some (get_index leaf2 (gdict2 - 4) (gdict2 - 4 * groups2 - 4), leaf, leaf2)

/-- The `dleaf_merge` of the source: `leaf` after the contents of `from_leaf` are
appended to it. -/
def dleaf_merge (blocksize : Nat) (leaf from_leaf : dleaf) : Option dleaf :=
  let gdict := blocksize
  let gbase := gdict - 4 * dleaf_groups leaf
  let edict := gbase
  /- append extents -/
  let size := (from_leaf.free + 2 ^ 32 - sizeof_dleaf) % 2 ^ 32
  let leaf := memcpy leaf leaf.free from_leaf sizeof_dleaf size
  let leaf := set_dleaf_free leaf (to_be_u16 (leaf.free + size))
  /- merge last group (lowest) with first of from (highest)? -/
  let gdict2 := blocksize
  let uncut : Nat :=
    if dleaf_groups leaf ≠ 0 ∧ dleaf_groups from_leaf ≠ 0
        ∧ group_keyhi from_leaf (gdict2 - 4) = group_keyhi leaf gbase then 1 else 0
  /- make space and append groups except for possibly merged group -/
  let addgroups := dleaf_groups from_leaf - uncut
  let gbase2 := gdict2 - 4 * dleaf_groups from_leaf
  let ebase2 := from_leaf.used
  let ebase := leaf.used
  let leaf := vecmove leaf (ebase - 4 * addgroups) ebase ((edict - ebase) / 4)
  let gbase := gbase - 4 * addgroups
  let leaf := veccopy leaf gbase from_leaf gbase2 addgroups
  let ebase := ebase - 4 * addgroups
  let leaf :=
    if uncut ≠ 0 then
      inc_group_count leaf (gbase + 4 * addgroups) (group_count from_leaf (gdict2 - 4))
    else leaf
  let leaf := inc_dleaf_groups leaf addgroups
  /- append entries -/
  let size := gbase2 - ebase2
  let leaf := memcpy leaf (ebase - size) from_leaf ebase2 size
  let leaf := set_dleaf_used leaf (to_be_u16 (ebase - size))
  /- adjust entry limits for merged group -/
  if uncut ≠ 0 then
    adjust_limits_loop (fun _ => group_count from_leaf (gdict2 - 4)) ebase
      (fun l => (entry_limit l ebase : Int)) 256 1 leaf
  else some leaf

/-! ## The cursor -/

/-- The `dwalk_first` of the source: the cursor is on the first extent of the leaf. -/
def dwalk_first (walk : dwalk) : Bool := sizeof_dleaf == walk.extent

/-- The `dwalk_end` of the source: the cursor is past the last extent. -/
def dwalk_end (walk : dwalk) : Bool := walk.extent == walk.exstop

/-- The `dwalk_index` of the source. -/
def dwalk_index (leaf : dleaf) (walk : dwalk) : Nat := get_index leaf walk.group walk.entry

/-- The `dwalk_block` of the source. -/
def dwalk_block (leaf : dleaf) (walk : dwalk) : Nat := extent_block (extent_at leaf walk.extent)

/-- The `dwalk_count` of the source. -/
def dwalk_count (leaf : dleaf) (walk : dwalk) : Nat := extent_count (extent_at leaf walk.extent)

/-- The `dwalk_check` of the source: true when none of its assertions fails. -/
def dwalk_check (leaf : dleaf) (walk : dwalk) : Bool :=
  if dleaf_groups leaf = 0 then
    walk.group == walk.gstop && walk.entry == walk.estop && walk.exbase == walk.extent
      && walk.extent == walk.exstop && sizeof_dleaf == walk.exstop
  else if dwalk_end walk then
    walk.group == walk.gstop && walk.entry == walk.estop && decide (walk.exbase < walk.extent)
      && walk.extent == walk.exstop
  else
    decide (walk.group ≥ walk.gstop) && decide (walk.entry ≥ walk.estop)
      && decide (walk.exbase ≤ walk.extent) && decide (walk.extent < walk.exstop)

/-- The `dwalk_next` of the source: the returned flag and the cursor it leaves. -/
def dwalk_next (leaf : dleaf) (walk : dwalk) : Option (Nat × dwalk) :=
  if dwalk_end walk then some (0, walk)
  else
    let walk := { walk with extent := walk.extent + 8 }
    if walk.extent = walk.exstop then
      if walk.entry = walk.estop ∧ walk.group = walk.gstop then some (0, walk)
      else
        let walk :=
          if walk.entry = walk.estop then
            let walk := { walk with group := walk.group - 4 }
            let walk := { walk with exbase := walk.exbase + 8 * entry_limit leaf walk.estop }
            { walk with estop := walk.estop - 4 * group_count leaf walk.group }
          else walk
        let walk := { walk with entry := walk.entry - 4 }
        let walk := { walk with exstop := walk.exbase + 8 * entry_limit leaf walk.entry }
        if dwalk_check leaf walk then some (1, walk) else none
    else if dwalk_check leaf walk then some (1, walk) else none

/-- The `dwalk_back` of the source: the returned flag and the cursor it leaves. -/
def dwalk_back (leaf : dleaf) (walk : dwalk) : Option (Nat × dwalk) :=
  if dwalk_first walk then some (0, walk)
  else
    let entry_exbase :=
      if walk.entry + 4 = walk.estop + 4 * group_count leaf walk.group then walk.exbase
      else walk.exbase + 8 * entry_limit leaf (walk.entry + 4)
    let walk := { walk with extent := walk.extent - 8 }
    if walk.extent < entry_exbase then
      if walk.extent < walk.exbase ∧ walk.group = walk.gdict then some (1, walk)
      else
        let walk :=
          if walk.extent < walk.exbase then
            let walk := { walk with group := walk.group + 4 }
            let walk := { walk with estop := walk.entry + 4 }
            { walk with exbase := walk.exbase - 8 * entry_limit leaf (walk.entry + 4) }
          else walk
        let walk := { walk with entry := walk.entry + 4 }
        let walk := { walk with exstop := walk.exbase + 8 * entry_limit leaf walk.entry }
        if dwalk_check leaf walk then some (1, walk) else none
    else if dwalk_check leaf walk then some (1, walk) else none

/-- Where the group loop of `dwalk_probe` leaves: past the last group, or by one
of its two `goto`s. -/
inductive probe_exit where
  | after_loop
  | no_group
  | probe_entry
  deriving DecidableEq, Repr

/-- The group loop of `dwalk_probe`: `while (walk->group > walk->gstop)`. -/
def dwalk_probe_groups (leaf : dleaf) (keyhi keylo : Nat) :
    Nat → dwalk → Option (probe_exit × dwalk)
  | 0, walk => if walk.group > walk.gstop then none else some (.after_loop, walk)
  | fuel + 1, walk =>
    if walk.group > walk.gstop then
      let walk := { walk with group := walk.group - 4 }
      let walk := { walk with entry := walk.estop - 4 }
      let walk := { walk with estop := walk.estop - 4 * group_count leaf walk.group }
      if group_keyhi leaf walk.group > keyhi then some (.no_group, walk)
      else if group_keyhi leaf walk.group = keyhi ∧ entry_keylo leaf walk.entry > keylo then
        some (.no_group, walk)
      else if group_keyhi leaf walk.group = keyhi ∧
          (walk.group = walk.gstop ∨ group_keyhi leaf (walk.group - 4) > keyhi
            ∨ entry_keylo leaf (walk.estop - 4) > keylo) then
        some (.probe_entry, walk)
      else
        dwalk_probe_groups leaf keyhi keylo fuel
          { walk with exbase := walk.exbase + 8 * entry_limit leaf walk.estop }
    else some (.after_loop, walk)

/-- The entry loop of `dwalk_probe`: `while (walk->entry > walk->estop)`. -/
def dwalk_probe_entries (leaf : dleaf) (keylo : Nat) : Nat → dwalk → Option dwalk
  | 0, walk => if walk.entry > walk.estop then none else some walk
  | fuel + 1, walk =>
    if walk.entry > walk.estop then
      if entry_keylo leaf (walk.entry - 4) > keylo then some walk
      else
        let walk := { walk with entry := walk.entry - 4 }
        let walk := { walk with extent := walk.exstop }
        let walk := { walk with exstop := walk.exbase + 8 * entry_limit leaf walk.entry }
        dwalk_probe_entries leaf keylo fuel walk
    else some walk

/-- The `dwalk_probe` of the source: the returned flag and the cursor it sets. -/
def dwalk_probe (leaf : dleaf) (blocksize : Nat) (key : Nat) : Option (Nat × dwalk) :=
  let keylo := key &&& 0xffffff
  let keyhi := (key >>> 24) % 2 ^ 32
  let gdict := blocksize
  let gstop := gdict - 4 * dleaf_groups leaf
  let walk : dwalk :=
    { gdict := gdict, gstop := gstop, group := gdict, estop := gstop, entry := 0,
      exbase := sizeof_dleaf, extent := 0, exstop := 0 }
  if dleaf_groups leaf = 0 then
    let walk := { walk with entry := walk.gstop, extent := sizeof_dleaf, exstop := sizeof_dleaf }
    if dwalk_check leaf walk then some (0, walk) else none
  else
    match dwalk_probe_groups leaf keyhi keylo (dleaf_groups leaf) walk with
    | none => none
    | some (.after_loop, walk) =>
      let walk := { walk with entry := walk.estop }
      let walk := { walk with exstop := walk.exbase }
      let walk := { walk with extent := walk.exbase }
      let walk := { walk with exbase := walk.exbase - 8 * entry_limit leaf walk.estop }
      if dwalk_check leaf walk then some (0, walk) else none
    | some (.no_group, walk) =>
      let walk := { walk with extent := walk.exbase }
      let walk := { walk with exstop := walk.exbase + 8 * entry_limit leaf walk.entry }
      if dwalk_check leaf walk then some (1, walk) else none
    | some (.probe_entry, walk) =>
      let walk := { walk with extent := walk.exbase }
      let walk := { walk with exstop := walk.exbase + 8 * entry_limit leaf walk.entry }
      match dwalk_probe_entries leaf keylo (group_count leaf walk.group) walk with
      | none => none
      | some walk =>
        if key < dwalk_index leaf walk + dwalk_count leaf walk then some (1, walk)
        else
          match dwalk_next leaf walk with
          | none => none
          | some (_, walk) => some (if dwalk_end walk then 0 else 1, walk)

/-- The body of `if (!groups || dwalk_index(walk) != index)` in `dwalk_add`: a new
entry, in a new group when the leaf is empty, the key's high bits differ from
the current group's or the group is full.  Yields the leaf, the cursor and the
local `used`. -/
def dwalk_add_entry (leaf : dleaf) (walk : dwalk) (index groups free used : Nat) :
    Option (dleaf × dwalk × Nat) :=
  let keylo := index &&& 0xffffff
  let keyhi := (index >>> 24) % 2 ^ 32
  let new_group : Option (dleaf × dwalk × Nat) :=
    if groups = 0 ∨ group_keyhi leaf walk.group ≠ keyhi
        ∨ group_count leaf walk.group ≥ MAX_GROUP_ENTRIES then
      /- `assert(free <= used - sizeof(*walk->entry))`, the subtraction in `size_t` -/
      if ¬ (free ≤ (used + 2 ^ 64 - sizeof_entry) % 2 ^ 64) then none
      else
        let leaf := vecmove leaf (walk.entry - 4) walk.entry ((walk.group - walk.entry) / 4)
        let walk := { walk with entry := walk.entry - 4 }
        let walk := { walk with
          exbase := walk.exbase + (if groups ≠ 0 then 8 * entry_limit leaf walk.entry else 0) }
        let walk := { walk with group := walk.group - 4 }
        let leaf := store32 leaf walk.group (make_group keyhi 0)
        let used := (used + 2 ^ 32 - sizeof_group) % 2 ^ 32
        let leaf := set_dleaf_groups leaf (groups + 1)
        some (leaf, walk, used)
    else some (leaf, walk, used)
  match new_group with
  | none => none
  | some (leaf, walk, used) =>
    if ¬ (free ≤ (used + 2 ^ 64 - sizeof_entry) % 2 ^ 64) then none
    else
      let used := (used + 2 ^ 32 - sizeof_entry) % 2 ^ 32
      let leaf := set_dleaf_used leaf (to_be_u16 used)
      let walk := { walk with entry := walk.entry - 4 }
      let leaf := store32 leaf walk.entry (make_entry keylo ((walk.extent - walk.exbase) / 8))
      let leaf := inc_group_count leaf walk.group 1
      some (leaf, walk, used)

/-- The `dwalk_add` of the source: the leaf and the cursor after the extent is
appended (the function returns 0 whenever it returns). -/
def dwalk_add (leaf : dleaf) (walk : dwalk) (index extent : Nat) : Option (dleaf × dwalk) :=
  let groups := dleaf_groups leaf
  let free := leaf.free
  let used := leaf.used
  if ¬ (groups = 0 ∨ dwalk_index leaf walk ≠ index) then none
  else
    let entry_added : Option (dleaf × dwalk × Nat) :=
      if groups = 0 ∨ dwalk_index leaf walk ≠ index then
        dwalk_add_entry leaf walk index groups free used
      else some (leaf, walk, used)
    match entry_added with
    | none => none
    | some (leaf, walk, used) =>
      if ¬ (free + sizeof_extent ≤ used) then none
      else
        let free := free + sizeof_extent
        let leaf := set_dleaf_free leaf (to_be_u16 free)
        let leaf := store_extent leaf walk.extent extent
        let walk := { walk with extent := walk.extent + 8 }
        let leaf := inc_entry_limit leaf walk.entry 1
        some (leaf, walk)

/-- The `dwalk_update` of the source. -/
def dwalk_update (leaf : dleaf) (walk : dwalk) (extent : Nat) : dleaf :=
  store_extent leaf walk.extent extent

/-- The `dwalk_chop` of the source: the leaf and the cursor it leaves. -/
def dwalk_chop (leaf : dleaf) (walk : dwalk) : Option (dleaf × dwalk) :=
  if dwalk_end walk then some (leaf, walk)
  else if dwalk_first walk then
    let blocksize := walk.gdict
    let leaf := set_dleaf_groups leaf 0
    let leaf := set_dleaf_free leaf (to_be_u16 sizeof_dleaf)
    let leaf := set_dleaf_used leaf (to_be_u16 blocksize)
    match dwalk_probe leaf blocksize 0 with
    | none => none
    | some (_, walk) => some (leaf, walk)
  else
    let backed : Option dwalk :=
      if walk.exbase = walk.extent then (dwalk_back leaf walk).map Prod.snd else some walk
    match backed with
    | none => none
    | some walk =>
      let ebase := walk.estop + 4 * group_count leaf walk.group
      let entry := walk.entry
      let leaf := set_dleaf_groups leaf ((walk.gdict - walk.group) / 4)
      let leaf := set_group_count leaf walk.group ((ebase - walk.entry) / 4)
      let entry := entry + (walk.group - walk.gstop)
      let leaf := memmove leaf entry walk.entry (walk.gstop - walk.entry)
      let walk := { walk with estop := entry, entry := entry }
      let walk := { walk with gstop := walk.group }
      let walk := { walk with exstop := walk.exbase + 8 * entry_limit leaf walk.entry }
      let walk := { walk with extent := walk.exstop }
      let leaf := set_dleaf_free leaf (to_be_u16 walk.exstop)
      let leaf := set_dleaf_used leaf (to_be_u16 walk.estop)
      if dwalk_check leaf walk then some (leaf, walk) else none

/-- The `do ... while (dwalk_next(&walk))` loop of `dleaf_chop`: the `bfree`
calls it makes, in order. -/
def dleaf_chop_loop (leaf : dleaf) : Nat → dwalk → Option (List (Nat × Nat))
  | 0, _ => none
  | fuel + 1, walk =>
    let call := (dwalk_block leaf walk, dwalk_count leaf walk)
    match dwalk_next leaf walk with
    | none => none
    | some (r, walk) =>
      if r ≠ 0 then (dleaf_chop_loop leaf fuel walk).map (fun calls => call :: calls)
      else some [call]

/-- The `dleaf_chop` of the source: the returned flag, the leaf it leaves and
the `bfree(block, count)` calls it makes, in order. -/
def dleaf_chop (blocksize : Nat) (chop : Nat) (leaf : dleaf) :
    Option (Nat × dleaf × List (Nat × Nat)) :=
  match dwalk_probe leaf blocksize chop with
  | none => none
  | some (r, walk) =>
    if r = 0 then some (0, leaf, [])
    else
      let partial_chop : Option (dleaf × Option dwalk × List (Nat × Nat)) :=
        if dwalk_index leaf walk < chop then
          let block := dwalk_block leaf walk
          let count := (chop - dwalk_index leaf walk) % 2 ^ 32
          let freed := ((block + count) % 2 ^ 64,
            (((dwalk_count leaf walk : Int) - (count : Int)) % 2 ^ 32).toNat)
          let leaf := dwalk_update leaf walk (make_extent block count)
          match dwalk_next leaf walk with
          | none => none
          | some (r, walk) => some (leaf, if r = 0 then none else some walk, [freed])
        else some (leaf, some walk, [])
      match partial_chop with
      | none => none
      | some (leaf, none, calls) => some (1, leaf, calls)
      | some (leaf, some walk, calls) =>
        let rewind := walk
        match dleaf_chop_loop leaf (leaf.free / 8) walk with
        | none => none
        | some calls2 =>
          match dwalk_chop leaf rewind with
          | none => none
          | some (leaf, _) => some (1, leaf, calls ++ calls2)

/-! ## The logical content of a leaf -/

/-- One entry of the index: the low 24 key bits and the run of extent words it owns. -/
structure AEntry where
  keylo : Nat
  exts : List Nat
  deriving DecidableEq, Repr

/-- One group of the index: the high 24 key bits and its entries, in key order. -/
structure AGroup where
  keyhi : Nat
  ents : List AEntry
  deriving DecidableEq, Repr

/-- Number of extents owned by a run of entries. -/
def ext_total : List AEntry → Nat
  | [] => 0
  | e :: es => e.exts.length + ext_total es

/-- The extent words owned by a run of entries, in table order. -/
def ext_words : List AEntry → List Nat
  | [] => []
  | e :: es => e.exts ++ ext_words es

/-- The entry words of a run of entries of one group; `prev` is the limit of the
entry before the run (0 at the head of the group). -/
def entry_words (prev : Nat) : List AEntry → List Nat
  | [] => []
  | e :: es => make_entry e.keylo (prev + e.exts.length) :: entry_words (prev + e.exts.length) es

/-- Number of entries in a run of groups. -/
def ent_count : List AGroup → Nat
  | [] => 0
  | g :: gs => g.ents.length + ent_count gs

/-- Number of extents in a run of groups. -/
def ext_count : List AGroup → Nat
  | [] => 0
  | g :: gs => ext_total g.ents + ext_count gs

/-- The group table, from the end of the block downwards. -/
def group_table : List AGroup → List Nat
  | [] => []
  | g :: gs => make_group g.keyhi g.ents.length :: group_table gs

/-- The entry tables of all groups, from the group table downwards. -/
def entry_table : List AGroup → List Nat
  | [] => []
  | g :: gs => entry_words 0 g.ents ++ entry_table gs

/-- The extent table, from the header upwards. -/
def extent_table : List AGroup → List Nat
  | [] => []
  | g :: gs => ext_words g.ents ++ extent_table gs

/-- The two-level index read from the end of the block downwards. -/
def dict_table (gs : List AGroup) : List Nat := group_table gs ++ entry_table gs

/-- The `(key, extents)` pairs of a run of entries of a group with high bits `keyhi`. -/
def entry_pairs (keyhi : Nat) : List AEntry → List (Nat × List Nat)
  | [] => []
  | e :: es => (keyhi * 2 ^ 24 + e.keylo, e.exts) :: entry_pairs keyhi es

/-- The ordered `(key, extents)` pairs a leaf holds. -/
def leaf_pairs : List AGroup → List (Nat × List Nat)
  | [] => []
  | g :: gs => entry_pairs g.keyhi g.ents ++ leaf_pairs gs

/-- The block `leaf` of size `blocksize` holds the index `gs`: the header counts
the groups, the words of the two-level index lie at the end of the block, the
extent words after the header, `free` and `used` delimit the gap between them
(as far as a 16-bit field can tell). -/
structure Rep (blocksize : Nat) (leaf : dleaf) (gs : List AGroup) : Prop where
  groups_eq : leaf.groups = gs.length
  dict_eq : ∀ i w p, (dict_table gs)[i]? = some w → p + 4 * (i + 1) = blocksize → leaf.mem p = w
  extent_eq : ∀ i x, (extent_table gs)[i]? = some x → extent_at leaf (8 + 8 * i) = x
  free_eq : leaf.free = 8 + 8 * (extent_table gs).length
  used_eq : leaf.used = to_be_u16 (blocksize - 4 * (dict_table gs).length)
  fits : 8 + 8 * (extent_table gs).length + 4 * (dict_table gs).length ≤ blocksize
  size_le : blocksize ≤ 65536

/-- Field ranges of a well-formed index: 24-bit keys, 64-bit extent words, between
1 and 255 entries in a group, at least one extent in an entry and at most 255
extents in a group. -/
def WF (gs : List AGroup) : Prop :=
  ∀ g ∈ gs, g.keyhi < 2 ^ 24 ∧ g.ents ≠ [] ∧ g.ents.length ≤ 255 ∧ ext_total g.ents ≤ 255 ∧
    ∀ e ∈ g.ents, e.keylo < 2 ^ 24 ∧ e.exts ≠ [] ∧ ∀ x ∈ e.exts, x < 2 ^ 64

/-- Keys in strictly ascending order. -/
def Ascending (gs : List AGroup) : Prop :=
  ((leaf_pairs gs).map Prod.fst).Pairwise (· < ·)

/-- Every entry owns exactly one extent. -/
def Single (gs : List AGroup) : Prop :=
  ∀ g ∈ gs, ∀ e ∈ g.ents, e.exts.length = 1

/-- The cursor fields `dwalk_add` reads, for a cursor at the end of the leaf that
holds `gs`: `group` is the last group, `entry` the lowest entry, `extent` the end
of the extent table and `exbase` the first extent of the last group. -/
def AddCur (blocksize : Nat) (gs : List AGroup) (walk : dwalk) : Prop :=
  walk.group + 4 * gs.length = blocksize ∧
  walk.entry + 4 * (gs.length + ent_count gs) = blocksize ∧
  walk.extent = 8 + 8 * ext_count gs ∧
  walk.exbase = 8 + 8 * ext_count gs.dropLast

/-- The index after `dwalk_add` appends the extent word `ext` under key `index`:
in the last group when that has the key's high bits and fewer than 255 entries,
in a new group otherwise. -/
def index_add (gs : List AGroup) (index ext : Nat) : List AGroup :=
  match gs.getLast? with
  | none => [⟨index / 2 ^ 24, [⟨index % 2 ^ 24, [ext]⟩]⟩]
  | some g =>
    if g.keyhi ≠ index / 2 ^ 24 ∨ g.ents.length ≥ 255 then
      gs ++ [⟨index / 2 ^ 24, [⟨index % 2 ^ 24, [ext]⟩]⟩]
    else gs.dropLast ++ [⟨g.keyhi, g.ents ++ [⟨index % 2 ^ 24, [ext]⟩]⟩]

/-- The `dwalk_add` calls of a list of `(key, extent word)` pairs, in order, with
one cursor. -/
def dwalk_add_all : dleaf → dwalk → List (Nat × Nat) → Option (dleaf × dwalk)
  | leaf, walk, [] => some (leaf, walk)
  | leaf, walk, (index, extent) :: rest =>
    match dwalk_add leaf walk index extent with
    | none => none
    | some (leaf, walk) => dwalk_add_all leaf walk rest

/-- A leaf built from scratch: `dleaf_init` on a block, the cursor `dwalk_probe`
sets for `key0` on the fresh leaf, then the `dwalk_add` calls of `adds`. -/
def dleaf_build (blocksize : Nat) (block : dleaf) (key0 : Nat) (adds : List (Nat × Nat)) :
    Option (dleaf × dwalk) :=
  match dwalk_probe (dleaf_init blocksize block) blocksize key0 with
  | none => none
  | some (_, walk) => dwalk_add_all (dleaf_init blocksize block) walk adds

/-- The index after the extents of `adds` are appended in order. -/
def index_build (gs : List AGroup) (adds : List (Nat × Nat)) : List AGroup :=
  adds.foldl (fun gs a => index_add gs a.1 a.2) gs

/-- Bytes of structure behind the header: extents, groups and entries. -/
def index_bytes (gs : List AGroup) : Nat :=
  8 * ext_count gs + 4 * (gs.length + ent_count gs)

/-- The cursor `walk` is on an extent of the leaf that holds `gs`: on extent `x`
of entry `e` of group `g`, with the groups `pre` before it and `post` after, the
entries `epre` and `epost` around `e` in `g`, the extents `xpre` and `xpost`
around `x` in `e`. -/
structure CurAt (blocksize : Nat) (gs pre : List AGroup) (g : AGroup) (post : List AGroup)
    (epre : List AEntry) (e : AEntry) (epost : List AEntry)
    (xpre : List Nat) (x : Nat) (xpost : List Nat) (walk : dwalk) : Prop where
  gs_eq : gs = pre ++ g :: post
  ents_eq : g.ents = epre ++ e :: epost
  exts_eq : e.exts = xpre ++ x :: xpost
  gdict_eq : walk.gdict = blocksize
  gstop_eq : walk.gstop + 4 * gs.length = blocksize
  group_eq : walk.group + 4 * (pre.length + 1) = blocksize
  estop_eq : walk.estop + 4 * (gs.length + ent_count pre + g.ents.length) = blocksize
  entry_eq : walk.entry + 4 * (gs.length + ent_count pre + epre.length + 1) = blocksize
  exbase_eq : walk.exbase = 8 + 8 * ext_count pre
  extent_eq : walk.extent = 8 + 8 * (ext_count pre + ext_total epre + xpre.length)
  exstop_eq : walk.exstop = 8 + 8 * (ext_count pre + ext_total epre + e.exts.length)

/-- The cursor `walk` is past the last extent of the non-empty leaf that holds
`gs`, as `dwalk_probe` and `dwalk_next` leave it there: on the last group and
its lowest entry, with `extent = exstop` the end of the extent table. -/
def EndCur (blocksize : Nat) (gs : List AGroup) (walk : dwalk) : Prop :=
  AddCur blocksize gs walk ∧ walk.gdict = blocksize ∧ walk.gstop = walk.group ∧
    walk.estop = walk.entry ∧ walk.exstop = walk.extent

/-- The group loop of `dwalk_probe` has stepped onto group `g`: `group` is on
`g`, `entry` on its first entry, `estop` on its lowest entry and `exbase` on its
first extent (`extent` and `exstop` are not set yet). -/
structure GrpAt (blocksize : Nat) (gs pre : List AGroup) (g : AGroup) (post : List AGroup)
    (walk : dwalk) : Prop where
  gs_eq : gs = pre ++ g :: post
  gdict_eq : walk.gdict = blocksize
  gstop_eq : walk.gstop + 4 * gs.length = blocksize
  group_eq : walk.group + 4 * (pre.length + 1) = blocksize
  estop_eq : walk.estop + 4 * (gs.length + ent_count pre + g.ents.length) = blocksize
  entry_eq : walk.entry + 4 * (gs.length + ent_count pre + 1) = blocksize
  exbase_eq : walk.exbase = 8 + 8 * ext_count pre

/-- The logical key of entry `e` of group `g`. -/
def cur_key (g : AGroup) (e : AEntry) : Nat := g.keyhi * 2 ^ 24 + e.keylo

/-- The (key, extents) pairs in front of entry number `epre.length` of the group
that follows `pre`. -/
def pairs_before (pre : List AGroup) (g : AGroup) (epre : List AEntry) :
    List (Nat × List Nat) :=
  leaf_pairs pre ++ entry_pairs g.keyhi epre

/-- The (key, extents) pairs behind an entry of `g` that is followed by `epost`
in its group and by the groups `post`. -/
def pairs_after (g : AGroup) (epost : List AEntry) (post : List AGroup) :
    List (Nat × List Nat) :=
  entry_pairs g.keyhi epost ++ leaf_pairs post

/-- The pair lies at or below `key` and, when at `key`, its extents hold no block
(`extent_count` 0), so that `key < index + count` fails for it. -/
def NoHit (key : Nat) (p : Nat × List Nat) : Prop :=
  p.1 ≤ key ∧ (p.1 = key → ∀ x ∈ p.2, extent_count x = 0)

/-- A block of zero bytes, the buffer the concrete examples start from. -/
def zero_block : dleaf := ⟨0, 0, 0, 0, fun _ => 0⟩

end Dleaf

/-!
# The dedup index of `dedup.c`

The hash-tree leaf (`hleaf`), the buckets and the lookup path of the
deduplication engine.  Blocks of the volume that hold buckets are a map from
block numbers to buckets; the B-tree over the hleaves is kept to the one leaf a
probe reaches.
-/

namespace Dedup

/-- Modelled from the spec: `SHA_DIGEST_LENGTH`, the 20 bytes of a Sha-1 digest. -/
def SHA_DIGEST_LENGTH : Nat := 20

/-- The `struct hleaf_entry` of the source: `{ u64 key; block_t block; int offset; }`. -/
structure hleaf_entry where
  key : Nat
  block : Int
  offset : Int
  deriving DecidableEq, Repr

/-- The `struct hleaf` of the source; `entries` is the memory behind the header,
valid entries and stale slots alike. -/
structure hleaf where
  magic : Nat
  count : Nat
  entries : Nat → hleaf_entry

/-- The `struct bucket_entry` of the source; `sha_hash` holds the digest bytes by
index. -/
structure bucket_entry where
  sha_hash : Nat → Nat
  block : Int
  refcount : Int

/-- The `struct bucket` of the source: a 16-bit count and the entry slots. -/
structure bucket where
  count : Nat
  entries : Nat → bucket_entry

/-- The state the dedup path works on: the inode's reference and write bucket,
`entries_per_bucket` and `entries_per_leaf` of the superblock and the tree, the
hleaf the probe reaches, and the bucket blocks of the volume.
Modelled from the spec: `balloc`, the block allocator, hands out the blocks of
`pool` in order and fails when `pool` is empty. -/
structure dedup where
  refbucket : Int
  writebucket : Int
  entries_per_bucket : Nat
  entries_per_leaf : Nat
  leaf : hleaf
  buckets : Int → bucket
  pool : List Int

/-- The `hleaf_init` of the source: the header is reset, the entry memory is kept. -/
def hleaf_init (leaf : hleaf) : hleaf := { leaf with count := 0, magic := 0xdade }

/-- The `hleaf_sniff` of the source. -/
def hleaf_sniff (leaf : hleaf) : Bool := leaf.magic == 0xdade

/-- The `hleaf_free` of the source, in `unsigned` arithmetic. -/
def hleaf_free (entries_per_leaf : Nat) (leaf : hleaf) : Nat :=
  (entries_per_leaf + 2 ^ 32 - leaf.count % 2 ^ 32) % 2 ^ 32

/-- The loop of `hleaf_seek`:
`while (at < leaf->count && leaf->entries[at].key < key) at++`. -/
def hleaf_seek_loop (key : Nat) (leaf : hleaf) : Nat → Nat → Option Nat
  | 0, idx => if idx < leaf.count ∧ (leaf.entries idx).key < key then none else some idx
  | fuel + 1, idx =>
    if idx < leaf.count ∧ (leaf.entries idx).key < key then
      hleaf_seek_loop key leaf fuel (idx + 1)
    else some idx

/-- The `hleaf_seek` of the source. -/
def hleaf_seek (key : Nat) (leaf : hleaf) : Option Nat :=
  hleaf_seek_loop key leaf leaf.count 0

/-- Modelled from the spec: `vecmove` on hleaf entries, `n` entries from slot `src`
to slot `dst`. -/
def hleaf_vecmove (leaf : hleaf) (dst src n : Nat) : hleaf :=
  { leaf with entries := fun i =>
      if dst ≤ i ∧ i < dst + n then leaf.entries (i - dst + src) else leaf.entries i }

/-- Assignment to `leaf->count`, a `u32`. -/
def set_hleaf_count (leaf : hleaf) (count : Nat) : hleaf := { leaf with count := count % 2 ^ 32 }

/-- The `hleaf_resize` of the source: the slot for `key` and the leaf, `some none`
for `NULL` (the leaf is as it was), `none` when the assertion fails. -/
def hleaf_resize (entries_per_leaf : Nat) (key : Nat) (leaf : hleaf) (one : Nat) :
    Option (Option (Nat × hleaf)) :=
  if ¬ hleaf_sniff leaf then none
  else
    match hleaf_seek key leaf with
    | none => none
    | some idx =>
      if idx < leaf.count ∧ (leaf.entries idx).key = key then some (some (idx, leaf))
      else if hleaf_free entries_per_leaf leaf < one then some none
      else
        let moved := hleaf_vecmove leaf (idx + one) idx (leaf.count - idx)
        some (some (idx, set_hleaf_count moved (leaf.count + 1)))

/-- The digest comparison loops of the source:
`for (k = 0; k < 20; k++) if (hash[k] == entry->sha_hash[k]) continue; else break;`
yields the final `k`. -/
def digest_cmp (hash sha : Nat → Nat) : Nat → Nat → Nat
  | 0, k => k
  | fuel + 1, k =>
    if k < 20 then
      if hash k = sha k then digest_cmp hash sha fuel (k + 1) else k
    else k

/-- The two digests agree in all 20 bytes (`k == 20` after the comparison loop). -/
def digest_eq (hash sha : Nat → Nat) : Bool := digest_cmp hash sha 20 0 == 20

/-- The increment `refcount++` of an `int`; signed overflow has no defined result. -/
def int_inc (r : Int) : Option Int := if r < 2 ^ 31 - 1 then some (r + 1) else none

/-- Store into the block map. -/
def put_bucket (s : dedup) (blk : Int) (b : bucket) : dedup :=
  { s with buckets := fun x => if x = blk then b else s.buckets x }

/-- Assignment to the `count` field of a bucket (a `u16`). -/
def bucket_set_count (b : bucket) (c : Nat) : bucket := { b with count := c % 2 ^ 16 }

/-- Assignment to one entry slot of a bucket. -/
def bucket_set_entry (b : bucket) (i : Nat) (e : bucket_entry) : bucket :=
  { b with entries := fun x => if x = i then e else b.entries x }

/-- The `memcpy(entry->sha_hash, hash, SHA_DIGEST_LENGTH)` of the source. -/
def entry_set_sha (e : bucket_entry) (hash : Nat → Nat) : bucket_entry :=
  { e with sha_hash := fun k => if k < SHA_DIGEST_LENGTH then hash k else e.sha_hash k }

/-- Assignment to the `block` field of a bucket entry. -/
def entry_set_block (e : bucket_entry) (v : Int) : bucket_entry := { e with block := v }

/-- Assignment to the `refcount` field of a bucket entry. -/
def entry_set_refcount (e : bucket_entry) (v : Int) : bucket_entry := { e with refcount := v }

/-- Update of entry slot `i` of the bucket in block `blk`. -/
def update_entry (s : dedup) (blk : Int) (i : Nat) (f : bucket_entry → bucket_entry) :
    dedup :=
  put_bucket s blk (bucket_set_entry (s.buckets blk) i (f ((s.buckets blk).entries i)))

/-- Assignment to the `count` field of the bucket in block `blk`. -/
def set_bucket_count (s : dedup) (blk : Int) (c : Nat) : dedup :=
  put_bucket s blk (bucket_set_count (s.buckets blk) c)

/-- A zero-filled bucket block, as `memset(bufdata(buffer), 0, bufsize(buffer))`
leaves it. -/
def zero_bucket : bucket := ⟨0, fun _ => ⟨fun _ => 0, 0, 0⟩⟩

/-- Assignment to an hleaf entry of the leaf. -/
def set_leaf_entry (s : dedup) (i : Nat) (e : hleaf_entry) : dedup :=
  { s with leaf := { s.leaf with entries := fun x => if x = i then e else s.leaf.entries x } }

/-- The scan of the first `count` entries of a bucket for a digest, as in
`bucket_lookup` and `handle_collision`: the index of the first entry that matches
all 20 bytes, if any (the outer `none` is an exhausted fuel). -/
def bucket_scan (hash : Nat → Nat) (bck : bucket) : Nat → Nat → Option (Option Nat)
  | 0, i => if i < bck.count then none else some none
  | fuel + 1, i =>
    if i < bck.count then
      if digest_eq hash (bck.entries i).sha_hash then some (some i)
      else bucket_scan hash bck fuel (i + 1)
    else some none

/-- The `bucket_lookup` of the source: the returned block (-1 for a miss) and the
state it leaves. -/
def bucket_lookup (s : dedup) (hash : Nat → Nat) : Option (Int × dedup) :=
  if s.refbucket = 0 then some (-1, s)
  else
    let bck := s.buckets s.refbucket
    match bucket_scan hash bck bck.count 0 with
    | none => none
    | some none => some (-1, s)
    | some (some i) =>
      match int_inc (bck.entries i).refcount with
      | none => none
      | some r =>
        some ((bck.entries i).block,
          update_entry s s.refbucket i (fun e => entry_set_refcount e r))

/-- The `make_hash_entry` of the source. -/
def make_hash_entry (s : dedup) (hash : Nat → Nat) (block : Int) : dedup :=
  let bck := s.buckets s.writebucket
  let i := bck.count
  let s := update_entry s s.writebucket i (fun e => entry_set_refcount e 1)
  let s := update_entry s s.writebucket i (fun e => entry_set_block e block)
  let s := update_entry s s.writebucket i (fun e => entry_set_sha e hash)
  set_bucket_count s s.writebucket ((s.buckets s.writebucket).count + 1)

/-- The `init_writebucket` of the source (`exit(1)` when `balloc` fails). -/
def init_writebucket (s : dedup) : Option dedup :=
  match s.pool with
  | [] => none
  | blk :: rest =>
    let s := { s with pool := rest, writebucket := blk }
    let s := put_bucket s blk zero_bucket
    some (set_bucket_count s blk 0)

/-- The rotation test shared by the three paths that record a new digest: the
local `count` read from the write bucket, a fresh write bucket and `count = 0`
once `count >= entries_per_bucket`. -/
def rotate_writebucket (s : dedup) : Option (Nat × dedup) :=
  let count := (s.buckets s.writebucket).count
  if count ≥ s.entries_per_bucket then
    match init_writebucket s with
    | none => none
    | some s => some (0, s)
  else some (count, s)

/-- The `first == 1` branch of `handle_collision` from the `memset` of the new
collision bucket in block `col_bucket` up to the test of the write bucket: the
count 2, the entry copied from slot `eidx` of block `eblk` with the hleaf
entry's block and offset, and the digest of the new entry. -/
def collision_bucket_fill (s : dedup) (col_bucket eblk : Int) (eidx tidx : Nat)
    (hash : Nat → Nat) : dedup :=
  let s := put_bucket s col_bucket zero_bucket
  let s := set_bucket_count s col_bucket 2
  let s := update_entry s col_bucket 0
    (fun e => entry_set_sha e ((s.buckets eblk).entries eidx).sha_hash)
  let s := update_entry s col_bucket 0 (fun e => entry_set_block e (s.leaf.entries tidx).block)
  let s := update_entry s col_bucket 0
    (fun e => entry_set_refcount e (s.leaf.entries tidx).offset)
  update_entry s col_bucket 1 (fun e => entry_set_sha e hash)

/-- The `first == 1` branch of `handle_collision` behind the test of the write
bucket: the new entry names the write bucket and `count`, the hleaf entry names
the collision bucket. -/
def collision_bucket_link (s : dedup) (col_bucket : Int) (tidx count : Nat) : dedup :=
  let s := update_entry s col_bucket 1 (fun e => entry_set_block e s.writebucket)
  let s := update_entry s col_bucket 1 (fun e => entry_set_refcount e count)
  set_leaf_entry s tidx ⟨(s.leaf.entries tidx).key, col_bucket, -1⟩

/-- Removal of the block `balloc` hands out from the pool. -/
def set_pool (s : dedup) (pool : List Int) : dedup := { s with pool := pool }

/-- The `first == 1` branch of `handle_collision`: `entry` is slot `eidx` of the
bucket in block `eblk`, `temp` is slot `tidx` of the hleaf. -/
def handle_collision_first (s : dedup) (eblk : Int) (eidx : Nat) (tidx : Nat)
    (hash : Nat → Nat) : Option (Int × dedup) :=
  match s.pool with
  | [] => none
  | col_bucket :: rest =>
    let s := collision_bucket_fill (set_pool s rest) col_bucket eblk eidx tidx hash
    match rotate_writebucket s with
    | none => none
    | some (count, s) => some (0, collision_bucket_link s col_bucket tidx count)

/-- The `first != 1` branch of `handle_collision`: `temp` is slot `tidx` of the
hleaf and names the collision bucket. -/
def handle_collision_next (s : dedup) (tidx : Nat) (hash : Nat → Nat) :
    Option (Int × dedup) :=
  let bckno := (s.leaf.entries tidx).block
  let bck := s.buckets bckno
  match bucket_scan hash bck bck.count 0 with
  | none => none
  | some (some i) =>
    let entry := bck.entries i
    if entry.refcount < 0 then none
    else
      let org := (s.buckets entry.block).entries entry.refcount.toNat
      match int_inc org.refcount with
      | none => none
      | some r =>
        some (org.block,
          update_entry s entry.block entry.refcount.toNat (fun e => entry_set_refcount e r))
  | some none =>
    /- `entry` still is the slot the scan looked at last; it is unset when the
    bucket is empty -/
    if bck.count = 0 then none
    else
      let last := bck.count - 1
      let s := update_entry s bckno last (fun e => entry_set_sha e hash)
      let s := update_entry s bckno last (fun e => entry_set_block e s.writebucket)
      let s := set_bucket_count s bckno ((s.buckets bckno).count + 1)
      let wb := s.writebucket
      match rotate_writebucket s with
      | none => none
      | some (_, s) =>
        /- `entry->refcount = wb_bck->count`: the bucket read before the rotation -/
        let s := update_entry s bckno last
          (fun e => entry_set_refcount e ((s.buckets wb).count : Int))
        some (-1, s)

/-- The `handle_collision` of the source. -/
def handle_collision (s : dedup) (eblk : Int) (eidx : Nat) (tidx : Nat) (hash : Nat → Nat)
    (first : Int) : Option (Int × dedup) :=
  if first = 1 then handle_collision_first s eblk eidx tidx hash
  else handle_collision_next s tidx hash

/-- The loop of `htree_lookup` that builds the key:
`for (k = 0; k < 8; k++) { sh = sh << 8; sh = sh | hash[k]; }` on a `u64`. -/
def htree_key_loop (hash : Nat → Nat) : Nat → Nat → Nat → Nat
  | 0, _, sh => sh
  | fuel + 1, k, sh => htree_key_loop hash fuel (k + 1) (((sh <<< 8) % 2 ^ 64) ||| hash k)

/-- The key `htree_lookup` probes with; `sh0` is whatever the uninitialised `sh`
holds at entry. -/
def htree_key (sh0 : Nat) (hash : Nat → Nat) : Nat := htree_key_loop hash 8 0 sh0

/-- The tail of `htree_lookup` behind `trace("Entry not found in tree")`.
Modelled from the spec: `tree_expand(key, 1, cursor)` inserts through the leaf's
resize op; a full leaf, which the B-tree driver would split, yields `none`. -/
def htree_insert (s : dedup) (key : Nat) : Option (Int × dedup) :=
  match hleaf_resize s.entries_per_leaf key s.leaf 1 with
  | none => none
  | some none => none
  | some (some (idx, leaf)) =>
    let s := { s with leaf := leaf }
    let s_init := if s.writebucket = 0 then init_writebucket s else some s
    match s_init with
    | none => none
    | some s =>
      match rotate_writebucket s with
      | none => none
      | some (count, s) =>
        some (-1, set_leaf_entry s idx ⟨key, s.writebucket, count⟩)

/-- The `htree_lookup` of the source: the returned block (-1 for a fresh write)
and the state it leaves.  Modelled from the spec: `probe` reaches the one hleaf
of the tree. -/
def htree_lookup (s : dedup) (sh0 : Nat) (hash : Nat → Nat) : Option (Int × dedup) :=
  let sh := htree_key sh0 hash
  let key := sh
  match hleaf_seek key s.leaf with
  | none => none
  | some idx =>
    let temp := s.leaf.entries idx
    if temp.key = sh ∧ temp.offset ≠ -1 then
      if temp.offset < 0 then none
      else
        let offset := temp.offset.toNat
        let bckno := temp.block
        let entry := (s.buckets bckno).entries offset
        if digest_eq hash entry.sha_hash then
          match int_inc entry.refcount with
          | none => none
          | some r =>
            let s := update_entry s bckno offset (fun e => entry_set_refcount e r)
            some (entry.block, { s with refbucket := bckno })
        else
          match handle_collision s bckno offset idx hash 1 with
          | none => none
          | some (ret, s) => if ret = 0 then some (-1, s) else htree_insert s key
    else if temp.key = sh ∧ temp.offset = -1 then
      handle_collision s 0 0 idx hash 0
    else htree_insert s key

/-- The `hash_lookup` of the source. -/
def hash_lookup (s : dedup) (sh0 : Nat) (hash : Nat → Nat) : Option (Int × dedup) :=
  match bucket_lookup s hash with
  | none => none
  | some (block, s) => if block = -1 then htree_lookup s sh0 hash else some (block, s)

/-! ### Concrete states for the examples -/

/-- Digests that share their first eight bytes (all 1) and differ in the last. -/
def ex_digest (n : Nat) : Nat → Nat := fun k => if k < 8 then 1 else if k = 19 then n else 0

/-- A bucket with two entries: digest 1 at block 500 and digest 2 at block 600. -/
def ex_bucket : bucket :=
  ⟨2, fun i => if i = 0 then ⟨ex_digest 1, 500, 1⟩ else if i = 1 then ⟨ex_digest 2, 600, 3⟩
    else ⟨fun _ => 0, 0, 0⟩⟩

/-- A state whose reference bucket is block 7, holding `ex_bucket`. -/
def ex_state : dedup :=
  { refbucket := 7, writebucket := 7, entries_per_bucket := 8, entries_per_leaf := 8,
    leaf := ⟨0xdade, 0, fun _ => ⟨0, 0, 0⟩⟩,
    buckets := fun b => if b = 7 then ex_bucket else zero_bucket,
    pool := [20, 21, 22, 23] }

/-- A state before any write: no reference bucket, no write bucket, an empty
hleaf over zeroed memory, zeroed blocks, and the blocks 20..23 to allocate. -/
def ex_empty (entries_per_bucket : Nat) : dedup :=
  { refbucket := 0, writebucket := 0, entries_per_bucket := entries_per_bucket,
    entries_per_leaf := 8,
    leaf := ⟨0xdade, 0, fun _ => ⟨0, 0, 0⟩⟩,
    buckets := fun _ => zero_bucket,
    pool := [20, 21, 22, 23] }

/-- What the write path does with a digest: `hash_lookup`, then `make_hash_entry`
with the block written when the lookup returned -1. -/
def present (s : dedup) (hash : Nat → Nat) (block : Int) : Option (Int × dedup) :=
  match hash_lookup s 0 hash with
  | none => none
  | some (r, s) => if r = -1 then some (r, make_hash_entry s hash block) else some (r, s)

/-- The state after digest 1 was written to block 501: write bucket 20 holds it
in slot 0, and the hleaf entry of its key names (20, 0). -/
def ex_one : dedup :=
  { refbucket := 0, writebucket := 20, entries_per_bucket := 8, entries_per_leaf := 8,
    leaf := ⟨0xdade, 1, fun i => if i = 0 then ⟨0x0101010101010101, 20, 0⟩ else ⟨0, 0, 0⟩⟩,
    buckets := fun b => if b = 20 then
        ⟨1, fun i => if i = 0 then ⟨ex_digest 1, 501, 1⟩ else ⟨fun _ => 0, 0, 0⟩⟩
      else zero_bucket,
    pool := [21, 22, 23] }

end Dedup

/-!
# The log stream of `log.c` and `replay` of `commit.c`

Log blocks are byte arrays addressed by block index; the pointers `logpos` and
`logtop` are byte offsets into the block they point into.
-/

namespace Tuxlog

/-- Modelled from the spec: the opcode tags `LOG_ALLOC`, `LOG_FREE`, `LOG_UPDATE`,
`LOG_IROOT` and `LOG_REDIRECT` are enumerators of tux3.h, which is not part of
the sources; their values are a parameter. -/
structure logtags where
  LOG_ALLOC : Nat
  LOG_FREE : Nat
  LOG_UPDATE : Nat
  LOG_IROOT : Nat
  LOG_REDIRECT : Nat
  deriving DecidableEq, Repr

/-- The tags are bytes, and distinct as the labels of a `switch` have to be. -/
def logtags.ok (t : logtags) : Prop :=
  t.LOG_ALLOC < 256 ∧ t.LOG_FREE < 256 ∧ t.LOG_UPDATE < 256 ∧ t.LOG_IROOT < 256 ∧
  t.LOG_REDIRECT < 256 ∧
  t.LOG_ALLOC ≠ t.LOG_FREE ∧ t.LOG_ALLOC ≠ t.LOG_UPDATE ∧ t.LOG_ALLOC ≠ t.LOG_IROOT ∧
  t.LOG_ALLOC ≠ t.LOG_REDIRECT ∧ t.LOG_FREE ≠ t.LOG_UPDATE ∧ t.LOG_FREE ≠ t.LOG_IROOT ∧
  t.LOG_FREE ≠ t.LOG_REDIRECT ∧ t.LOG_UPDATE ≠ t.LOG_IROOT ∧
  t.LOG_UPDATE ≠ t.LOG_REDIRECT ∧ t.LOG_IROOT ≠ t.LOG_REDIRECT

/-- Modelled from the spec: `sizeof(struct logblock)`, the header `{magic, bytes}`
of two 16-bit fields in front of `data`. -/
def sizeof_logblock : Nat := 4

/-- The part of `struct sb` the log works on.  `logbuf` is the block of the
current log buffer (`none` for `NULL`); `logpos` and `logtop` are offsets into
block `logblk`, the block `log_next` took last.
Modelled from the spec: the volume bitmap, one bit per block. -/
structure sb where
  blocksize : Nat
  lognext : Nat
  logbuf : Option Nat
  logblk : Nat
  logpos : Nat
  logtop : Nat
  logmap : Nat → Nat → Nat
  bitmap : Nat → Bool

/-- Store of one byte into a log block. -/
def store_byte (s : sb) (blk off v : Nat) : sb :=
  { s with logmap := fun b o => if b = blk ∧ o = off then v % 256 else s.logmap b o }

/-- Assignment to `sb->logpos`. -/
def set_logpos (s : sb) (pos : Nat) : sb := { s with logpos := pos }

/-- Assignment to `sb->logbuf`. -/
def set_logbuf (s : sb) (buf : Option Nat) : sb := { s with logbuf := buf }

/-- The `memset(p, 0, n)` of the source on block `blk`. -/
def zero_bytes (s : sb) (blk off n : Nat) : sb :=
  { s with logmap := fun b o => if b = blk ∧ off ≤ o ∧ o < off + n then 0 else s.logmap b o }

/-- Modelled from the spec: `encode48`, six bytes big-endian at `off`; the new
position is `off + 6`. -/
def encode48 (s : sb) (blk off val : Nat) : sb :=
  let s := store_byte s blk off (val / 2 ^ 40)
  let s := store_byte s blk (off + 1) (val / 2 ^ 32)
  let s := store_byte s blk (off + 2) (val / 2 ^ 24)
  let s := store_byte s blk (off + 3) (val / 2 ^ 16)
  let s := store_byte s blk (off + 4) (val / 2 ^ 8)
  store_byte s blk (off + 5) val

/-- Modelled from the spec: `decode48`, the value of six bytes big-endian. -/
def decode48 (mem : Nat → Nat) (off : Nat) : Nat :=
  mem off * 2 ^ 40 + mem (off + 1) * 2 ^ 32 + mem (off + 2) * 2 ^ 24 + mem (off + 3) * 2 ^ 16
    + mem (off + 4) * 2 ^ 8 + mem (off + 5)

/-- The `log_next` of the source. -/
def log_next (s : sb) : sb :=
  { s with logbuf := some s.lognext, logblk := s.lognext, lognext := s.lognext + 1,
           logpos := sizeof_logblock, logtop := s.blocksize }

/-- The `log_finish` of the source (`none`: no log buffer, or the assertion fails). -/
def log_finish (s : sb) : Option sb :=
  match s.logbuf with
  | none => none
  | some blk =>
    if ¬ (s.logtop ≥ s.logpos) then none
    else
      let bytes := (s.logpos - sizeof_logblock) % 65536
      let s := store_byte s blk 2 (bytes / 256)
      let s := store_byte s blk 3 bytes
      let s := zero_bytes s s.logblk s.logpos (s.logtop - s.logpos)
      some (set_logbuf s none)

/-- The `log_begin` of the source: the state, in which `logpos` is the returned
position. -/
def log_begin (s : sb) (bytes : Nat) : Option sb :=
  if s.logpos + bytes > s.logtop then
    let finished := match s.logbuf with
      | none => some s
      | some _ => log_finish s
    match finished with
    | none => none
    | some s =>
      let s := log_next s
      let s := store_byte s s.logblk 0 0xc0
      let s := store_byte s s.logblk 1 0xde
      let s := store_byte s s.logblk 2 0
      some (store_byte s s.logblk 3 0)
  else some s

/-- The `log_end` of the source. -/
def log_end (s : sb) (pos : Nat) : sb := set_logpos s pos

/-- The `log_alloc` of the source. -/
def log_alloc (t : logtags) (s : sb) (block count alloc : Nat) : Option sb :=
  match log_begin s 8 with
  | none => none
  | some s =>
    let data := s.logpos
    let s := store_byte s s.logblk data (if alloc ≠ 0 then t.LOG_ALLOC else t.LOG_FREE)
    let s := store_byte s s.logblk (data + 1) count
    let s := encode48 s s.logblk (data + 2) block
    some (log_end s (data + 2 + 6))

/-- The `log_update` of the source. -/
def log_update (t : logtags) (s : sb) (child parent key : Nat) : Option sb :=
  match log_begin s 19 with
  | none => none
  | some s =>
    let data := s.logpos
    let s := store_byte s s.logblk data t.LOG_UPDATE
    let s := encode48 s s.logblk (data + 1) child
    let s := encode48 s s.logblk (data + 1 + 6) parent
    let s := encode48 s s.logblk (data + 1 + 6 + 6) key
    some (log_end s (data + 1 + 6 + 6 + 6))

/-- The `log_iroot` of the source. -/
def log_iroot (t : logtags) (s : sb) (newroot oldroot : Nat) : Option sb :=
  match log_begin s 19 with
  | none => none
  | some s =>
    let data := s.logpos
    let s := store_byte s s.logblk data t.LOG_IROOT
    let s := encode48 s s.logblk (data + 1) newroot
    let s := encode48 s s.logblk (data + 1 + 6) oldroot
    some (log_end s (data + 1 + 6 + 6))

/-- The `log_redirect` of the source. -/
def log_redirect (t : logtags) (s : sb) (newblock oldblock : Nat) : Option sb :=
  match log_begin s 19 with
  | none => none
  | some s =>
    let data := s.logpos
    let s := store_byte s s.logblk data t.LOG_REDIRECT
    let s := encode48 s s.logblk (data + 1) newblock
    let s := encode48 s s.logblk (data + 1 + 6) oldblock
    some (log_end s (data + 1 + 6 + 6))

/-- Modelled from the spec: `update_bitmap`, which marks `count` bits starting at
`block` set (`ALLOC`) or clear (`FREE`). -/
def update_bitmap (bitmap : Nat → Bool) (block count : Nat) (set : Bool) : Nat → Bool :=
  fun i => if block ≤ i ∧ i < block + count then set else bitmap i

/-- What `replay` does with one record: a call of `update_bitmap`, or the fields
of an `UPDATE` record it decodes and traces. -/
inductive replay_event where
  | bitmap (block count : Nat) (set : Bool)
  | update (child parent key : Nat)
  deriving DecidableEq, Repr

/-- The inner loop of `replay`, `while (data < log->data + from_be_u16(log->bytes))`
over the bytes `mem` of one block: the bitmap, the events in order and the
final `data`. -/
def replay_records (t : logtags) (mem : Nat → Nat) (stop : Nat) :
    Nat → Nat → (Nat → Bool) → Option ((Nat → Bool) × List replay_event × Nat)
  | 0, data, bitmap => if data < stop then none else some (bitmap, [], data)
  | fuel + 1, data, bitmap =>
    if data < stop then
      let code := mem data
      let data := data + 1
      if code = t.LOG_ALLOC ∨ code = t.LOG_FREE then
        let count := mem data
        let data := data + 1
        let block := decode48 mem data
        let data := data + 6
        let set := decide (code = t.LOG_ALLOC)
        match replay_records t mem stop fuel data (update_bitmap bitmap block count set) with
        | none => none
        | some (bitmap, events, data) =>
          some (bitmap, replay_event.bitmap block count set :: events, data)
      else if code = t.LOG_UPDATE then
        let child := decode48 mem data
        let data := data + 6
        let parent := decode48 mem data
        let data := data + 6
        let key := decode48 mem data
        let data := data + 6
        match replay_records t mem stop fuel data bitmap with
        | none => none
        | some (bitmap, events, data) =>
          some (bitmap, replay_event.update child parent key :: events, data)
      else replay_records t mem stop fuel data bitmap
    else some (bitmap, [], data)

/-- The body of the outer loop of `replay` for one log block: `log_next`, then
the records up to `bytes`.  Yields the state, the events and the final `data`. -/
def replay_block (t : logtags) (s : sb) : Option (sb × List replay_event × Nat) :=
  let s := log_next s
  let mem := s.logmap s.logblk
  let bytes := mem 2 * 256 + mem 3
  let stop := sizeof_logblock + bytes
  match replay_records t mem stop bytes s.logpos s.bitmap with
  | none => none
  | some (bitmap, events, data) => some ({ s with bitmap := bitmap }, events, data)

/-- The outer loop of `replay`: `for (sb->lognext = 0; sb->lognext < logblocks;)`. -/
def replay_blocks (t : logtags) (logblocks : Nat) : Nat → sb → Option (sb × List replay_event)
  | 0, s => if s.lognext < logblocks then none else some (s, [])
  | fuel + 1, s =>
    if s.lognext < logblocks then
      match replay_block t s with
      | none => none
      | some (s, events, _) =>
        match replay_blocks t logblocks fuel s with
        | none => none
        | some (s, more) => some (s, events ++ more)
    else some (s, [])

/-- The `replay` of the source: the state it leaves and, in order, the calls of
`update_bitmap` and the `UPDATE` records it decoded. -/
def replay (t : logtags) (s : sb) : Option (sb × List replay_event) :=
  let logblocks := s.lognext
  replay_blocks t logblocks logblocks { s with lognext := 0 }

/-- A call of `log_alloc` or of `log_update`, with its arguments. -/
inductive log_op where
  | alloc (block count alloc : Nat)
  | update (child parent key : Nat)
  deriving DecidableEq, Repr

/-- The calls of `ops`, in order. -/
def log_ops (t : logtags) : sb → List log_op → Option sb
  | s, [] => some s
  | s, log_op.alloc block count alloc :: rest =>
    match log_alloc t s block count alloc with
    | none => none
    | some s => log_ops t s rest
  | s, log_op.update child parent key :: rest =>
    match log_update t s child parent key with
    | none => none
    | some s => log_ops t s rest

/-- Bytes of the record a call writes. -/
def op_bytes : log_op → Nat
  | log_op.alloc _ _ _ => 8
  | log_op.update _ _ _ => 19

/-- Bytes of the records a run of calls writes. -/
def ops_bytes : List log_op → Nat
  | [] => 0
  | op :: rest => op_bytes op + ops_bytes rest

/-- What `replay` is to make of the record of a call: the fields as the record
can hold them, 48 bits of a block or key and 8 bits of a count. -/
def op_event : log_op → replay_event
  | log_op.alloc block count alloc =>
    replay_event.bitmap (block % 2 ^ 48) (count % 256) (decide (alloc ≠ 0))
  | log_op.update child parent key =>
    replay_event.update (child % 2 ^ 48) (parent % 2 ^ 48) (key % 2 ^ 48)

/-- The bytes of the record of a call. -/
def enc48 (v : Nat) : List Nat :=
  [v / 2 ^ 40 % 256, v / 2 ^ 32 % 256, v / 2 ^ 24 % 256, v / 2 ^ 16 % 256, v / 2 ^ 8 % 256,
    v % 256]

/-- The bytes of the record of a call. -/
def op_record (t : logtags) : log_op → List Nat
  | log_op.alloc block count alloc =>
    [(if alloc ≠ 0 then t.LOG_ALLOC else t.LOG_FREE) % 256, count % 256] ++ enc48 block
  | log_op.update child parent key =>
    [t.LOG_UPDATE % 256] ++ enc48 child ++ enc48 parent ++ enc48 key

/-- The bytes of the records of a run of calls. -/
def ops_record (t : logtags) : List log_op → List Nat
  | [] => []
  | op :: rest => op_record t op ++ ops_record t rest

/-- The bitmap after the `update_bitmap` calls among `events`, in order. -/
def apply_events : List replay_event → (Nat → Bool) → (Nat → Bool)
  | [], bitmap => bitmap
  | replay_event.bitmap block count set :: rest, bitmap =>
    apply_events rest (update_bitmap bitmap block count set)
  | replay_event.update _ _ _ :: rest, bitmap => apply_events rest bitmap

/-- The memory `mem` holds the bytes `bytes` from offset `off` on. -/
def holds_bytes (mem : Nat → Nat) (off : Nat) (bytes : List Nat) : Prop :=
  ∀ i, i < bytes.length → bytes[i]? = some (mem (off + i))

/-- A log block is open in `s`: block `blk` is the log buffer and `logpos = pos`. -/
def log_open (s : sb) (blk pos : Nat) : Prop :=
  s.logbuf = some blk ∧ s.logblk = blk ∧ s.logpos = pos ∧ s.logtop = s.blocksize

/-- A superblock before the first log block is taken: no log buffer, `logpos`
and `logtop` null. -/
def fresh_sb (blocksize : Nat) (logmap : Nat → Nat → Nat) (bitmap : Nat → Bool) : sb :=
  { blocksize := blocksize, lognext := 0, logbuf := none, logblk := 0, logpos := 0,
    logtop := 0, logmap := logmap, bitmap := bitmap }

/-- The tags numbered in the order the spec lists the opcodes, for the examples. -/
def ex_tags : logtags := ⟨0, 1, 2, 3, 4⟩

/-- The calls of the test in `main` of commit.c. -/
def ex_ops : List log_op :=
  [log_op.alloc 9 6 1, log_op.alloc 0x99 3 0, log_op.update 0xbabe 0xd00d 0x666]

end Tuxlog

/-!
# The record writers of `log.c`
-/

namespace Tuxlog

/-- The `log_droot` of the source. -/
def log_droot (t : logtags) (s : sb) (newroot oldroot key : Nat) : Option sb :=
  match log_begin s 19 with
  | none => none
  | some s =>
    let data := s.logpos
    let s := store_byte s s.logblk data t.LOG_IROOT
    let s := encode48 s s.logblk (data + 1) newroot
    let s := encode48 s s.logblk (data + 1 + 6) oldroot
    let s := encode48 s s.logblk (data + 1 + 6 + 6) key
    some (log_end s (data + 1 + 6 + 6 + 6))

/-- A call of one of the five record writers of log.c, with its arguments. -/
inductive log_call where
  | alloc (block count alloc : Nat)
  | update (child parent key : Nat)
  | droot (newroot oldroot key : Nat)
  | iroot (newroot oldroot : Nat)
  | redirect (newblock oldblock : Nat)
  deriving DecidableEq, Repr

/-- The `bytes` a writer passes to `log_begin`. -/
def call_reserve : log_call → Nat
  | log_call.alloc _ _ _ => 8
  | log_call.update _ _ _ => 19
  | log_call.droot _ _ _ => 19
  | log_call.iroot _ _ => 19
  | log_call.redirect _ _ => 19

/-- The bytes a writer stores: the tag, a count byte for `log_alloc`, and six
bytes for each `encode48`. -/
def call_bytes : log_call → Nat
  | log_call.alloc _ _ _ => 1 + 1 + 6
  | log_call.update _ _ _ => 1 + 6 + 6 + 6
  | log_call.droot _ _ _ => 1 + 6 + 6 + 6
  | log_call.iroot _ _ => 1 + 6 + 6
  | log_call.redirect _ _ => 1 + 6 + 6

/-- The call `c` on the state `s`. -/
def log_write (t : logtags) (s : sb) : log_call → Option sb
  | log_call.alloc block count alloc => log_alloc t s block count alloc
  | log_call.update child parent key => log_update t s child parent key
  | log_call.droot newroot oldroot key => log_droot t s newroot oldroot key
  | log_call.iroot newroot oldroot => log_iroot t s newroot oldroot
  | log_call.redirect newblock oldblock => log_redirect t s newblock oldblock

/-- The calls of `calls`, in order. -/
def log_writes (t : logtags) : sb → List log_call → Option sb
  | s, [] => some s
  | s, c :: rest =>
    match log_write t s c with
    | none => none
    | some s => log_writes t s rest

/-- What a record writer leaves, from the state `s0` that `log_begin` returned:
`logpos` moved by `n`, and no byte changed but the `n` at the old `logpos`. -/
def wrote (s0 s' : sb) (n : Nat) : Prop :=
  s'.logpos = s0.logpos + n ∧ s'.logtop = s0.logtop ∧ s'.blocksize = s0.blocksize ∧
  s'.logbuf = s0.logbuf ∧
  ∀ b o, ¬ (b = s0.logblk ∧ s0.logpos ≤ o ∧ o < s0.logpos + n) → s'.logmap b o = s0.logmap b o

/-- A log block of 256 bytes, open, with the eight bytes of one record. -/
def ex_open : sb :=
  { blocksize := 256, lognext := 1, logbuf := some 0, logblk := 0, logpos := 12, logtop := 256,
    logmap := fun _ _ => 0, bitmap := fun _ => false }

end Tuxlog

/-!
# The deferred free list of `log.c`

Pages are named by their address; `defreepos` and `defreetop` are byte
addresses, 0 for `NULL`.
-/

namespace Defree

/-- Modelled from the spec: `PAGE_SIZE` of the page allocator, 4096 bytes. -/
def PAGE_SIZE : Nat := 4096

/-- Modelled from the spec: `sizeof(extent_t)`, a `(block, count)` pair of a 64-bit
block address and an `unsigned` count, 16 bytes with padding. -/
def sizeof_extent : Nat := 16

/-- The part of `struct sb` the deferred free list works on.  `defree` is the
list of pages, the one at `head->next` first; `mem` gives the `extent_t` stored
at an address.
Modelled from the spec: `pool` holds the addresses `alloc_page` hands out next,
`freed` the `(block, count)` arguments of the calls of `bfree`, in order. -/
structure sb where
  defree : List Nat
  defreepos : Nat
  defreetop : Nat
  mem : Nat → Nat × Nat
  pool : List Nat
  freed : List (Nat × Nat)

/-- The `init_defree` of the source, with the pages `pool` to allocate from. -/
def init_defree (mem : Nat → Nat × Nat) (pool : List Nat) : sb :=
  { defree := [], defreepos := 0, defreetop := 0, mem := mem, pool := pool, freed := [] }

/-- The `alloc_page` and `link_add(page_link(page), &sb->defree)` of `defer_free`.
Modelled from the spec: the list is singly linked, and `link_add` is taken to
put the node right behind the head, where `retire_defree` takes its pages from;
`none` when `alloc_page` has no page (the source stores through the null
pointer). -/
def add_page (s : sb) : Option sb :=
  match s.pool with
  | [] => none
  | page :: pool =>
    some { s with defree := page :: s.defree, defreepos := page,
                  defreetop := page + PAGE_SIZE, pool := pool }

/-- The store `*sb->defreepos++ = (extent_t){ block, count }`. -/
def push_extent (s : sb) (block count : Nat) : sb :=
  { s with mem := fun a => if a = s.defreepos then (block, count) else s.mem a,
           defreepos := s.defreepos + sizeof_extent }

/-- The `defer_free` of the source. -/
def defer_free (s : sb) (block count : Nat) : Option sb :=
  if s.defreepos = s.defreetop then
    match add_page s with
    | none => none
    | some s => some (push_extent s block count)
  else some (push_extent s block count)

/-- The loop `for (; vec < sb->defreepos; vec++) bfree(sb, vec->block, vec->count)`:
the calls of `bfree` behind `freed`. -/
def free_extents (mem : Nat → Nat × Nat) (defreepos : Nat) :
    Nat → Nat → List (Nat × Nat) → Option (List (Nat × Nat))
  | 0, vec, freed => if vec < defreepos then none else some freed
  | fuel + 1, vec, freed =>
    if vec < defreepos then
      free_extents mem defreepos fuel (vec + sizeof_extent) (freed ++ [mem vec])
    else some freed

/-- The loop `while (!link_empty(head))` of `retire_defree` over the pages on
the list: for each the loop over its extents, then `link_del_next`. -/
def retire_pages (mem : Nat → Nat × Nat) (defreepos : Nat) :
    List Nat → List (Nat × Nat) → Option (List (Nat × Nat))
  | [], freed => some freed
  | page :: rest, freed =>
    match free_extents mem defreepos defreepos page freed with
    | none => none
    | some freed => retire_pages mem defreepos rest freed

/-- The `retire_defree` of the source. -/
def retire_defree (s : sb) : Option sb :=
  match retire_pages s.mem s.defreepos s.defree s.freed with
  | none => none
  | some freed =>
    some { s with defree := [], defreepos := 0, defreetop := 0, freed := freed }

/-- The calls `defer_free(block, count)` for the pairs of `extents`, in order. -/
def defer_frees : sb → List (Nat × Nat) → Option sb
  | s, [] => some s
  | s, (block, count) :: rest =>
    match defer_free s block count with
    | none => none
    | some s => defer_frees s rest

/-- The extents `(100, 1)`, `(101, 1)`, ..., `n` of them. -/
def ex_extents (n : Nat) : List (Nat × Nat) := (List.range n).map (fun i => (100 + i, 1))

/-- The calls of `bfree` of `retire_defree` after deferring `extents` in a fresh
list whose pages come from `pool`. -/
def deferred_then_retired (pool : List Nat) (extents : List (Nat × Nat)) :
    Option (List (Nat × Nat)) :=
  match defer_frees (init_defree (fun _ => (0, 0)) pool) extents with
  | none => none
  | some s =>
    match retire_defree s with
    | none => none
    | some s => some s.freed

end Defree

/-!
# The delta commit of `commit.c`

Buffers of the bitmap mapping are named by their index; `unsigned` values are
naturals below `2 ^ 32`.
-/

namespace Commit

/-- The `BUFFER_DIRTY_STATES` of buffer.h. -/
def BUFFER_DIRTY_STATES : Nat := 4
/-- The enumerator `BUFFER_FREED` of buffer.h. -/
def BUFFER_FREED : Nat := 0
/-- The enumerator `BUFFER_EMPTY` of buffer.h. -/
def BUFFER_EMPTY : Nat := 1
/-- The enumerator `BUFFER_CLEAN` of buffer.h. -/
def BUFFER_CLEAN : Nat := 2
/-- The enumerator `BUFFER_DIRTY` of buffer.h. -/
def BUFFER_DIRTY : Nat := 3
/-- The enumerator `BUFFER_STATES` of buffer.h. -/
def BUFFER_STATES : Nat := BUFFER_DIRTY + BUFFER_DIRTY_STATES

/-- The `EAGAIN` of errno.h. -/
def EAGAIN : Int := 11

/-- Modelled from the spec: what the code outside the sources answers.
`map_region` gives for the buffer index its return value and the block of the
segment; `diskwrite` gives for the offset it is passed its return value, 0 on
success and negative on error. -/
structure env where
  map_region : Nat → Int × Nat
  diskwrite : Nat → Int

/-- The part of the state `commit.c` works on: `sb->delta`, `sb->blocksize`, the
`static unsigned crudehack` of `need_delta`, `sb->dev`, and of the bitmap mapping
the `state` of each buffer and the `dirty` list, in list order.
Modelled from the spec: `written` holds the calls of `diskwrite` as (buffer,
offset), the offset being the last argument as the caller passes it (the length
is `sb->blocksize` in every call), `flushed` the arguments of the calls of
`flush_state`, in order. -/
structure sb where
  delta : Nat
  blocksize : Nat
  crudehack : Nat
  dev_bits : Nat
  dev_fd : Nat
  state : Nat → Nat
  dirty : List Nat
  written : List (Nat × Nat)
  flushed : List Nat

/-- Assignment to `sb->delta`. -/
def set_delta (s : sb) (delta : Nat) : sb := { s with delta := delta }

/-- Assignment to `crudehack`. -/
def set_crudehack (s : sb) (v : Nat) : sb := { s with crudehack := v }

/-- The `need_delta` of the source: `!(++crudehack % 10)`. -/
def need_delta (s : sb) : sb × Bool :=
  let crudehack := (s.crudehack + 1) % 2 ^ 32
  (set_crudehack s crudehack, decide (crudehack % 10 = 0))

/-- Modelled from the spec: `set_buffer_clean` of buffer.c, which takes the
buffer off the dirty list of its mapping and sets its state to `BUFFER_CLEAN`. -/
def set_buffer_clean (s : sb) (buffer : Nat) : sb :=
  { s with state := fun b => if b = buffer then BUFFER_CLEAN else s.state b,
           dirty := s.dirty.filter (fun b => b ≠ buffer) }

/-- The call `diskwrite(sb->dev->fd, buffer->data, sb->blocksize, offset)`,
recorded with the offset it is passed. -/
def diskwrite (s : sb) (buffer offset : Nat) : sb :=
  { s with written := s.written ++ [(buffer, offset)] }

/-- The `write_bitmap` of the source: the state and the value returned (`none`:
the assertion fails).  The offset passed to `diskwrite` is `seg.block`, the block
number, as in the source. -/
def write_bitmap (e : env) (s : sb) (buffer : Nat) : Option (sb × Int) :=
  let err := (e.map_region buffer).1
  let block := (e.map_region buffer).2
  if err < 0 then some (s, err)
  else if err ≠ 1 then none
  else if (s.state buffer + 2 ^ 32 - BUFFER_DIRTY) % 2 ^ 32
      = s.delta &&& (BUFFER_DIRTY_STATES - 1) then
    some (s, -EAGAIN)
  else
    let s := diskwrite s buffer block
    let err := e.diskwrite block
    if err = 0 then some (set_buffer_clean s buffer, 0)
    else some (s, 0)

/-- The loop `list_for_each_entry_safe(buffer, safe, head, link)` of
`stage_delta` over the buffers of the dirty list. -/
def stage_loop (e : env) : List Nat → sb → Option (sb × Int)
  | [], s => some (s, 0)
  | buffer :: rest, s =>
    match write_bitmap e s buffer with
    | none => none
    | some (s, err) =>
      if err ≠ -EAGAIN then some (s, err)
      else stage_loop e rest s

/-- The `stage_delta` of the source. -/
def stage_delta (e : env) (s : sb) : Option (sb × Int) :=
  if ¬ (s.dev_bits ≥ 8 ∧ s.dev_fd ≠ 0) then none
  else stage_loop e s.dirty s

/-- Modelled from the spec: `flush_state` of buffer.c, of which the call is
recorded with its argument. -/
def flush_state (s : sb) (state : Nat) : sb :=
  { s with flushed := s.flushed ++ [state] }

/-- The `commit_delta` of the source. -/
def commit_delta (s : sb) : sb :=
  flush_state s
    ((BUFFER_DIRTY + (((s.delta + 2 ^ 32 - 1) % 2 ^ 32) &&& (BUFFER_DIRTY_STATES - 1))) % 2 ^ 32)

/-- The `change_end` of the source, with a single caller (the locks do
nothing). -/
def change_end (e : env) (s : sb) : Option sb :=
  let (s, need) := need_delta s
  if need then
    let delta := s.delta
    if s.delta = delta then
      let s := set_delta s ((s.delta + 1) % 2 ^ 32)
      match stage_delta e s with
      | none => none
      | some (s, _) => some (commit_delta s)
    else some s
  else some s

/-- The loop of `main`, `k` iterations of `change_begin`, the work of the
iteration, `change_end`; `work i` is what iteration `i` does in between. -/
def change_loop (e : env) (work : Nat → sb → sb) : Nat → sb → Option sb
  | 0, s => some s
  | k + 1, s =>
    match change_loop e work k s with
    | none => none
    | some s => change_end e (work k s)

/-- The device answers of the examples: every buffer is mapped, to block
`100 + index`, and every write succeeds. -/
def ex_env : env := { map_region := fun b => (1, 100 + b), diskwrite := fun _ => 0 }

/-- A device on which the write of block 100 fails with `-EIO`. -/
def ex_env_eio : env :=
  { map_region := fun b => (1, 100 + b), diskwrite := fun b => if b = 100 then -5 else 0 }

/-- A volume on which `map_region` fails with `-EIO`. -/
def ex_env_nomap : env := { map_region := fun _ => (-5, 0), diskwrite := fun _ => 0 }

/-- A state with the buffers of `dirty` on the dirty list, each with the state
`state` gives, in delta `delta`, on the device of `main` (`bits = 8`, blocks of
`1 << 8` bytes). -/
def ex_sb (delta crudehack : Nat) (state : Nat → Nat) (dirty : List Nat) : sb :=
  { delta := delta, blocksize := 256, crudehack := crudehack, dev_bits := 8, dev_fd := 3,
    state := state, dirty := dirty, written := [], flushed := [] }

end Commit

/-!
# The inode attributes of `test/iattr.c`

The attribute area is a byte memory `Nat → Nat`; a `char *` is an address.
-/

namespace Iattr

/-- The enumerator `CTIME_OWNER_ATTR` of the source. -/
def CTIME_OWNER_ATTR : Nat := 7
/-- The enumerator `MTIME_SIZE_ATTR` of the source. -/
def MTIME_SIZE_ATTR : Nat := 8
/-- The enumerator `DATA_BTREE_ATTR` of the source. -/
def DATA_BTREE_ATTR : Nat := 9

/-- Modelled from the spec: the store of a big-endian value of `n` bytes, which
is `*(be_u16 *)attr = u16_to_be(val)` for `n = 2` and likewise for 4 and 8; the
value is cut to `n` bytes. -/
def be_store : Nat → (Nat → Nat) → Nat → Nat → (Nat → Nat)
  | 0, m, _, _ => m
  | n + 1, m, a, v =>
    fun x => if x = a + n then v % 256 else be_store n m a (v / 256) x

/-- Modelled from the spec: the load of a big-endian value of `n` bytes, which is
`be_to_u16(*(be_u16 *)attr)` for `n = 2` and likewise for 4 and 8. -/
def be_load : Nat → (Nat → Nat) → Nat → Nat
  | 0, _, _ => 0
  | n + 1, m, a => be_load n m a * 256 + m (a + n)

/-- The `struct iattrs` of the source, `root` as its `block` and `depth`. -/
structure iattrs where
  root_block : Nat
  root_depth : Nat
  mtime : Nat
  ctime : Nat
  isize : Nat
  mode : Nat
  uid : Nat
  gid : Nat
  deriving DecidableEq, Repr

/-- The `decode_two` of the source: the value and the new `attr`. -/
def decode_two (m : Nat → Nat) (attr : Nat) : Nat × Nat := (be_load 2 m attr, attr + 2)

/-- The `decode_four` of the source. -/
def decode_four (m : Nat → Nat) (attr : Nat) : Nat × Nat := (be_load 4 m attr, attr + 4)

/-- The `decode_eight` of the source. -/
def decode_eight (m : Nat → Nat) (attr : Nat) : Nat × Nat := (be_load 8 m attr, attr + 8)

/-- The `decode_six` of the source. -/
def decode_six (m : Nat → Nat) (attr : Nat) : Nat × Nat :=
  let part1 := (decode_two m attr).1
  let attr := (decode_two m attr).2
  let part2 := (decode_four m attr).1
  let attr := (decode_four m attr).2
  ((part1 <<< 32) ||| part2, attr)

/-- The loop `while (attr < limit - 1)` of `decode_attrs`: the local `iattrs` and
`attr` when the function returns (`none`: out of fuel). -/
def decode_loop (m : Nat → Nat) (limit : Nat) : Nat → Nat → iattrs → Option (iattrs × Nat)
  | 0, attr, ia => if attr < limit - 1 then none else some (ia, attr)
  | fuel + 1, attr, ia =>
    if attr < limit - 1 then
      let head := (decode_two m attr).1
      let attr := (decode_two m attr).2
      let version := head &&& 0xfff
      if version ≠ 0 then decode_loop m limit fuel attr ia
      else
        let kind := head >>> 12
        if kind = MTIME_SIZE_ATTR then
          let v64 := (decode_eight m (attr - 2)).1
          let attr := (decode_eight m (attr - 2)).2
          let isize := (decode_eight m attr).1
          let attr := (decode_eight m attr).2
          decode_loop m limit fuel attr
            { ia with isize := isize, mtime := v64 &&& (0xffffffffffffffff >>> 16) }
        else if kind = DATA_BTREE_ATTR then
          let v64 := (decode_eight m attr).1
          let attr := (decode_eight m attr).2
          decode_loop m limit fuel attr
            { ia with root_block := v64 &&& (0xffffffffffffffff >>> 16),
                      root_depth := v64 >>> 48 }
        else if kind = CTIME_OWNER_ATTR then
          let ctime := (decode_six m attr).1
          let attr := (decode_six m attr).2
          let mode := (decode_four m attr).1
          let attr := (decode_four m attr).2
          let uid := (decode_four m attr).1
          let attr := (decode_four m attr).2
          let gid := (decode_four m attr).1
          let attr := (decode_four m attr).2
          decode_loop m limit fuel attr
            { ia with ctime := ctime, mode := mode, uid := uid, gid := gid }
        else some (ia, attr)
    else some (ia, attr)

/-- The `decode_attrs` of the source: the attributes it decodes into its local
`iattrs` (and prints), and the final `attr`.  Every turn of the loop takes two
bytes or more, so `size` turns are enough. -/
def decode_attrs (m : Nat → Nat) (attr size : Nat) : Option (iattrs × Nat) :=
  decode_loop m (attr + size) size attr ⟨0, 0, 0, 0, 0, 0, 0, 0⟩

/-- The `encode_two` of the source: the memory and the new `attr`. -/
def encode_two (m : Nat → Nat) (attr val : Nat) : (Nat → Nat) × Nat :=
  (be_store 2 m attr val, attr + 2)

/-- The `encode_four` of the source. -/
def encode_four (m : Nat → Nat) (attr val : Nat) : (Nat → Nat) × Nat :=
  (be_store 4 m attr val, attr + 4)

/-- The `encode_eight` of the source. -/
def encode_eight (m : Nat → Nat) (attr val : Nat) : (Nat → Nat) × Nat :=
  (be_store 8 m attr val, attr + 8)

/-- The `encode_six` of the source. -/
def encode_six (m : Nat → Nat) (attr val : Nat) : (Nat → Nat) × Nat :=
  let r := encode_two m attr (val >>> 32)
  encode_four r.1 r.2 val

/-- The `encode_kind` of the source; `version` is `sb->version`. -/
def encode_kind (version : Nat) (m : Nat → Nat) (attr kind : Nat) : (Nat → Nat) × Nat :=
  encode_two m attr ((kind <<< 12) ||| version)

/-- The `encode_btree` of the source. -/
def encode_btree (version : Nat) (m : Nat → Nat) (attr block depth : Nat) :
    (Nat → Nat) × Nat :=
  let r := encode_kind version m attr DATA_BTREE_ATTR
  encode_eight r.1 r.2 ((depth <<< 48) ||| block)

/-- The `encode_msize` of the source. -/
def encode_msize (version : Nat) (m : Nat → Nat) (attr mtime isize : Nat) :
    (Nat → Nat) × Nat :=
  let r := encode_kind version m attr MTIME_SIZE_ATTR
  let r := encode_six r.1 r.2 mtime
  encode_eight r.1 r.2 isize

/-- The `encode_owner` of the source. -/
def encode_owner (version : Nat) (m : Nat → Nat) (attr ctime mode uid gid : Nat) :
    (Nat → Nat) × Nat :=
  let r := encode_kind version m attr CTIME_OWNER_ATTR
  let r := encode_six r.1 r.2 ctime
  let r := encode_four r.1 r.2 mode
  let r := encode_four r.1 r.2 uid
  encode_four r.1 r.2 gid

/-- A call of one of the three encoders, with its values. -/
inductive attr_item where
  | msize (mtime isize : Nat)
  | btree (block depth : Nat)
  | owner (ctime mode uid gid : Nat)
  deriving DecidableEq, Repr

/-- The call `it` at `attr`. -/
def encode_item (version : Nat) (m : Nat → Nat) (attr : Nat) : attr_item → (Nat → Nat) × Nat
  | attr_item.msize mtime isize => encode_msize version m attr mtime isize
  | attr_item.btree block depth => encode_btree version m attr block depth
  | attr_item.owner ctime mode uid gid => encode_owner version m attr ctime mode uid gid

/-- The calls of `items` in order, each at the `attr` the one before returned. -/
def encode_items (version : Nat) : (Nat → Nat) → Nat → List attr_item → (Nat → Nat) × Nat
  | m, attr, [] => (m, attr)
  | m, attr, it :: rest =>
    encode_items version (encode_item version m attr it).1 (encode_item version m attr it).2 rest

/-- The bytes the encoder of an attribute writes: the two of the kind, six of a
time, eight of a size or a root, four each of mode, uid and gid. -/
def item_size : attr_item → Nat
  | attr_item.msize _ _ => 2 + 6 + 8
  | attr_item.btree _ _ => 2 + 8
  | attr_item.owner _ _ _ _ => 2 + 6 + 4 + 4 + 4

/-- The bytes of a run of attributes. -/
def items_size : List attr_item → Nat
  | [] => 0
  | it :: rest => item_size it + items_size rest

/-- The fields an attribute is to set. -/
def set_item (ia : iattrs) : attr_item → iattrs
  | attr_item.msize mtime isize => { ia with isize := isize, mtime := mtime }
  | attr_item.btree block depth => { ia with root_block := block, root_depth := depth }
  | attr_item.owner ctime mode uid gid =>
    { ia with ctime := ctime, mode := mode, uid := uid, gid := gid }

/-- The values are in the range of their fields: 48 bits of `mtime`, `ctime` and
`root.block`, 16 of `root.depth`, 64 of `isize`, 32 of `mode`, `uid` and `gid`. -/
def item_ok : attr_item → Prop
  | attr_item.msize mtime isize => mtime < 2 ^ 48 ∧ isize < 2 ^ 64
  | attr_item.btree block depth => block < 2 ^ 48 ∧ depth < 2 ^ 16
  | attr_item.owner ctime mode uid gid =>
    ctime < 2 ^ 48 ∧ mode < 2 ^ 32 ∧ uid < 2 ^ 32 ∧ gid < 2 ^ 32

/-- The three calls of `main`, with its values. -/
def ex_items : List attr_item :=
  [attr_item.msize 0xdec0debead 0x123456789, attr_item.btree 0xcaba1f00d 3,
    attr_item.owner 0xdeadfaced00d 0x666 0x12121212 0x34343434]

end Iattr

/-!
# The size table of `test/iattr.c`
-/

namespace Iattr

/-- The table `atsize` of the source, 16 entries; the entries without an
initialiser are 0 (`none`: index out of the table). -/
def atsize (kind : Nat) : Option Nat :=
  if 16 ≤ kind then none
  else if kind = CTIME_OWNER_ATTR then some 20
  else if kind = MTIME_SIZE_ATTR then some 14
  else if kind = DATA_BTREE_ATTR then some 8
  else some 0

/-- The `howmuch` of the source: `need += 2 + atsize[kind[i]]` over the kinds,
in `unsigned` arithmetic. -/
def howmuch : List Nat → Option Nat
  | [] => some 0
  | kind :: rest =>
    match atsize kind, howmuch rest with
    | some size, some need => some ((2 + size + need) % 2 ^ 32)
    | _, _ => none

/-- The kind an encoder writes in the head of its attribute. -/
def item_kind : attr_item → Nat
  | attr_item.msize _ _ => MTIME_SIZE_ATTR
  | attr_item.btree _ _ => DATA_BTREE_ATTR
  | attr_item.owner _ _ _ _ => CTIME_OWNER_ATTR

/-- The bytes the encoders write for `items`, one call each in order from `attr`:
the distance from `attr` to the `attr` the last call returns. -/
def encoded_bytes (m : Nat → Nat) (attr : Nat) (items : List attr_item) : Nat :=
  (encode_items 0 m attr items).2 - attr

end Iattr

/-!
# Splits and inserts of the hash-tree leaf of `dedup.c`
-/

namespace Dedup

/-- Modelled from the spec: `veccopy` on hleaf entries, `n` entries from slot
`src` of `src_leaf` to slot `dst` of `leaf`. -/
def hleaf_veccopy (leaf : hleaf) (dst : Nat) (src_leaf : hleaf) (src n : Nat) : hleaf :=
  { leaf with entries := fun i =>
      if dst ≤ i ∧ i < dst + n then src_leaf.entries (i - dst + src) else leaf.entries i }

/-- The `hleaf_split` of the source: the key returned, `from` and `into` as they
are left (`none`: the assertion fails). -/
def hleaf_split (key : Nat) (from_leaf into : hleaf) : Option (Nat × hleaf × hleaf) :=
  if ¬ hleaf_sniff from_leaf then none
  else
    let idx :=
      if from_leaf.count ≠ 0 ∧ key > (from_leaf.entries (from_leaf.count - 1)).key then
        from_leaf.count
      else from_leaf.count / 2
    let tail := from_leaf.count - idx
    let into := hleaf_init into
    let into := hleaf_veccopy into 0 from_leaf idx tail
    let into := set_hleaf_count into tail
    let leaf := set_hleaf_count from_leaf idx
    some (if tail ≠ 0 then (into.entries 0).key else key, leaf, into)

/-- The store of the caller of `hleaf_resize` into the slot it got: key, block
and offset of the entry. -/
def hleaf_store (leaf : hleaf) (idx : Nat) (e : hleaf_entry) : hleaf :=
  { leaf with entries := fun i => if i = idx then e else leaf.entries i }

/-- The entries of a leaf: the first `count` slots, in order. -/
def leaf_entries (leaf : hleaf) : List hleaf_entry :=
  (List.range leaf.count).map leaf.entries

/-- The first `count` keys of the leaf are strictly ascending. -/
def keys_ascending (leaf : hleaf) : Prop :=
  ∀ i j, i < j → j < leaf.count → (leaf.entries i).key < (leaf.entries j).key

/-- A leaf with the keys 10, 20, 30 in its first three slots. -/
def ex_leaf : hleaf :=
  ⟨0xdade, 3, fun i => if i = 0 then ⟨10, 100, 0⟩ else if i = 1 then ⟨20, 200, 1⟩
    else if i = 2 then ⟨30, 300, 2⟩ else ⟨0, 0, 0⟩⟩

end Dedup

namespace Dleaf

/-- A call of `dwalk_next` or of `dwalk_back` on a cursor. -/
inductive dwalk_move where
  | next
  | back
  deriving DecidableEq, Repr

/-- One cursor call: the returned flag and the cursor it leaves, `none` when an
assertion of `dwalk_check` fails. -/
def dwalk_step (leaf : dleaf) (walk : dwalk) : dwalk_move → Option (Nat × dwalk)
  | .next => dwalk_next leaf walk
  | .back => dwalk_back leaf walk

/-- The calls `moves` made in order on one cursor: the flag and the cursor after
each call, `none` when an assertion fails on the way. -/
def dwalk_moves (leaf : dleaf) : dwalk → List dwalk_move → Option (List (Nat × dwalk))
  | _, [] => some []
  | walk, m :: ms =>
    match dwalk_step leaf walk m with
    | none => none
    | some (r, walk') =>
      match dwalk_moves leaf walk' ms with
      | none => none
      | some rest => some ((r, walk') :: rest)

/-- The cursor states on a leaf that holds `gs`: the start values on an empty leaf,
a position on an extent, or the position past the last extent. -/
def CurOk (blocksize : Nat) (gs : List AGroup) (walk : dwalk) : Prop :=
  (gs = [] ∧ walk = dwalk.mk blocksize blocksize blocksize blocksize blocksize
    sizeof_dleaf sizeof_dleaf sizeof_dleaf) ∨
  (∃ pre g post epre e epost xpre x xpost,
    CurAt blocksize gs pre g post epre e epost xpre x xpost walk) ∨
  (gs ≠ [] ∧ EndCur blocksize gs walk)

/-- The cursor invariants as the specification words them, to be compared with
`dwalk_check`: on an empty leaf the start values, at the end of the leaf
`group = gstop`, `entry = estop` and `exbase < extent = exstop`, and otherwise
`gstop <= group`, `estop <= entry` and `exbase <= extent < exstop`. -/
def check_holds (leaf : dleaf) (walk : dwalk) : Prop :=
  (dleaf_groups leaf = 0 → walk.group = walk.gstop ∧ walk.entry = walk.estop ∧
    walk.exbase = walk.extent ∧ walk.extent = walk.exstop ∧ walk.exstop = sizeof_dleaf) ∧
  (dleaf_groups leaf ≠ 0 → walk.extent = walk.exstop → walk.group = walk.gstop ∧
    walk.entry = walk.estop ∧ walk.exbase < walk.extent) ∧
  (dleaf_groups leaf ≠ 0 → walk.extent ≠ walk.exstop → walk.gstop ≤ walk.group ∧
    walk.estop ≤ walk.entry ∧ walk.exbase ≤ walk.extent ∧ walk.extent < walk.exstop)

end Dleaf

namespace Ileaf

/-- Modelled from the spec: the ileaf block of the absent `kernel/ileaf.c`, one
block with the header `{magic, ibase, count, free}`, a size directory of `count`
16-bit sizes at the low end (`dict`, by entry number) and the attribute records
packed from the high end of the block (`mem`, the bytes by offset in the block).
Inode `ibase + i` is entry `i`; size 0 means absent. -/
structure ileaf where
  magic : Nat
  ibase : Nat
  count : Nat
  free : Nat
  dict : Nat → Nat
  mem : Nat → Nat

/-- A block of zero bytes. -/
def zero_leaf : ileaf := ⟨0, 0, 0, 0, fun _ => 0, fun _ => 0⟩

/-- Modelled from the spec: `ileaf_init` of the absent `kernel/ileaf.c`: magic
`0x90de`, no entry, and the attribute records (none yet) start at the end of the
block. -/
def ileaf_init (blocksize : Nat) (leaf : ileaf) : ileaf :=
  { leaf with magic := 0x90de, ibase := 0, count := 0, free := blocksize % 2 ^ 16 }

/-- Modelled from the spec: the size the directory gives for entry `i`; an entry
behind the directory is absent and has size 0. -/
def size_at (leaf : ileaf) (i : Nat) : Nat := if i < leaf.count then leaf.dict i else 0

/-- Modelled from the spec: the bytes of the attribute records of the entries
before entry `n`, packed one after the other. -/
def attrs_upto (leaf : ileaf) : Nat → Nat
  | 0 => 0
  | n + 1 => attrs_upto leaf n + size_at leaf n

/-- Modelled from the spec: the offset of the attribute record of entry `i`; the
records are packed from the high end of the block in entry order. -/
def attr_offset (blocksize : Nat) (leaf : ileaf) (i : Nat) : Nat :=
  blocksize - attrs_upto leaf (i + 1)

/-- Modelled from the spec: `ileaf_lookup` of the absent `kernel/ileaf.c`, the
`(ptr, size)` of the attribute record of inode `inum`; `none` for an inode number
below `ibase`, which the leaf cannot hold. -/
def ileaf_lookup (blocksize inum : Nat) (leaf : ileaf) : Option (Nat × Nat) :=
  if inum < leaf.ibase then none
  else
    let i := inum - leaf.ibase
    some (attr_offset blocksize leaf i, size_at leaf i)

/-- Modelled from the spec: `ileaf_resize` of the absent `kernel/ileaf.c`.  It
makes space for `newsize` bytes of inode `inum`: the directory grows to reach the
entry, the packed region grows or shrinks by the difference of the sizes (the
records behind the entry and the kept bytes of the entry move) and the size entry
is updated.  Returns the pointer to the record, or null (`none`, with the leaf as it
was) when the leaf lacks space between the directory, `header` bytes into the
block, and the records. -/
def ileaf_resize (blocksize header inum : Nat) (leaf : ileaf) (newsize : Nat) :
    Option (Option Nat × ileaf) :=
  if inum < leaf.ibase then none
  else
    let i := inum - leaf.ibase
    let old := size_at leaf i
    let count := max leaf.count (i + 1)
    if header + 2 * count + newsize ≤ leaf.free + old then
      let free := leaf.free + old - newsize
      let attrs := blocksize - attrs_upto leaf i - newsize
      let keep := min old newsize
      some (some attrs,
        { leaf with
          count := count % 2 ^ 16
          free := free % 2 ^ 16
          dict := fun j => if j = i then newsize % 2 ^ 16 else size_at leaf j
          mem := fun a =>
            if free ≤ a ∧ a < attrs + keep then leaf.mem (a + newsize - old) else leaf.mem a })
    else some (none, leaf)

/-- The `memset` of `n` bytes at `p`. -/
def memset (leaf : ileaf) (p fill n : Nat) : ileaf :=
  { leaf with mem := fun a => if p ≤ a ∧ a < p + n then fill % 256 else leaf.mem a }

/-- The `test_append` of the source: `none` when `ileaf_resize` returns null (the
`memset` then writes through a null pointer). -/
def test_append (blocksize header : Nat) (leaf : ileaf) (inum more fill : Nat) :
    Option ileaf :=
  match ileaf_lookup blocksize inum leaf with
  | none => none
  | some (_, size) =>
    match ileaf_resize blocksize header inum leaf ((size + more) % 2 ^ 32) with
    | none => none
    | some (none, _) => none
    | some (some attrs, leaf) => some (memset leaf (attrs + size) fill more)

/-- The `test_remove` of the source; `size - less` is unsigned arithmetic. -/
def test_remove (blocksize header : Nat) (leaf : ileaf) (inum less : Nat) : Option ileaf :=
  match ileaf_lookup blocksize inum leaf with
  | none => none
  | some (_, size) =>
    match ileaf_resize blocksize header inum leaf ((size + 2 ^ 32 - less) % 2 ^ 32) with
    | none => none
    | some (_, leaf) => some leaf

/-- The appends of `main` (block size 4096, `ibase` 0x10), in its order: 0x13 by
2, 0x14 by 4, 0x16 by 6, 0x13 by 3 and 0x18 by 3. -/
def main_appends (header : Nat) : Option ileaf :=
  let leaf := { ileaf_init 4096 zero_leaf with ibase := 0x10 }
  (test_append 4096 header leaf 0x13 2 0x61).bind fun leaf =>
  (test_append 4096 header leaf 0x14 4 0x62).bind fun leaf =>
  (test_append 4096 header leaf 0x16 6 0x63).bind fun leaf =>
  (test_append 4096 header leaf 0x13 3 0x78).bind fun leaf =>
  test_append 4096 header leaf 0x18 3 0x79

/-- The leaf `main` holds after its appends (the zero block if one of them had
failed). -/
def main_leaf (header : Nat) : ileaf := (main_appends header).getD zero_leaf

end Ileaf

set_option linter.unusedVariables false

namespace Dleaf

/-! ## Field packing -/

theorem make_group_keyhi (k c : Nat) (hk : k < 2 ^ 24) : make_group k c % 2 ^ 24 = k := by
  unfold make_group; omega

theorem make_group_count (k c : Nat) (hc : c < 256) : make_group k c / 2 ^ 24 % 256 = c := by
  unfold make_group; omega

theorem make_group_lt (k c : Nat) : make_group k c < 2 ^ 32 := by
  unfold make_group; omega

theorem make_entry_eq_make_group (k c : Nat) : make_entry k c = make_group k c := rfl

theorem get_index_eq (leaf : dleaf) (g e : Nat) :
    get_index leaf g e = group_keyhi leaf g * 2 ^ 24 + entry_keylo leaf e := by
  unfold get_index
  rw [Nat.shiftLeft_eq]
  have h : entry_keylo leaf e < 2 ^ 24 := by unfold entry_keylo; omega
  rw [Nat.mul_comm, Nat.mul_add_lt_is_or h]

theorem key_and (key : Nat) : key &&& 0xffffff = key % 2 ^ 24 := by
  have := Nat.and_pow_two_sub_one_eq_mod key 24
  simpa using this

theorem key_shift (key : Nat) : key >>> 24 = key / 2 ^ 24 := Nat.shiftRight_eq_div_pow key 24

theorem extent_split (w : Nat) (hw : w < 2 ^ 64) :
    (w / 2 ^ 32) % 2 ^ 32 * 2 ^ 32 + w % 2 ^ 32 = w := by omega

/-! ## Sizes of the tables -/

@[simp] theorem ext_total_append (a b : List AEntry) :
    ext_total (a ++ b) = ext_total a + ext_total b := by
  induction a with
  | nil => simp [ext_total]
  | cons e es ih => simp [ext_total, ih]; omega

@[simp] theorem ext_words_append (a b : List AEntry) :
    ext_words (a ++ b) = ext_words a ++ ext_words b := by
  induction a with
  | nil => simp [ext_words]
  | cons e es ih => simp [ext_words, ih]

@[simp] theorem ext_words_length (a : List AEntry) : (ext_words a).length = ext_total a := by
  induction a with
  | nil => simp [ext_words, ext_total]
  | cons e es ih => simp [ext_words, ext_total, ih]

theorem entry_words_append (p : Nat) (a b : List AEntry) :
    entry_words p (a ++ b) = entry_words p a ++ entry_words (p + ext_total a) b := by
  induction a generalizing p with
  | nil => simp [entry_words, ext_total]
  | cons e es ih => simp [entry_words, ext_total, ih, Nat.add_assoc]

@[simp] theorem entry_words_length (p : Nat) (a : List AEntry) :
    (entry_words p a).length = a.length := by
  induction a generalizing p with
  | nil => simp [entry_words]
  | cons e es ih => simp [entry_words, ih]

@[simp] theorem ent_count_append (a b : List AGroup) :
    ent_count (a ++ b) = ent_count a + ent_count b := by
  induction a with
  | nil => simp [ent_count]
  | cons e es ih => simp [ent_count, ih]; omega

@[simp] theorem ext_count_append (a b : List AGroup) :
    ext_count (a ++ b) = ext_count a + ext_count b := by
  induction a with
  | nil => simp [ext_count]
  | cons e es ih => simp [ext_count, ih]; omega

@[simp] theorem group_table_append (a b : List AGroup) :
    group_table (a ++ b) = group_table a ++ group_table b := by
  induction a with
  | nil => simp [group_table]
  | cons e es ih => simp [group_table, ih]

@[simp] theorem entry_table_append (a b : List AGroup) :
    entry_table (a ++ b) = entry_table a ++ entry_table b := by
  induction a with
  | nil => simp [entry_table]
  | cons e es ih => simp [entry_table, ih]

@[simp] theorem extent_table_append (a b : List AGroup) :
    extent_table (a ++ b) = extent_table a ++ extent_table b := by
  induction a with
  | nil => simp [extent_table]
  | cons e es ih => simp [extent_table, ih]

@[simp] theorem leaf_pairs_append (a b : List AGroup) :
    leaf_pairs (a ++ b) = leaf_pairs a ++ leaf_pairs b := by
  induction a with
  | nil => simp [leaf_pairs]
  | cons e es ih => simp [leaf_pairs, ih]

@[simp] theorem entry_pairs_append (k : Nat) (a b : List AEntry) :
    entry_pairs k (a ++ b) = entry_pairs k a ++ entry_pairs k b := by
  induction a with
  | nil => simp [entry_pairs]
  | cons e es ih => simp [entry_pairs, ih]

@[simp] theorem group_table_length (a : List AGroup) : (group_table a).length = a.length := by
  induction a with
  | nil => simp [group_table]
  | cons e es ih => simp [group_table, ih]

@[simp] theorem entry_table_length (a : List AGroup) : (entry_table a).length = ent_count a := by
  induction a with
  | nil => simp [entry_table, ent_count]
  | cons e es ih => simp [entry_table, ent_count, ih]

@[simp] theorem extent_table_length (a : List AGroup) :
    (extent_table a).length = ext_count a := by
  induction a with
  | nil => simp [extent_table, ext_count]
  | cons e es ih => simp [extent_table, ext_count, ih]

@[simp] theorem dict_table_length (a : List AGroup) :
    (dict_table a).length = a.length + ent_count a := by
  simp [dict_table]

/-! ## Reading a represented leaf -/

theorem getElem?_mid {α : Type} (l a : List α) (x : α) (b : List α) (n : Nat)
    (hl : l = a ++ x :: b) (h : n = a.length) : l[n]? = some x := by
  subst h hl
  induction a with
  | nil => simp
  | cons y ys ih => simpa using ih

theorem rep_group {bs : Nat} {L : dleaf} {gs : List AGroup} (h : Rep bs L gs)
    {pre post : List AGroup} {g : AGroup} (hg : gs = pre ++ g :: post)
    {p : Nat} (hp : p + 4 * (pre.length + 1) = bs) :
    L.mem p = make_group g.keyhi g.ents.length := by
  refine h.dict_eq pre.length _ p ?_ hp
  subst hg
  exact getElem?_mid _ (group_table pre) _ (group_table post ++ entry_table (pre ++ g :: post)) _
    (by simp [dict_table, group_table, List.append_assoc]) (by simp)

theorem rep_entry {bs : Nat} {L : dleaf} {gs : List AGroup} (h : Rep bs L gs)
    {pre post : List AGroup} {g : AGroup} (hg : gs = pre ++ g :: post)
    {epre epost : List AEntry} {e : AEntry} (he : g.ents = epre ++ e :: epost)
    {p : Nat} (hp : p + 4 * (gs.length + ent_count pre + epre.length + 1) = bs) :
    L.mem p = make_entry e.keylo (ext_total epre + e.exts.length) := by
  refine h.dict_eq (gs.length + ent_count pre + epre.length) _ p ?_ hp
  subst hg
  exact getElem?_mid _ (group_table (pre ++ g :: post) ++ entry_table pre ++ entry_words 0 epre) _
    (entry_words (ext_total epre + e.exts.length) epost ++ entry_table post) _
    (by simp [dict_table, entry_table, he, entry_words_append, entry_words, List.append_assoc])
    (by simp; omega)

theorem rep_extent {bs : Nat} {L : dleaf} {gs : List AGroup} (h : Rep bs L gs)
    {pre post : List AGroup} {g : AGroup} (hg : gs = pre ++ g :: post)
    {epre epost : List AEntry} {e : AEntry} (he : g.ents = epre ++ e :: epost)
    {xpre xpost : List Nat} {x : Nat} (hx : e.exts = xpre ++ x :: xpost) :
    extent_at L (8 + 8 * (ext_count pre + ext_total epre + xpre.length)) = x := by
  apply h.extent_eq
  subst hg
  exact getElem?_mid _ (extent_table pre ++ ext_words epre ++ xpre) _
    (xpost ++ ext_words epost ++ extent_table post) _
    (by simp [extent_table, he, ext_words, hx, List.append_assoc])
    (by simp; omega)

theorem wf_append {a b : List AGroup} : WF (a ++ b) ↔ WF a ∧ WF b := by
  unfold WF
  constructor
  · intro h
    exact ⟨fun g hg => h g (List.mem_append_left _ hg), fun g hg => h g (List.mem_append_right _ hg)⟩
  · rintro ⟨h1, h2⟩ g hg
    rcases List.mem_append.1 hg with h | h
    · exact h1 g h
    · exact h2 g h

/-! ## Reads after writes -/

theorem store32_mem_eq {L : dleaf} {p v a : Nat} (h : a = p) :
    (store32 L p v).mem a = v % 2 ^ 32 := by
  simp [store32, h]

theorem store32_mem_ne {L : dleaf} {p v a : Nat} (h : a ≠ p) :
    (store32 L p v).mem a = L.mem a := by
  simp [store32, h]

@[simp] theorem set_dleaf_free_mem (L : dleaf) (v : Nat) : (set_dleaf_free L v).mem = L.mem := rfl
@[simp] theorem set_dleaf_free_groups (L : dleaf) (v : Nat) : (set_dleaf_free L v).groups = L.groups := rfl
@[simp] theorem set_dleaf_free_free (L : dleaf) (v : Nat) : (set_dleaf_free L v).free = v := rfl
@[simp] theorem set_dleaf_free_used (L : dleaf) (v : Nat) : (set_dleaf_free L v).used = L.used := rfl
@[simp] theorem set_dleaf_free_magic (L : dleaf) (v : Nat) : (set_dleaf_free L v).magic = L.magic := rfl
@[simp] theorem set_dleaf_used_mem (L : dleaf) (v : Nat) : (set_dleaf_used L v).mem = L.mem := rfl
@[simp] theorem set_dleaf_used_groups (L : dleaf) (v : Nat) : (set_dleaf_used L v).groups = L.groups := rfl
@[simp] theorem set_dleaf_used_free (L : dleaf) (v : Nat) : (set_dleaf_used L v).free = L.free := rfl
@[simp] theorem set_dleaf_used_used (L : dleaf) (v : Nat) : (set_dleaf_used L v).used = v := rfl
@[simp] theorem set_dleaf_used_magic (L : dleaf) (v : Nat) : (set_dleaf_used L v).magic = L.magic := rfl
@[simp] theorem set_dleaf_groups_mem_eq (L : dleaf) (v : Nat) : (set_dleaf_groups L v).mem = L.mem := rfl
@[simp] theorem set_dleaf_groups_groups (L : dleaf) (v : Nat) :
    (set_dleaf_groups L v).groups = to_be_u16 v := rfl
@[simp] theorem set_dleaf_groups_free (L : dleaf) (v : Nat) : (set_dleaf_groups L v).free = L.free := rfl
@[simp] theorem set_dleaf_groups_used (L : dleaf) (v : Nat) : (set_dleaf_groups L v).used = L.used := rfl
@[simp] theorem set_dleaf_groups_magic (L : dleaf) (v : Nat) : (set_dleaf_groups L v).magic = L.magic := rfl
@[simp] theorem store32_groups (L : dleaf) (p v : Nat) : (store32 L p v).groups = L.groups := rfl
@[simp] theorem store32_free (L : dleaf) (p v : Nat) : (store32 L p v).free = L.free := rfl
@[simp] theorem store32_used (L : dleaf) (p v : Nat) : (store32 L p v).used = L.used := rfl
@[simp] theorem store32_magic (L : dleaf) (p v : Nat) : (store32 L p v).magic = L.magic := rfl

theorem make_group_mod (k c : Nat) : make_group k c % 2 ^ 32 = make_group k c :=
  Nat.mod_eq_of_lt (make_group_lt k c)

theorem make_entry_mod (k c : Nat) : make_entry k c % 2 ^ 32 = make_entry k c :=
  Nat.mod_eq_of_lt (make_group_lt k c)

theorem inc_group_count_mem_eq {L : dleaf} {p a : Nat} {n : Int} (h : a = p) :
    (inc_group_count L p n).mem a =
      make_group (group_keyhi L p) (((group_count L p : Int) + n) % 256).toNat := by
  rw [inc_group_count, set_group_count, store32_mem_eq h, make_group_mod]

theorem inc_group_count_mem_ne {L : dleaf} {p a : Nat} {n : Int} (h : a ≠ p) :
    (inc_group_count L p n).mem a = L.mem a := by
  simp [inc_group_count, set_group_count, store32_mem_ne h]

theorem set_group_count_mem_eq {L : dleaf} {p a n : Nat} (h : a = p) :
    (set_group_count L p n).mem a = make_group (group_keyhi L p) n := by
  rw [set_group_count, store32_mem_eq h, make_group_mod]

theorem set_group_count_mem_ne {L : dleaf} {p a n : Nat} (h : a ≠ p) :
    (set_group_count L p n).mem a = L.mem a := by
  simp [set_group_count, store32_mem_ne h]

theorem inc_entry_limit_mem_eq {L : dleaf} {p a : Nat} {n : Int} (h : a = p) :
    (inc_entry_limit L p n).mem a =
      make_entry (entry_keylo L p) (((entry_limit L p : Int) + n) % 256).toNat := by
  rw [inc_entry_limit, store32_mem_eq h, make_entry_mod]

theorem inc_entry_limit_mem_ne {L : dleaf} {p a : Nat} {n : Int} (h : a ≠ p) :
    (inc_entry_limit L p n).mem a = L.mem a := by
  simp [inc_entry_limit, store32_mem_ne h]

theorem store_extent_mem_hi {L : dleaf} {p w a : Nat} (h : a = p) :
    (store_extent L p w).mem a = w / 2 ^ 32 % 2 ^ 32 := by
  subst h; simp [store_extent, store32]

theorem store_extent_mem_lo {L : dleaf} {p w a : Nat} (h : a = p + 4) :
    (store_extent L p w).mem a = w % 2 ^ 32 := by
  subst h; simp [store_extent, store32]

theorem store_extent_mem_ne {L : dleaf} {p w a : Nat} (h : a ≠ p) (h2 : a ≠ p + 4) :
    (store_extent L p w).mem a = L.mem a := by
  simp [store_extent, store32, h, h2]

@[simp] theorem inc_group_count_groups (L : dleaf) (p : Nat) (n : Int) :
    (inc_group_count L p n).groups = L.groups := rfl
@[simp] theorem inc_group_count_free (L : dleaf) (p : Nat) (n : Int) :
    (inc_group_count L p n).free = L.free := rfl
@[simp] theorem inc_group_count_used (L : dleaf) (p : Nat) (n : Int) :
    (inc_group_count L p n).used = L.used := rfl
@[simp] theorem inc_group_count_magic (L : dleaf) (p : Nat) (n : Int) :
    (inc_group_count L p n).magic = L.magic := rfl
@[simp] theorem set_group_count_groups (L : dleaf) (p n : Nat) :
    (set_group_count L p n).groups = L.groups := rfl
@[simp] theorem set_group_count_free (L : dleaf) (p n : Nat) :
    (set_group_count L p n).free = L.free := rfl
@[simp] theorem set_group_count_used (L : dleaf) (p n : Nat) :
    (set_group_count L p n).used = L.used := rfl
@[simp] theorem set_group_count_magic (L : dleaf) (p n : Nat) :
    (set_group_count L p n).magic = L.magic := rfl
@[simp] theorem inc_entry_limit_groups (L : dleaf) (p : Nat) (n : Int) :
    (inc_entry_limit L p n).groups = L.groups := rfl
@[simp] theorem inc_entry_limit_free (L : dleaf) (p : Nat) (n : Int) :
    (inc_entry_limit L p n).free = L.free := rfl
@[simp] theorem inc_entry_limit_used (L : dleaf) (p : Nat) (n : Int) :
    (inc_entry_limit L p n).used = L.used := rfl
@[simp] theorem inc_entry_limit_magic (L : dleaf) (p : Nat) (n : Int) :
    (inc_entry_limit L p n).magic = L.magic := rfl
@[simp] theorem store_extent_groups (L : dleaf) (p w : Nat) :
    (store_extent L p w).groups = L.groups := rfl
@[simp] theorem store_extent_free (L : dleaf) (p w : Nat) :
    (store_extent L p w).free = L.free := rfl
@[simp] theorem store_extent_used (L : dleaf) (p w : Nat) :
    (store_extent L p w).used = L.used := rfl
@[simp] theorem store_extent_magic (L : dleaf) (p w : Nat) :
    (store_extent L p w).magic = L.magic := rfl

theorem vecmove_mem_in {L : dleaf} {dst src n a : Nat} (h1 : dst ≤ a) (h2 : a < dst + 4 * n) :
    (vecmove L dst src n).mem a = L.mem (a - dst + src) := by
  simp [vecmove, memmove, h1, h2]

theorem vecmove_mem_out {L : dleaf} {dst src n a : Nat} (h : a < dst ∨ dst + 4 * n ≤ a) :
    (vecmove L dst src n).mem a = L.mem a := by
  have : ¬ (dst ≤ a ∧ a < dst + 4 * n) := by omega
  simp [vecmove, memmove, this]

@[simp] theorem vecmove_groups (L : dleaf) (d s n : Nat) : (vecmove L d s n).groups = L.groups := rfl
@[simp] theorem vecmove_free (L : dleaf) (d s n : Nat) : (vecmove L d s n).free = L.free := rfl
@[simp] theorem vecmove_used (L : dleaf) (d s n : Nat) : (vecmove L d s n).used = L.used := rfl
@[simp] theorem vecmove_magic (L : dleaf) (d s n : Nat) : (vecmove L d s n).magic = L.magic := rfl

/-- Field reads depend on the memory word only. -/
theorem group_keyhi_of_mem {L : dleaf} {p k c : Nat} (h : L.mem p = make_group k c)
    (hk : k < 2 ^ 24) : group_keyhi L p = k := by
  unfold group_keyhi; rw [h]; exact make_group_keyhi _ _ hk

theorem group_count_of_mem {L : dleaf} {p k c : Nat} (h : L.mem p = make_group k c)
    (hc : c < 256) : group_count L p = c := by
  unfold group_count; rw [h]; exact make_group_count _ _ hc

theorem entry_keylo_of_mem {L : dleaf} {p k c : Nat} (h : L.mem p = make_entry k c)
    (hk : k < 2 ^ 24) : entry_keylo L p = k := by
  unfold entry_keylo; rw [h]; exact make_group_keyhi _ _ hk

theorem entry_limit_of_mem {L : dleaf} {p k c : Nat} (h : L.mem p = make_entry k c)
    (hc : c < 256) : entry_limit L p = c := by
  unfold entry_limit; rw [h]; exact make_group_count _ _ hc

/-! ## Appending to the tables -/

theorem getElem?_snoc_cases {α : Type} (A : List α) (z : α) (i : Nat) (v : α)
    (h : (A ++ [z])[i]? = some v) :
    (i = A.length ∧ v = z) ∨ (i < A.length ∧ A[i]? = some v) := by
  rcases Nat.lt_trichotomy i A.length with hlt | heq | hgt
  · right; rw [List.getElem?_append_left hlt] at h; exact ⟨hlt, h⟩
  · left; subst heq; simp at h; exact ⟨rfl, h.symm⟩
  · rw [List.getElem?_eq_none (by simp; omega)] at h; cases h

theorem getElem?_update_snoc_cases {α : Type} (A B : List α) (x y z : α) (i : Nat) (v : α)
    (h : (A ++ y :: (B ++ [z]))[i]? = some v) :
    (i = A.length ∧ v = y) ∨ (i = A.length + 1 + B.length ∧ v = z) ∨
      (i ≠ A.length ∧ i < A.length + 1 + B.length ∧ (A ++ x :: B)[i]? = some v) := by
  rcases Nat.lt_trichotomy i A.length with hlt | heq | hgt
  · right; right
    rw [List.getElem?_append_left hlt] at h
    rw [List.getElem?_append_left hlt]
    exact ⟨by omega, by omega, h⟩
  · left; subst heq
    rw [getElem?_mid _ A y (B ++ [z]) _ rfl rfl] at h
    exact ⟨rfl, (Option.some.inj h).symm⟩
  · right
    rw [List.getElem?_append_right (by omega)] at h
    obtain ⟨j, hj⟩ : ∃ j, i - A.length = j + 1 := ⟨i - A.length - 1, by omega⟩
    rw [hj, List.getElem?_cons_succ] at h
    rcases getElem?_snoc_cases B z j v h with ⟨h1, h2⟩ | ⟨h1, h2⟩
    · left; exact ⟨by omega, h2⟩
    · right
      refine ⟨by omega, by omega, ?_⟩
      rw [List.getElem?_append_right (by omega), hj, List.getElem?_cons_succ]; exact h2

/-- The leaf after an entry with one extent is appended to the last group. -/
theorem rep_add_same {bs : Nat} {L M : dleaf} {pre : List AGroup} {g : AGroup} {kl ext : Nat}
    (hrep : Rep bs L (pre ++ [g])) (hx : ext < 2 ^ 64)
    (hfit : 8 + 8 * (ext_count pre + ext_total g.ents + 1)
        + 4 * (pre.length + 1 + ent_count pre + g.ents.length + 1) ≤ bs)
    (hgroups : M.groups = L.groups)
    (hfree : M.free = 8 + 8 * (ext_count pre + ext_total g.ents + 1))
    (hused : M.used + 4 * (pre.length + 1 + ent_count pre + g.ents.length + 1) = bs)
    (hmem : ∀ a, M.mem a =
      if a + 4 * (pre.length + 1 + ent_count pre + g.ents.length + 1) = bs then
        make_entry kl (ext_total g.ents + 1)
      else if a = 8 + 8 * (ext_count pre + ext_total g.ents) + 4 then ext % 2 ^ 32
      else if a = 8 + 8 * (ext_count pre + ext_total g.ents) then ext / 2 ^ 32 % 2 ^ 32
      else if a + 4 * (pre.length + 1) = bs then make_group g.keyhi (g.ents.length + 1)
      else L.mem a) :
    Rep bs M (pre ++ [⟨g.keyhi, g.ents ++ [⟨kl, [ext]⟩]⟩]) := by
  have hsz := hrep.size_le
  constructor
  · rw [hgroups, hrep.groups_eq]; simp
  · intro i v p hv hp
    have hnew : dict_table (pre ++ [⟨g.keyhi, g.ents ++ [⟨kl, [ext]⟩]⟩]) =
        group_table pre ++ make_group g.keyhi (g.ents.length + 1) ::
          ((entry_table pre ++ entry_words 0 g.ents) ++ [make_entry kl (ext_total g.ents + 1)]) := by
      simp [dict_table, group_table, entry_table, entry_words_append, entry_words]
    have hold : dict_table (pre ++ [g]) =
        group_table pre ++ make_group g.keyhi g.ents.length ::
          (entry_table pre ++ entry_words 0 g.ents) := by
      simp [dict_table, group_table, entry_table]
    rw [hnew] at hv
    rcases getElem?_update_snoc_cases _ _ (make_group g.keyhi g.ents.length) _ _ i v hv with
      ⟨h1, h2⟩ | ⟨h1, h2⟩ | ⟨h1, h2, h3⟩
    · simp at h1
      rw [hmem, if_neg (by omega), if_neg (by omega), if_neg (by omega), if_pos (by omega), h2]
    · simp at h1
      rw [hmem, if_pos (by omega), h2]
    · simp at h1 h2
      rw [← hold] at h3
      rw [hmem, if_neg (by omega), if_neg (by omega), if_neg (by omega), if_neg (by omega)]
      exact hrep.dict_eq i v p h3 hp
  · intro i v hv
    have hnew : extent_table (pre ++ [⟨g.keyhi, g.ents ++ [⟨kl, [ext]⟩]⟩]) =
        extent_table (pre ++ [g]) ++ [ext] := by
      simp [extent_table, ext_words]
    rw [hnew] at hv
    rcases getElem?_snoc_cases _ _ i v hv with ⟨h1, h2⟩ | ⟨h1, h2⟩
    · simp [ext_count] at h1
      unfold extent_at
      rw [hmem, hmem, if_neg (by omega), if_neg (by omega), if_pos (by omega),
        if_neg (by omega), if_pos (by omega), h2]
      omega
    · simp [ext_count] at h1
      have := hrep.extent_eq i v h2
      unfold extent_at at this ⊢
      rw [hmem, if_neg (by omega), if_neg (by omega), if_neg (by omega), if_neg (by omega)]
      rw [hmem, if_neg (by omega), if_neg (by omega), if_neg (by omega), if_neg (by omega)]
      exact this
  · rw [hfree]; simp [ext_count, ext_total]; omega
  · simp [ent_count, to_be_u16]; omega
  · simp [ent_count, ext_count, ext_total]; omega
  · exact hsz

theorem getElem?_insert_snoc_cases {α : Type} (A B : List α) (y z : α) (i : Nat) (v : α)
    (h : (A ++ y :: (B ++ [z]))[i]? = some v) :
    (i < A.length ∧ (A ++ B)[i]? = some v) ∨ (i = A.length ∧ v = y) ∨
      (A.length < i ∧ i < A.length + 1 + B.length ∧ (A ++ B)[i - 1]? = some v) ∨
      (i = A.length + 1 + B.length ∧ v = z) := by
  rcases Nat.lt_trichotomy i A.length with hlt | heq | hgt
  · left
    rw [List.getElem?_append_left hlt] at h
    rw [List.getElem?_append_left hlt]
    exact ⟨hlt, h⟩
  · right; left; subst heq
    rw [getElem?_mid _ A y (B ++ [z]) _ rfl rfl] at h
    exact ⟨rfl, (Option.some.inj h).symm⟩
  · right; right
    rw [List.getElem?_append_right (by omega)] at h
    obtain ⟨j, hj⟩ : ∃ j, i - A.length = j + 1 := ⟨i - A.length - 1, by omega⟩
    rw [hj, List.getElem?_cons_succ] at h
    rcases getElem?_snoc_cases B z j v h with ⟨h1, h2⟩ | ⟨h1, h2⟩
    · right; exact ⟨by omega, h2⟩
    · left
      refine ⟨by omega, by omega, ?_⟩
      rw [List.getElem?_append_right (by omega)]
      have : i - 1 - A.length = j := by omega
      rw [this]; exact h2

/-- The leaf after a new group with one entry and one extent is appended. -/
theorem rep_add_new {bs : Nat} {L M : dleaf} {gs : List AGroup} {kh kl ext : Nat}
    (hrep : Rep bs L gs) (hx : ext < 2 ^ 64)
    (hfit : 8 + 8 * (ext_count gs + 1) + 4 * (gs.length + ent_count gs + 2) ≤ bs)
    (hgroups : M.groups = gs.length + 1)
    (hfree : M.free = 8 + 8 * (ext_count gs + 1))
    (hused : M.used + 4 * (gs.length + ent_count gs + 2) = bs)
    (hmem : ∀ a, M.mem a =
      if a + 4 * (gs.length + ent_count gs + 2) = bs then make_entry kl 1
      else if a = 8 + 8 * ext_count gs + 4 then ext % 2 ^ 32
      else if a = 8 + 8 * ext_count gs then ext / 2 ^ 32 % 2 ^ 32
      else if a + 4 * (gs.length + 1) = bs then make_group kh 1
      else if bs ≤ a + 4 * (gs.length + ent_count gs + 1) ∧ a + 4 * (gs.length + 1) < bs then
        L.mem (a + 4)
      else L.mem a) :
    Rep bs M (gs ++ [⟨kh, [⟨kl, [ext]⟩]⟩]) := by
  have hsz := hrep.size_le
  constructor
  · rw [hgroups]; simp
  · intro i v p hv hp
    have hnew : dict_table (gs ++ [⟨kh, [⟨kl, [ext]⟩]⟩]) =
        group_table gs ++ make_group kh 1 :: (entry_table gs ++ [make_entry kl 1]) := by
      simp [dict_table, group_table, entry_table, entry_words]
    rw [hnew] at hv
    rcases getElem?_insert_snoc_cases _ _ _ _ i v hv with
      ⟨h1, h2⟩ | ⟨h1, h2⟩ | ⟨h1, h2, h3⟩ | ⟨h1, h2⟩
    · simp at h1
      rw [hmem, if_neg (by omega), if_neg (by omega), if_neg (by omega), if_neg (by omega),
        if_neg (by omega)]
      exact hrep.dict_eq i v p h2 hp
    · simp at h1
      rw [hmem, if_neg (by omega), if_neg (by omega), if_neg (by omega), if_pos (by omega), h2]
    · simp at h1 h2
      rw [hmem, if_neg (by omega), if_neg (by omega), if_neg (by omega), if_neg (by omega),
        if_pos (by omega)]
      exact hrep.dict_eq (i - 1) v (p + 4) h3 (by omega)
    · simp at h1
      rw [hmem, if_pos (by omega), h2]
  · intro i v hv
    have hnew : extent_table (gs ++ [⟨kh, [⟨kl, [ext]⟩]⟩]) = extent_table gs ++ [ext] := by
      simp [extent_table, ext_words]
    rw [hnew] at hv
    rcases getElem?_snoc_cases _ _ i v hv with ⟨h1, h2⟩ | ⟨h1, h2⟩
    · simp at h1
      unfold extent_at
      rw [hmem, hmem, if_neg (by omega), if_neg (by omega), if_pos (by omega),
        if_neg (by omega), if_pos (by omega), h2]
      omega
    · simp at h1
      have := hrep.extent_eq i v h2
      unfold extent_at at this ⊢
      rw [hmem, if_neg (by omega), if_neg (by omega), if_neg (by omega), if_neg (by omega),
        if_neg (by omega)]
      rw [hmem, if_neg (by omega), if_neg (by omega), if_neg (by omega), if_neg (by omega),
        if_neg (by omega)]
      exact this
  · rw [hfree]; simp [ext_count, ext_total]
  · simp [ent_count, to_be_u16]; omega
  · simp [ent_count, ext_count, ext_total]; omega
  · exact hsz

/-! ## `dwalk_add` -/

theorem add_new_mem {bs : Nat} {L : dleaf} {w : dwalk} {A B C : Nat} (ext kh kl lim : Nat)
    (hcg : w.group + 4 * A = bs) (hce : w.entry + 4 * B = bs) (hcx : w.extent = 8 + 8 * C)
    (hAB : A ≤ B) (hfit : 8 + 8 * (C + 1) + 4 * B + 8 ≤ bs) (hlim : lim = 0)
    (g' u f : Nat) (a : Nat) :
    (inc_entry_limit
          (store_extent
            (set_dleaf_free (inc_group_count
                (store32
                  (set_dleaf_used (set_dleaf_groups
                      (store32 (vecmove L (w.entry - 4) w.entry ((w.group - w.entry) / 4))
                        (w.group - 4) (make_group kh 0)) g') u)
                  (w.entry - 4 - 4) (make_entry kl lim))
                (w.group - 4) 1) f)
            w.extent ext) (w.entry - 4 - 4) 1).mem a =
        if a + 4 * (B + 2) = bs then make_entry kl 1
        else if a = 8 + 8 * C + 4 then ext % 2 ^ 32
        else if a = 8 + 8 * C then ext / 2 ^ 32 % 2 ^ 32
        else if a + 4 * (A + 1) = bs then make_group kh 1
        else if bs ≤ a + 4 * (B + 1) ∧ a + 4 * (A + 1) < bs then L.mem (a + 4)
        else L.mem a := by
  subst hlim
  have hn : (w.group - w.entry) / 4 = B - A := by omega
  rw [hn]
  by_cases h1 : a + 4 * (B + 2) = bs
  · rw [if_pos h1]
    simp (disch := omega) only [inc_entry_limit_mem_eq, inc_entry_limit_mem_ne,
      store_extent_mem_hi, store_extent_mem_lo, store_extent_mem_ne, inc_group_count_mem_eq,
      inc_group_count_mem_ne, store32_mem_eq, store32_mem_ne, set_dleaf_free_mem, set_dleaf_used_mem, entry_keylo, entry_limit,
      group_keyhi, group_count, set_dleaf_groups_mem_eq]
    simp only [make_entry]; omega
  rw [if_neg h1]
  by_cases h2 : a = 8 + 8 * C + 4
  · rw [if_pos h2]
    simp (disch := omega) only [inc_entry_limit_mem_eq, inc_entry_limit_mem_ne,
      store_extent_mem_hi, store_extent_mem_lo, store_extent_mem_ne, inc_group_count_mem_eq,
      inc_group_count_mem_ne, store32_mem_eq, store32_mem_ne, set_dleaf_free_mem, set_dleaf_used_mem]
  rw [if_neg h2]
  by_cases h3 : a = 8 + 8 * C
  · rw [if_pos h3]
    simp (disch := omega) only [inc_entry_limit_mem_eq, inc_entry_limit_mem_ne,
      store_extent_mem_hi, store_extent_mem_lo, store_extent_mem_ne, inc_group_count_mem_eq,
      inc_group_count_mem_ne, store32_mem_eq, store32_mem_ne, set_dleaf_free_mem, set_dleaf_used_mem]
  rw [if_neg h3]
  by_cases h4 : a + 4 * (A + 1) = bs
  · rw [if_pos h4]
    simp (disch := omega) only [inc_entry_limit_mem_eq, inc_entry_limit_mem_ne,
      store_extent_mem_hi, store_extent_mem_lo, store_extent_mem_ne, inc_group_count_mem_eq,
      inc_group_count_mem_ne, store32_mem_eq, store32_mem_ne, set_dleaf_free_mem, set_dleaf_used_mem, group_keyhi, group_count,
      set_dleaf_groups_mem_eq]
    simp only [make_group]; omega
  rw [if_neg h4]
  by_cases h5 : bs ≤ a + 4 * (B + 1) ∧ a + 4 * (A + 1) < bs
  · rw [if_pos h5]
    simp (disch := omega) only [inc_entry_limit_mem_eq, inc_entry_limit_mem_ne,
      store_extent_mem_hi, store_extent_mem_lo, store_extent_mem_ne, inc_group_count_mem_eq,
      inc_group_count_mem_ne, store32_mem_eq, store32_mem_ne, set_dleaf_free_mem, set_dleaf_used_mem, set_dleaf_groups_mem_eq,
      vecmove_mem_in]
    congr 1; omega
  rw [if_neg h5]
  simp (disch := omega) only [inc_entry_limit_mem_eq, inc_entry_limit_mem_ne,
      store_extent_mem_hi, store_extent_mem_lo, store_extent_mem_ne, inc_group_count_mem_eq,
      inc_group_count_mem_ne, store32_mem_eq, store32_mem_ne, set_dleaf_free_mem, set_dleaf_used_mem, set_dleaf_groups_mem_eq,
      vecmove_mem_out]

theorem add_same_mem {bs : Nat} {L : dleaf} {w : dwalk} {A B C D kh n T : Nat} (ext kl : Nat)
    (hcg : w.group + A = bs) (hce : w.entry + B = bs) (hcx : w.extent = 8 + 8 * C)
    (hcb : w.exbase = 8 + 8 * D)
    (hT : T + D = C) (hAB : A + 4 ≤ B) (hfit : 8 + 8 * (C + 1) + B + 4 ≤ bs)
    (hgrp : L.mem w.group = make_group kh n) (hkh : kh < 2 ^ 24) (hn : n < 255)
    (hT' : T < 255) (u f : Nat) (a : Nat) :
    (inc_entry_limit
          (store_extent
            (set_dleaf_free (inc_group_count
                (store32 (set_dleaf_used L u)
                  (w.entry - 4) (make_entry kl ((w.extent - w.exbase) / 8)))
                w.group 1) f)
            w.extent ext) (w.entry - 4) 1).mem a =
        if a + (B + 4) = bs then make_entry kl (T + 1)
        else if a = 8 + 8 * C + 4 then ext % 2 ^ 32
        else if a = 8 + 8 * C then ext / 2 ^ 32 % 2 ^ 32
        else if a + A = bs then make_group kh (n + 1)
        else L.mem a := by
  by_cases h1 : a + (B + 4) = bs
  · rw [if_pos h1]
    simp (disch := omega) only [inc_entry_limit_mem_eq, inc_entry_limit_mem_ne,
      store_extent_mem_hi, store_extent_mem_lo, store_extent_mem_ne, inc_group_count_mem_eq,
      inc_group_count_mem_ne, store32_mem_eq, store32_mem_ne, set_dleaf_free_mem, set_dleaf_used_mem, entry_keylo, entry_limit,
      group_keyhi, group_count]
    simp only [make_entry, hcx, hcb]; omega
  rw [if_neg h1]
  by_cases h2 : a = 8 + 8 * C + 4
  · rw [if_pos h2]
    simp (disch := omega) only [inc_entry_limit_mem_eq, inc_entry_limit_mem_ne,
      store_extent_mem_hi, store_extent_mem_lo, store_extent_mem_ne, inc_group_count_mem_eq,
      inc_group_count_mem_ne, store32_mem_eq, store32_mem_ne, set_dleaf_free_mem, set_dleaf_used_mem]
  rw [if_neg h2]
  by_cases h3 : a = 8 + 8 * C
  · rw [if_pos h3]
    simp (disch := omega) only [inc_entry_limit_mem_eq, inc_entry_limit_mem_ne,
      store_extent_mem_hi, store_extent_mem_lo, store_extent_mem_ne, inc_group_count_mem_eq,
      inc_group_count_mem_ne, store32_mem_eq, store32_mem_ne, set_dleaf_free_mem, set_dleaf_used_mem]
  rw [if_neg h3]
  by_cases h4 : a + A = bs
  · rw [if_pos h4]
    simp (disch := omega) only [inc_entry_limit_mem_eq, inc_entry_limit_mem_ne,
      store_extent_mem_hi, store_extent_mem_lo, store_extent_mem_ne, inc_group_count_mem_eq,
      inc_group_count_mem_ne, store32_mem_eq, store32_mem_ne, set_dleaf_free_mem, set_dleaf_used_mem, group_keyhi, group_count]
    rw [hgrp]
    simp only [make_group]; omega
  rw [if_neg h4]
  simp (disch := omega) only [inc_entry_limit_mem_eq, inc_entry_limit_mem_ne,
      store_extent_mem_hi, store_extent_mem_lo, store_extent_mem_ne, inc_group_count_mem_eq,
      inc_group_count_mem_ne, store32_mem_eq, store32_mem_ne, set_dleaf_free_mem, set_dleaf_used_mem]

/-- The assertions of `dwalk_add` and its header stores when an entry is added,
for a leaf whose `free` and `used` fields delimit `X` extents and `D` index words. -/
theorem add_asserts {bs free used X D : Nat} (hfree : free = 8 + 8 * X)
    (hused : used = (bs - 4 * D) % 65536) (hsz : bs ≤ 65536)
    (hfit : 8 + 8 * (X + 1) + 4 * (D + 1) ≤ bs) :
    free ≤ (used + 2 ^ 64 - 4) % 2 ^ 64 ∧
    free + 8 ≤ (used + 2 ^ 32 - 4) % 2 ^ 32 ∧
    (used + 2 ^ 32 - 4) % 2 ^ 32 % 65536 + 4 * (D + 1) = bs ∧
    (free + 8) % 65536 = 8 + 8 * (X + 1) := by
  subst hfree hused
  refine ⟨?_, ?_, ?_, ?_⟩ <;> omega

/-- The assertions of `dwalk_add` and its header stores when a group and an entry
are added. -/
theorem add_asserts_new {bs free used X D : Nat} (hfree : free = 8 + 8 * X)
    (hused : used = (bs - 4 * D) % 65536) (hsz : bs ≤ 65536)
    (hfit : 8 + 8 * (X + 1) + 4 * (D + 2) ≤ bs) :
    free ≤ ((used + 2 ^ 32 - 4) % 2 ^ 32 + 2 ^ 64 - 4) % 2 ^ 64 ∧
    free + 8 ≤ ((used + 2 ^ 32 - 4) % 2 ^ 32 + 2 ^ 32 - 4) % 2 ^ 32 ∧
    ((used + 2 ^ 32 - 4) % 2 ^ 32 + 2 ^ 32 - 4) % 2 ^ 32 % 65536 + 4 * (D + 2) = bs := by
  subst hfree hused
  refine ⟨?_, ?_, ?_⟩ <;> omega

/-- What `dwalk_add` computes when its checks pass and the entry joins the
current group. -/
theorem dwalk_add_same_eval {bs : Nat} {L : dleaf} {w : dwalk} {key A B C D kh n T : Nat}
    (ext : Nat)
    (hcg : w.group + A = bs) (hce : w.entry + B = bs) (hcx : w.extent = 8 + 8 * C)
    (hcb : w.exbase = 8 + 8 * D)
    (hT : T + D = C) (hAB : A + 4 ≤ B) (hfit : 8 + 8 * (C + 1) + B + 4 ≤ bs)
    (hgrp : L.mem w.group = make_group kh n) (hkh : kh < 2 ^ 24) (hn : n < 255)
    (hT' : T < 255) (hhi : kh = key / 2 ^ 24) (hg0 : L.groups ≠ 0)
    (hidx : dwalk_index L w ≠ key)
    (ha1 : L.free ≤ (L.used + 2 ^ 64 - 4) % 2 ^ 64)
    (ha2 : L.free + 8 ≤ (L.used + 2 ^ 32 - 4) % 2 ^ 32) :
    ∃ L', dwalk_add L w key ext =
        some (L', dwalk.mk w.gdict w.gstop w.group w.estop (w.entry - 4) w.exbase
          (w.extent + 8) w.exstop) ∧
      L'.magic = L.magic ∧ L'.groups = L.groups ∧
      L'.free = to_be_u16 (L.free + 8) ∧
      L'.used = to_be_u16 ((L.used + 2 ^ 32 - 4) % 2 ^ 32) ∧
      ∀ a, L'.mem a =
        if a + (B + 4) = bs then make_entry (key % 2 ^ 24) (T + 1)
        else if a = 8 + 8 * C + 4 then ext % 2 ^ 32
        else if a = 8 + 8 * C then ext / 2 ^ 32 % 2 ^ 32
        else if a + A = bs then make_group kh (n + 1)
        else L.mem a := by
  have hgk' : group_keyhi L w.group = kh := group_keyhi_of_mem hgrp hkh
  have hgc' : group_count L w.group = n := group_count_of_mem hgrp (by omega)
  have hc1 : ¬ (L.groups = 0 ∨ kh ≠ key / 2 ^ 24 % 2 ^ 32 ∨ n ≥ 255) := by omega
  have hc0 : (L.groups = 0 ∨ dwalk_index L w ≠ key) := Or.inr hidx
  unfold dwalk_add dwalk_add_entry
  simp only [dleaf_groups, hgk', hgc', MAX_GROUP_ENTRIES, key_shift, key_and, hc1, hc0,
    not_true, not_false_eq_true, if_true, if_false, ha1, ha2, sizeof_entry, sizeof_extent,
    ite_true, ite_false]
  refine ⟨_, rfl, ?_, ?_, ?_, ?_, fun a => ?_⟩
  · rw [inc_entry_limit_magic, store_extent_magic, set_dleaf_free_magic, inc_group_count_magic,
      store32_magic, set_dleaf_used_magic]
  · rw [inc_entry_limit_groups, store_extent_groups, set_dleaf_free_groups,
      inc_group_count_groups, store32_groups, set_dleaf_used_groups]
  · rw [inc_entry_limit_free, store_extent_free, set_dleaf_free_free]
  · rw [inc_entry_limit_used, store_extent_used, set_dleaf_free_used, inc_group_count_used,
      store32_used, set_dleaf_used_used]
  exact add_same_mem ext (key % 2 ^ 24) hcg hce hcx hcb hT hAB hfit hgrp hkh hn hT' _ _ a

/-- What `dwalk_add` computes when its checks pass and a new group is made. -/
theorem dwalk_add_new_eval {bs : Nat} {L : dleaf} {w : dwalk} {key A B C : Nat} (ext : Nat)
    (hcg : w.group + 4 * A = bs) (hce : w.entry + 4 * B = bs) (hcx : w.extent = 8 + 8 * C)
    (hAB : A ≤ B) (hfit : 8 + 8 * (C + 1) + 4 * B + 8 ≤ bs)
    (hkm : key / 2 ^ 24 % 2 ^ 32 = key / 2 ^ 24)
    (hc0 : L.groups = 0 ∨ dwalk_index L w ≠ key)
    (hc1 : L.groups = 0 ∨ group_keyhi L w.group ≠ key / 2 ^ 24 ∨ group_count L w.group ≥ 255)
    (hexb : (w.exbase + (if L.groups ≠ 0 then
          8 * entry_limit (vecmove L (w.entry - 4) w.entry ((w.group - w.entry) / 4)) (w.entry - 4)
        else 0)) = w.extent)
    (ha1 : L.free ≤ (L.used + 2 ^ 64 - 4) % 2 ^ 64)
    (ha2 : L.free ≤ ((L.used + 2 ^ 32 - 4) % 2 ^ 32 + 2 ^ 64 - 4) % 2 ^ 64)
    (ha3 : L.free + 8 ≤ ((L.used + 2 ^ 32 - 4) % 2 ^ 32 + 2 ^ 32 - 4) % 2 ^ 32) :
    ∃ L', dwalk_add L w key ext =
        some (L', dwalk.mk w.gdict w.gstop (w.group - 4) w.estop (w.entry - 4 - 4) w.extent
          (w.extent + 8) w.exstop) ∧
      L'.magic = L.magic ∧ L'.groups = to_be_u16 (L.groups + 1) ∧
      L'.free = to_be_u16 (L.free + 8) ∧
      L'.used = to_be_u16 (((L.used + 2 ^ 32 - 4) % 2 ^ 32 + 2 ^ 32 - 4) % 2 ^ 32) ∧
      ∀ a, L'.mem a =
        if a + 4 * (B + 2) = bs then make_entry (key % 2 ^ 24) 1
        else if a = 8 + 8 * C + 4 then ext % 2 ^ 32
        else if a = 8 + 8 * C then ext / 2 ^ 32 % 2 ^ 32
        else if a + 4 * (A + 1) = bs then make_group (key / 2 ^ 24) 1
        else if bs ≤ a + 4 * (B + 1) ∧ a + 4 * (A + 1) < bs then L.mem (a + 4)
        else L.mem a := by
  unfold dwalk_add dwalk_add_entry
  simp only [dleaf_groups, MAX_GROUP_ENTRIES, key_shift, key_and, hkm, hc1, hc0,
    not_true, not_false_eq_true, if_true, if_false, ha1, ha2, ha3, sizeof_entry, sizeof_extent,
    sizeof_group, ite_true, ite_false, hexb]
  refine ⟨_, rfl, ?_, ?_, ?_, ?_, fun a => ?_⟩
  · rw [inc_entry_limit_magic, store_extent_magic, set_dleaf_free_magic, inc_group_count_magic,
      store32_magic, set_dleaf_used_magic, set_dleaf_groups_magic, store32_magic, vecmove_magic]
  · rw [inc_entry_limit_groups, store_extent_groups, set_dleaf_free_groups,
      inc_group_count_groups, store32_groups, set_dleaf_used_groups, set_dleaf_groups_groups]
  · rw [inc_entry_limit_free, store_extent_free, set_dleaf_free_free]
  · rw [inc_entry_limit_used, store_extent_used, set_dleaf_free_used, inc_group_count_used,
      store32_used, set_dleaf_used_used]
  exact add_new_mem (L := L) (A := A) (B := B) (C := C) ext (key / 2 ^ 24) (key % 2 ^ 24)
      ((w.extent - w.extent) / 8) hcg hce hcx hAB hfit (by simp) _ _ _ a

theorem exists_snoc {α : Type} {l : List α} (h : l ≠ []) : ∃ a t, l = a ++ [t] := by
  rcases List.eq_nil_or_concat l with h' | ⟨a, t, h'⟩
  · exact absurd h' h
  · exact ⟨a, t, by simpa using h'⟩

/-- Reads at an end-of-leaf cursor: the last group and its lowest entry. -/
theorem addcur_reads {bs : Nat} {L : dleaf} {pre : List AGroup} {g : AGroup} {w : dwalk}
    (hrep : Rep bs L (pre ++ [g])) (hwf : WF (pre ++ [g])) (hcur : AddCur bs (pre ++ [g]) w) :
    L.mem w.group = make_group g.keyhi g.ents.length ∧
    entry_limit L w.entry = ext_total g.ents ∧
    ∃ epre e, g.ents = epre ++ [e] ∧ entry_keylo L w.entry = e.keylo := by
  obtain ⟨hgk, hne, hgl, hgt, hents⟩ := hwf g (by simp)
  obtain ⟨epre, e, he⟩ := exists_snoc hne
  have hcg := hcur.1
  have hce := hcur.2.1
  simp only [List.length_append, List.length_singleton, ent_count_append, ent_count,
    Nat.add_zero, he] at hcg hce
  have hent := rep_entry hrep (rfl : pre ++ [g] = pre ++ g :: [])
    (show g.ents = epre ++ e :: [] from he) (p := w.entry)
    (by simp only [List.length_append, List.length_singleton]; omega)
  refine ⟨rep_group hrep (rfl : pre ++ [g] = pre ++ g :: []) hcg, ?_, epre, e, he, ?_⟩
  · rw [he, ext_total_append]
    simp only [ext_total, Nat.add_zero]
    refine entry_limit_of_mem hent ?_
    rw [he, ext_total_append] at hgt
    simp only [ext_total, Nat.add_zero] at hgt
    omega
  · exact entry_keylo_of_mem hent (hents e (by simp [he])).1

theorem addcur_sizes {bs : Nat} {pre : List AGroup} {g : AGroup} {w : dwalk}
    (hcur : AddCur bs (pre ++ [g]) w) :
    w.group + 4 * (pre.length + 1) = bs ∧
    w.entry + 4 * (pre.length + 1 + ent_count pre + g.ents.length) = bs ∧
    w.extent = 8 + 8 * (ext_count pre + ext_total g.ents) ∧
    w.exbase = 8 + 8 * ext_count pre := by
  obtain ⟨h1, h2, h3, h4⟩ := hcur
  simp only [List.length_append, List.length_singleton, ent_count_append, ent_count,
    ext_count_append, ext_count, Nat.add_zero, List.dropLast_concat] at h1 h2 h3 h4
  exact ⟨h1, by omega, h3, h4⟩

theorem last_key_lt {pre : List AGroup} {g : AGroup} {epre : List AEntry} {e : AEntry}
    {key : Nat} (he : g.ents = epre ++ [e])
    (hlt : ∀ p ∈ leaf_pairs (pre ++ [g]), p.1 < key) : g.keyhi * 2 ^ 24 + e.keylo < key := by
  have := hlt (g.keyhi * 2 ^ 24 + e.keylo, e.exts) (by simp [leaf_pairs, entry_pairs, he])
  simpa using this

theorem dwalk_add_same {bs : Nat} {L : dleaf} {pre : List AGroup} {g : AGroup} {w : dwalk}
    {ext : Nat} (key : Nat)
    (hrep : Rep bs L (pre ++ [g])) (hwf : WF (pre ++ [g])) (hcur : AddCur bs (pre ++ [g]) w)
    (hx : ext < 2 ^ 64) (hhi : g.keyhi = key / 2 ^ 24)
    (hcnt : g.ents.length < 255) (hlim : ext_total g.ents < 255)
    (hlt : ∀ p ∈ leaf_pairs (pre ++ [g]), p.1 < key)
    (hfit : 8 + 8 * (ext_count (pre ++ [g]) + 1)
        + 4 * ((pre ++ [g]).length + ent_count (pre ++ [g]) + 1) ≤ bs) :
    ∃ L' w', dwalk_add L w key ext = some (L', w') ∧
      Rep bs L' (pre ++ [⟨g.keyhi, g.ents ++ [⟨key % 2 ^ 24, [ext]⟩]⟩]) ∧
      AddCur bs (pre ++ [⟨g.keyhi, g.ents ++ [⟨key % 2 ^ 24, [ext]⟩]⟩]) w' ∧
      L'.magic = L.magic ∧ L'.groups = L.groups := by
  obtain ⟨hgrp, -, epre, e, he, hkl⟩ := addcur_reads hrep hwf hcur
  obtain ⟨hcg, hce, hcx, hcb⟩ := addcur_sizes hcur
  have hgk := (hwf g (by simp)).1
  have hlast := last_key_lt he hlt
  have hl : 1 ≤ g.ents.length := by rw [he]; simp
  have hfree := hrep.free_eq
  have hused := hrep.used_eq
  have hgroups := hrep.groups_eq
  simp only [List.length_append, List.length_singleton, ent_count_append, ent_count,
    ext_count_append, ext_count, Nat.add_zero, extent_table_length,
    dict_table_length, to_be_u16] at hfit hfree hused hgroups
  obtain ⟨ha1, ha2, hu', hf'⟩ := add_asserts hfree hused hrep.size_le (by omega)
  have hidx : dwalk_index L w ≠ key := by
    unfold dwalk_index
    rw [get_index_eq, group_keyhi_of_mem hgrp hgk, hkl]; omega
  obtain ⟨L', hev, hmag, hgr, hfr, hus, hmem⟩ :=
    dwalk_add_same_eval (A := 4 * (pre.length + 1))
      (B := 4 * (pre.length + 1 + ent_count pre + g.ents.length))
      (C := ext_count pre + ext_total g.ents) (D := ext_count pre) (T := ext_total g.ents)
      ext hcg (by omega) hcx hcb (by omega) (by omega) (by omega) hgrp hgk hcnt hlim hhi
      (by omega) hidx ha1 ha2
  refine ⟨L', _, hev, rep_add_same hrep hx (by omega) ?_ ?_ ?_ ?_, ?_, hmag, hgr⟩
  · exact hgr
  · rw [hfr, to_be_u16, hf']
  · rw [hus, to_be_u16]; omega
  · intro a
    rw [hmem a]
    simp only [Nat.mul_add, Nat.add_assoc, Nat.mul_one]
  · refine ⟨?_, ?_, ?_, ?_⟩ <;>
      simp [ent_count, ext_count, ext_total, hcx, hcb] <;> omega

theorem dwalk_add_new {bs : Nat} {L : dleaf} {gs : List AGroup} {w : dwalk} {key ext : Nat}
    (hrep : Rep bs L gs) (hwf : WF gs) (hcur : AddCur bs gs w)
    (hk : key < 2 ^ 48) (hx : ext < 2 ^ 64)
    (hnew : gs = [] ∨ ∃ pre g, gs = pre ++ [g] ∧ (g.keyhi ≠ key / 2 ^ 24 ∨ g.ents.length ≥ 255))
    (hlt : ∀ p ∈ leaf_pairs gs, p.1 < key)
    (hfit : 8 + 8 * (ext_count gs + 1) + 4 * (gs.length + ent_count gs + 2) ≤ bs) :
    ∃ L' w', dwalk_add L w key ext = some (L', w') ∧
      Rep bs L' (gs ++ [⟨key / 2 ^ 24, [⟨key % 2 ^ 24, [ext]⟩]⟩]) ∧
      AddCur bs (gs ++ [⟨key / 2 ^ 24, [⟨key % 2 ^ 24, [ext]⟩]⟩]) w' ∧
      L'.magic = L.magic ∧ L'.groups = L.groups + 1 := by
  have hfree := hrep.free_eq
  have hused := hrep.used_eq
  have hgroups := hrep.groups_eq
  simp only [extent_table_length, dict_table_length, to_be_u16] at hfree hused
  obtain ⟨ha1, -, -, hf'⟩ := add_asserts hfree hused hrep.size_le (by omega)
  obtain ⟨ha2, ha3, hu'⟩ := add_asserts_new hfree hused hrep.size_le hfit
  have hkm : key / 2 ^ 24 % 2 ^ 32 = key / 2 ^ 24 := by omega
  have hfacts : (L.groups = 0 ∨ dwalk_index L w ≠ key) ∧
      (L.groups = 0 ∨ group_keyhi L w.group ≠ key / 2 ^ 24
        ∨ group_count L w.group ≥ 255) ∧
      (w.exbase + (if L.groups ≠ 0 then
          8 * entry_limit (vecmove L (w.entry - 4) w.entry ((w.group - w.entry) / 4)) (w.entry - 4)
        else 0)) = w.extent := by
    rcases hnew with hnil | ⟨pre, g, hg, hcond⟩
    · subst hnil
      have hg0 : L.groups = 0 := by simpa using hgroups
      refine ⟨Or.inl hg0, Or.inl hg0, ?_⟩
      rw [hcur.2.2.1, hcur.2.2.2]
      simp [hg0, ext_count]
    · subst hg
      obtain ⟨hgrp, hlm, epre, e, he, hkl⟩ := addcur_reads hrep hwf hcur
      obtain ⟨hcg, hce, hcx, hcb⟩ := addcur_sizes hcur
      obtain ⟨hgk, hne, hgl, hgt, hents⟩ := hwf g (by simp)
      have hlast := last_key_lt he hlt
      have hg0 : L.groups ≠ 0 := by rw [hgroups]; simp
      refine ⟨Or.inr ?_, Or.inr ?_, ?_⟩
      · unfold dwalk_index
        rw [get_index_eq, group_keyhi_of_mem hgrp hgk, hkl]; omega
      · rw [group_keyhi_of_mem hgrp hgk, group_count_of_mem hgrp (by omega)]; exact hcond
      · have hl : 1 ≤ g.ents.length := by rw [he]; simp
        have : entry_limit (vecmove L (w.entry - 4) w.entry ((w.group - w.entry) / 4))
            (w.entry - 4) = entry_limit L w.entry := by
          unfold entry_limit
          rw [vecmove_mem_in (by omega) (by omega),
            show w.entry - 4 - (w.entry - 4) + w.entry = w.entry by omega]
        rw [this, hlm, if_pos hg0, hcb, hcx]; omega
  obtain ⟨hc0, hc1, hexb⟩ := hfacts
  obtain ⟨hcg, hce, hcx, hcb⟩ := hcur
  obtain ⟨L', hev, hmag, hgr, hfr, hus, hmem⟩ :=
    dwalk_add_new_eval (A := gs.length) (B := gs.length + ent_count gs)
      (C := ext_count gs) ext hcg hce hcx (by omega) (by omega) hkm hc0 hc1 hexb ha1 ha2 ha3
  have hsz := hrep.size_le
  refine ⟨L', _, hev, rep_add_new hrep hx hfit ?_ ?_ ?_ hmem, ?_, hmag, ?_⟩
  · rw [hgr, hgroups, to_be_u16]; omega
  · rw [hfr, to_be_u16, hf']
  · rw [hus, to_be_u16]; exact hu'
  · refine ⟨?_, ?_, ?_, ?_⟩ <;>
      simp [ent_count, ext_count, ext_total, hcx] <;> omega
  · rw [hgr, hgroups, to_be_u16]; omega

/-! ## The index under `index_add` -/

theorem key_split (key : Nat) : key / 2 ^ 24 * 2 ^ 24 + key % 2 ^ 24 = key := by omega

theorem index_add_nil (key ext : Nat) :
    index_add [] key ext = [⟨key / 2 ^ 24, [⟨key % 2 ^ 24, [ext]⟩]⟩] := rfl

theorem index_add_new (pre : List AGroup) (g : AGroup) (key ext : Nat)
    (h : g.keyhi ≠ key / 2 ^ 24 ∨ g.ents.length ≥ 255) :
    index_add (pre ++ [g]) key ext = pre ++ [g] ++ [⟨key / 2 ^ 24, [⟨key % 2 ^ 24, [ext]⟩]⟩] := by
  unfold index_add
  rw [List.getLast?_concat]
  simp only []
  rw [if_pos h]

theorem index_add_same (pre : List AGroup) (g : AGroup) (key ext : Nat)
    (h : ¬ (g.keyhi ≠ key / 2 ^ 24 ∨ g.ents.length ≥ 255)) :
    index_add (pre ++ [g]) key ext = pre ++ [⟨g.keyhi, g.ents ++ [⟨key % 2 ^ 24, [ext]⟩]⟩] := by
  unfold index_add
  rw [List.getLast?_concat]
  simp only []
  rw [if_neg h, List.dropLast_concat]

theorem snoc_cases (gs : List AGroup) : gs = [] ∨ ∃ pre g, gs = pre ++ [g] := by
  rcases List.eq_nil_or_concat gs with h | ⟨l, b, h⟩
  · exact Or.inl h
  · exact Or.inr ⟨l, b, by simpa using h⟩

theorem leaf_pairs_index_add (gs : List AGroup) (key ext : Nat) :
    leaf_pairs (index_add gs key ext) = leaf_pairs gs ++ [(key, [ext])] := by
  rcases snoc_cases gs with h | ⟨pre, g, h⟩
  · subst h; simp [index_add_nil, leaf_pairs, entry_pairs]; omega
  · subst h
    by_cases hc : g.keyhi ≠ key / 2 ^ 24 ∨ g.ents.length ≥ 255
    · rw [index_add_new _ _ _ _ hc]
      simp [leaf_pairs, entry_pairs]; omega
    · rw [index_add_same _ _ _ _ hc]
      have : g.keyhi = key / 2 ^ 24 := by omega
      simp [leaf_pairs, entry_pairs, this]; omega

theorem ext_total_single {ents : List AEntry} (h : ∀ e ∈ ents, e.exts.length = 1) :
    ext_total ents = ents.length := by
  induction ents with
  | nil => rfl
  | cons e es ih =>
    simp only [ext_total, List.length_cons]
    rw [h e (by simp), ih (fun e' he' => h e' (by simp [he']))]; omega

theorem single_index_add {gs : List AGroup} (hs : Single gs) (key ext : Nat) :
    Single (index_add gs key ext) := by
  rcases snoc_cases gs with h | ⟨pre, g, h⟩
  · subst h; intro g hg e he
    simp [index_add_nil] at hg; subst hg; simp at he; subst he; rfl
  · subst h
    by_cases hc : g.keyhi ≠ key / 2 ^ 24 ∨ g.ents.length ≥ 255
    · rw [index_add_new _ _ _ _ hc]
      intro g' hg' e he
      rcases List.mem_append.1 hg' with h1 | h1
      · exact hs g' h1 e he
      · simp at h1; subst h1; simp at he; subst he; rfl
    · rw [index_add_same _ _ _ _ hc]
      intro g' hg' e he
      rcases List.mem_append.1 hg' with h1 | h1
      · exact hs g' (List.mem_append_left _ h1) e he
      · simp at h1; subst h1
        rcases List.mem_append.1 he with h2 | h2
        · exact hs g (by simp) e h2
        · simp at h2; subst h2; rfl

theorem wf_index_add {gs : List AGroup} (hwf : WF gs) (hs : Single gs) {key ext : Nat}
    (hk : key < 2 ^ 48) (hx : ext < 2 ^ 64) : WF (index_add gs key ext) := by
  have hnewg : WF [⟨key / 2 ^ 24, [⟨key % 2 ^ 24, [ext]⟩]⟩] := by
    intro g hg
    simp at hg; subst hg
    refine ⟨by simp; omega, by simp, by simp, by simp [ext_total], ?_⟩
    intro e he; simp at he; subst he
    exact ⟨by simp; omega, by simp, by simpa using hx⟩
  rcases snoc_cases gs with h | ⟨pre, g, h⟩
  · subst h; rw [index_add_nil]; exact hnewg
  · subst h
    by_cases hc : g.keyhi ≠ key / 2 ^ 24 ∨ g.ents.length ≥ 255
    · rw [index_add_new _ _ _ _ hc]
      exact wf_append.2 ⟨hwf, hnewg⟩
    · rw [index_add_same _ _ _ _ hc]
      obtain ⟨hw1, hw2⟩ := wf_append.1 hwf
      refine wf_append.2 ⟨hw1, ?_⟩
      intro g' hg'
      simp at hg'; subst hg'
      obtain ⟨h1, h2, h3, h4, h5⟩ := hw2 g (by simp)
      have hsg := ext_total_single (hs g (by simp))
      refine ⟨h1, by simp, by simp; omega, by simp [ext_total]; omega, ?_⟩
      intro e he
      rcases List.mem_append.1 he with h6 | h6
      · exact h5 e h6
      · simp at h6; subst h6
        exact ⟨by simp; omega, by simp, by simpa using hx⟩

theorem index_bytes_index_add (gs : List AGroup) (key ext : Nat) :
    index_bytes (index_add gs key ext) =
      index_bytes gs + (if (index_add gs key ext).length = gs.length then 12 else 16) := by
  rcases snoc_cases gs with h | ⟨pre, g, h⟩
  · subst h; simp [index_add_nil, index_bytes, ext_count, ent_count, ext_total]
  · subst h
    by_cases hc : g.keyhi ≠ key / 2 ^ 24 ∨ g.ents.length ≥ 255
    · rw [index_add_new _ _ _ _ hc]
      simp [index_bytes, ext_count, ent_count, ext_total]; omega
    · rw [index_add_same _ _ _ _ hc]
      simp [index_bytes, ext_count, ent_count, ext_total]; omega

theorem index_bytes_le_build (adds : List (Nat × Nat)) (gs : List AGroup) :
    index_bytes gs ≤ index_bytes (index_build gs adds) := by
  induction adds generalizing gs with
  | nil => exact Nat.le_refl _
  | cons a rest ih =>
    have h1 := ih (index_add gs a.1 a.2)
    have h2 := index_bytes_index_add gs a.1 a.2
    simp only [index_build, List.foldl_cons] at h1 ⊢
    split_ifs at h2 <;> omega

/-- One `dwalk_add` at the end of a leaf: it succeeds when the result fits and the
leaf then holds the index with the extent appended. -/
theorem dwalk_add_step {bs : Nat} {L : dleaf} {gs : List AGroup} {w : dwalk} {key ext : Nat}
    (hrep : Rep bs L gs) (hwf : WF gs) (hs : Single gs) (hcur : AddCur bs gs w)
    (hk : key < 2 ^ 48) (hx : ext < 2 ^ 64)
    (hlt : ∀ p ∈ leaf_pairs gs, p.1 < key)
    (hfit : 8 + index_bytes (index_add gs key ext) ≤ bs) :
    ∃ L' w', dwalk_add L w key ext = some (L', w') ∧
      Rep bs L' (index_add gs key ext) ∧ AddCur bs (index_add gs key ext) w' ∧
      L'.magic = L.magic := by
  rcases snoc_cases gs with h | ⟨pre, g, h⟩
  · subst h
    rw [index_add_nil] at hfit ⊢
    obtain ⟨L', w', h1, h2, h3, h4, -⟩ := dwalk_add_new (L := L) hrep hwf hcur
      hk hx (Or.inl rfl) hlt
      (by simp [index_bytes, ext_count, ent_count, ext_total] at hfit ⊢; omega)
    exact ⟨L', w', h1, h2, h3, h4⟩
  · subst h
    by_cases hc : g.keyhi ≠ key / 2 ^ 24 ∨ g.ents.length ≥ 255
    · rw [index_add_new _ _ _ _ hc] at hfit ⊢
      obtain ⟨L', w', h1, h2, h3, h4, -⟩ := dwalk_add_new (L := L) hrep hwf hcur
        hk hx (Or.inr ⟨pre, g, rfl, hc⟩) hlt
        (by simp [index_bytes, ext_count, ent_count, ext_total] at hfit ⊢; omega)
      exact ⟨L', w', h1, h2, h3, h4⟩
    · rw [index_add_same _ _ _ _ hc] at hfit ⊢
      have hsg := ext_total_single (hs g (by simp))
      obtain ⟨L', w', h1, h2, h3, h4, -⟩ := dwalk_add_same key hrep hwf hcur
        hx (by omega) (by omega) (by omega) hlt
        (by simp [index_bytes, ext_count, ent_count, ext_total] at hfit ⊢; omega)
      exact ⟨L', w', h1, h2, h3, h4⟩

/-! ## Building a leaf -/

theorem rep_init {bs : Nat} (block : dleaf) (h8 : 8 ≤ bs) (hsz : bs ≤ 65536) :
    Rep bs (dleaf_init bs block) [] := by
  constructor
  · rfl
  · intro i w p h; simp [dict_table, group_table, entry_table] at h
  · intro i w h; simp [extent_table] at h
  · simp [dleaf_init, to_be_u16, sizeof_dleaf, extent_table]
  · simp [dleaf_init, dict_table, group_table, entry_table]
  · simp [dict_table, group_table, entry_table, extent_table]; omega
  · exact hsz

theorem wf_nil : WF [] := by intro g hg; cases hg

theorem single_nil : Single [] := by intro g hg; cases hg

/-- The probe of an empty leaf: flag 0 and the cursor at the (empty) end. -/
theorem dwalk_probe_empty {bs : Nat} {L : dleaf} (h : L.groups = 0) (key : Nat) :
    dwalk_probe L bs key = some (0, dwalk.mk bs bs bs bs bs 8 8 8) := by
  simp [dwalk_probe, dleaf_groups, h, dwalk_check, sizeof_dleaf]

theorem addcur_empty (bs : Nat) :
    AddCur bs [] (dwalk.mk bs bs bs bs bs 8 8 8) := by
  simp [AddCur, ent_count, ext_count]

theorem index_build_cons (gs : List AGroup) (a : Nat × Nat) (rest : List (Nat × Nat)) :
    index_build gs (a :: rest) = index_build (index_add gs a.1 a.2) rest := rfl

theorem leaf_pairs_index_build (adds : List (Nat × Nat)) (gs : List AGroup) :
    leaf_pairs (index_build gs adds) = leaf_pairs gs ++ adds.map (fun a => (a.1, [a.2])) := by
  induction adds generalizing gs with
  | nil => simp [index_build]
  | cons a rest ih => rw [index_build_cons, ih, leaf_pairs_index_add]; simp

theorem wf_index_build {adds : List (Nat × Nat)} {gs : List AGroup} (hwf : WF gs)
    (hs : Single gs) (hr : ∀ a ∈ adds, a.1 < 2 ^ 48 ∧ a.2 < 2 ^ 64) :
    WF (index_build gs adds) ∧ Single (index_build gs adds) := by
  induction adds generalizing gs with
  | nil => exact ⟨hwf, hs⟩
  | cons a rest ih =>
    rw [index_build_cons]
    exact ih (wf_index_add hwf hs (hr a (by simp)).1 (hr a (by simp)).2)
      (single_index_add hs _ _) (fun b hb => hr b (by simp [hb]))

/-- A run of `dwalk_add` calls with ascending keys above those of the leaf
succeeds when the result fits, and leaves the index built from the calls. -/
theorem dwalk_add_all_rep {bs : Nat} (adds : List (Nat × Nat)) :
    ∀ {L : dleaf} {gs : List AGroup} {w : dwalk}, Rep bs L gs → WF gs → Single gs →
    AddCur bs gs w → (∀ a ∈ adds, a.1 < 2 ^ 48 ∧ a.2 < 2 ^ 64) →
    (adds.map Prod.fst).Pairwise (· < ·) →
    (∀ p ∈ leaf_pairs gs, ∀ a ∈ adds, p.1 < a.1) →
    8 + index_bytes (index_build gs adds) ≤ bs →
    ∃ L' w', dwalk_add_all L w adds = some (L', w') ∧ Rep bs L' (index_build gs adds) ∧
      AddCur bs (index_build gs adds) w' ∧ L'.magic = L.magic := by
  induction adds with
  | nil =>
    intro L gs w hrep _ _ hcur _ _ _ _
    exact ⟨L, w, rfl, hrep, hcur, rfl⟩
  | cons a rest ih =>
    intro L gs w hrep hwf hs hcur hr hasc hlt hfit
    obtain ⟨k, x⟩ := a
    rw [index_build_cons] at hfit ⊢
    have hka := hr (k, x) (by simp)
    simp only [List.map_cons, List.pairwise_cons] at hasc
    have hfit1 : 8 + index_bytes (index_add gs k x) ≤ bs :=
      Nat.le_trans (Nat.add_le_add_left (index_bytes_le_build rest _) 8) hfit
    obtain ⟨L1, w1, h1, h2, h3, h4⟩ := dwalk_add_step hrep hwf hs hcur hka.1 hka.2
      (fun p hp => hlt p hp (k, x) (by simp)) hfit1
    have hlt' : ∀ p ∈ leaf_pairs (index_add gs k x), ∀ a ∈ rest, p.1 < a.1 := by
      intro p hp a ha
      rw [leaf_pairs_index_add] at hp
      rcases List.mem_append.1 hp with h | h
      · exact hlt p h a (by simp [ha])
      · simp at h; subst h
        exact hasc.1 a.1 (List.mem_map_of_mem _ ha)
    obtain ⟨L2, w2, h5, h6, h7, h8⟩ := ih h2 (wf_index_add hwf hs hka.1 hka.2)
      (single_index_add hs _ _) h3 (fun b hb => hr b (by simp [hb])) hasc.2 hlt' hfit
    refine ⟨L2, w2, ?_, h6, h7, h8.trans h4⟩
    simp only [dwalk_add_all, h1]
    exact h5

/-- A leaf built from scratch holds the index built from the calls. -/
theorem dleaf_build_rep {bs : Nat} (block : dleaf) (key0 : Nat) (adds : List (Nat × Nat))
    (hsz : bs ≤ 65536) (hr : ∀ a ∈ adds, a.1 < 2 ^ 48 ∧ a.2 < 2 ^ 64)
    (hasc : (adds.map Prod.fst).Pairwise (· < ·))
    (hfit : 8 + index_bytes (index_build [] adds) ≤ bs) :
    ∃ L w, dleaf_build bs block key0 adds = some (L, w) ∧ Rep bs L (index_build [] adds) ∧
      AddCur bs (index_build [] adds) w ∧ L.magic = 0x1eaf := by
  have h8 : 8 ≤ bs := by omega
  obtain ⟨L, w, h1, h2, h3, h4⟩ := dwalk_add_all_rep adds (rep_init block h8 hsz) wf_nil
    single_nil (addcur_empty bs) hr hasc (by intro p hp; cases hp) hfit
  refine ⟨L, w, ?_, h2, h3, by rw [h4]; rfl⟩
  unfold dleaf_build
  rw [dwalk_probe_empty (by rfl)]
  exact h1

/-! ## Field reads of a represented leaf -/

theorem ext_total_le_append (a b : List AEntry) : ext_total a ≤ ext_total (a ++ b) := by
  simp

section reads
variable {bs : Nat} {L : dleaf} {gs pre post : List AGroup} {g : AGroup}

theorem rep_group_addr (h : Rep bs L gs) (hg : gs = pre ++ g :: post) :
    bs - 4 * (pre.length + 1) + 4 * (pre.length + 1) = bs := by
  have h1 := h.fits
  have h2 : gs.length = pre.length + 1 + post.length := by rw [hg]; simp; omega
  simp only [dict_table_length] at h1
  omega

theorem rep_entry_addr (h : Rep bs L gs) (hg : gs = pre ++ g :: post)
    {epre epost : List AEntry} {e : AEntry} (he : g.ents = epre ++ e :: epost) :
    bs - 4 * (gs.length + ent_count pre + epre.length + 1)
      + 4 * (gs.length + ent_count pre + epre.length + 1) = bs := by
  have h1 := h.fits
  have h2 : ent_count gs = ent_count pre + (epre.length + 1 + epost.length) + ent_count post := by
    rw [hg]; simp [ent_count, he]; omega
  simp only [dict_table_length] at h1
  omega

theorem rep_last_addr (h : Rep bs L gs) (hg : gs = pre ++ g :: post) :
    bs - 4 * (gs.length + ent_count pre + g.ents.length)
      + 4 * (gs.length + ent_count pre + g.ents.length) = bs := by
  have h1 := h.fits
  have h2 : ent_count gs = ent_count pre + g.ents.length + ent_count post := by
    rw [hg]; simp [ent_count]; omega
  simp only [dict_table_length] at h1
  omega

theorem rep_group_keyhi (h : Rep bs L gs) (hwf : WF gs) (hg : gs = pre ++ g :: post)
    {p : Nat} (hp : p + 4 * (pre.length + 1) = bs) : group_keyhi L p = g.keyhi :=
  group_keyhi_of_mem (rep_group h hg hp) (hwf g (by simp [hg])).1

theorem rep_group_count (h : Rep bs L gs) (hwf : WF gs) (hg : gs = pre ++ g :: post)
    {p : Nat} (hp : p + 4 * (pre.length + 1) = bs) : group_count L p = g.ents.length :=
  group_count_of_mem (rep_group h hg hp) (by have := (hwf g (by simp [hg])).2.2.1; omega)

theorem rep_entry_keylo (h : Rep bs L gs) (hwf : WF gs) (hg : gs = pre ++ g :: post)
    {epre epost : List AEntry} {e : AEntry} (he : g.ents = epre ++ e :: epost)
    {p : Nat} (hp : p + 4 * (gs.length + ent_count pre + epre.length + 1) = bs) :
    entry_keylo L p = e.keylo :=
  entry_keylo_of_mem (rep_entry h hg he hp)
    ((hwf g (by simp [hg])).2.2.2.2 e (by simp [he])).1

theorem rep_entry_limit (h : Rep bs L gs) (hwf : WF gs) (hg : gs = pre ++ g :: post)
    {epre epost : List AEntry} {e : AEntry} (he : g.ents = epre ++ e :: epost)
    {p : Nat} (hp : p + 4 * (gs.length + ent_count pre + epre.length + 1) = bs) :
    entry_limit L p = ext_total epre + e.exts.length := by
  refine entry_limit_of_mem (rep_entry h hg he hp) ?_
  have h1 := (hwf g (by simp [hg])).2.2.2.1
  rw [he] at h1
  simp [ext_total] at h1
  omega

/-- The limit of the lowest entry of a group is the number of extents of the group. -/
theorem rep_last_limit (h : Rep bs L gs) (hwf : WF gs) (hg : gs = pre ++ g :: post)
    {p : Nat} (hp : p + 4 * (gs.length + ent_count pre + g.ents.length) = bs) :
    entry_limit L p = ext_total g.ents := by
  obtain ⟨epre, e, he⟩ : ∃ epre e, g.ents = epre ++ [e] := by
    rcases List.eq_nil_or_concat g.ents with h' | ⟨l, b, h'⟩
    · exact absurd h' (hwf g (by simp [hg])).2.1
    · exact ⟨l, b, by simpa using h'⟩
  have := rep_entry_limit h hwf hg (he : g.ents = epre ++ e :: []) (p := p)
    (by rw [he] at hp; simp only [List.length_append, List.length_singleton] at hp; omega)
  rw [this, he]
  simp only [ext_total_append, ext_total, Nat.add_zero]

end reads

/-- Sizes a represented leaf obeys. -/
theorem rep_bounds {bs : Nat} {L : dleaf} {gs : List AGroup} (h : Rep bs L gs) :
    8 + 8 * ext_count gs + 4 * (gs.length + ent_count gs) ≤ bs ∧ bs ≤ 65536 := by
  have := h.fits
  simp at this
  exact ⟨this, h.size_le⟩

/-! ## `dleaf_check` -/

theorem dleaf_check_loop_rep {bs : Nat} {L : dleaf} {gs : List AGroup} (h : Rep bs L gs)
    (hwf : WF gs) (rest : List AGroup) :
    ∀ (pre : List AGroup) (fuel : Nat), gs = pre ++ rest → rest.length ≤ fuel →
    dleaf_check_loop L (bs - 4 * gs.length) fuel (bs - 4 * (pre.length + 1))
      (bs - 4 * gs.length - 4 * ent_count pre) (ext_count pre) (ent_count pre) =
      some (ext_count gs, ent_count gs) := by
  obtain ⟨hb, hsz⟩ := rep_bounds h
  induction rest with
  | nil =>
    intro pre fuel hg _
    simp at hg; subst hg
    have : ¬ (bs - 4 * (gs.length + 1) ≥ bs - 4 * gs.length) := by omega
    cases fuel <;> simp [dleaf_check_loop, this]
  | cons g rest ih =>
    intro pre fuel hg hf
    obtain ⟨fuel, rfl⟩ : ∃ f, fuel = f + 1 := ⟨fuel - 1, by simp at hf; omega⟩
    have hlen : gs.length = pre.length + 1 + rest.length := by rw [hg]; simp; omega
    have hcnt : ent_count gs = ent_count pre + g.ents.length + ent_count rest := by
      rw [hg]; simp [ent_count]; omega
    have hxc : ext_count gs = ext_count pre + ext_total g.ents + ext_count rest := by
      rw [hg]; simp [ext_count]; omega
    have hc : bs - 4 * (pre.length + 1) ≥ bs - 4 * gs.length := by omega
    have hgc := rep_group_count h hwf hg (rep_group_addr h hg)
    have hll := rep_last_limit h hwf hg (rep_last_addr h hg)
    have haddr : bs - 4 * gs.length - 4 * ent_count pre - 4 * g.ents.length =
        bs - 4 * (gs.length + ent_count pre + g.ents.length) := by omega
    have := ih (pre ++ [g]) fuel (by rw [hg]; simp) (by simp at hf; omega)
    simp only [dleaf_check_loop, hc, if_true, hgc, haddr, hll]
    simp only [List.length_append, List.length_singleton, ent_count_append, ent_count,
      ext_count_append, ext_count, Nat.add_zero] at this
    rw [Nat.mod_eq_of_lt (by omega), Nat.mod_eq_of_lt (by omega)]
    rw [← this]
    congr 1 <;> omega

theorem dleaf_free2_loop_rep {bs : Nat} {L : dleaf} {gs : List AGroup} (h : Rep bs L gs)
    (hwf : WF gs) (rest : List AGroup) :
    ∀ (pre : List AGroup) (fuel : Nat), gs = pre ++ rest → rest.length ≤ fuel →
    dleaf_free2_loop L (bs - 4 * gs.length) fuel (bs - 4 * pre.length)
      (bs - 4 * gs.length - 4 * ent_count pre) (8 + 8 * ext_count pre) =
      some (bs - 4 * gs.length - 4 * ent_count gs, 8 + 8 * ext_count gs) := by
  obtain ⟨hb, hsz⟩ := rep_bounds h
  induction rest with
  | nil =>
    intro pre fuel hg _
    simp at hg; subst hg
    cases fuel <;> simp [dleaf_free2_loop]
  | cons g rest ih =>
    intro pre fuel hg hf
    obtain ⟨fuel, rfl⟩ : ∃ f, fuel = f + 1 := ⟨fuel - 1, by simp at hf; omega⟩
    have hlen : gs.length = pre.length + 1 + rest.length := by rw [hg]; simp; omega
    have hcnt : ent_count gs = ent_count pre + g.ents.length + ent_count rest := by
      rw [hg]; simp [ent_count]; omega
    have hxc : ext_count gs = ext_count pre + ext_total g.ents + ext_count rest := by
      rw [hg]; simp [ext_count]; omega
    have hc : bs - 4 * pre.length > bs - 4 * gs.length := by omega
    have hgc := rep_group_count h hwf hg (rep_group_addr h hg)
    have hll := rep_last_limit h hwf hg (rep_last_addr h hg)
    have haddr : bs - 4 * gs.length - 4 * ent_count pre - 4 * g.ents.length =
        bs - 4 * (gs.length + ent_count pre + g.ents.length) := by omega
    have hga : bs - 4 * pre.length - 4 = bs - 4 * (pre.length + 1) := by omega
    have := ih (pre ++ [g]) fuel (by rw [hg]; simp) (by simp at hf; omega)
    simp only [dleaf_free2_loop, hc, if_true, hga, hgc, haddr, hll]
    simp only [List.length_append, List.length_singleton, ent_count_append, ent_count,
      ext_count_append, ext_count, Nat.add_zero] at this
    rw [← this]
    congr 1 <;> omega

/-- The check passes on a represented leaf whose `used` field holds the true offset. -/
theorem dleaf_check_rep {bs : Nat} {L : dleaf} {gs : List AGroup} (h : Rep bs L gs)
    (hwf : WF gs) (hu : gs ≠ [] ∨ bs < 65536) : dleaf_check bs L = some 0 := by
  obtain ⟨hb, hsz⟩ := rep_bounds h
  have hfree := h.free_eq
  have hused := h.used_eq
  simp only [extent_table_length, dict_table_length, to_be_u16] at hfree hused
  have hlen : 1 ≤ gs.length ∨ bs < 65536 := by
    rcases hu with h1 | h1
    · left; cases gs with
      | nil => exact absurd rfl h1
      | cons a l => simp
    · exact Or.inr h1
  have hused' : L.used = bs - 4 * (gs.length + ent_count gs) := by omega
  have h1 := dleaf_check_loop_rep h hwf gs [] gs.length rfl (Nat.le_refl _)
  have h2 := dleaf_free2_loop_rep h hwf gs [] gs.length rfl (Nat.le_refl _)
  simp only [List.length_nil, Nat.zero_add, ent_count, ext_count, Nat.mul_zero, Nat.sub_zero,
    Nat.add_zero] at h1 h2
  have hg4 : bs - 4 * 1 = bs - 4 := by omega
  unfold dleaf_check dleaf_free2
  simp only [dleaf_groups, h.groups_eq, sizeof_dleaf, hg4] at h1 ⊢
  rw [h1, h2]
  simp only [hused', hfree]
  rw [if_neg (by push_cast; omega), if_neg (by push_cast; omega), if_neg (by push_cast; omega)]

/-- The gap `dleaf_free2` finds by walking the tables of a represented leaf. -/
theorem dleaf_free2_rep {bs : Nat} {L : dleaf} {gs : List AGroup} (h : Rep bs L gs)
    (hwf : WF gs) :
    dleaf_free2 bs L =
      some (((bs - 4 * (gs.length + ent_count gs) : Nat) : Int) - ((8 + 8 * ext_count gs : Nat) : Int)) := by
  have h2 := dleaf_free2_loop_rep h hwf gs [] gs.length rfl (Nat.le_refl _)
  simp only [List.length_nil, Nat.zero_add, ent_count, ext_count, Nat.mul_zero, Nat.sub_zero,
    Nat.add_zero] at h2
  unfold dleaf_free2
  simp only [dleaf_groups, h.groups_eq, sizeof_dleaf]
  rw [h2]
  simp only []
  congr 3
  omega

theorem ent_count_eq_pairs (gs : List AGroup) : ent_count gs = (leaf_pairs gs).length := by
  induction gs with
  | nil => rfl
  | cons g gs ih =>
    have : ∀ (k : Nat) (es : List AEntry), (entry_pairs k es).length = es.length := by
      intro k es
      induction es with
      | nil => rfl
      | cons e es ih2 => simp [entry_pairs, ih2]
    simp [ent_count, leaf_pairs, ih, this]

theorem ext_count_single {gs : List AGroup} (hs : Single gs) : ext_count gs = ent_count gs := by
  induction gs with
  | nil => rfl
  | cons g gs ih =>
    simp only [ext_count, ent_count]
    rw [ext_total_single (hs g (by simp)), ih (fun g' hg' => hs g' (by simp [hg']))]

theorem index_build_append (gs : List AGroup) (a b : List (Nat × Nat)) :
    index_build gs (a ++ b) = index_build (index_build gs a) b := by
  simp [index_build, List.foldl_append]

/-- The index built by one-extent appends has one entry and one extent per append. -/
theorem index_build_counts (adds : List (Nat × Nat)) :
    ent_count (index_build [] adds) = adds.length ∧
    ext_count (index_build [] adds) = adds.length := by
  have h1 : ent_count (index_build [] adds) = adds.length := by
    rw [ent_count_eq_pairs, leaf_pairs_index_build]; simp [leaf_pairs]
  have h2 : Single (index_build [] adds) := by
    have : ∀ (l : List (Nat × Nat)) (gs : List AGroup), Single gs → Single (index_build gs l) := by
      intro l
      induction l with
      | nil => intro gs h; exact h
      | cons a rest ih => intro gs h; exact ih _ (single_index_add h _ _)
    exact this adds [] single_nil
  exact ⟨h1, by rw [ext_count_single h2, h1]⟩

/-! ## `dwalk_next` -/

/-- The checks of `dwalk_check` at a cursor on an extent of a non-empty leaf. -/
theorem dwalk_check_on {L : dleaf} {w : dwalk} (hg : L.groups ≠ 0)
    (h1 : w.gstop ≤ w.group) (h2 : w.estop ≤ w.entry) (h3 : w.exbase ≤ w.extent)
    (h4 : w.extent < w.exstop) : dwalk_check L w = true := by
  have hne : ¬ (w.extent = w.exstop) := by omega
  simp [dwalk_check, dleaf_groups, dwalk_end, hg, hne, h1, h2, h3, h4]

theorem dwalk_next_eval_extent {L : dleaf} {w : dwalk} (hg : L.groups ≠ 0)
    (h1 : w.gstop ≤ w.group) (h2 : w.estop ≤ w.entry) (h3 : w.exbase ≤ w.extent + 8)
    (h4 : w.extent + 8 < w.exstop) :
    dwalk_next L w = some (1, dwalk.mk w.gdict w.gstop w.group w.estop w.entry w.exbase
      (w.extent + 8) w.exstop) := by
  have hne : ¬ (w.extent = w.exstop) := by omega
  have hne2 : ¬ (w.extent + 8 = w.exstop) := by omega
  have hchk := dwalk_check_on (L := L) (w := dwalk.mk w.gdict w.gstop w.group w.estop w.entry
    w.exbase (w.extent + 8) w.exstop) hg h1 h2 h3 h4
  simp only [dwalk_next, dwalk_end, beq_iff_eq, hne, hne2, if_false, hchk, if_true]

theorem dwalk_next_eval_entry {L : dleaf} {w : dwalk} {lim : Nat} (hg : L.groups ≠ 0)
    (h0 : w.extent + 8 = w.exstop) (h1 : w.gstop ≤ w.group) (h2 : w.estop + 4 ≤ w.entry)
    (h3 : w.exbase ≤ w.extent + 8) (hl : entry_limit L (w.entry - 4) = lim)
    (h4 : w.extent + 8 < w.exbase + 8 * lim) :
    dwalk_next L w = some (1, dwalk.mk w.gdict w.gstop w.group w.estop (w.entry - 4) w.exbase
      (w.extent + 8) (w.exbase + 8 * lim)) := by
  have hne : ¬ (w.extent = w.exstop) := by omega
  have hne2 : ¬ (w.entry = w.estop) := by omega
  have hchk := dwalk_check_on (L := L) (w := dwalk.mk w.gdict w.gstop w.group w.estop
    (w.entry - 4) w.exbase (w.extent + 8) (w.exbase + 8 * lim)) hg h1
    (show w.estop ≤ w.entry - 4 by omega) h3 h4
  simp only [dwalk_next, dwalk_end, beq_iff_eq, hne, eq_true h0, hne2, if_false, if_true,
    false_and, hl, hchk]

theorem dwalk_next_eval_group {L : dleaf} {w : dwalk} {cnt tot lim : Nat} (hg : L.groups ≠ 0)
    (h0 : w.extent + 8 = w.exstop) (h1 : w.gstop + 4 ≤ w.group) (h2 : w.entry = w.estop)
    (hc : group_count L (w.group - 4) = cnt) (ht : entry_limit L w.estop = tot)
    (hl : entry_limit L (w.entry - 4) = lim)
    (h3 : w.estop - 4 * cnt ≤ w.entry - 4) (h4 : w.exbase + 8 * tot ≤ w.extent + 8)
    (h5 : w.extent + 8 < w.exbase + 8 * tot + 8 * lim) :
    dwalk_next L w = some (1, dwalk.mk w.gdict w.gstop (w.group - 4) (w.estop - 4 * cnt)
      (w.entry - 4) (w.exbase + 8 * tot) (w.extent + 8) (w.exbase + 8 * tot + 8 * lim)) := by
  have hne : ¬ (w.extent = w.exstop) := by omega
  have hne2 : ¬ (w.group = w.gstop) := by omega
  have hchk := dwalk_check_on (L := L) (w := dwalk.mk w.gdict w.gstop (w.group - 4)
    (w.estop - 4 * cnt) (w.entry - 4) (w.exbase + 8 * tot) (w.extent + 8)
    (w.exbase + 8 * tot + 8 * lim)) hg (show w.gstop ≤ w.group - 4 by omega) h3 h4 h5
  simp only [dwalk_next, dwalk_end, beq_iff_eq, hne, eq_true h0, eq_true h2, hne2, if_false,
    if_true, and_false, hc, ht, hl, hchk]

theorem dwalk_next_eval_end {L : dleaf} {w : dwalk}
    (h0 : w.extent + 8 = w.exstop) (h1 : w.group = w.gstop) (h2 : w.entry = w.estop) :
    dwalk_next L w = some (0, dwalk.mk w.gdict w.gstop w.group w.estop w.entry w.exbase
      (w.extent + 8) w.exstop) := by
  have hne : ¬ (w.extent = w.exstop) := by omega
  simp only [dwalk_next, dwalk_end, beq_iff_eq, hne, eq_true h0, eq_true h1, eq_true h2,
    if_false, if_true, and_self]

section next
variable {bs : Nat} {L : dleaf} {gs pre post : List AGroup} {g : AGroup}
  {epre epost : List AEntry} {e : AEntry} {xpre xpost : List Nat} {x : Nat} {w : dwalk}

theorem curat_groups_ne (hrep : Rep bs L gs)
    (hc : CurAt bs gs pre g post epre e epost xpre x xpost w) : L.groups ≠ 0 := by
  rw [hrep.groups_eq, hc.gs_eq]; simp

/-- Sizes at a cursor. -/
theorem curat_sizes (hrep : Rep bs L gs)
    (hc : CurAt bs gs pre g post epre e epost xpre x xpost w) :
    gs.length = pre.length + 1 + post.length ∧
    ent_count gs = ent_count pre + (epre.length + 1 + epost.length) + ent_count post ∧
    ext_count gs = ext_count pre +
      (ext_total epre + (xpre.length + 1 + xpost.length) + ext_total epost) + ext_count post ∧
    g.ents.length = epre.length + 1 + epost.length ∧
    e.exts.length = xpre.length + 1 + xpost.length ∧
    8 + 8 * ext_count gs + 4 * (gs.length + ent_count gs) ≤ bs := by
  have h1 := hc.gs_eq
  have h2 := hc.ents_eq
  have h3 := hc.exts_eq
  have hb := (rep_bounds hrep).1
  refine ⟨by rw [h1]; simp; omega, ?_, ?_, by rw [h2]; simp; omega, by rw [h3]; simp; omega, hb⟩
  · rw [h1]; simp [ent_count, h2]; omega
  · rw [h1]; simp [ext_count, h2, ext_total, h3]; omega

/-- Step inside an entry that owns a further extent. -/
theorem dwalk_next_extent {x' : Nat} (hrep : Rep bs L gs)
    (hc : CurAt bs gs pre g post epre e epost xpre x (x' :: xpost) w) :
    ∃ w', dwalk_next L w = some (1, w') ∧
      CurAt bs gs pre g post epre e epost (xpre ++ [x]) x' xpost w' := by
  obtain ⟨s1, s2, s3, s4, s5, s6⟩ := curat_sizes hrep hc
  have hg := curat_groups_ne hrep hc
  obtain ⟨c1, c2, c3, c4, c5, c6, c7, c8, c9, c10, c11⟩ := hc
  simp only [List.length_cons] at s3 s5
  refine ⟨_, dwalk_next_eval_extent hg (by omega) (by omega) (by omega) (by omega), ?_⟩
  exact ⟨c1, c2, by rw [c3]; simp, c4, c5, c6, c7, c8, c9,
    by simp only [List.length_append, List.length_singleton]; omega, c11⟩

/-- Step to the next entry of the same group. -/
theorem dwalk_next_entry (hrep : Rep bs L gs) (hwf : WF gs) {e' : AEntry}
    (hc : CurAt bs gs pre g post epre e (e' :: epost) xpre x [] w) :
    ∃ w' x' xs', e'.exts = x' :: xs' ∧ dwalk_next L w = some (1, w') ∧
      CurAt bs gs pre g post (epre ++ [e]) e' epost [] x' xs' w' := by
  obtain ⟨s1, s2, s3, s4, s5, s6⟩ := curat_sizes hrep hc
  have hg := curat_groups_ne hrep hc
  obtain ⟨c1, c2, c3, c4, c5, c6, c7, c8, c9, c10, c11⟩ := hc
  simp only [List.length_cons, List.length_nil] at s2 s3 s4 s5
  have hgin : g ∈ gs := by rw [c1]; simp
  have hein : e' ∈ g.ents := by rw [c2]; simp
  obtain ⟨x', xs', hx'⟩ : ∃ x' xs', e'.exts = x' :: xs' := by
    cases h : e'.exts with
    | nil => exact absurd h ((hwf g hgin).2.2.2.2 e' hein).2.1
    | cons a l => exact ⟨a, l, rfl⟩
  have he' : g.ents = (epre ++ [e]) ++ e' :: epost := by rw [c2]; simp
  have hlim := rep_entry_limit hrep hwf c1 he' (p := w.entry - 4)
    (by simp only [List.length_append, List.length_singleton]; omega)
  simp only [ext_total_append, ext_total, Nat.add_zero] at hlim
  have hl1 : 1 ≤ e'.exts.length := by rw [hx']; simp
  refine ⟨_, x', xs', hx', dwalk_next_eval_entry hg (by omega) (by omega) (by omega)
    (by omega) hlim (by omega), ?_⟩
  exact ⟨c1, he', by rw [hx']; simp, c4, c5, c6, c7,
    by simp only [List.length_append, List.length_singleton]; omega, c9,
    by simp only [ext_total_append, ext_total, List.length_nil]; omega,
    by simp only [ext_total_append, ext_total, c9]; omega⟩

/-- Step to the first entry of the next group. -/
theorem dwalk_next_group (hrep : Rep bs L gs) (hwf : WF gs) {g' : AGroup}
    (hc : CurAt bs gs pre g (g' :: post) epre e [] xpre x [] w) :
    ∃ w' e' es' x' xs', g'.ents = e' :: es' ∧ e'.exts = x' :: xs' ∧
      dwalk_next L w = some (1, w') ∧
      CurAt bs gs (pre ++ [g]) g' post [] e' es' [] x' xs' w' := by
  obtain ⟨s1, s2, s3, s4, s5, s6⟩ := curat_sizes hrep hc
  have hg := curat_groups_ne hrep hc
  obtain ⟨c1, c2, c3, c4, c5, c6, c7, c8, c9, c10, c11⟩ := hc
  simp only [List.length_cons, List.length_nil, ent_count, ext_count, ext_total] at s1 s2 s3 s4 s5
  have hgin : g' ∈ gs := by rw [c1]; simp
  obtain ⟨e', es', hes'⟩ : ∃ e' es', g'.ents = e' :: es' := by
    cases h : g'.ents with
    | nil => exact absurd h (hwf g' hgin).2.1
    | cons a l => exact ⟨a, l, rfl⟩
  have hein : e' ∈ g'.ents := by rw [hes']; simp
  obtain ⟨x', xs', hx'⟩ : ∃ x' xs', e'.exts = x' :: xs' := by
    cases h : e'.exts with
    | nil => exact absurd h ((hwf g' hgin).2.2.2.2 e' hein).2.1
    | cons a l => exact ⟨a, l, rfl⟩
  have hg' : gs = (pre ++ [g]) ++ g' :: post := by rw [c1]; simp
  have hcnt := rep_group_count hrep hwf hg' (p := w.group - 4)
    (by simp only [List.length_append, List.length_singleton]; omega)
  have hll := rep_last_limit hrep hwf c1 c7
  have hlim := rep_entry_limit hrep hwf hg' (show g'.ents = [] ++ e' :: es' from hes')
    (p := w.entry - 4)
    (by simp only [List.length_append, List.length_singleton, List.length_nil, ent_count_append,
          ent_count]; omega)
  simp only [ext_total, Nat.zero_add] at hlim
  have hl1 : 1 ≤ e'.exts.length := by rw [hx']; simp
  have hl2 : g'.ents.length = es'.length + 1 := by rw [hes']; simp
  have htot : ext_total g.ents = ext_total epre + e.exts.length := by
    rw [c2]; simp [ext_total]
  refine ⟨_, e', es', x', xs', hes', hx', dwalk_next_eval_group hg (by omega) (by omega)
    (by omega) hcnt hll hlim (by omega) (by omega) (by omega), ?_⟩
  refine ⟨hg', hes', by rw [hx']; simp, c4, c5, ?_, ?_, ?_, ?_, ?_, ?_⟩
  · simp only [List.length_append, List.length_singleton]; omega
  · simp only [ent_count_append, ent_count]; omega
  · simp only [ent_count_append, ent_count, List.length_nil]; omega
  · simp only [ext_count_append, ext_count, c9]; omega
  · simp only [ext_count_append, ext_count, ext_total, List.length_nil]; omega
  · simp only [ext_count_append, ext_count, ext_total, c9]; omega

/-- Step off the last extent of the leaf. -/
theorem dwalk_next_end (hrep : Rep bs L gs)
    (hc : CurAt bs gs pre g [] epre e [] xpre x [] w) :
    ∃ w', dwalk_next L w = some (0, w') ∧ EndCur bs gs w' := by
  obtain ⟨s1, s2, s3, s4, s5, s6⟩ := curat_sizes hrep hc
  obtain ⟨c1, c2, c3, c4, c5, c6, c7, c8, c9, c10, c11⟩ := hc
  simp only [List.length_cons, List.length_nil, ent_count, ext_count, ext_total] at s1 s2 s3 s4 s5
  refine ⟨_, dwalk_next_eval_end (by omega) (by omega) (by omega), ?_⟩
  have hd : gs.dropLast = pre := by rw [c1]; simp
  refine ⟨⟨?_, ?_, ?_, ?_⟩, c4, ?_, ?_, ?_⟩
  · show w.group + 4 * gs.length = bs
    omega
  · show w.entry + 4 * (gs.length + ent_count gs) = bs
    omega
  · show w.extent + 8 = 8 + 8 * ext_count gs
    omega
  · show w.exbase = 8 + 8 * ext_count gs.dropLast
    rw [hd, c9]
  · show w.gstop = w.group
    omega
  · show w.estop = w.entry
    omega
  · show w.exstop = w.extent + 8
    omega

end next

/-! ## Key order around a position -/

theorem leaf_pairs_at {gs pre post : List AGroup} {g : AGroup} {epre epost : List AEntry}
    {e : AEntry} (hg : gs = pre ++ g :: post) (he : g.ents = epre ++ e :: epost) :
    leaf_pairs gs =
      pairs_before pre g epre ++ (cur_key g e, e.exts) :: pairs_after g epost post := by
  subst hg
  simp [leaf_pairs, he, entry_pairs, pairs_before, pairs_after, cur_key]

theorem mem_entry_pairs {k : Nat} {es : List AEntry} {p : Nat × List Nat}
    (h : p ∈ entry_pairs k es) : ∃ e ∈ es, p = (k * 2 ^ 24 + e.keylo, e.exts) := by
  induction es with
  | nil => simp [entry_pairs] at h
  | cons a l ih =>
    simp only [entry_pairs, List.mem_cons] at h
    rcases h with h | h
    · exact ⟨a, by simp, h⟩
    · obtain ⟨e, he, hp⟩ := ih h
      exact ⟨e, by simp [he], hp⟩

/-- Around a position of an ascending index the keys in front are smaller and the
keys behind greater. -/
theorem asc_at {gs pre post : List AGroup} {g : AGroup} {epre epost : List AEntry}
    {e : AEntry} (hasc : Ascending gs) (hg : gs = pre ++ g :: post)
    (he : g.ents = epre ++ e :: epost) :
    (∀ p ∈ pairs_before pre g epre, p.1 < cur_key g e) ∧
    (∀ p ∈ pairs_after g epost post, cur_key g e < p.1) := by
  unfold Ascending at hasc
  rw [leaf_pairs_at hg he, List.map_append, List.map_cons, List.pairwise_append,
    List.pairwise_cons] at hasc
  obtain ⟨-, ⟨h2, -⟩, h3⟩ := hasc
  constructor
  · intro p hp
    exact h3 p.1 (List.mem_map_of_mem _ hp) (cur_key g e) (by simp)
  · intro p hp
    exact h2 p.1 (List.mem_map_of_mem _ hp)

/-- In an ascending index, when the pair that follows a position lies above `key`
so do all pairs behind the position. -/
theorem asc_after_gt {gs pre post : List AGroup} {g : AGroup} {epre epost : List AEntry}
    {e : AEntry} {key : Nat} (hasc : Ascending gs) (hg : gs = pre ++ g :: post)
    (he : g.ents = epre ++ e :: epost)
    (hhead : ∀ a r, pairs_after g epost post = a :: r → key < a.1) :
    ∀ p ∈ pairs_after g epost post, key < p.1 := by
  unfold Ascending at hasc
  rw [leaf_pairs_at hg he, List.map_append, List.map_cons, List.pairwise_append,
    List.pairwise_cons] at hasc
  obtain ⟨-, ⟨-, h2⟩, -⟩ := hasc
  cases hA : pairs_after g epost post with
  | nil => intro p hp; cases hp
  | cons a r =>
    have ha := hhead a r hA
    rw [hA, List.map_cons, List.pairwise_cons] at h2
    intro p hp
    rcases List.mem_cons.1 hp with h | h
    · subst h; exact ha
    · exact Nat.lt_trans ha (h2.1 p.1 (List.mem_map_of_mem _ h))

/-- The keys of a group whose high bits are below `keyhi` are below every key
with high bits `keyhi`. -/
theorem group_keys_lt {gs : List AGroup} {g : AGroup} {keyhi keylo : Nat} (hwf : WF gs)
    (hgin : g ∈ gs) (hlt : g.keyhi < keyhi) :
    ∀ p ∈ entry_pairs g.keyhi g.ents, p.1 < keyhi * 2 ^ 24 + keylo := by
  intro p hp
  obtain ⟨e, he, rfl⟩ := mem_entry_pairs hp
  have := ((hwf g hgin).2.2.2.2 e he).1
  show g.keyhi * 2 ^ 24 + e.keylo < keyhi * 2 ^ 24 + keylo
  have h1 : (g.keyhi + 1) * 2 ^ 24 ≤ keyhi * 2 ^ 24 := Nat.mul_le_mul_right _ hlt
  omega

/-! ## The loops of `dwalk_probe`, one round at a time -/

section rounds
variable {L : dleaf} {keyhi keylo fuel : Nat} {w : dwalk}

theorem probe_groups_done (h : w.group ≤ w.gstop) :
    dwalk_probe_groups L keyhi keylo fuel w = some (.after_loop, w) := by
  have : ¬ (w.group > w.gstop) := by omega
  cases fuel <;> simp only [dwalk_probe_groups, this, if_false]

theorem probe_groups_no_group (h : w.gstop < w.group)
    (hk : group_keyhi L (w.group - 4) > keyhi ∨
      (group_keyhi L (w.group - 4) = keyhi ∧ entry_keylo L (w.estop - 4) > keylo)) :
    dwalk_probe_groups L keyhi keylo (fuel + 1) w =
      some (.no_group, dwalk.mk w.gdict w.gstop (w.group - 4)
        (w.estop - 4 * group_count L (w.group - 4)) (w.estop - 4) w.exbase w.extent w.exstop) := by
  have h' : w.group > w.gstop := h
  rcases hk with hk | ⟨hk1, hk2⟩
  · simp only [dwalk_probe_groups, h', if_true, hk]
  · have : ¬ (keyhi > keyhi) := by omega
    simp only [dwalk_probe_groups, h', if_true, hk1, this, if_false, true_and, hk2]

theorem probe_groups_probe_entry (h : w.gstop < w.group)
    (hk1 : group_keyhi L (w.group - 4) = keyhi)
    (hk2 : entry_keylo L (w.estop - 4) ≤ keylo)
    (hk3 : w.group - 4 = w.gstop ∨ group_keyhi L (w.group - 4 - 4) > keyhi ∨
      entry_keylo L (w.estop - 4 * group_count L (w.group - 4) - 4) > keylo) :
    dwalk_probe_groups L keyhi keylo (fuel + 1) w =
      some (.probe_entry, dwalk.mk w.gdict w.gstop (w.group - 4)
        (w.estop - 4 * group_count L (w.group - 4)) (w.estop - 4) w.exbase w.extent w.exstop) := by
  have h' : w.group > w.gstop := h
  have h1 : ¬ (keyhi > keyhi) := by omega
  have h2 : ¬ (entry_keylo L (w.estop - 4) > keylo) := by omega
  simp only [dwalk_probe_groups, h', if_true, hk1, h1, if_false, true_and, h2, hk3]

theorem probe_groups_pass (h : w.gstop < w.group)
    (hk1 : group_keyhi L (w.group - 4) ≤ keyhi)
    (hk2 : group_keyhi L (w.group - 4) = keyhi → entry_keylo L (w.estop - 4) ≤ keylo ∧
      w.group - 4 ≠ w.gstop ∧ group_keyhi L (w.group - 4 - 4) ≤ keyhi ∧
      entry_keylo L (w.estop - 4 * group_count L (w.group - 4) - 4) ≤ keylo) :
    dwalk_probe_groups L keyhi keylo (fuel + 1) w =
      dwalk_probe_groups L keyhi keylo fuel (dwalk.mk w.gdict w.gstop (w.group - 4)
        (w.estop - 4 * group_count L (w.group - 4)) (w.estop - 4)
        (w.exbase + 8 * entry_limit L (w.estop - 4 * group_count L (w.group - 4)))
        w.extent w.exstop) := by
  have h' : w.group > w.gstop := h
  have h1 : ¬ (group_keyhi L (w.group - 4) > keyhi) := by omega
  by_cases he : group_keyhi L (w.group - 4) = keyhi
  · obtain ⟨a1, a2, a3, a4⟩ := hk2 he
    have b1 : ¬ (entry_keylo L (w.estop - 4) > keylo) := by omega
    have b3 : ¬ (group_keyhi L (w.group - 4 - 4) > keyhi) := by omega
    have b4 : ¬ (entry_keylo L (w.estop - 4 * group_count L (w.group - 4) - 4) > keylo) := by
      omega
    simp only [dwalk_probe_groups, h', if_true, h1, if_false, b1, and_false, a2, b3, b4,
      or_self]
  · simp only [dwalk_probe_groups, h', if_true, h1, if_false, he, false_and]

theorem probe_entries_done (h : w.entry ≤ w.estop) :
    dwalk_probe_entries L keylo fuel w = some w := by
  have : ¬ (w.entry > w.estop) := by omega
  cases fuel <;> simp only [dwalk_probe_entries, this, if_false]

theorem probe_entries_break (h : w.estop < w.entry)
    (hk : entry_keylo L (w.entry - 4) > keylo) :
    dwalk_probe_entries L keylo (fuel + 1) w = some w := by
  have h' : w.entry > w.estop := h
  simp only [dwalk_probe_entries, h', if_true, hk]

theorem probe_entries_step (h : w.estop < w.entry)
    (hk : entry_keylo L (w.entry - 4) ≤ keylo) :
    dwalk_probe_entries L keylo (fuel + 1) w =
      dwalk_probe_entries L keylo fuel (dwalk.mk w.gdict w.gstop w.group w.estop (w.entry - 4)
        w.exbase w.exstop (w.exbase + 8 * entry_limit L (w.entry - 4))) := by
  have h' : w.entry > w.estop := h
  have h1 : ¬ (entry_keylo L (w.entry - 4) > keylo) := by omega
  simp only [dwalk_probe_entries, h', if_true, h1, if_false]

end rounds

/-! ## The group loop of `dwalk_probe` -/

theorem entry_pairs_mem {k : Nat} {es : List AEntry} {e : AEntry} (h : e ∈ es) :
    (k * 2 ^ 24 + e.keylo, e.exts) ∈ entry_pairs k es := by
  induction es with
  | nil => cases h
  | cons a l ih =>
    simp only [entry_pairs, List.mem_cons]
    rcases List.mem_cons.1 h with h | h
    · left; rw [h]
    · right; exact ih h

theorem leaf_pairs_mem {gs : List AGroup} {g : AGroup} {p : Nat × List Nat} (hg : g ∈ gs)
    (hp : p ∈ entry_pairs g.keyhi g.ents) : p ∈ leaf_pairs gs := by
  induction gs with
  | nil => cases hg
  | cons a l ih =>
    simp only [leaf_pairs, List.mem_append]
    rcases List.mem_cons.1 hg with h | h
    · left; rw [← h]; exact hp
    · right; exact ih h

theorem mem_leaf_pairs {gs : List AGroup} {p : Nat × List Nat} (hp : p ∈ leaf_pairs gs) :
    ∃ g ∈ gs, p ∈ entry_pairs g.keyhi g.ents := by
  induction gs with
  | nil => simp [leaf_pairs] at hp
  | cons a l ih =>
    simp only [leaf_pairs, List.mem_append] at hp
    rcases hp with h | h
    · exact ⟨a, by simp, h⟩
    · obtain ⟨g, hg, hgp⟩ := ih h
      exact ⟨g, by simp [hg], hgp⟩

theorem wf_first {gs : List AGroup} {g : AGroup} (hwf : WF gs) (hg : g ∈ gs) :
    ∃ e es, g.ents = e :: es := by
  cases h : g.ents with
  | nil => exact absurd h (hwf g hg).2.1
  | cons a l => exact ⟨a, l, rfl⟩

/-- High key bits do not decrease along an ascending index. -/
theorem asc_keyhi_le {gs pre post : List AGroup} {g g' : AGroup} (hwf : WF gs)
    (hasc : Ascending gs) (hg : gs = pre ++ g :: post) (hin : g' ∈ pre) :
    g'.keyhi ≤ g.keyhi := by
  have hgin : g ∈ gs := by rw [hg]; simp
  have hgin' : g' ∈ gs := by rw [hg]; simp [hin]
  obtain ⟨e, es, he⟩ := wf_first hwf hgin
  obtain ⟨e', es', he'⟩ := wf_first hwf hgin'
  have h1 := (asc_at hasc hg (show g.ents = [] ++ e :: es from he)).1
    (g'.keyhi * 2 ^ 24 + e'.keylo, e'.exts)
    (by
      simp only [pairs_before, entry_pairs, List.append_nil]
      exact leaf_pairs_mem hin (entry_pairs_mem (by rw [he']; simp)))
  have h2 := ((hwf g hgin).2.2.2.2 e (by rw [he]; simp)).1
  simp only [cur_key] at h1
  by_contra hlt
  have h3 : (g.keyhi + 1) * 2 ^ 24 ≤ g'.keyhi * 2 ^ 24 := Nat.mul_le_mul_right _ (by omega)
  omega

section groups
variable {bs : Nat} {L : dleaf} {gs : List AGroup}

theorem probe_groups_spec (hrep : Rep bs L gs) (hwf : WF gs) (hasc : Ascending gs)
    (kh kl : Nat) (hkl : kl < 2 ^ 24) :
    ∀ (rest pre : List AGroup) (fuel : Nat) (w : dwalk), gs = pre ++ rest →
      rest.length ≤ fuel →
      w.gdict = bs → w.gstop + 4 * gs.length = bs → w.group + 4 * pre.length = bs →
      w.estop + 4 * (gs.length + ent_count pre) = bs → w.exbase = 8 + 8 * ext_count pre →
      (∀ g ∈ pre, g.keyhi ≤ kh) →
      (∀ g ∈ pre, g.keyhi = kh → ∃ g1 r e1 es1, rest = g1 :: r ∧ g1.ents = e1 :: es1 ∧
        g1.keyhi ≤ kh ∧ e1.keylo ≤ kl) →
      ∃ x w', dwalk_probe_groups L kh kl fuel w = some (x, w') ∧
        ((x = .after_loop ∧ w'.gdict = bs ∧ w'.gstop + 4 * gs.length = bs ∧
            w'.group + 4 * gs.length = bs ∧ w'.estop + 4 * (gs.length + ent_count gs) = bs ∧
            w'.exbase = 8 + 8 * ext_count gs ∧ ∀ g ∈ gs, g.keyhi < kh) ∨
         (x = .no_group ∧ ∃ pre' g post' e es, GrpAt bs gs pre' g post' w' ∧ g.ents = e :: es ∧
            kh * 2 ^ 24 + kl < cur_key g e ∧ ∀ g' ∈ pre', g'.keyhi < kh) ∨
         (x = .probe_entry ∧ ∃ pre' g post' e es, GrpAt bs gs pre' g post' w' ∧
            g.ents = e :: es ∧ g.keyhi = kh ∧ e.keylo ≤ kl ∧
            (post' = [] ∨ ∃ g2 r e2 es2, post' = g2 :: r ∧ g2.ents = e2 :: es2 ∧
              (kh < g2.keyhi ∨ kl < e2.keylo)))) := by
  intro rest
  induction rest with
  | nil =>
    intro pre fuel w hgs hfuel c1 c2 c3 c4 c5 i1 i2
    have hpre : pre = gs := by rw [hgs]; simp
    subst hpre
    refine ⟨_, _, probe_groups_done (by omega), Or.inl ⟨rfl, c1, c2, c3, c4, c5, ?_⟩⟩
    intro g hg
    have h1 := i1 g hg
    rcases Nat.lt_or_ge g.keyhi kh with h | h
    · exact h
    · obtain ⟨g1, r, e1, es1, hr, -⟩ := i2 g hg (by omega)
      cases hr
  | cons g1 rest' ih =>
    intro pre fuel w hgs hfuel c1 c2 c3 c4 c5 i1 i2
    obtain ⟨fuel', rfl⟩ : ∃ f, fuel = f + 1 := ⟨fuel - 1, by simp at hfuel; omega⟩
    have hb := (rep_bounds hrep).1
    have hlen : gs.length = pre.length + 1 + rest'.length := by rw [hgs]; simp; omega
    have hcntgs : ent_count gs = ent_count pre + g1.ents.length + ent_count rest' := by
      rw [hgs]; simp [ent_count]; omega
    have hg1in : g1 ∈ gs := by rw [hgs]; simp
    obtain ⟨e1, es1, he1⟩ := wf_first hwf hg1in
    have hl1 : g1.ents.length = es1.length + 1 := by rw [he1]; simp
    have hlt : w.gstop < w.group := by omega
    have hkhi := rep_group_keyhi hrep hwf hgs (p := w.group - 4) (by omega)
    have hcnt := rep_group_count hrep hwf hgs (p := w.group - 4) (by omega)
    have hlo := rep_entry_keylo hrep hwf hgs (show g1.ents = [] ++ e1 :: es1 from he1)
      (p := w.estop - 4) (by simp only [List.length_nil]; omega)
    have hlim := rep_last_limit hrep hwf hgs (p := w.estop - 4 * g1.ents.length) (by omega)
    have hGrp : GrpAt bs gs pre g1 rest' (dwalk.mk w.gdict w.gstop (w.group - 4)
        (w.estop - 4 * group_count L (w.group - 4)) (w.estop - 4) w.exbase w.extent w.exstop) := by
      rw [hcnt]
      exact ⟨hgs, c1, c2, by show w.group - 4 + 4 * (pre.length + 1) = bs; omega,
        by show w.estop - 4 * g1.ents.length + 4 * (gs.length + ent_count pre + g1.ents.length) = bs
           omega,
        by show w.estop - 4 + 4 * (gs.length + ent_count pre + 1) = bs; omega, c5⟩
    have hpre_lt : (kh < g1.keyhi ∨ (g1.keyhi = kh ∧ kl < e1.keylo)) →
        ∀ g' ∈ pre, g'.keyhi < kh := by
      intro hc g' hg'
      have h1 := i1 g' hg'
      rcases Nat.lt_or_ge g'.keyhi kh with h | h
      · exact h
      · obtain ⟨g1', r, e1', es1', hr, he', hk1, hk2⟩ := i2 g' hg' (by omega)
        injection hr with hr1 hr2
        subst hr1
        rw [he1] at he'
        injection he' with he1' he2'
        subst he1'
        omega
    rcases Nat.lt_or_ge kh g1.keyhi with hA | hA
    · -- the group lies above the key
      refine ⟨_, _, probe_groups_no_group hlt (Or.inl (by rw [hkhi]; exact hA)),
        Or.inr (Or.inl ⟨rfl, pre, g1, rest', e1, es1, hGrp, he1, ?_, hpre_lt (Or.inl hA)⟩)⟩
      have h3 : (kh + 1) * 2 ^ 24 ≤ g1.keyhi * 2 ^ 24 := Nat.mul_le_mul_right _ hA
      simp only [cur_key]
      omega
    · rcases Nat.lt_or_ge g1.keyhi kh with hB | hB
      · -- the group lies below the key: next round
        rw [probe_groups_pass hlt (by rw [hkhi]; omega) (by rw [hkhi]; omega)]
        rw [hcnt, hlim]
        refine ih (pre ++ [g1]) fuel' _ (by rw [hgs]; simp) (by simp at hfuel ⊢; omega) c1 c2
          (by show w.group - 4 + 4 * (pre ++ [g1]).length = bs
              simp only [List.length_append, List.length_singleton]; omega)
          (by show w.estop - 4 * g1.ents.length + 4 * (gs.length + ent_count (pre ++ [g1])) = bs
              simp only [ent_count_append, ent_count]; omega)
          (by show w.exbase + 8 * ext_total g1.ents = 8 + 8 * ext_count (pre ++ [g1])
              simp only [ext_count_append, ext_count]; omega)
          ?_ ?_
        · intro g hg
          rcases List.mem_append.1 hg with h | h
          · exact i1 g h
          · simp at h; subst h; omega
        · intro g hg hgk
          rcases List.mem_append.1 hg with h | h
          · have := asc_keyhi_le hwf hasc hgs h
            omega
          · simp at h; subst h; omega
      · have hE : g1.keyhi = kh := by omega
        rcases Nat.lt_or_ge kl e1.keylo with hC | hC
        · refine ⟨_, _, probe_groups_no_group hlt (Or.inr ⟨by rw [hkhi]; exact hE, by
              rw [hlo]; exact hC⟩),
            Or.inr (Or.inl ⟨rfl, pre, g1, rest', e1, es1, hGrp, he1, ?_,
              hpre_lt (Or.inr ⟨hE, hC⟩)⟩)⟩
          simp only [cur_key, hE]
          omega
        · cases hrest : rest' with
          | nil =>
            subst hrest
            simp only [List.length_nil] at hlen
            refine ⟨_, _, probe_groups_probe_entry hlt (by rw [hkhi]; exact hE)
                (by rw [hlo]; exact hC) (Or.inl (by omega)),
              Or.inr (Or.inr ⟨rfl, pre, g1, [], e1, es1, hGrp, he1, hE, hC, Or.inl rfl⟩)⟩
          | cons g2 r =>
            subst hrest
            simp only [List.length_cons] at hlen
            have hgs2 : gs = (pre ++ [g1]) ++ g2 :: r := by rw [hgs]; simp
            have hg2in : g2 ∈ gs := by rw [hgs2]; simp
            obtain ⟨e2, es2, he2⟩ := wf_first hwf hg2in
            have hl2 : g2.ents.length = es2.length + 1 := by rw [he2]; simp
            simp only [ent_count] at hcntgs
            have hkhi2 := rep_group_keyhi hrep hwf hgs2 (p := w.group - 4 - 4)
              (by simp only [List.length_append, List.length_singleton]; omega)
            have hlo2 := rep_entry_keylo hrep hwf hgs2 (show g2.ents = [] ++ e2 :: es2 from he2)
              (p := w.estop - 4 * g1.ents.length - 4)
              (by simp only [List.length_nil, ent_count_append, ent_count]; omega)
            by_cases hD : kh < g2.keyhi ∨ kl < e2.keylo
            · refine ⟨_, _, probe_groups_probe_entry hlt (by rw [hkhi]; exact hE)
                  (by rw [hlo]; exact hC) (Or.inr ?_),
                Or.inr (Or.inr ⟨rfl, pre, g1, g2 :: r, e1, es1, hGrp, he1, hE, hC,
                  Or.inr ⟨g2, r, e2, es2, rfl, he2, hD⟩⟩)⟩
              rw [hkhi2, hcnt, hlo2]
              exact hD
            · have hD1 : g2.keyhi ≤ kh := by omega
              have hD2 : e2.keylo ≤ kl := by omega
              rw [probe_groups_pass hlt (by rw [hkhi]; omega) (by
                intro _
                rw [hlo, hkhi2, hcnt, hlo2]
                exact ⟨hC, by omega, hD1, hD2⟩)]
              rw [hcnt, hlim]
              refine ih (pre ++ [g1]) fuel' _ (by rw [hgs]; simp) (by simp at hfuel ⊢; omega) c1 c2
                (by show w.group - 4 + 4 * (pre ++ [g1]).length = bs
                    simp only [List.length_append, List.length_singleton]; omega)
                (by show w.estop - 4 * g1.ents.length
                      + 4 * (gs.length + ent_count (pre ++ [g1])) = bs
                    simp only [ent_count_append, ent_count]; omega)
                (by show w.exbase + 8 * ext_total g1.ents = 8 + 8 * ext_count (pre ++ [g1])
                    simp only [ext_count_append, ext_count]; omega)
                ?_ ?_
              · intro g hg
                rcases List.mem_append.1 hg with h | h
                · exact i1 g h
                · simp at h; subst h; omega
              · intro g hg hgk
                exact ⟨g2, r, e2, es2, rfl, he2, hD1, hD2⟩

end groups

/-! ## The entry loop and the exits of `dwalk_probe` -/

section entries
variable {bs : Nat} {L : dleaf} {gs pre post : List AGroup} {g : AGroup}

theorem probe_entries_spec (hrep : Rep bs L gs) (hwf : WF gs) (kl : Nat) :
    ∀ (epost epre : List AEntry) (e : AEntry) (x : Nat) (xs : List Nat) (fuel : Nat) (w : dwalk),
      epost.length ≤ fuel → CurAt bs gs pre g post epre e epost [] x xs w → e.keylo ≤ kl →
      ∃ w' epre' e' epost' x' xs', dwalk_probe_entries L kl fuel w = some w' ∧
        CurAt bs gs pre g post epre' e' epost' [] x' xs' w' ∧ e'.keylo ≤ kl ∧
        (epost' = [] ∨ ∃ e2 r, epost' = e2 :: r ∧ kl < e2.keylo) := by
  intro epost
  induction epost with
  | nil =>
    intro epre e x xs fuel w hfuel hc hk
    obtain ⟨s1, s2, s3, s4, s5, s6⟩ := curat_sizes hrep hc
    simp only [List.length_nil] at s4
    have h1 := hc.estop_eq
    have h2 := hc.entry_eq
    exact ⟨w, epre, e, [], x, xs, probe_entries_done (by omega), hc, hk, Or.inl rfl⟩
  | cons e2 r ih =>
    intro epre e x xs fuel w hfuel hc hk
    obtain ⟨fuel', rfl⟩ : ∃ f, fuel = f + 1 := ⟨fuel - 1, by simp at hfuel; omega⟩
    obtain ⟨s1, s2, s3, s4, s5, s6⟩ := curat_sizes hrep hc
    simp only [List.length_cons, List.length_nil] at s2 s3 s4 s5
    have hc' := hc
    obtain ⟨c1, c2, c3, c4, c5, c6, c7, c8, c9, c10, c11⟩ := hc
    have hgin : g ∈ gs := by rw [c1]; simp
    have he2 : g.ents = (epre ++ [e]) ++ e2 :: r := by rw [c2]; simp
    have hein : e2 ∈ g.ents := by rw [c2]; simp
    have hlt : w.estop < w.entry := by omega
    have hlo := rep_entry_keylo hrep hwf c1 he2 (p := w.entry - 4)
      (by simp only [List.length_append, List.length_singleton]; omega)
    rcases Nat.lt_or_ge kl e2.keylo with hA | hA
    · exact ⟨w, epre, e, e2 :: r, x, xs, probe_entries_break hlt (by rw [hlo]; exact hA), hc', hk,
        Or.inr ⟨e2, r, rfl, hA⟩⟩
    · obtain ⟨x2, xs2, hx2⟩ : ∃ x2 xs2, e2.exts = x2 :: xs2 := by
        cases h : e2.exts with
        | nil => exact absurd h ((hwf g hgin).2.2.2.2 e2 hein).2.1
        | cons a l => exact ⟨a, l, rfl⟩
      have hlim := rep_entry_limit hrep hwf c1 he2 (p := w.entry - 4)
        (by simp only [List.length_append, List.length_singleton]; omega)
      simp only [ext_total_append, ext_total, Nat.add_zero] at hlim
      rw [probe_entries_step hlt (by rw [hlo]; exact hA), hlim]
      refine ih (epre ++ [e]) e2 x2 xs2 fuel' _ (by simp at hfuel; omega) ?_ hA
      exact ⟨c1, he2, by rw [hx2]; simp, c4, c5, c6, c7,
        by show w.entry - 4 + 4 * (gs.length + ent_count pre + (epre ++ [e]).length + 1) = bs
           simp only [List.length_append, List.length_singleton]; omega,
        c9,
        by show w.exstop = 8 + 8 * (ext_count pre + ext_total (epre ++ [e]) + ([] : List Nat).length)
           simp only [ext_total_append, ext_total, List.length_nil]; omega,
        by show w.exbase + 8 * (ext_total epre + e.exts.length + e2.exts.length)
             = 8 + 8 * (ext_count pre + ext_total (epre ++ [e]) + e2.exts.length)
           simp only [ext_total_append, ext_total]; omega⟩

/-- The cursor `dwalk_probe` sets after its group loop stops on a group: on the
first extent of the first entry. -/
theorem grpat_curat (hrep : Rep bs L gs) (hwf : WF gs) {w : dwalk} {e : AEntry}
    {es : List AEntry} (hG : GrpAt bs gs pre g post w) (he : g.ents = e :: es) :
    ∃ x xs, e.exts = x :: xs ∧
      entry_limit L w.entry = e.exts.length ∧
      CurAt bs gs pre g post [] e es [] x xs (dwalk.mk w.gdict w.gstop w.group w.estop w.entry
        w.exbase w.exbase (w.exbase + 8 * e.exts.length)) ∧
      dwalk_check L (dwalk.mk w.gdict w.gstop w.group w.estop w.entry
        w.exbase w.exbase (w.exbase + 8 * e.exts.length)) = true := by
  obtain ⟨c1, c4, c5, c6, c7, c8, c9⟩ := hG
  have hgin : g ∈ gs := by rw [c1]; simp
  have hein : e ∈ g.ents := by rw [he]; simp
  obtain ⟨x, xs, hx⟩ : ∃ x xs, e.exts = x :: xs := by
    cases h : e.exts with
    | nil => exact absurd h ((hwf g hgin).2.2.2.2 e hein).2.1
    | cons a l => exact ⟨a, l, rfl⟩
  have hlim := rep_entry_limit hrep hwf c1 (show g.ents = [] ++ e :: es from he) (p := w.entry)
    (by simp only [List.length_nil]; omega)
  simp only [ext_total, Nat.zero_add] at hlim
  have hl : g.ents.length = es.length + 1 := by rw [he]; simp
  have hx1 : 1 ≤ e.exts.length := by rw [hx]; simp
  have hgne : L.groups ≠ 0 := by rw [hrep.groups_eq, c1]; simp
  have hlen : gs.length = pre.length + 1 + post.length := by rw [c1]; simp; omega
  refine ⟨x, xs, hx, hlim, ⟨c1, he, by rw [hx]; simp, c4, c5, c6, c7, ?_, c9, ?_, ?_⟩, ?_⟩
  · show w.entry + 4 * (gs.length + ent_count pre + ([] : List AEntry).length + 1) = bs
    simp only [List.length_nil]; omega
  · show w.exbase = 8 + 8 * (ext_count pre + ext_total [] + ([] : List Nat).length)
    simp only [ext_total, List.length_nil]; omega
  · show w.exbase + 8 * e.exts.length = 8 + 8 * (ext_count pre + ext_total [] + e.exts.length)
    simp only [ext_total]; omega
  · exact dwalk_check_on hgne (by show w.gstop ≤ w.group; omega)
      (by show w.estop ≤ w.entry; omega) (Nat.le_refl _)
      (by show w.exbase < w.exbase + 8 * e.exts.length; omega)

end entries

section exits
variable {L : dleaf} {bs key : Nat} {w : dwalk}

theorem dwalk_probe_after_loop (hg : dleaf_groups L ≠ 0)
    (h : dwalk_probe_groups L ((key >>> 24) % 2 ^ 32) (key &&& 0xffffff) (dleaf_groups L)
      (dwalk.mk bs (bs - 4 * dleaf_groups L) bs (bs - 4 * dleaf_groups L) 0 sizeof_dleaf 0 0)
      = some (.after_loop, w)) :
    dwalk_probe L bs key =
      if dwalk_check L (dwalk.mk w.gdict w.gstop w.group w.estop w.estop
          (w.exbase - 8 * entry_limit L w.estop) w.exbase w.exbase) then
        some (0, dwalk.mk w.gdict w.gstop w.group w.estop w.estop
          (w.exbase - 8 * entry_limit L w.estop) w.exbase w.exbase)
      else none := by
  simp only [dwalk_probe, hg, if_false, h]

theorem dwalk_probe_no_group (hg : dleaf_groups L ≠ 0)
    (h : dwalk_probe_groups L ((key >>> 24) % 2 ^ 32) (key &&& 0xffffff) (dleaf_groups L)
      (dwalk.mk bs (bs - 4 * dleaf_groups L) bs (bs - 4 * dleaf_groups L) 0 sizeof_dleaf 0 0)
      = some (.no_group, w)) :
    dwalk_probe L bs key =
      if dwalk_check L (dwalk.mk w.gdict w.gstop w.group w.estop w.entry w.exbase w.exbase
          (w.exbase + 8 * entry_limit L w.entry)) then
        some (1, dwalk.mk w.gdict w.gstop w.group w.estop w.entry w.exbase w.exbase
          (w.exbase + 8 * entry_limit L w.entry))
      else none := by
  simp only [dwalk_probe, hg, if_false, h]

theorem dwalk_probe_probe_entry (hg : dleaf_groups L ≠ 0) {w' : dwalk}
    (h : dwalk_probe_groups L ((key >>> 24) % 2 ^ 32) (key &&& 0xffffff) (dleaf_groups L)
      (dwalk.mk bs (bs - 4 * dleaf_groups L) bs (bs - 4 * dleaf_groups L) 0 sizeof_dleaf 0 0)
      = some (.probe_entry, w))
    (h2 : dwalk_probe_entries L (key &&& 0xffffff) (group_count L w.group)
      (dwalk.mk w.gdict w.gstop w.group w.estop w.entry w.exbase w.exbase
          (w.exbase + 8 * entry_limit L w.entry)) = some w') :
    dwalk_probe L bs key =
      if key < dwalk_index L w' + dwalk_count L w' then some (1, w')
      else
        match dwalk_next L w' with
        | none => none
        | some (_, walk) => some (if dwalk_end walk then 0 else 1, walk) := by
  simp only [dwalk_probe, hg, if_false, h, h2] <;> rfl

end exits

/-! ## What `dwalk_probe` finds -/

theorem dwalk_check_end {L : dleaf} {w : dwalk} (hg : L.groups ≠ 0) (h1 : w.group = w.gstop)
    (h2 : w.entry = w.estop) (h3 : w.exbase < w.extent) (h4 : w.extent = w.exstop) :
    dwalk_check L w = true := by
  have h5 : w.exbase < w.exstop := by omega
  simp [dwalk_check, dleaf_groups, dwalk_end, hg, h1, h2, h4, h5]

theorem probe_key_bits (key : Nat) :
    key &&& 0xffffff = key % 2 ^ 24 ∧ key >>> 24 = key / 2 ^ 24 :=
  ⟨Nat.and_pow_two_sub_one_eq_mod key 24, Nat.shiftRight_eq_div_pow key 24⟩

theorem pairs_before_snoc (pre : List AGroup) (g : AGroup) (epre : List AEntry) (e : AEntry) :
    pairs_before pre g (epre ++ [e]) = pairs_before pre g epre ++ [(cur_key g e, e.exts)] := by
  have : ∀ es : List AEntry, entry_pairs g.keyhi (es ++ [e])
      = entry_pairs g.keyhi es ++ [(cur_key g e, e.exts)] := by
    intro es
    induction es with
    | nil => simp [entry_pairs, cur_key]
    | cons a l ih => simp [entry_pairs, ih]
  simp [pairs_before, this]

theorem pairs_before_group (pre : List AGroup) (g g2 : AGroup) (epre : List AEntry) (e : AEntry)
    (he : g.ents = epre ++ [e]) :
    pairs_before (pre ++ [g]) g2 [] = pairs_before pre g epre ++ [(cur_key g e, e.exts)] := by
  rw [← pairs_before_snoc, ← he]
  have : ∀ a : List AGroup, leaf_pairs (a ++ [g]) = leaf_pairs a ++ entry_pairs g.keyhi g.ents := by
    intro a
    induction a with
    | nil => simp [leaf_pairs]
    | cons b l ih => simp [leaf_pairs, ih]
  simp [pairs_before, entry_pairs, this]

/-- After a miss on the entry with the nearest key at or below `key`, no pair up
to that entry holds `key` at its own key. -/
theorem nohit_upto {gs pre post : List AGroup} {g : AGroup} {epre epost : List AEntry}
    {e : AEntry} {x key : Nat} (hasc : Ascending gs) (hg : gs = pre ++ g :: post)
    (he : g.ents = epre ++ e :: epost) (hx : e.exts = [x]) (hle : cur_key g e ≤ key)
    (hmiss : ¬ key < cur_key g e + extent_count x) :
    ∀ p ∈ pairs_before pre g epre ++ [(cur_key g e, e.exts)], NoHit key p := by
  intro p hp
  rcases List.mem_append.1 hp with h | h
  · have := (asc_at hasc hg he).1 p h
    exact ⟨by omega, fun h' => by omega⟩
  · simp only [List.mem_singleton] at h
    subst h
    refine ⟨hle, fun h' y hy => ?_⟩
    rw [hx] at hy
    simp only [List.mem_singleton] at hy
    subst hy
    simp only at h'
    omega

section probe
variable {bs : Nat} {L : dleaf} {gs : List AGroup}

/-- Behind the entry the loops of `dwalk_probe` stop on, every key is above the
probed key. -/
theorem after_gt (hwf : WF gs) (hasc : Ascending gs) {pre post : List AGroup} {g : AGroup}
    {epre epost : List AEntry} {e : AEntry} (hg : gs = pre ++ g :: post)
    (he : g.ents = epre ++ e :: epost) {kh kl : Nat} (hkh : g.keyhi = kh) (hkl : kl < 2 ^ 24)
    (hin : epost = [] ∨ ∃ e2 r, epost = e2 :: r ∧ kl < e2.keylo)
    (hout : post = [] ∨ ∃ g2 r e2 es2, post = g2 :: r ∧ g2.ents = e2 :: es2 ∧
      (kh < g2.keyhi ∨ kl < e2.keylo)) :
    ∀ p ∈ pairs_after g epost post, kh * 2 ^ 24 + kl < p.1 := by
  apply asc_after_gt hasc hg he
  intro a r hA
  rcases hin with h1 | ⟨e2, r', h1, h2⟩
  · subst h1
    rcases hout with h3 | ⟨g2, r2, e2, es2, h3, h4, h5⟩
    · subst h3
      simp [pairs_after, entry_pairs, leaf_pairs] at hA
    · subst h3
      have hle : g.keyhi ≤ g2.keyhi :=
        asc_keyhi_le hwf hasc (show gs = (pre ++ [g]) ++ g2 :: r2 by rw [hg]; simp) (by simp)
      simp only [pairs_after, entry_pairs, leaf_pairs, h4, List.nil_append, List.cons_append,
        List.cons.injEq] at hA
      rw [← hA.1]
      show kh * 2 ^ 24 + kl < g2.keyhi * 2 ^ 24 + e2.keylo
      rcases h5 with h5 | h5
      · have h6 : (kh + 1) * 2 ^ 24 ≤ g2.keyhi * 2 ^ 24 := Nat.mul_le_mul_right _ h5
        omega
      · have h6 : kh * 2 ^ 24 ≤ g2.keyhi * 2 ^ 24 := Nat.mul_le_mul_right _ (by omega)
        omega
  · subst h1
    simp only [pairs_after, entry_pairs, List.cons_append, List.cons.injEq] at hA
    rw [← hA.1]
    show kh * 2 ^ 24 + kl < g.keyhi * 2 ^ 24 + e2.keylo
    rw [hkh]
    omega

theorem endcur_end {w : dwalk} (h : EndCur bs gs w) : dwalk_end w = true := by
  obtain ⟨-, -, -, -, h5⟩ := h
  simp [dwalk_end, h5]

theorem curat_not_end {pre post : List AGroup} {g : AGroup} {epre epost : List AEntry}
    {e : AEntry} {xpre xpost : List Nat} {x : Nat} {w : dwalk}
    (hc : CurAt bs gs pre g post epre e epost xpre x xpost w) : dwalk_end w = false := by
  have h1 := hc.extent_eq
  have h2 := hc.exstop_eq
  have h3 : e.exts.length = xpre.length + 1 + xpost.length := by rw [hc.exts_eq]; simp; omega
  have : ¬ (w.extent = w.exstop) := by omega
  simp [dwalk_end, this]

theorem single_tail (hs : Single gs) {g : AGroup} {e : AEntry} {x : Nat} {xs : List Nat}
    (hg : g ∈ gs) (he : e ∈ g.ents) (hx : e.exts = x :: xs) : xs = [] := by
  have := hs g hg e he
  rw [hx] at this
  simpa using this

end probe

/-- After a miss on the entry with the nearest key at or below `key`, the pair
with the greatest key up to that entry does not hold `key`. -/
theorem top_missed {gs pre post : List AGroup} {g : AGroup} {epre epost : List AEntry}
    {e : AEntry} {x key : Nat} (hasc : Ascending gs) (hg : gs = pre ++ g :: post)
    (he : g.ents = epre ++ e :: epost) (hx : e.exts = [x])
    (hmiss : ¬ key < cur_key g e + extent_count x) :
    ∀ p ∈ pairs_before pre g epre ++ [(cur_key g e, e.exts)],
      (∀ q ∈ pairs_before pre g epre ++ [(cur_key g e, e.exts)], q.1 ≤ p.1) →
      ∀ y ∈ p.2, ¬ key < p.1 + extent_count y := by
  intro p hp hmax
  rcases List.mem_append.1 hp with h | h
  · have h1 := (asc_at hasc hg he).1 p h
    have h2 := hmax (cur_key g e, e.exts) (by simp)
    simp only at h2
    omega
  · simp only [List.mem_singleton] at h
    subst h
    intro y hy
    rw [hx] at hy
    simp only [List.mem_singleton] at hy
    subst hy
    exact hmiss

/-- The keys of groups with high bits below `keyhi` have high bits below those of
any key of `keyhi`. -/
theorem lower_groups_hi {gs pre : List AGroup} {keyhi keylo : Nat} (hwf : WF gs)
    (hsub : ∀ g ∈ pre, g ∈ gs) (hlt : ∀ g ∈ pre, g.keyhi < keyhi) (hkl : keylo < 2 ^ 24) :
    ∀ p ∈ leaf_pairs pre, p.1 / 2 ^ 24 < (keyhi * 2 ^ 24 + keylo) / 2 ^ 24 := by
  intro p hp
  obtain ⟨g, hg, hp1⟩ := mem_leaf_pairs hp
  obtain ⟨e, he, rfl⟩ := mem_entry_pairs hp1
  have h1 := ((hwf g (hsub g hg)).2.2.2.2 e he).1
  have h2 := hlt g hg
  show (g.keyhi * 2 ^ 24 + e.keylo) / 2 ^ 24 < (keyhi * 2 ^ 24 + keylo) / 2 ^ 24
  omega

section probe
variable {bs : Nat} {L : dleaf} {gs : List AGroup}

/-- What `dwalk_probe` returns on a leaf that holds an ascending index with one
extent in every entry: 0 with the cursor at the end of the leaf, or 1 with the
cursor on an extent; for a key below `2 ^ 56` the extent is the one with the
nearest key at or below `key` when `key < index + count` holds for it, and else
the first extent with a key above `key`; in that case the keys in front of the
cursor all have high bits below those of `key`, or the greatest of them does not
hold `key`. -/
theorem dwalk_probe_spec (hrep : Rep bs L gs) (hwf : WF gs) (hs : Single gs)
    (hasc : Ascending gs) (hne : gs ≠ []) (key : Nat) :
    ∃ r w, dwalk_probe L bs key = some (r, w) ∧
      ((r = 0 ∧ EndCur bs gs w ∧ (key < 2 ^ 56 → ∀ p ∈ leaf_pairs gs, NoHit key p)) ∨
       (r = 1 ∧ ∃ pre g post epre e epost x,
          CurAt bs gs pre g post epre e epost [] x [] w ∧
          (key < 2 ^ 56 →
            (cur_key g e ≤ key ∧ key < cur_key g e + extent_count x ∧
              ∀ p ∈ pairs_after g epost post, key < p.1) ∨
            (key < cur_key g e ∧ (∀ p ∈ pairs_before pre g epre, NoHit key p) ∧
              ((∀ p ∈ pairs_before pre g epre, p.1 / 2 ^ 24 < key / 2 ^ 24) ∨
               (∀ p ∈ pairs_before pre g epre,
                  (∀ q ∈ pairs_before pre g epre, q.1 ≤ p.1) →
                  ∀ y ∈ p.2, ¬ key < p.1 + extent_count y)))))) := by
  have hgne : dleaf_groups L ≠ 0 := by
    show L.groups ≠ 0
    rw [hrep.groups_eq]
    cases gs with
    | nil => exact absurd rfl hne
    | cons a l => simp
  have hgl : dleaf_groups L = gs.length := hrep.groups_eq
  have hb := (rep_bounds hrep).1
  obtain ⟨hand, hshift⟩ := probe_key_bits key
  have hkl : key &&& 0xffffff < 2 ^ 24 := by rw [hand]; exact Nat.mod_lt _ (by norm_num)
  have hK : key < 2 ^ 56 → (key >>> 24) % 2 ^ 32 * 2 ^ 24 + (key &&& 0xffffff) = key := by
    intro h
    rw [hand, hshift]
    omega
  obtain ⟨x, w1, hG, hcase⟩ := probe_groups_spec hrep hwf hasc ((key >>> 24) % 2 ^ 32)
    (key &&& 0xffffff) hkl gs [] (dleaf_groups L)
    (dwalk.mk bs (bs - 4 * dleaf_groups L) bs (bs - 4 * dleaf_groups L) 0 sizeof_dleaf 0 0)
    (by simp) (by rw [hgl]) rfl
    (by show bs - 4 * dleaf_groups L + 4 * gs.length = bs; rw [hgl]; omega)
    (by show bs + 4 * ([] : List AGroup).length = bs; simp)
    (by show bs - 4 * dleaf_groups L + 4 * (gs.length + ent_count []) = bs
        rw [hgl]; simp only [ent_count]; omega)
    (by show sizeof_dleaf = 8 + 8 * ext_count []; simp [ext_count, sizeof_dleaf])
    (by intro g hg; cases hg) (by intro g hg; cases hg)
  rcases hcase with ⟨hx, a1, a2, a3, a4, a5, a6⟩ | ⟨hx, pre, g, post, e, es, hGrp, he, hlt, hpre⟩ |
    ⟨hx, pre, g, post, e, es, hGrp, he, hkh, hlo, hpost⟩
  · -- every group lies below the key
    subst hx
    obtain ⟨pre, g, hsn⟩ : ∃ pre g, gs = pre ++ [g] := by
      rcases snoc_cases gs with h | h
      · exact absurd h hne
      · exact h
    have hcnt : ent_count gs = ent_count pre + g.ents.length := by
      rw [hsn]; simp [ent_count]
    have hext : ext_count gs = ext_count pre + ext_total g.ents := by
      rw [hsn]; simp [ext_count]
    have hgin : g ∈ gs := by rw [hsn]; simp
    have hlim := rep_last_limit hrep hwf (show gs = pre ++ g :: [] from hsn) (p := w1.estop)
      (by omega)
    obtain ⟨e, es, he⟩ := wf_first hwf hgin
    have hein : e ∈ g.ents := by rw [he]; simp
    have hx1 : 1 ≤ ext_total g.ents := by
      have := ((hwf g hgin).2.2.2.2 e hein).2.1
      rw [he]
      simp only [ext_total]
      have : e.exts.length ≠ 0 := by
        intro h0
        exact this (List.length_eq_zero.1 h0)
      omega
    have hchk : dwalk_check L (dwalk.mk w1.gdict w1.gstop w1.group w1.estop w1.estop
        (w1.exbase - 8 * entry_limit L w1.estop) w1.exbase w1.exbase) = true :=
      dwalk_check_end hgne (by show w1.group = w1.gstop; omega) rfl
        (by show w1.exbase - 8 * entry_limit L w1.estop < w1.exbase; rw [hlim]; omega) rfl
    refine ⟨0, _, by rw [dwalk_probe_after_loop hgne hG, if_pos hchk], Or.inl ⟨rfl, ?_, ?_⟩⟩
    · have hd : gs.dropLast = pre := by rw [hsn]; simp
      refine ⟨⟨a3, ?_, ?_, ?_⟩, a1, ?_, rfl, rfl⟩
      · show w1.estop + 4 * (gs.length + ent_count gs) = bs
        exact a4
      · show w1.exbase = 8 + 8 * ext_count gs
        exact a5
      · show w1.exbase - 8 * entry_limit L w1.estop = 8 + 8 * ext_count gs.dropLast
        rw [hlim, hd]; omega
      · show w1.gstop = w1.group
        omega
    · intro hk p hp
      obtain ⟨g', hg', hp'⟩ := mem_leaf_pairs hp
      have : p.1 < (key >>> 24) % 2 ^ 32 * 2 ^ 24 + (key &&& 0xffffff) :=
        group_keys_lt hwf hg' (a6 g' hg') p hp'
      rw [hK hk] at this
      exact ⟨by omega, fun h => by omega⟩
  · -- the first group at or above the key starts above it
    subst hx
    obtain ⟨x, xs, hxs, hlim, hcur, hchk⟩ := grpat_curat hrep hwf hGrp he
    have hgin : g ∈ gs := by rw [hGrp.gs_eq]; simp
    have hein : e ∈ g.ents := by rw [he]; simp
    have hnil := single_tail hs hgin hein hxs
    subst hnil
    refine ⟨1, _, by rw [dwalk_probe_no_group hgne hG, hlim, if_pos hchk],
      Or.inr ⟨rfl, pre, g, post, [], e, es, x, hcur, ?_⟩⟩
    intro hk
    right
    rw [hK hk] at hlt
    refine ⟨hlt, ?_, Or.inl ?_⟩
    · intro p hp
      simp only [pairs_before, entry_pairs, List.append_nil] at hp
      obtain ⟨g', hg', hp'⟩ := mem_leaf_pairs hp
      have hg'in : g' ∈ gs := by rw [hGrp.gs_eq]; simp [hg']
      have : p.1 < (key >>> 24) % 2 ^ 32 * 2 ^ 24 + (key &&& 0xffffff) :=
        group_keys_lt hwf hg'in (hpre g' hg') p hp'
      rw [hK hk] at this
      exact ⟨by omega, fun h => by omega⟩
    · intro p hp
      simp only [pairs_before, entry_pairs, List.append_nil] at hp
      have := lower_groups_hi hwf (fun g' hg' => by rw [hGrp.gs_eq]; simp [hg']) hpre hkl p hp
      rw [hK hk] at this
      exact this
  · -- the group that holds the nearest key at or below the key
    subst hx
    obtain ⟨x, xs, hxs, hlim, hcur, hchk⟩ := grpat_curat hrep hwf hGrp he
    have hgs := hGrp.gs_eq
    have hgin : g ∈ gs := by rw [hgs]; simp
    have hcnt := rep_group_count hrep hwf hgs (p := w1.group) hGrp.group_eq
    have hfuel : es.length ≤ g.ents.length := by rw [he]; simp
    obtain ⟨w2, epre, e', epost, x', xs', hE, hcur2, hlo2, hin⟩ :=
      probe_entries_spec hrep hwf (key &&& 0xffffff) es [] e x xs g.ents.length _ hfuel hcur hlo
    have he' := hcur2.ents_eq
    have hein : e' ∈ g.ents := by rw [he']; simp
    have hnil := single_tail hs hgin hein (by simpa using hcur2.exts_eq)
    subst hnil
    have hx' : e'.exts = [x'] := by simpa using hcur2.exts_eq
    have hidx : dwalk_index L w2 = cur_key g e' := by
      unfold dwalk_index
      rw [get_index_eq, rep_group_keyhi hrep hwf hgs hcur2.group_eq,
        rep_entry_keylo hrep hwf hgs he' hcur2.entry_eq]
      rfl
    have hcount : dwalk_count L w2 = extent_count x' := by
      unfold dwalk_count
      rw [hcur2.extent_eq, rep_extent hrep hgs he' hcur2.exts_eq]
    have hE' : dwalk_probe_entries L (key &&& 0xffffff) (group_count L w1.group)
        (dwalk.mk w1.gdict w1.gstop w1.group w1.estop w1.entry w1.exbase w1.exbase
          (w1.exbase + 8 * entry_limit L w1.entry)) = some w2 := by
      rw [hcnt, hlim]; exact hE
    have hprobe := dwalk_probe_probe_entry hgne hG hE'
    rw [hidx, hcount] at hprobe
    have hafter := after_gt hwf hasc hgs he' hkh hkl hin hpost
    have hcur_le : key < 2 ^ 56 → cur_key g e' ≤ key := by
      intro hk
      have := hK hk
      simp only [cur_key, hkh]
      omega
    by_cases hhit : key < cur_key g e' + extent_count x'
    · refine ⟨1, w2, by rw [hprobe, if_pos hhit],
        Or.inr ⟨rfl, pre, g, post, epre, e', epost, x', hcur2, ?_⟩⟩
      intro hk
      left
      refine ⟨hcur_le hk, hhit, ?_⟩
      intro p hp
      have := hafter p hp
      rw [hK hk] at this
      exact this
    · rw [if_neg hhit] at hprobe
      have hmissed : key < 2 ^ 56 →
          ∀ p ∈ pairs_before pre g epre ++ [(cur_key g e', e'.exts)], NoHit key p :=
        fun hk => nohit_upto hasc hgs he' hx' (hcur_le hk) hhit
      cases hep : epost with
      | cons e2 r =>
        subst hep
        obtain ⟨w3, x3, xs3, hx3, hnext, hcur3⟩ := dwalk_next_entry hrep hwf hcur2
        have hnil3 := single_tail hs hgin (by rw [he']; simp) hx3
        subst hnil3
        refine ⟨1, w3, by rw [hprobe, hnext]; simp only [curat_not_end hcur3]; rfl,
          Or.inr ⟨rfl, pre, g, post, epre ++ [e'], e2, r, x3, hcur3, ?_⟩⟩
        intro hk
        right
        have := hafter (cur_key g e2, e2.exts) (by simp [pairs_after, entry_pairs, cur_key])
        rw [hK hk] at this
        refine ⟨this, ?_, Or.inr ?_⟩
        · rw [pairs_before_snoc]
          exact hmissed hk
        · rw [pairs_before_snoc]
          exact top_missed hasc hgs he' hx' hhit
      | nil =>
        subst hep
        cases hpo : post with
        | cons g2 r =>
          subst hpo
          obtain ⟨w3, e3, es3, x3, xs3, he3, hx3, hnext, hcur3⟩ :=
            dwalk_next_group hrep hwf hcur2
          have hg2in : g2 ∈ gs := by rw [hgs]; simp
          have hnil3 := single_tail hs hg2in (by rw [he3]; simp) hx3
          subst hnil3
          refine ⟨1, w3, by rw [hprobe, hnext]; simp only [curat_not_end hcur3]; rfl,
            Or.inr ⟨rfl, pre ++ [g], g2, r, [], e3, es3, x3, hcur3, ?_⟩⟩
          intro hk
          right
          have := hafter (cur_key g2 e3, e3.exts)
            (by simp [pairs_after, entry_pairs, leaf_pairs, he3, cur_key])
          rw [hK hk] at this
          refine ⟨this, ?_, Or.inr ?_⟩
          · rw [pairs_before_group pre g g2 epre e' he']
            exact hmissed hk
          · rw [pairs_before_group pre g g2 epre e' he']
            exact top_missed hasc hgs he' hx' hhit
        | nil =>
          subst hpo
          obtain ⟨w3, hnext, hend⟩ := dwalk_next_end hrep hcur2
          refine ⟨0, w3, by rw [hprobe, hnext]; simp only [endcur_end hend]; rfl,
            Or.inl ⟨rfl, hend, ?_⟩⟩
          intro hk
          rw [leaf_pairs_at hgs he']
          have : pairs_after g [] [] = [] := by simp [pairs_after, entry_pairs, leaf_pairs]
          rw [this]
          exact hmissed hk

end probe

/-! ## Built leaves -/

/-- The leaf `dleaf_build` yields and the index it holds. -/
theorem build_facts {bs : Nat} (block : dleaf) (key0 : Nat) (adds : List (Nat × Nat))
    (hsz : bs ≤ 65536) (hr : ∀ a ∈ adds, a.1 < 2 ^ 48 ∧ a.2 < 2 ^ 64)
    (hasc : (adds.map Prod.fst).Pairwise (· < ·))
    (hfit : 8 + index_bytes (index_build [] adds) ≤ bs) :
    ∃ L w, dleaf_build bs block key0 adds = some (L, w) ∧ Rep bs L (index_build [] adds) ∧
      AddCur bs (index_build [] adds) w ∧ WF (index_build [] adds) ∧
      Single (index_build [] adds) ∧ Ascending (index_build [] adds) ∧
      leaf_pairs (index_build [] adds) = adds.map (fun a => (a.1, [a.2])) := by
  obtain ⟨L, w, h1, h2, h3, -⟩ := dleaf_build_rep block key0 adds hsz hr hasc hfit
  obtain ⟨h4, h5⟩ := wf_index_build wf_nil single_nil hr
  have h6 : leaf_pairs (index_build [] adds) = adds.map (fun a => (a.1, [a.2])) := by
    rw [leaf_pairs_index_build]; simp [leaf_pairs]
  refine ⟨L, w, h1, h2, h3, h4, h5, ?_, h6⟩
  unfold Ascending
  rw [h6, List.map_map]
  exact hasc

theorem build_ne_nil {adds : List (Nat × Nat)} (h : adds ≠ []) : index_build [] adds ≠ [] := by
  intro h0
  have h1 := leaf_pairs_index_build adds []
  rw [h0] at h1
  simp only [leaf_pairs, List.nil_append] at h1
  cases adds with
  | nil => exact h rfl
  | cons a l => simp at h1

section cursor
variable {bs : Nat} {L : dleaf} {gs pre post : List AGroup} {g : AGroup}
  {epre epost : List AEntry} {e : AEntry} {xpre xpost : List Nat} {x : Nat} {w : dwalk}

/-- What the accessors read at a cursor. -/
theorem curat_reads (hrep : Rep bs L gs) (hwf : WF gs)
    (hc : CurAt bs gs pre g post epre e epost xpre x xpost w) :
    dwalk_index L w = cur_key g e ∧ extent_at L w.extent = x := by
  constructor
  · unfold dwalk_index
    rw [get_index_eq, rep_group_keyhi hrep hwf hc.gs_eq hc.group_eq,
      rep_entry_keylo hrep hwf hc.gs_eq hc.ents_eq hc.entry_eq]
    rfl
  · rw [hc.extent_eq, rep_extent hrep hc.gs_eq hc.ents_eq hc.exts_eq]

end cursor

/-- The pair of a built leaf is one of the calls. -/
theorem pair_of_adds {adds : List (Nat × Nat)} {k x : Nat}
    (h : (k, [x]) ∈ adds.map (fun a => (a.1, [a.2]))) : ∃ a ∈ adds, a.1 = k ∧ a.2 = x := by
  obtain ⟨a, ha, hp⟩ := List.mem_map.1 h
  simp only [Prod.mk.injEq, List.cons.injEq, and_true] at hp
  exact ⟨a, ha, hp.1, hp.2⟩

theorem adds_pair {adds : List (Nat × Nat)} {a : Nat × Nat} (h : a ∈ adds) :
    (a.1, [a.2]) ∈ adds.map (fun a => (a.1, [a.2])) :=
  List.mem_map.2 ⟨a, h, rfl⟩

/-- The free space `dleaf_free` reports on a represented leaf whose `used` field
holds the true offset. -/
theorem dleaf_free_rep {bs : Nat} {L : dleaf} {gs : List AGroup} (h : Rep bs L gs)
    (hu : gs ≠ [] ∨ bs < 65536) : dleaf_free L + 8 + index_bytes gs = bs := by
  obtain ⟨hb, hsz⟩ := rep_bounds h
  have hfree := h.free_eq
  have hused := h.used_eq
  simp only [extent_table_length, dict_table_length, to_be_u16] at hfree hused
  have hlen : 1 ≤ gs.length ∨ bs < 65536 := by
    rcases hu with h1 | h1
    · left; cases gs with
      | nil => exact absurd rfl h1
      | cons a l => simp
    · exact Or.inr h1
  have hused' : L.used = bs - 4 * (gs.length + ent_count gs) := by omega
  unfold dleaf_free index_bytes
  rw [hused', hfree]
  omega

/-! ## The loops of `dleaf_split_at` -/

section rounds
variable {L : dleaf} {gbase split fuel group edict recount grsplit exsplit : Nat}

theorem split_loop_break (h1 : gbase ≤ group) (h2 : recount + group_count L group > split) :
    dleaf_split_at_loop L gbase split fuel group edict recount grsplit exsplit =
      some (edict, recount, grsplit, exsplit) := by
  have h1' : group ≥ gbase := h1
  cases fuel <;> simp only [dleaf_split_at_loop, h1', h2, if_true]

theorem split_loop_pass (h1 : gbase ≤ group) (h2 : recount + group_count L group ≤ split) :
    dleaf_split_at_loop L gbase split (fuel + 1) group edict recount grsplit exsplit =
      dleaf_split_at_loop L gbase split fuel (group - 4) (edict - 4 * group_count L group)
        (recount + group_count L group) (grsplit + 1)
        (exsplit + entry_limit L (edict - 4 * group_count L group)) := by
  have h1' : group ≥ gbase := h1
  have h2' : ¬ (recount + group_count L group > split) := by omega
  simp only [dleaf_split_at_loop, h1', h2', if_true, if_false]

end rounds

section adjust
variable {count : dleaf → Nat} {top : Nat} {n : dleaf → Int} {fuel i : Nat} {leaf : dleaf}

theorem adjust_step (h : i ≤ count leaf) :
    adjust_limits_loop count top n (fuel + 1) i leaf =
      adjust_limits_loop count top n fuel (i + 1) (inc_entry_limit leaf (top - 4 * i) (n leaf)) := by
  simp only [adjust_limits_loop, h, if_true]

theorem adjust_done (h : count leaf < i) :
    adjust_limits_loop count top n fuel i leaf = some leaf := by
  have h' : ¬ (i ≤ count leaf) := by omega
  cases fuel <;> simp only [adjust_limits_loop, h', if_false]

end adjust

/-- The rebasing loop of `dleaf_split_at`: the limits of the `c` entries below
`top` are shifted by `n`, nothing else changes. -/
theorem adjust_limits_spec (ga top c : Nat) (n : Int) (htop : 4 * c ≤ top) (hga : top ≤ ga) :
    ∀ (k i fuel : Nat) (leaf : dleaf), i + k = c + 1 → k ≤ fuel → 1 ≤ i →
      group_count leaf ga = c →
      ∃ leaf', adjust_limits_loop (fun l => group_count l ga) top (fun _ => n) fuel i leaf
          = some leaf' ∧
        leaf'.groups = leaf.groups ∧ leaf'.free = leaf.free ∧ leaf'.used = leaf.used ∧
        leaf'.magic = leaf.magic ∧
        ∀ a, leaf'.mem a =
          if top - 4 * c ≤ a ∧ a + 4 * i ≤ top ∧ (top - a) % 4 = 0 then
            make_entry (entry_keylo leaf a) (((entry_limit leaf a : Int) + n) % 256).toNat
          else leaf.mem a := by
  intro k
  induction k with
  | zero =>
    intro i fuel leaf hik hf hi hc
    refine ⟨leaf, adjust_done (by show group_count leaf ga < i; omega), rfl, rfl, rfl, rfl, ?_⟩
    intro a
    rw [if_neg (by omega)]
  | succ k ih =>
    intro i fuel leaf hik hf hi hc
    obtain ⟨fuel', rfl⟩ : ∃ f, fuel = f + 1 := ⟨fuel - 1, by omega⟩
    rw [adjust_step (by show i ≤ group_count leaf ga; omega)]
    have hne : ga ≠ top - 4 * i := by omega
    have hc1 : group_count (inc_entry_limit leaf (top - 4 * i) n) ga = c := by
      unfold group_count
      rw [inc_entry_limit_mem_ne hne]
      exact hc
    obtain ⟨leaf', h1, h2, h3, h4, h5, h6⟩ := ih (i + 1) fuel' _ (by omega) (by omega) (by omega) hc1
    refine ⟨leaf', h1, by rw [h2]; simp, by rw [h3]; simp, by rw [h4]; simp, by rw [h5]; simp, ?_⟩
    intro a
    rw [h6 a]
    by_cases ha : a = top - 4 * i
    · rw [if_neg (by omega), if_pos (by omega), inc_entry_limit_mem_eq ha, ha]
    · have hk : entry_keylo (inc_entry_limit leaf (top - 4 * i) n) a = entry_keylo leaf a := by
        unfold entry_keylo; rw [inc_entry_limit_mem_ne ha]
      have hl : entry_limit (inc_entry_limit leaf (top - 4 * i) n) a = entry_limit leaf a := by
        unfold entry_limit; rw [inc_entry_limit_mem_ne ha]
      rw [hk, hl, inc_entry_limit_mem_ne ha]
      by_cases hcond : top - 4 * c ≤ a ∧ a + 4 * i ≤ top ∧ (top - a) % 4 = 0
      · rw [if_pos hcond, if_pos (by omega)]
      · rw [if_neg hcond, if_neg (by omega)]

section split
variable {bs : Nat} {L : dleaf} {gs : List AGroup}

/-- The group loop of `dleaf_split_at` stops on the group that holds entry number
`split`, with the entries and extents of the groups before it counted. -/
theorem split_loop_rep (hrep : Rep bs L gs) (hwf : WF gs) {pre post : List AGroup} {g : AGroup}
    (hg : gs = pre ++ g :: post) (split : Nat) (h1 : ent_count pre ≤ split)
    (h2 : split < ent_count pre + g.ents.length) :
    ∀ (rest done : List AGroup) (fuel : Nat), pre = done ++ rest → rest.length ≤ fuel →
      dleaf_split_at_loop L (bs - 4 * gs.length) split fuel (bs - 4 * (done.length + 1))
        (bs - 4 * gs.length - 4 * ent_count done) (ent_count done) done.length (ext_count done)
      = some (bs - 4 * gs.length - 4 * ent_count pre, ent_count pre, pre.length,
          ext_count pre) := by
  have hb := (rep_bounds hrep).1
  have hlen : gs.length = pre.length + 1 + post.length := by rw [hg]; simp; omega
  have hcnt : ent_count gs = ent_count pre + g.ents.length + ent_count post := by
    rw [hg]; simp [ent_count]; omega
  intro rest
  induction rest with
  | nil =>
    intro done fuel hpre hfuel
    simp only [List.append_nil] at hpre
    subst hpre
    have hc := rep_group_count hrep hwf hg (p := bs - 4 * (pre.length + 1)) (by omega)
    exact split_loop_break (by omega) (by rw [hc]; omega)
  | cons g1 rest' ih =>
    intro done fuel hpre hfuel
    obtain ⟨fuel', rfl⟩ : ∃ f, fuel = f + 1 := ⟨fuel - 1, by simp at hfuel; omega⟩
    have hplen : pre.length = done.length + 1 + rest'.length := by rw [hpre]; simp; omega
    have hpcnt : ent_count pre = ent_count done + g1.ents.length + ent_count rest' := by
      rw [hpre]; simp [ent_count]; omega
    have hg1 : gs = done ++ g1 :: (rest' ++ g :: post) := by rw [hg, hpre]; simp
    have hc := rep_group_count hrep hwf hg1 (p := bs - 4 * (done.length + 1)) (by omega)
    have hl := rep_last_limit hrep hwf hg1
      (p := bs - 4 * gs.length - 4 * ent_count done - 4 * g1.ents.length) (by omega)
    rw [split_loop_pass (by omega) (by rw [hc]; omega), hc, hl]
    have := ih (done ++ [g1]) fuel' (by rw [hpre]; simp) (by simp at hfuel; omega)
    simp only [List.length_append, List.length_singleton, ent_count_append, ent_count,
      ext_count_append, ext_count, Nat.add_zero] at this
    rw [← this]
    congr 1 <;> omega

end split

/-! ## Reading a table word back to its place in the index -/

theorem group_table_getElem {hs : List AGroup} {i w : Nat}
    (h : (group_table hs)[i]? = some w) :
    ∃ pre g post, hs = pre ++ g :: post ∧ pre.length = i ∧
      w = make_group g.keyhi g.ents.length := by
  induction hs generalizing i with
  | nil => simp [group_table] at h
  | cons a l ih =>
    cases i with
    | zero =>
      simp only [group_table, List.getElem?_cons_zero, Option.some.injEq] at h
      exact ⟨[], a, l, rfl, rfl, h.symm⟩
    | succ j =>
      simp only [group_table, List.getElem?_cons_succ] at h
      obtain ⟨pre, g, post, h1, h2, h3⟩ := ih h
      exact ⟨a :: pre, g, post, by rw [h1]; rfl, by simp [h2], h3⟩

theorem entry_words_getElem {es : List AEntry} {prev k w : Nat}
    (h : (entry_words prev es)[k]? = some w) :
    ∃ epre e epost, es = epre ++ e :: epost ∧ epre.length = k ∧
      w = make_entry e.keylo (prev + ext_total epre + e.exts.length) := by
  induction es generalizing prev k with
  | nil => simp [entry_words] at h
  | cons a l ih =>
    cases k with
    | zero =>
      simp only [entry_words, List.getElem?_cons_zero, Option.some.injEq] at h
      exact ⟨[], a, l, rfl, rfl, by rw [← h]; simp [ext_total]⟩
    | succ j =>
      simp only [entry_words, List.getElem?_cons_succ] at h
      obtain ⟨epre, e, epost, h1, h2, h3⟩ := ih h
      refine ⟨a :: epre, e, epost, by rw [h1]; rfl, by simp [h2], ?_⟩
      rw [h3]
      simp only [ext_total]
      congr 1
      omega

theorem entry_table_getElem {hs : List AGroup} {k w : Nat}
    (h : (entry_table hs)[k]? = some w) :
    ∃ pre g post epre e epost, hs = pre ++ g :: post ∧ g.ents = epre ++ e :: epost ∧
      k = ent_count pre + epre.length ∧
      w = make_entry e.keylo (ext_total epre + e.exts.length) := by
  induction hs generalizing k with
  | nil => simp [entry_table] at h
  | cons a l ih =>
    simp only [entry_table] at h
    rcases Nat.lt_or_ge k (entry_words 0 a.ents).length with hlt | hge
    · rw [List.getElem?_append_left hlt] at h
      obtain ⟨epre, e, epost, h1, h2, h3⟩ := entry_words_getElem h
      exact ⟨[], a, l, epre, e, epost, rfl, h1, by simp [ent_count, h2],
        by rw [h3]; simp⟩
    · rw [List.getElem?_append_right hge] at h
      obtain ⟨pre, g, post, epre, e, epost, h1, h2, h3, h4⟩ := ih h
      simp only [entry_words_length] at h3 hge
      exact ⟨a :: pre, g, post, epre, e, epost, by rw [h1]; rfl, h2,
        by simp only [ent_count]; omega, h4⟩

theorem ext_words_getElem {es : List AEntry} {k x : Nat}
    (h : (ext_words es)[k]? = some x) :
    ∃ epre e epost xpre xpost, es = epre ++ e :: epost ∧ e.exts = xpre ++ x :: xpost ∧
      k = ext_total epre + xpre.length := by
  induction es generalizing k with
  | nil => simp [ext_words] at h
  | cons a l ih =>
    simp only [ext_words] at h
    rcases Nat.lt_or_ge k a.exts.length with hlt | hge
    · rw [List.getElem?_append_left hlt] at h
      obtain ⟨xpre, xpost, h1, h2⟩ : ∃ xpre xpost, a.exts = xpre ++ x :: xpost ∧
          xpre.length = k := by
        have hx : a.exts[k] = x := by
          rw [List.getElem?_eq_getElem hlt] at h
          exact Option.some.inj h
        refine ⟨a.exts.take k, a.exts.drop (k + 1), ?_, by simp; omega⟩
        rw [← hx]
        simp
      exact ⟨[], a, l, xpre, xpost, rfl, h1, by simp [ext_total, h2]⟩
    · rw [List.getElem?_append_right hge] at h
      obtain ⟨epre, e, epost, xpre, xpost, h1, h2, h3⟩ := ih h
      exact ⟨a :: epre, e, epost, xpre, xpost, by rw [h1]; rfl, h2,
        by simp only [ext_total]; omega⟩

theorem extent_table_getElem {hs : List AGroup} {k x : Nat}
    (h : (extent_table hs)[k]? = some x) :
    ∃ pre g post epre e epost xpre xpost, hs = pre ++ g :: post ∧
      g.ents = epre ++ e :: epost ∧ e.exts = xpre ++ x :: xpost ∧
      k = ext_count pre + ext_total epre + xpre.length := by
  induction hs generalizing k with
  | nil => simp [extent_table] at h
  | cons a l ih =>
    simp only [extent_table] at h
    rcases Nat.lt_or_ge k (ext_words a.ents).length with hlt | hge
    · rw [List.getElem?_append_left hlt] at h
      obtain ⟨epre, e, epost, xpre, xpost, h1, h2, h3⟩ := ext_words_getElem h
      exact ⟨[], a, l, epre, e, epost, xpre, xpost, rfl, h1, h2, by simp [ext_count, h3]⟩
    · rw [List.getElem?_append_right hge] at h
      obtain ⟨pre, g, post, epre, e, epost, xpre, xpost, h1, h2, h3, h4⟩ := ih h
      simp only [ext_words_length] at h4 hge
      exact ⟨a :: pre, g, post, epre, e, epost, xpre, xpost, by rw [h1]; rfl, h2, h3,
        by simp only [ext_count]; omega⟩

/-- A block holds an index when its header fields and every word of its tables
read as the index says. -/
theorem rep_of_reads {bs : Nat} {M : dleaf} {hs : List AGroup}
    (hgroups : M.groups = hs.length) (hfree : M.free = 8 + 8 * ext_count hs)
    (hused : M.used = to_be_u16 (bs - 4 * (hs.length + ent_count hs)))
    (hfits : 8 + 8 * ext_count hs + 4 * (hs.length + ent_count hs) ≤ bs) (hsz : bs ≤ 65536)
    (hgrp : ∀ pre g post p, hs = pre ++ g :: post → p + 4 * (pre.length + 1) = bs →
      M.mem p = make_group g.keyhi g.ents.length)
    (hent : ∀ pre g post epre e epost p, hs = pre ++ g :: post → g.ents = epre ++ e :: epost →
      p + 4 * (hs.length + ent_count pre + epre.length + 1) = bs →
      M.mem p = make_entry e.keylo (ext_total epre + e.exts.length))
    (hext : ∀ pre g post epre e epost xpre x xpost, hs = pre ++ g :: post →
      g.ents = epre ++ e :: epost → e.exts = xpre ++ x :: xpost →
      extent_at M (8 + 8 * (ext_count pre + ext_total epre + xpre.length)) = x) :
    Rep bs M hs := by
  constructor
  · exact hgroups
  · intro i w p hw hp
    unfold dict_table at hw
    rcases Nat.lt_or_ge i (group_table hs).length with hlt | hge
    · rw [List.getElem?_append_left hlt] at hw
      obtain ⟨pre, g, post, h1, h2, h3⟩ := group_table_getElem hw
      rw [h3]
      exact hgrp pre g post p h1 (by omega)
    · rw [List.getElem?_append_right hge] at hw
      obtain ⟨pre, g, post, epre, e, epost, h1, h2, h3, h4⟩ := entry_table_getElem hw
      simp only [group_table_length] at h3 hge
      rw [h4]
      exact hent pre g post epre e epost p h1 h2 (by omega)
  · intro i x hx
    obtain ⟨pre, g, post, epre, e, epost, xpre, xpost, h1, h2, h3, h4⟩ := extent_table_getElem hx
    rw [h4]
    exact hext pre g post epre e epost xpre x xpost h1 h2 h3
  · rw [hfree]; simp
  · rw [hused]; simp
  · simp; exact hfits
  · exact hsz

/-! ## The two halves of a split leaf -/

theorem extent_at_shift {L M : dleaf} {lo hi d a : Nat}
    (h : ∀ a, lo ≤ a → a < hi → M.mem a = L.mem (a + d)) (h1 : lo ≤ a) (h2 : a + 4 < hi) :
    extent_at M a = extent_at L (a + d) := by
  unfold extent_at
  rw [h a h1 (by omega), h (a + 4) (by omega) h2]
  have : a + 4 + d = a + d + 4 := by omega
  rw [this]

section halves
variable {bs : Nat} {L M : dleaf} {gs pre post : List AGroup} {g : AGroup}
  {epre epost : List AEntry} {e : AEntry}

theorem split_sizes (hrep : Rep bs L gs) (hg : gs = pre ++ g :: post)
    (he : g.ents = epre ++ e :: epost) :
    gs.length = pre.length + 1 + post.length ∧
    ent_count gs = ent_count pre + (epre.length + (epost.length + 1)) + ent_count post ∧
    ext_count gs = ext_count pre + (ext_total epre + ext_total (e :: epost)) + ext_count post ∧
    8 + 8 * ext_count gs + 4 * (gs.length + ent_count gs) ≤ bs ∧ bs ≤ 65536 := by
  obtain ⟨hb, hsz⟩ := rep_bounds hrep
  refine ⟨by rw [hg]; simp; omega, ?_, ?_, hb, hsz⟩
  · rw [hg]; simp [ent_count, he]; omega
  · rw [hg]; simp [ext_count, he]; omega

/-- The new leaf of a split holds the entries from `e` on, with the limits of the
entries of the cut group rebased. -/
theorem rep_split_right (hrep : Rep bs L gs) (hwf : WF gs) (hg : gs = pre ++ g :: post)
    (he : g.ents = epre ++ e :: epost)
    (hgroups : M.groups = post.length + 1)
    (hfree : M.free = 8 + 8 * (ext_total (e :: epost) + ext_count post))
    (hused : M.used = to_be_u16 (bs - 4 * (post.length + 1 + (epost.length + 1 + ent_count post))))
    (m_ext : ∀ a, 8 ≤ a → a < 8 + 8 * (ext_total (e :: epost) + ext_count post) →
      M.mem a = L.mem (a + 8 * (ext_count pre + ext_total epre)))
    (m_g0 : ∀ p, p + 4 = bs → M.mem p = make_group g.keyhi (epost.length + 1))
    (m_grp : ∀ p j, p + 4 * (j + 1) = bs → 1 ≤ j → j ≤ post.length →
      M.mem p = L.mem (p - 4 * pre.length))
    (m_e0 : ∀ p epre' e' epost', e :: epost = epre' ++ e' :: epost' →
      p + 4 * (post.length + 1 + epre'.length + 1) = bs →
      M.mem p = make_entry e'.keylo (ext_total epre' + e'.exts.length))
    (m_ent : ∀ p k, p + 4 * (post.length + 1 + k + 1) = bs → epost.length < k →
      k < epost.length + 1 + ent_count post →
      M.mem p = L.mem (p - 4 * (pre.length + ent_count pre + epre.length))) :
    Rep bs M (⟨g.keyhi, e :: epost⟩ :: post) := by
  obtain ⟨s1, s2, s3, s4, s5⟩ := split_sizes hrep hg he
  refine rep_of_reads (by simp [hgroups]) (by rw [hfree]; simp [ext_count])
    (by rw [hused]; simp [ent_count]) (by simp [ext_count, ent_count] at s3 ⊢; omega) s5 ?_ ?_ ?_
  · intro pre' g' post' p hd hp
    cases pre' with
    | nil =>
      simp only [List.nil_append, List.cons.injEq] at hd
      rw [← hd.1]
      simp only [List.length_nil] at hp
      rw [m_g0 p (by omega)]
      simp
    | cons a pre'' =>
      simp only [List.cons_append, List.cons.injEq] at hd
      simp only [List.length_cons] at hp
      have hpl : post.length = pre''.length + 1 + post'.length := by rw [hd.2]; simp; omega
      rw [m_grp p (pre''.length + 1) (by omega) (by omega) (by omega)]
      have hgs : gs = (pre ++ g :: pre'') ++ g' :: post' := by rw [hg, hd.2]; simp
      rw [rep_group hrep hgs (by simp only [List.length_append, List.length_cons]; omega)]
  · intro pre' g' post' epre' e' epost' p hd hents hp
    simp only [List.length_cons] at hp
    cases pre' with
    | nil =>
      simp only [List.nil_append, List.cons.injEq] at hd
      rw [← hd.1] at hents
      simp only at hents
      have hel : epost.length + 1 = epre'.length + 1 + epost'.length := by
        have := congrArg List.length hents
        simp at this; omega
      simp only [ent_count, List.length_nil, Nat.zero_add] at hp
      exact m_e0 p epre' e' epost' hents (by omega)
    | cons a pre'' =>
      simp only [List.cons_append, List.cons.injEq] at hd
      have hpl : post.length = pre''.length + 1 + post'.length := by rw [hd.2]; simp; omega
      have hpc : ent_count post = ent_count pre'' + g'.ents.length + ent_count post' := by
        rw [hd.2]; simp [ent_count]; omega
      have hgl : g'.ents.length = epre'.length + 1 + epost'.length := by rw [hents]; simp; omega
      have ha : a.ents.length = epost.length + 1 := by rw [← hd.1]; simp
      simp only [ent_count] at hp
      rw [m_ent p (a.ents.length + ent_count pre'' + epre'.length) (by omega) (by omega) (by omega)]
      have hgs : gs = (pre ++ g :: pre'') ++ g' :: post' := by rw [hg, hd.2]; simp
      have hgel : g.ents.length = epre.length + 1 + epost.length := by rw [he]; simp; omega
      rw [rep_entry hrep hgs hents (by
        simp only [List.length_append, List.length_cons, ent_count_append, ent_count]; omega)]
  · intro pre' g' post' epre' e' epost' xpre x xpost hd hents hx
    have hxl : e'.exts.length = xpre.length + 1 + xpost.length := by rw [hx]; simp; omega
    have hetot : ext_total g'.ents = ext_total epre' + e'.exts.length + ext_total epost' := by
      rw [hents]; simp [ext_total]; omega
    cases pre' with
    | nil =>
      simp only [List.nil_append, List.cons.injEq] at hd
      rw [← hd.1] at hents hetot
      simp only at hents hetot
      have hents' : g.ents = (epre ++ epre') ++ e' :: epost' := by rw [he, hents]; simp
      simp only [ext_count, Nat.zero_add]
      rw [extent_at_shift m_ext (by omega) (by omega)]
      have := rep_extent hrep hg hents' hx
      simp only [ext_total_append] at this
      rw [← this]
      congr 1
      omega
    | cons a pre'' =>
      simp only [List.cons_append, List.cons.injEq] at hd
      have hpc : ext_count post = ext_count pre'' + ext_total g'.ents + ext_count post' := by
        rw [hd.2]; simp [ext_count]; omega
      have ha : ext_total a.ents = ext_total (e :: epost) := by rw [← hd.1]
      have hgs : gs = (pre ++ g :: pre'') ++ g' :: post' := by rw [hg, hd.2]; simp
      have hget : ext_total g.ents = ext_total epre + ext_total (e :: epost) := by
        rw [he]; simp
      simp only [ext_count]
      rw [extent_at_shift m_ext (by omega) (by omega)]
      have := rep_extent hrep hgs hents hx
      simp only [ext_count_append, ext_count] at this
      rw [← this]
      congr 1
      omega

/-- Where a group of `pre ++ tl` sits when `tl` holds at most one group. -/
theorem append_tail_cases {pre tl pre' post' : List AGroup} {g' : AGroup}
    (h : pre ++ tl = pre' ++ g' :: post') (htl : tl.length ≤ 1) :
    (∃ post'', pre = pre' ++ g' :: post'' ∧ post' = post'' ++ tl) ∨
    (tl = [g'] ∧ pre' = pre ∧ post' = []) := by
  rcases List.append_eq_append_iff.1 h with ⟨a, h1, h2⟩ | ⟨c, h1, h2⟩
  · cases a with
    | nil =>
      simp only [List.append_nil] at h1
      simp only [List.nil_append] at h2
      right
      cases tl with
      | nil => cases h2
      | cons t r =>
        cases r with
        | nil =>
          simp only [List.cons.injEq] at h2
          rw [h2.1, h2.2]
          exact ⟨rfl, h1, rfl⟩
        | cons t2 r2 => simp at htl
    | cons x a' =>
      exfalso
      have := congrArg List.length h2
      simp at this
      omega
  · cases c with
    | nil =>
      simp only [List.append_nil] at h1
      simp only [List.nil_append] at h2
      right
      cases tl with
      | nil => cases h2
      | cons t r =>
        cases r with
        | nil =>
          simp only [List.cons.injEq] at h2
          rw [← h2.1, h2.2]
          exact ⟨rfl, h1.symm, rfl⟩
        | cons t2 r2 => simp at htl
    | cons x c' =>
      left
      simp only [List.cons_append, List.cons.injEq] at h2
      exact ⟨c', by rw [h1, h2.1], h2.2⟩

end halves

theorem extent_at_same {L M : dleaf} {lo hi a : Nat}
    (h : ∀ a, lo ≤ a → a < hi → M.mem a = L.mem a) (h1 : lo ≤ a) (h2 : a + 4 < hi) :
    extent_at M a = extent_at L a := by
  unfold extent_at
  rw [h a h1 (by omega), h (a + 4) (by omega) h2]

section halves
variable {bs : Nat} {L M : dleaf} {gs pre post : List AGroup} {g : AGroup}
  {epre epost : List AEntry} {e : AEntry}

/-- The old leaf of a split keeps the entries in front of `e`, the last group cut
short when `e` lies inside it. -/
theorem rep_split_left (hrep : Rep bs L gs) (hwf : WF gs) (hg : gs = pre ++ g :: post)
    (he : g.ents = epre ++ e :: epost) {tl : List AGroup}
    (htl : (epre = [] ∧ tl = []) ∨ (epre ≠ [] ∧ tl = [⟨g.keyhi, epre⟩]))
    (hgroups : M.groups = (pre ++ tl).length)
    (hfree : M.free = 8 + 8 * (ext_count pre + ext_total epre))
    (hused : M.used = to_be_u16 (bs - 4 * ((pre ++ tl).length + (ent_count pre + epre.length))))
    (m_ext : ∀ a, 8 ≤ a → a < 8 + 8 * (ext_count pre + ext_total epre) → M.mem a = L.mem a)
    (m_grp : ∀ p j, p + 4 * (j + 1) = bs → j < pre.length → M.mem p = L.mem p)
    (m_cut : epre ≠ [] → ∀ p, p + 4 * (pre.length + 1) = bs →
      M.mem p = make_group g.keyhi epre.length)
    (m_ent : ∀ p k, p + 4 * ((pre ++ tl).length + k + 1) = bs → k < ent_count pre + epre.length →
      M.mem p = L.mem (p + 4 * (pre ++ tl).length - 4 * gs.length)) :
    Rep bs M (pre ++ tl) := by
  obtain ⟨s1, s2, s3, s4, s5⟩ := split_sizes hrep hg he
  have htl1 : tl.length ≤ 1 := by
    rcases htl with ⟨-, h⟩ | ⟨-, h⟩ <;> rw [h] <;> simp
  have hec : ent_count (pre ++ tl) = ent_count pre + epre.length := by
    rcases htl with ⟨h1, h⟩ | ⟨-, h⟩
    · rw [h, h1]; simp
    · rw [h]; simp [ent_count]
  have hxc : ext_count (pre ++ tl) = ext_count pre + ext_total epre := by
    rcases htl with ⟨h1, h⟩ | ⟨-, h⟩
    · rw [h, h1]; simp [ext_total]
    · rw [h]; simp [ext_count]
  have hll : (pre ++ tl).length ≤ pre.length + 1 := by simp; omega
  have htail : ∀ g', tl = [g'] → epre ≠ [] ∧ g' = ⟨g.keyhi, epre⟩ := by
    intro g' h
    rcases htl with ⟨-, h1⟩ | ⟨h0, h1⟩
    · rw [h1] at h; cases h
    · rw [h1] at h
      simp only [List.cons.injEq, and_true] at h
      exact ⟨h0, h.symm⟩
  refine rep_of_reads hgroups (by rw [hfree, hxc]) (by rw [hused, hec])
    (by rw [hxc, hec]; simp only [ext_total] at s3; omega) s5 ?_ ?_ ?_
  · intro pre' g' post' p hd hp
    rcases append_tail_cases hd htl1 with ⟨post'', h1, h2⟩ | ⟨h1, h2, h3⟩
    · have hpl : pre.length = pre'.length + 1 + post''.length := by rw [h1]; simp; omega
      rw [m_grp p pre'.length hp (by omega)]
      exact rep_group hrep (show gs = pre' ++ g' :: (post'' ++ g :: post) by rw [hg, h1]; simp) hp
    · obtain ⟨h4, h5⟩ := htail g' h1
      rw [h2] at hp
      rw [m_cut h4 p hp, h5]
  · intro pre' g' post' epre' e' epost' p hd hents hp
    have hgl : g'.ents.length = epre'.length + 1 + epost'.length := by rw [hents]; simp; omega
    rcases append_tail_cases hd htl1 with ⟨post'', h1, h2⟩ | ⟨h1, h2, h3⟩
    · have hpc : ent_count pre = ent_count pre' + g'.ents.length + ent_count post'' := by
        rw [h1]; simp [ent_count]; omega
      rw [m_ent p (ent_count pre' + epre'.length) (by omega) (by omega)]
      exact rep_entry hrep (show gs = pre' ++ g' :: (post'' ++ g :: post) by rw [hg, h1]; simp)
        hents (by omega)
    · obtain ⟨h4, h5⟩ := htail g' h1
      rw [h5] at hents hgl
      simp only at hents hgl
      rw [h2] at hp
      rw [m_ent p (ent_count pre + epre'.length) (by omega) (by omega)]
      exact rep_entry hrep hg (show g.ents = epre' ++ e' :: (epost' ++ e :: epost) by
        rw [he, hents]; simp) (by omega)
  · intro pre' g' post' epre' e' epost' xpre x xpost hd hents hx
    have hxl : e'.exts.length = xpre.length + 1 + xpost.length := by rw [hx]; simp; omega
    have hetot : ext_total g'.ents = ext_total epre' + e'.exts.length + ext_total epost' := by
      rw [hents]; simp [ext_total]; omega
    rcases append_tail_cases hd htl1 with ⟨post'', h1, h2⟩ | ⟨h1, h2, h3⟩
    · have hpc : ext_count pre = ext_count pre' + ext_total g'.ents + ext_count post'' := by
        rw [h1]; simp [ext_count]; omega
      rw [extent_at_same m_ext (by omega) (by omega)]
      exact rep_extent hrep (show gs = pre' ++ g' :: (post'' ++ g :: post) by rw [hg, h1]; simp)
        hents hx
    · obtain ⟨h4, h5⟩ := htail g' h1
      rw [h5] at hents hetot
      simp only at hents hetot
      rw [h2]
      rw [extent_at_same m_ext (by omega) (by omega)]
      exact rep_extent hrep hg (show g.ents = epre' ++ e' :: (epost' ++ e :: epost) by
        rw [he, hents]; simp) hx

end halves

section eval
variable {bs : Nat} {L R A B R2 : dleaf}

/-- The result of `dleaf_split_at` once its loops are known: `A` is the old leaf
with its group table cut, `B` the new leaf with the extents, groups and entries
copied, `R2` the new leaf with the limits of its first group rebased. -/
theorem dleaf_split_at_eval {n sp En ec rc G xs cut X : Nat}
    (hn : dleaf_groups L = n) (hn0 : n ≠ 0) (hused : L.used = bs - 4 * n - 4 * En)
    (hfit : 4 * n + 4 * En ≤ bs) (hsplit : sp < En)
    (hloop : dleaf_split_at_loop L (bs - 4 * n) sp n (bs - 4) (bs - 4 * n) 0 0 0
      = some (ec, rc, G, xs))
    (hcut : sp - rc = cut)
    (hX : (if cut ≠ 0 then xs + entry_limit L (ec - 4 * cut) else xs) = X)
    (hG : n - G < 65536)
    (hA : A = if cut ≠ 0 then
        set_group_count (set_dleaf_groups L (G + if cut ≠ 0 then 1 else 0))
          (bs - 4 * (G + if cut ≠ 0 then 1 else 0)) cut
      else set_dleaf_groups L (G + if cut ≠ 0 then 1 else 0))
    (hB : B = veccopy
        (inc_group_count
          (veccopy
            (set_dleaf_groups
              (memcpy R sizeof_dleaf L (sizeof_dleaf + 8 * X) (L.free - (sizeof_dleaf + 8 * X)))
              (n - G))
            (bs - 4 * (n - G)) L (bs - 4 * n) (n - G))
          (bs - 4) (-(cut : Int)))
        (bs - 4 * (n - G) - 4 * (En - sp)) A L.used (En - sp))
    (hadj : (if cut ≠ 0 then
        adjust_limits_loop (fun l => group_count l (bs - 4)) (bs - 4 * (n - G))
          (fun _ => -(entry_limit A (bs - 4 * n - 4 * sp) : Int)) 256 1 B
      else some B) = some R2)
    (hmem : ¬ to_be_u16 (bs - 4 * (G + if cut ≠ 0 then 1 else 0) - 4 * sp)
      < to_be_u16 (sizeof_dleaf + 8 * X)) :
    dleaf_split_at L R (bs - 4 * n - 4 * sp - 4) bs = some (n - G,
      memset0
        (set_dleaf_used
          (set_dleaf_free
            (vecmove A (bs - 4 * (G + if cut ≠ 0 then 1 else 0) - 4 * sp) (bs - 4 * n - 4 * sp) sp)
            (to_be_u16 (sizeof_dleaf + 8 * X)))
          (to_be_u16 (bs - 4 * (G + if cut ≠ 0 then 1 else 0) - 4 * sp)))
        (to_be_u16 (sizeof_dleaf + 8 * X))
        (to_be_u16 (bs - 4 * (G + if cut ≠ 0 then 1 else 0) - 4 * sp)
          - to_be_u16 (sizeof_dleaf + 8 * X)),
      set_dleaf_used
        (set_dleaf_free R2 (to_be_u16 (sizeof_dleaf + (L.free - (sizeof_dleaf + 8 * X)))))
        (to_be_u16 (bs - 4 * (n - G) - 4 * (En - sp)))) := by
  have h1 : ¬ (n = 0) := hn0
  have hentries : (bs - 4 * n - L.used) / 4 = En := by rw [hused]; omega
  have hsp : (bs - 4 * n - 4 - (bs - 4 * n - 4 * sp - 4)) / 4 = sp := by omega
  have h2 : L.used ≤ bs - 4 * n - 4 * sp - 4 ∧ bs - 4 * n - 4 * sp - 4 < bs - 4 * n := by
    rw [hused]; omega
  have hg2 : to_be_u16 (n - G) = n - G := Nat.mod_eq_of_lt hG
  have hAused : A.used = bs - 4 * n - 4 * En := by
    rw [hA]
    by_cases hc : cut ≠ 0
    · rw [if_pos hc, set_group_count_used, set_dleaf_groups_used, hused]
    · rw [if_neg hc, set_dleaf_groups_used, hused]
  have hn' : L.groups = n := hn
  simp only [dleaf_split_at, dleaf_groups, hn', h1, if_false, hentries, hsp, h2, and_self, not_true_eq_false,
    hsplit, hloop, hcut, hX, set_dleaf_groups_groups, hg2, ← hA]
  rw [if_neg (by rw [hAused]; simp), ← hB, hadj]
  simp only [set_dleaf_used_used, set_dleaf_used_free, set_dleaf_free_free]
  rw [if_neg hmem]

/-- The two intermediate leaves of `dleaf_split_at`. -/
theorem split_terms (L R : dleaf) (bs n G cut X En sp : Nat) :
    ∃ A B : dleaf,
      (A = if cut ≠ 0 then
          set_group_count (set_dleaf_groups L (G + if cut ≠ 0 then 1 else 0))
            (bs - 4 * (G + if cut ≠ 0 then 1 else 0)) cut
        else set_dleaf_groups L (G + if cut ≠ 0 then 1 else 0)) ∧
      (B = veccopy
        (inc_group_count
          (veccopy
            (set_dleaf_groups
              (memcpy R sizeof_dleaf L (sizeof_dleaf + 8 * X) (L.free - (sizeof_dleaf + 8 * X)))
              (n - G))
            (bs - 4 * (n - G)) L (bs - 4 * n) (n - G))
          (bs - 4) (-(cut : Int)))
        (bs - 4 * (n - G) - 4 * (En - sp)) A L.used (En - sp)) :=
  ⟨_, _, rfl, rfl⟩

end eval

/-! ## Block copies -/

theorem memcpy_mem_in {L S : dleaf} {dst src n a : Nat} (h1 : dst ≤ a) (h2 : a < dst + n) :
    (memcpy L dst S src n).mem a = S.mem (a - dst + src) := by
  simp [memcpy, h1, h2]

theorem memcpy_mem_out {L S : dleaf} {dst src n a : Nat} (h : a < dst ∨ dst + n ≤ a) :
    (memcpy L dst S src n).mem a = L.mem a := by
  have : ¬ (dst ≤ a ∧ a < dst + n) := by omega
  simp [memcpy, this]

theorem veccopy_mem_in {L S : dleaf} {dst src n a : Nat} (h1 : dst ≤ a) (h2 : a < dst + 4 * n) :
    (veccopy L dst S src n).mem a = S.mem (a - dst + src) := by
  simp [veccopy, memcpy, h1, h2]

theorem veccopy_mem_out {L S : dleaf} {dst src n a : Nat} (h : a < dst ∨ dst + 4 * n ≤ a) :
    (veccopy L dst S src n).mem a = L.mem a := by
  have : ¬ (dst ≤ a ∧ a < dst + 4 * n) := by omega
  simp [veccopy, memcpy, this]

theorem memset0_mem_out {L : dleaf} {dst n a : Nat} (h : a < dst ∨ dst + n ≤ a) :
    (memset0 L dst n).mem a = L.mem a := by
  have : ¬ (dst ≤ a ∧ a < dst + n) := by omega
  simp [memset0, this]

@[simp] theorem memcpy_groups (L S : dleaf) (d s n : Nat) : (memcpy L d S s n).groups = L.groups := rfl
@[simp] theorem memcpy_free (L S : dleaf) (d s n : Nat) : (memcpy L d S s n).free = L.free := rfl
@[simp] theorem memcpy_used (L S : dleaf) (d s n : Nat) : (memcpy L d S s n).used = L.used := rfl
@[simp] theorem veccopy_groups (L S : dleaf) (d s n : Nat) : (veccopy L d S s n).groups = L.groups := rfl
@[simp] theorem veccopy_free (L S : dleaf) (d s n : Nat) : (veccopy L d S s n).free = L.free := rfl
@[simp] theorem veccopy_used (L S : dleaf) (d s n : Nat) : (veccopy L d S s n).used = L.used := rfl
@[simp] theorem memset0_groups (L : dleaf) (d n : Nat) : (memset0 L d n).groups = L.groups := rfl
@[simp] theorem memset0_free (L : dleaf) (d n : Nat) : (memset0 L d n).free = L.free := rfl
@[simp] theorem memset0_used (L : dleaf) (d n : Nat) : (memset0 L d n).used = L.used := rfl

section right
variable {bs : Nat} {L R A B : dleaf} {gs pre post : List AGroup} {g : AGroup}
  {epre epost : List AEntry} {e : AEntry}

/-- The new leaf of `dleaf_split_at` after the extents, the groups and the entries
are copied and the count of its first group is cut. -/
theorem split_B_facts (hrep : Rep bs L gs) (hwf : WF gs) (hg : gs = pre ++ g :: post)
    (he : g.ents = epre ++ e :: epost)
    (hA : ∀ a, a < bs - 4 * gs.length → A.mem a = L.mem a)
    (hB : B = veccopy
        (inc_group_count
          (veccopy
            (set_dleaf_groups
              (memcpy R sizeof_dleaf L (sizeof_dleaf + 8 * (ext_count pre + ext_total epre))
                (L.free - (sizeof_dleaf + 8 * (ext_count pre + ext_total epre))))
              (gs.length - pre.length))
            (bs - 4 * (gs.length - pre.length)) L (bs - 4 * gs.length) (gs.length - pre.length))
          (bs - 4) (-(epre.length : Int)))
        (bs - 4 * (gs.length - pre.length) - 4 * (ent_count gs - (ent_count pre + epre.length)))
        A L.used (ent_count gs - (ent_count pre + epre.length))) :
    B.groups = post.length + 1 ∧
    (∀ a, 8 ≤ a → a < 8 + 8 * (ext_total (e :: epost) + ext_count post) →
      B.mem a = L.mem (a + 8 * (ext_count pre + ext_total epre))) ∧
    (∀ p, p + 4 = bs → B.mem p = make_group g.keyhi (epost.length + 1)) ∧
    (∀ p j, p + 4 * (j + 1) = bs → 1 ≤ j → j ≤ post.length →
      B.mem p = L.mem (p - 4 * pre.length)) ∧
    (∀ p k, p + 4 * (post.length + 1 + k + 1) = bs → k < epost.length + 1 + ent_count post →
      B.mem p = L.mem (p - 4 * (pre.length + ent_count pre + epre.length))) := by
  obtain ⟨s1, s2, s3, s4, s5⟩ := split_sizes hrep hg he
  have hfree := hrep.free_eq
  have hused := hrep.used_eq
  simp only [extent_table_length, dict_table_length, to_be_u16] at hfree hused
  have hused' : L.used = bs - 4 * (gs.length + ent_count gs) := by omega
  have hgl : g.ents.length = epre.length + 1 + epost.length := by rw [he]; simp; omega
  have hgle := (hwf g (by rw [hg]; simp)).2.2.1
  subst hB
  simp only [sizeof_dleaf]
  refine ⟨?_, ?_, ?_, ?_, ?_⟩
  · simp only [veccopy_groups, inc_group_count_groups, set_dleaf_groups_groups, to_be_u16]
    omega
  · intro a h1 h2
    rw [veccopy_mem_out (by omega), inc_group_count_mem_ne (by omega), veccopy_mem_out (by omega),
      set_dleaf_groups_mem_eq, memcpy_mem_in (by omega) (by omega)]
    congr 1
    omega
  · intro p hp
    rw [veccopy_mem_out (by omega), inc_group_count_mem_eq (by omega)]
    have hw : (veccopy
        (set_dleaf_groups
          (memcpy R 8 L (8 + 8 * (ext_count pre + ext_total epre))
            (L.free - (8 + 8 * (ext_count pre + ext_total epre))))
          (gs.length - pre.length))
        (bs - 4 * (gs.length - pre.length)) L (bs - 4 * gs.length)
        (gs.length - pre.length)).mem (bs - 4) = make_group g.keyhi g.ents.length := by
      rw [veccopy_mem_in (by omega) (by omega)]
      exact rep_group hrep hg (by omega)
    rw [group_keyhi_of_mem hw (hwf g (by rw [hg]; simp)).1, group_count_of_mem hw (by omega)]
    congr 1
    omega
  · intro p j hp h1 h2
    rw [veccopy_mem_out (by omega), inc_group_count_mem_ne (by omega),
      veccopy_mem_in (by omega) (by omega)]
    congr 1
    omega
  · intro p k hp hk
    rw [veccopy_mem_in (by omega) (by omega), hA _ (by omega)]
    congr 1
    omega

end right

section split
variable {bs : Nat} {L : dleaf} {gs pre post : List AGroup} {g : AGroup}
  {epre epost : List AEntry} {e : AEntry}

/-- Header fields of a leaf that holds a non-empty index. -/
theorem rep_fields (hrep : Rep bs L gs) (hne : gs ≠ []) :
    L.groups = gs.length ∧ L.free = 8 + 8 * ext_count gs ∧
    L.used = bs - 4 * gs.length - 4 * ent_count gs := by
  obtain ⟨hb, hsz⟩ := rep_bounds hrep
  have hfree := hrep.free_eq
  have hused := hrep.used_eq
  simp only [extent_table_length, dict_table_length, to_be_u16] at hfree hused
  have : 1 ≤ gs.length := by
    cases gs with
    | nil => exact absurd rfl hne
    | cons a l => simp
  exact ⟨hrep.groups_eq, hfree, by omega⟩

/-- The limit of the entry in front of `e` counts the extents in front of `e` in
its group. -/
theorem split_cut_limit (hrep : Rep bs L gs) (hwf : WF gs) (hg : gs = pre ++ g :: post)
    (he : g.ents = epre ++ e :: epost) (hc : epre.length ≠ 0) {p : Nat}
    (hp : p + 4 * (gs.length + ent_count pre + epre.length) = bs) :
    entry_limit L p = ext_total epre := by
  obtain ⟨epre0, el, h0⟩ : ∃ epre0 el, epre = epre0 ++ [el] := by
    rcases List.eq_nil_or_concat epre with h | ⟨l, b, h⟩
    · rw [h] at hc; simp at hc
    · exact ⟨l, b, by simpa using h⟩
  have he2 : g.ents = epre0 ++ el :: (e :: epost) := by rw [he, h0]; simp
  have hl : epre.length = epre0.length + 1 := by rw [h0]; simp
  rw [rep_entry_limit hrep hwf hg he2 (by omega), h0]
  simp [ext_total]

/-- The old leaf of `dleaf_split_at` after its group table is cut. -/
theorem split_A_facts (hrep : Rep bs L gs) (hwf : WF gs) (hg : gs = pre ++ g :: post)
    (he : g.ents = epre ++ e :: epost) {A : dleaf}
    (hA : A = if epre.length ≠ 0 then
        set_group_count (set_dleaf_groups L (pre.length + if epre.length ≠ 0 then 1 else 0))
          (bs - 4 * (pre.length + if epre.length ≠ 0 then 1 else 0)) epre.length
      else set_dleaf_groups L (pre.length + if epre.length ≠ 0 then 1 else 0)) :
    A.groups = pre.length + (if epre.length ≠ 0 then 1 else 0) ∧
    (∀ a, a + 4 * (pre.length + 1) ≠ bs → A.mem a = L.mem a) ∧
    (epre.length ≠ 0 → ∀ p, p + 4 * (pre.length + 1) = bs →
      A.mem p = make_group g.keyhi epre.length) := by
  obtain ⟨s1, s2, s3, s4, s5⟩ := split_sizes hrep hg he
  subst hA
  by_cases hc : epre.length ≠ 0
  · simp only [if_pos hc]
    refine ⟨?_, ?_, ?_⟩
    · rw [set_group_count_groups, set_dleaf_groups_groups, to_be_u16]
      omega
    · intro a ha
      rw [set_group_count_mem_ne (by omega), set_dleaf_groups_mem_eq]
    · intro _ p hp
      rw [set_group_count_mem_eq (by omega)]
      congr 1
      unfold group_keyhi
      rw [set_dleaf_groups_mem_eq]
      exact rep_group_keyhi hrep hwf hg (by omega)
  · simp only [if_neg hc]
    refine ⟨?_, ?_, fun h => absurd h hc⟩
    · rw [set_dleaf_groups_groups, to_be_u16]
      omega
    · intro a ha
      rw [set_dleaf_groups_mem_eq]

end split

section split
variable {bs : Nat} {L : dleaf} {gs pre post : List AGroup} {g : AGroup}
  {epre epost : List AEntry} {e : AEntry}

/-- The rebasing step of `dleaf_split_at` on the new leaf `B`. -/
theorem split_rebase (hrep : Rep bs L gs) (hwf : WF gs) (hg : gs = pre ++ g :: post)
    (he : g.ents = epre ++ e :: epost) {A B : dleaf}
    (hAmem : ∀ a, a + 4 * (pre.length + 1) ≠ bs → A.mem a = L.mem a)
    (hB0 : ∀ p, p + 4 = bs → B.mem p = make_group g.keyhi (epost.length + 1)) :
    ∃ R2, (if epre.length ≠ 0 then
        adjust_limits_loop (fun l => group_count l (bs - 4)) (bs - 4 * (gs.length - pre.length))
          (fun _ => -(entry_limit A (bs - 4 * gs.length - 4 * (ent_count pre + epre.length)) : Int))
          256 1 B
      else some B) = some R2 ∧
      R2.groups = B.groups ∧
      ∀ a, R2.mem a =
        if epre.length ≠ 0 ∧ bs - 4 * (gs.length - pre.length) - 4 * (epost.length + 1) ≤ a ∧
            a + 4 ≤ bs - 4 * (gs.length - pre.length) ∧
            (bs - 4 * (gs.length - pre.length) - a) % 4 = 0 then
          make_entry (entry_keylo B a) (((entry_limit B a : Int) + -(ext_total epre : Int)) % 256).toNat
        else B.mem a := by
  obtain ⟨s1, s2, s3, s4, s5⟩ := split_sizes hrep hg he
  have hgl : g.ents.length = epre.length + 1 + epost.length := by rw [he]; simp; omega
  have hgle := (hwf g (by rw [hg]; simp)).2.2.1
  by_cases hc : epre.length ≠ 0
  · rw [if_pos hc]
    have hlim : entry_limit A (bs - 4 * gs.length - 4 * (ent_count pre + epre.length))
        = ext_total epre := by
      unfold entry_limit
      rw [hAmem _ (by omega)]
      exact split_cut_limit hrep hwf hg he hc (by omega)
    have hcnt : group_count B (bs - 4) = epost.length + 1 :=
      group_count_of_mem (hB0 _ (by omega)) (by omega)
    obtain ⟨R2, h1, h2, -, -, -, h6⟩ := adjust_limits_spec (bs - 4)
      (bs - 4 * (gs.length - pre.length)) (epost.length + 1) (-(ext_total epre : Int))
      (by omega) (by omega) (epost.length + 1) 1 256 B (by omega) (by omega) (Nat.le_refl _) hcnt
    refine ⟨R2, by rw [hlim]; exact h1, h2, ?_⟩
    intro a
    rw [h6 a]
    simp only [Nat.mul_one, hc, ne_eq, not_false_eq_true, true_and]
  · rw [if_neg hc]
    refine ⟨B, rfl, rfl, ?_⟩
    intro a
    rw [if_neg (by intro h; exact hc h.1)]

end split

section split
variable {bs : Nat} {L : dleaf} {gs pre post : List AGroup} {g : AGroup}
  {epre epost : List AEntry} {e : AEntry}

/-- The old leaf as `dleaf_split_at` leaves it. -/
theorem split_left_final (hrep : Rep bs L gs) (hwf : WF gs)
    (hg : gs = pre ++ g :: post) (he : g.ents = epre ++ e :: epost) {tl : List AGroup}
    (htl : (epre = [] ∧ tl = []) ∨ (epre ≠ [] ∧ tl = [⟨g.keyhi, epre⟩]))
    (h64 : bs < 65536 ∨ pre ≠ [] ∨ epre ≠ []) {A : dleaf}
    (a1 : A.groups = pre.length + (if epre.length ≠ 0 then 1 else 0))
    (a2 : ∀ a, a + 4 * (pre.length + 1) ≠ bs → A.mem a = L.mem a)
    (a3 : epre.length ≠ 0 → ∀ p, p + 4 * (pre.length + 1) = bs →
      A.mem p = make_group g.keyhi epre.length) :
    Rep bs
      (memset0
        (set_dleaf_used
          (set_dleaf_free
            (vecmove A
              (bs - 4 * (pre.length + if epre.length ≠ 0 then 1 else 0)
                - 4 * (ent_count pre + epre.length))
              (bs - 4 * gs.length - 4 * (ent_count pre + epre.length))
              (ent_count pre + epre.length))
            (to_be_u16 (sizeof_dleaf + 8 * (ext_count pre + ext_total epre))))
          (to_be_u16 (bs - 4 * (pre.length + if epre.length ≠ 0 then 1 else 0)
            - 4 * (ent_count pre + epre.length))))
        (to_be_u16 (sizeof_dleaf + 8 * (ext_count pre + ext_total epre)))
        (to_be_u16 (bs - 4 * (pre.length + if epre.length ≠ 0 then 1 else 0)
            - 4 * (ent_count pre + epre.length))
          - to_be_u16 (sizeof_dleaf + 8 * (ext_count pre + ext_total epre))))
      (pre ++ tl) := by
  obtain ⟨s1, s2, s3, s4, s5⟩ := split_sizes hrep hg he
  have hGp : (pre ++ tl).length = pre.length + (if epre.length ≠ 0 then 1 else 0) := by
    rcases htl with ⟨h1, h2⟩ | ⟨h1, h2⟩
    · rw [h1, h2]; simp
    · have : epre.length ≠ 0 := fun h => h1 (List.length_eq_zero.1 h)
      rw [h2, if_pos this]; simp
  have hnowrap : 1 ≤ pre.length + (if epre.length ≠ 0 then 1 else 0) + (ent_count pre + epre.length)
      ∨ bs < 65536 := by
    rcases h64 with h | h | h
    · exact Or.inr h
    · left
      cases pre with
      | nil => exact absurd rfl h
      | cons a l => simp; omega
    · left
      cases epre with
      | nil => exact absurd rfl h
      | cons a l => simp; omega
  have hif : (if epre.length ≠ 0 then 1 else 0) ≤ 1 := by split <;> omega
  simp only [ext_total] at s3
  generalize (if epre.length ≠ 0 then 1 else 0) = c at *
  simp only [to_be_u16, sizeof_dleaf]
  have hu : (bs - 4 * (pre.length + c) - 4 * (ent_count pre + epre.length)) % 65536
      = bs - 4 * (pre.length + c) - 4 * (ent_count pre + epre.length) := by omega
  have hf : (8 + 8 * (ext_count pre + ext_total epre)) % 65536
      = 8 + 8 * (ext_count pre + ext_total epre) := by omega
  rw [hu, hf]
  refine rep_split_left hrep hwf hg he htl ?_ ?_ ?_ ?_ ?_ ?_ ?_
  · simp only [memset0_groups, set_dleaf_used_groups, set_dleaf_free_groups, vecmove_groups]
    rw [a1, hGp]
  · simp only [memset0_free, set_dleaf_used_free, set_dleaf_free_free]
  · simp only [memset0_used, set_dleaf_used_used, to_be_u16]
    rw [hGp]
    omega
  · intro a h1 h2
    rw [memset0_mem_out (by omega), set_dleaf_used_mem,
      set_dleaf_free_mem, vecmove_mem_out (by omega), a2 a (by omega)]
  · intro p j hp hj
    rw [memset0_mem_out (by omega), set_dleaf_used_mem,
      set_dleaf_free_mem, vecmove_mem_out (by omega), a2 p (by omega)]
  · intro hne p hp
    have hc : epre.length ≠ 0 := fun h => hne (List.length_eq_zero.1 h)
    have hc1 : c = 1 := by
      rcases htl with ⟨h1, h2⟩ | ⟨h1, h2⟩
      · exact absurd h1 hne
      · rw [h2] at hGp; simp at hGp; omega
    rw [memset0_mem_out (by omega), set_dleaf_used_mem, set_dleaf_free_mem,
      vecmove_mem_out (by omega), a3 hc p hp]
  · intro p k hp hk
    rw [hGp] at hp ⊢
    rw [memset0_mem_out (by omega), set_dleaf_used_mem,
      set_dleaf_free_mem, vecmove_mem_in (by omega) (by omega), a2 _ (by omega)]
    congr 1
    omega

end split

section split
variable {bs : Nat} {L : dleaf} {gs pre post : List AGroup} {g : AGroup}
  {epre epost : List AEntry} {e : AEntry}

/-- The new leaf as `dleaf_split_at` leaves it. -/
theorem split_right_final (hrep : Rep bs L gs) (hwf : WF gs)
    (hg : gs = pre ++ g :: post) (he : g.ents = epre ++ e :: epost) {B R2 : dleaf}
    (b1 : B.groups = post.length + 1)
    (b2 : ∀ a, 8 ≤ a → a < 8 + 8 * (ext_total (e :: epost) + ext_count post) →
      B.mem a = L.mem (a + 8 * (ext_count pre + ext_total epre)))
    (b3 : ∀ p, p + 4 = bs → B.mem p = make_group g.keyhi (epost.length + 1))
    (b4 : ∀ p j, p + 4 * (j + 1) = bs → 1 ≤ j → j ≤ post.length →
      B.mem p = L.mem (p - 4 * pre.length))
    (b5 : ∀ p k, p + 4 * (post.length + 1 + k + 1) = bs →
      k < epost.length + 1 + ent_count post →
      B.mem p = L.mem (p - 4 * (pre.length + ent_count pre + epre.length)))
    (r1 : R2.groups = B.groups)
    (r2 : ∀ a, R2.mem a =
        if epre.length ≠ 0 ∧ bs - 4 * (gs.length - pre.length) - 4 * (epost.length + 1) ≤ a ∧
            a + 4 ≤ bs - 4 * (gs.length - pre.length) ∧
            (bs - 4 * (gs.length - pre.length) - a) % 4 = 0 then
          make_entry (entry_keylo B a) (((entry_limit B a : Int) + -(ext_total epre : Int)) % 256).toNat
        else B.mem a) :
    Rep bs
      (set_dleaf_used
        (set_dleaf_free R2
          (to_be_u16 (sizeof_dleaf + (L.free - (sizeof_dleaf + 8 * (ext_count pre + ext_total epre))))))
        (to_be_u16 (bs - 4 * (post.length + 1)
          - 4 * (ent_count gs - (ent_count pre + epre.length)))))
      (⟨g.keyhi, e :: epost⟩ :: post) := by
  obtain ⟨s1, s2, s3, s4, s5⟩ := split_sizes hrep hg he
  obtain ⟨f1, f2, f3⟩ := rep_fields hrep (by rw [hg]; simp)
  have hgin : g ∈ gs := by rw [hg]; simp
  obtain ⟨w1, w2, w3, w4, w5⟩ := hwf g hgin
  refine rep_split_right hrep hwf hg he ?_ ?_ ?_ ?_ ?_ ?_ ?_ ?_
  · simp only [set_dleaf_used_groups, set_dleaf_free_groups]
    rw [r1, b1]
  · simp only [set_dleaf_used_free, set_dleaf_free_free, to_be_u16, sizeof_dleaf]
    rw [f2]
    omega
  · simp only [set_dleaf_used_used]
    congr 1
    omega
  · intro a h1 h2
    rw [set_dleaf_used_mem, set_dleaf_free_mem, r2 a, if_neg (by omega), b2 a h1 h2]
  · intro p hp
    rw [set_dleaf_used_mem, set_dleaf_free_mem, r2 p, if_neg (by omega), b3 p hp]
  · intro p j hp h1 h2
    rw [set_dleaf_used_mem, set_dleaf_free_mem, r2 p, if_neg (by omega), b4 p j hp h1 h2]
  · intro p epre' e' epost' hd hp
    have hk : epost.length + 1 = epre'.length + 1 + epost'.length := by
      have := congrArg List.length hd
      simp at this; omega
    have hents' : g.ents = (epre ++ epre') ++ e' :: epost' := by rw [he, hd]; simp
    have hBp := b5 p epre'.length (by omega) (by omega)
    have hLq := rep_entry hrep hg hents'
      (p := p - 4 * (pre.length + ent_count pre + epre.length))
      (by simp only [List.length_append]; omega)
    have hkl := (w5 e' (by rw [hents']; simp)).1
    have hlim : ext_total (epre ++ epre') + e'.exts.length ≤ ext_total g.ents := by
      rw [hents']; simp [ext_total]; omega
    rw [set_dleaf_used_mem, set_dleaf_free_mem, r2 p]
    by_cases hc : epre.length ≠ 0
    · rw [if_pos ⟨hc, by omega, by omega, by omega⟩,
        entry_keylo_of_mem (hBp.trans hLq) hkl, entry_limit_of_mem (hBp.trans hLq) (by omega)]
      congr 1
      simp only [ext_total_append] at hlim ⊢
      omega
    · rw [if_neg (by intro h; exact hc h.1), hBp, hLq]
      have : epre = [] := List.length_eq_zero.1 (by omega)
      rw [this]
      simp
  · intro p k hp h1 h2
    rw [set_dleaf_used_mem, set_dleaf_free_mem, r2 p, if_neg (by omega), b5 p k hp h2]

/-- The split of a leaf in front of entry `e`: the old leaf keeps the entries in
front of `e`, the new leaf holds the entries from `e` on. -/
theorem dleaf_split_at_rep (R : dleaf) (hrep : Rep bs L gs) (hwf : WF gs)
    (hg : gs = pre ++ g :: post) (he : g.ents = epre ++ e :: epost) {tl : List AGroup}
    (htl : (epre = [] ∧ tl = []) ∨ (epre ≠ [] ∧ tl = [⟨g.keyhi, epre⟩]))
    (h64 : bs < 65536 ∨ pre ≠ [] ∨ epre ≠ []) :
    ∃ L' R', dleaf_split_at L R (bs - 4 * gs.length - 4 * (ent_count pre + epre.length) - 4) bs
        = some (post.length + 1, L', R') ∧
      Rep bs L' (pre ++ tl) ∧ Rep bs R' (⟨g.keyhi, e :: epost⟩ :: post) := by
  obtain ⟨s1, s2, s3, s4, s5⟩ := split_sizes hrep hg he
  obtain ⟨f1, f2, f3⟩ := rep_fields hrep (by rw [hg]; simp)
  have hgl : g.ents.length = epre.length + 1 + epost.length := by rw [he]; simp; omega
  have hloop := split_loop_rep hrep hwf hg (ent_count pre + epre.length) (by omega) (by omega)
    pre [] gs.length rfl (by omega)
  simp only [List.length_nil, ent_count, ext_count, Nat.zero_add, Nat.mul_zero, Nat.sub_zero,
    Nat.mul_one] at hloop
  have hX : (if epre.length ≠ 0 then
        ext_count pre + entry_limit L (bs - 4 * gs.length - 4 * ent_count pre - 4 * epre.length)
      else ext_count pre) = ext_count pre + ext_total epre := by
    by_cases hc : epre.length ≠ 0
    · rw [if_pos hc, split_cut_limit hrep hwf hg he hc (by omega)]
    · rw [if_neg hc]
      have : epre = [] := List.length_eq_zero.1 (by omega)
      rw [this]; rfl
  have hnowrap : 1 ≤ pre.length + (if epre.length ≠ 0 then 1 else 0) + (ent_count pre + epre.length)
      ∨ bs < 65536 := by
    rcases h64 with h | h | h
    · exact Or.inr h
    · left
      cases pre with
      | nil => exact absurd rfl h
      | cons a l => simp; omega
    · left
      cases epre with
      | nil => exact absurd rfl h
      | cons a l => simp; omega
  have hif : (if epre.length ≠ 0 then 1 else 0) ≤ 1 := by split <;> omega
  obtain ⟨A, B, hA, hB⟩ := split_terms L R bs gs.length pre.length epre.length
    (ext_count pre + ext_total epre) (ent_count gs) (ent_count pre + epre.length)
  obtain ⟨a1, a2, a3⟩ := split_A_facts hrep hwf hg he hA
  obtain ⟨b1, b2, b3, b4, b5⟩ := split_B_facts hrep hwf hg he (fun a ha => a2 a (by omega)) hB
  obtain ⟨R2, hadj, r1, r2⟩ := split_rebase hrep hwf hg he a2 b3
  have hmem : ¬ to_be_u16 (bs - 4 * (pre.length + if epre.length ≠ 0 then 1 else 0)
      - 4 * (ent_count pre + epre.length))
      < to_be_u16 (sizeof_dleaf + 8 * (ext_count pre + ext_total epre)) := by
    simp only [ext_total] at s3
    simp only [to_be_u16, sizeof_dleaf]
    omega
  have hev := dleaf_split_at_eval f1 (by omega) f3 (by omega)
    (show ent_count pre + epre.length < ent_count gs by omega) hloop (by omega) hX (by omega)
    hA hB hadj hmem
  have hg2 : gs.length - pre.length = post.length + 1 := by omega
  rw [hg2] at hev
  exact ⟨_, _, hev, split_left_final hrep hwf hg he htl h64 a1 a2 a3,
    split_right_final hrep hwf hg he b1 b2 b3 b4 b5 r1 r2⟩

end split

/-! ## Fresh leaves and the check after appends -/

/-- C9, as stated, fails at 64 KiB: the 16-bit `used` field of a fresh 64 KiB leaf
holds 0, so `dleaf_free` is not `blocksize - sizeof(struct dleaf)` and `dleaf_need`
is not 0. -/
theorem dleaf_init_64k_free :
    dleaf_free (dleaf_init (2 ^ 16) zero_block) ≠ 2 ^ 16 - sizeof_dleaf ∧
    dleaf_need (2 ^ 16) (dleaf_init (2 ^ 16) zero_block) ≠ 0 := by
  decide

/-- C9 (amended): for every power-of-two block size from 256 bytes to 64 KiB a leaf
just initialised by `dleaf_init` passes `dleaf_sniff`, has zero groups and
`dwalk_probe` returns 0 on it for every key; for the sizes up to 32 KiB it also
reports `dleaf_free = blocksize - sizeof(struct dleaf)` and `dleaf_need = 0`. -/
theorem dleaf_init_fresh (k : Nat) (hk : 8 ≤ k ∧ k ≤ 16) (block : dleaf) (key : Nat) :
    dleaf_sniff (dleaf_init (2 ^ k) block) = true ∧
    dleaf_groups (dleaf_init (2 ^ k) block) = 0 ∧
    (∃ w, dwalk_probe (dleaf_init (2 ^ k) block) (2 ^ k) key = some (0, w)) ∧
    (k ≤ 15 → dleaf_free (dleaf_init (2 ^ k) block) = 2 ^ k - sizeof_dleaf ∧
      dleaf_need (2 ^ k) (dleaf_init (2 ^ k) block) = 0) := by
  have hpow : 256 ≤ 2 ^ k ∧ (k ≤ 15 → 2 ^ k < 65536) := by
    obtain ⟨h8, h16⟩ := hk
    refine ⟨?_, fun h15 => ?_⟩
    · calc 256 = 2 ^ 8 := by norm_num
        _ ≤ 2 ^ k := Nat.pow_le_pow_right (by norm_num) h8
    · calc 2 ^ k ≤ 2 ^ 15 := Nat.pow_le_pow_right (by norm_num) h15
        _ < 65536 := by norm_num
  generalize 2 ^ k = bs at hpow ⊢
  refine ⟨rfl, rfl, ⟨_, dwalk_probe_empty rfl key⟩, ?_⟩
  intro h15
  have hlt := hpow.2 h15
  have hfree : dleaf_free (dleaf_init bs block) = bs - sizeof_dleaf := by
    simp only [dleaf_free, dleaf_init, to_be_u16, sizeof_dleaf]
    omega
  refine ⟨hfree, ?_⟩
  simp only [dleaf_need, hfree, sizeof_dleaf]
  omega

theorem dleaf_init_fresh_witness :
    (8 ≤ 12 ∧ 12 ≤ 16) ∧
    (dleaf_sniff (dleaf_init (2 ^ 12) zero_block) = true ∧
    dleaf_groups (dleaf_init (2 ^ 12) zero_block) = 0 ∧
    (∃ w, dwalk_probe (dleaf_init (2 ^ 12) zero_block) (2 ^ 12) 77 = some (0, w)) ∧
    (12 ≤ 15 → dleaf_free (dleaf_init (2 ^ 12) zero_block) = 2 ^ 12 - sizeof_dleaf ∧
      dleaf_need (2 ^ 12) (dleaf_init (2 ^ 12) zero_block) = 0)) :=
  ⟨by decide, dleaf_init_fresh 12 (by decide) zero_block 77⟩

/-- C2, as stated, fails on a freshly initialised 64 KiB leaf: its 16-bit `used`
field holds 0, not the offset 65536 of its lowest entry, and `dleaf_check`
returns -1. -/
theorem dleaf_check_fresh_64k :
    dleaf_check (2 ^ 16) (dleaf_init (2 ^ 16) zero_block) = some (-1) := by
  decide

/-- C2 (amended): `dleaf_check` returns 0 on a freshly initialised leaf of a block
size below 64 KiB and, for every block size up to 64 KiB, after every `dwalk_add`
of an ascending-key sequence that fits (`pre` is what has been added so far,
`post` what is still to come): `used` is the offset of the lowest entry, `free`
the offset just past the last extent, and `used - free` is the gap `dleaf_free2`
computes by walking the group and entry tables. -/
theorem dleaf_check_build {bs : Nat} (block : dleaf) (key0 : Nat) (pre post : List (Nat × Nat))
    (hsz : bs ≤ 65536) (hr : ∀ a ∈ pre ++ post, a.1 < 2 ^ 48 ∧ a.2 < 2 ^ 64)
    (hasc : ((pre ++ post).map Prod.fst).Pairwise (· < ·))
    (hfit : 8 + index_bytes (index_build [] (pre ++ post)) ≤ bs)
    (hn : pre ≠ [] ∨ bs < 65536) :
    ∃ L w, dleaf_build bs block key0 pre = some (L, w) ∧
      dleaf_check bs L = some 0 ∧
      L.used + 4 * (dleaf_groups L + pre.length) = bs ∧
      L.free = sizeof_dleaf + sizeof_extent * pre.length ∧
      dleaf_free2 bs L = some ((L.used : Int) - (L.free : Int)) := by
  have hfit' : 8 + index_bytes (index_build [] pre) ≤ bs := by
    rw [index_build_append] at hfit
    exact Nat.le_trans (Nat.add_le_add_left (index_bytes_le_build post _) 8) hfit
  have hasc' : (pre.map Prod.fst).Pairwise (· < ·) := by
    rw [List.map_append] at hasc
    exact (List.pairwise_append.1 hasc).1
  obtain ⟨L, w, h1, h2, -, -⟩ := dleaf_build_rep block key0 pre hsz
    (fun a ha => hr a (List.mem_append_left _ ha)) hasc' hfit'
  have hwf : WF (index_build [] pre) :=
    (wf_index_build wf_nil single_nil (fun a ha => hr a (List.mem_append_left _ ha))).1
  obtain ⟨hc1, hc2⟩ := index_build_counts pre
  have hne : index_build [] pre ≠ [] ∨ bs < 65536 := by
    rcases hn with h | h
    · left
      intro h0
      rw [h0] at hc1
      exact h (List.length_eq_zero.1 (by simpa [ent_count] using hc1.symm))
    · exact Or.inr h
  have hfree := h2.free_eq
  have hused := h2.used_eq
  have hgroups := h2.groups_eq
  have hf2 := dleaf_free2_rep h2 hwf
  simp only [extent_table_length, dict_table_length, to_be_u16, hc1, hc2] at hfree hused hf2
  simp only [index_bytes, hc1, hc2] at hfit'
  have hlen : 1 ≤ (index_build [] pre).length ∨ bs < 65536 := by
    rcases hne with h | h
    · exact Or.inl (List.length_pos.2 h)
    · exact Or.inr h
  have hused' : L.used = bs - 4 * ((index_build [] pre).length + pre.length) := by omega
  refine ⟨L, w, h1, dleaf_check_rep h2 hwf hne, ?_, ?_, ?_⟩
  · rw [dleaf_groups, hgroups]; omega
  · rw [hfree]; rfl
  · rw [hf2, hused', hfree]

theorem dleaf_check_build_witness :
    ∃ L w, dleaf_build 4096 zero_block 0 [(1, make_extent 100 1), (2, make_extent 200 1)] =
        some (L, w) ∧
      dleaf_check 4096 L = some 0 ∧
      L.used + 4 * (dleaf_groups L + 2) = 4096 ∧
      L.free = sizeof_dleaf + sizeof_extent * 2 ∧
      dleaf_free2 4096 L = some ((L.used : Int) - (L.free : Int)) :=
  dleaf_check_build zero_block 0 [(1, make_extent 100 1), (2, make_extent 200 1)]
    [(0x1000000, make_extent 300 1)] (by decide) (by decide) (by decide) (by decide)
    (by decide)

/-! ## Probing a built leaf -/

/-- C1: after `dwalk_add` calls with strictly ascending keys that fit in the block,
started from the cursor `dwalk_probe` yields on a freshly initialised leaf,
`dwalk_probe` for each inserted key whose extent has count at least 1 returns 1
and leaves the cursor on the inserted extent: `dwalk_index` is the key,
`dwalk_block` and `dwalk_count` are the inserted block and count. -/
theorem dleaf_round_trip {bs : Nat} (block : dleaf) (key0 : Nat) (adds : List (Nat × Nat))
    (hsz : bs ≤ 65536) (hr : ∀ a ∈ adds, a.1 < 2 ^ 48 ∧ a.2 < 2 ^ 64)
    (hasc : (adds.map Prod.fst).Pairwise (· < ·))
    (hfit : 8 + index_bytes (index_build [] adds) ≤ bs) :
    ∃ L w0, dleaf_build bs block key0 adds = some (L, w0) ∧
      ∀ a ∈ adds, 1 ≤ extent_count a.2 →
        ∃ w, dwalk_probe L bs a.1 = some (1, w) ∧ dwalk_index L w = a.1 ∧
          dwalk_block L w = extent_block a.2 ∧ dwalk_count L w = extent_count a.2 := by
  obtain ⟨L, w0, hb, hrep, -, hwf, hs, hasc', hpairs⟩ := build_facts block key0 adds hsz hr hasc hfit
  refine ⟨L, w0, hb, ?_⟩
  intro a ha hcnt
  have hne : index_build [] adds ≠ [] := build_ne_nil (by intro h; rw [h] at ha; cases ha)
  have hk : a.1 < 2 ^ 56 := by have := (hr a ha).1; omega
  have hin : (a.1, [a.2]) ∈ leaf_pairs (index_build [] adds) := by
    rw [hpairs]; exact adds_pair ha
  obtain ⟨r, w, hp, hcase⟩ := dwalk_probe_spec hrep hwf hs hasc' hne a.1
  rcases hcase with ⟨-, -, hno⟩ | ⟨hr1, pre, g, post, epre, e, epost, x, hcur, hord⟩
  · have := (hno hk _ hin).2 rfl a.2 (by simp)
    omega
  · subst hr1
    obtain ⟨hidx, hext⟩ := curat_reads hrep hwf hcur
    have hx : e.exts = [x] := by simpa using hcur.exts_eq
    have hsplit := leaf_pairs_at hcur.gs_eq hcur.ents_eq
    obtain ⟨hbef, haft⟩ := asc_at hasc' hcur.gs_eq hcur.ents_eq
    rw [hsplit, List.mem_append, List.mem_cons] at hin
    have hat : cur_key g e = a.1 ∧ x = a.2 := by
      rcases hord hk with ⟨h1, h2, h3⟩ | ⟨h1, h2, -⟩
      · rcases hin with h | h | h
        · have := hbef _ h
          simp only at this
          omega
        · rw [hx] at h
          simp only [Prod.mk.injEq, List.cons.injEq, and_true] at h
          exact ⟨h.1.symm, h.2.symm⟩
        · have := h3 _ h
          simp only at this
          omega
      · rcases hin with h | h | h
        · have := (h2 _ h).2 rfl a.2 (by simp)
          omega
        · simp only [Prod.mk.injEq] at h
          omega
        · have := haft _ h
          simp only at this
          omega
    refine ⟨w, hp, by rw [hidx, hat.1], ?_, ?_⟩
    · unfold dwalk_block; rw [hext, hat.2]
    · unfold dwalk_count; rw [hext, hat.2]

/-- C3, as stated, fails: on the leaf with an extent of 5 blocks at key 1 and an
extent at key 10, `dwalk_probe` for key 3 returns 1 with the cursor on the extent
at key 1, below the probed key. -/
theorem dwalk_probe_below_key :
    (dleaf_build 256 zero_block 0 [(1, make_extent 100 5), (10, make_extent 200 1)]).bind
      (fun s => (dwalk_probe s.1 256 3).map
        (fun p => (p.1, dwalk_index s.1 p.2, dwalk_block s.1 p.2, dwalk_count s.1 p.2)))
      = some (1, 1, 100, 5) := by
  decide

/-- C3 (amended): on a leaf built by `dleaf_init` and ascending `dwalk_add` calls,
whenever `dwalk_probe` returns 1 for a key below `2 ^ 56` the cursor is on an
inserted extent.  Either it is the extent with the greatest key at or below the
probed key and holds the key (`key < index + count`); or it is the extent with the
smallest key above the probed key, an extent at the probed key itself is passed
over only when its count is 0, and the extent with the greatest key at or below
the probed key, if there is one, does not hold the key or has high key bits
(`key >> 24`) below those of the probed key. -/
theorem dwalk_probe_position {bs : Nat} (block : dleaf) (key0 : Nat) (adds : List (Nat × Nat))
    (hsz : bs ≤ 65536) (hr : ∀ a ∈ adds, a.1 < 2 ^ 48 ∧ a.2 < 2 ^ 64)
    (hasc : (adds.map Prod.fst).Pairwise (· < ·))
    (hfit : 8 + index_bytes (index_build [] adds) ≤ bs) (key : Nat) (hkey : key < 2 ^ 56) :
    ∃ L w0 r w, dleaf_build bs block key0 adds = some (L, w0) ∧
      dwalk_probe L bs key = some (r, w) ∧
      (r = 1 → ∃ a ∈ adds, dwalk_index L w = a.1 ∧ extent_at L w.extent = a.2 ∧
        ((a.1 ≤ key ∧ key < a.1 + extent_count a.2 ∧ ∀ b ∈ adds, b.1 ≤ key → b.1 ≤ a.1) ∨
         (key < a.1 ∧
          (∀ b ∈ adds, key ≤ b.1 → a.1 ≤ b.1 ∨ (b.1 = key ∧ extent_count b.2 = 0)) ∧
          ∀ f ∈ adds, f.1 ≤ key → (∀ b ∈ adds, b.1 ≤ key → b.1 ≤ f.1) →
            ¬ key < f.1 + extent_count f.2 ∨ f.1 / 2 ^ 24 < key / 2 ^ 24))) := by
  obtain ⟨L, w0, hb, hrep, -, hwf, hs, hasc', hpairs⟩ := build_facts block key0 adds hsz hr hasc hfit
  by_cases hnil : adds = []
  · subst hnil
    have hg : L.groups = 0 := by rw [hrep.groups_eq]; rfl
    exact ⟨L, w0, 0, _, hb, dwalk_probe_empty hg key, by intro h; cases h⟩
  obtain ⟨r, w, hp, hcase⟩ := dwalk_probe_spec hrep hwf hs hasc' (build_ne_nil hnil) key
  refine ⟨L, w0, r, w, hb, hp, ?_⟩
  intro hr1
  rcases hcase with ⟨hr0, -, -⟩ | ⟨-, pre, g, post, epre, e, epost, x, hcur, hord⟩
  · omega
  obtain ⟨hidx, hext⟩ := curat_reads hrep hwf hcur
  have hx : e.exts = [x] := by simpa using hcur.exts_eq
  have hsplit := leaf_pairs_at hcur.gs_eq hcur.ents_eq
  obtain ⟨hbef, haft⟩ := asc_at hasc' hcur.gs_eq hcur.ents_eq
  have hmem : (cur_key g e, [x]) ∈ adds.map (fun a => (a.1, [a.2])) := by
    rw [← hpairs, hsplit, ← hx]; simp
  obtain ⟨a, ha, ha1, ha2⟩ := pair_of_adds hmem
  refine ⟨a, ha, by rw [hidx, ha1], by rw [hext, ha2], ?_⟩
  have hwhere : ∀ b ∈ adds, (b.1, [b.2]) ∈ pairs_before pre g epre ∨ b.1 = cur_key g e ∨
      (b.1, [b.2]) ∈ pairs_after g epost post := by
    intro b hbin
    have := adds_pair hbin
    rw [← hpairs, hsplit, List.mem_append, List.mem_cons] at this
    rcases this with h | h | h
    · exact Or.inl h
    · simp only [Prod.mk.injEq] at h; exact Or.inr (Or.inl h.1)
    · exact Or.inr (Or.inr h)
  rw [ha1, ha2]
  rcases hord hkey with ⟨h1, h2, h3⟩ | ⟨h1, h2, h3⟩
  · left
    refine ⟨h1, h2, ?_⟩
    intro b hbin hble
    rcases hwhere b hbin with h | h | h
    · have := hbef _ h
      simp only at this
      omega
    · omega
    · have := h3 _ h
      simp only at this
      omega
  · right
    refine ⟨h1, ?_, ?_⟩
    · intro b hbin hble
      rcases hwhere b hbin with h | h | h
      · obtain ⟨n1, n2⟩ := h2 _ h
        simp only at n1
        have hbk : b.1 = key := by omega
        exact Or.inr ⟨hbk, n2 hbk b.2 (by simp)⟩
      · left; omega
      · have := haft _ h
        simp only at this
        left; omega
    · intro f hf hfle hfloor
      have hin : (f.1, [f.2]) ∈ pairs_before pre g epre := by
        rcases hwhere f hf with h | h | h
        · exact h
        · omega
        · have := haft _ h
          simp only at this
          omega
      rcases h3 with h3 | h3
      · right
        exact h3 _ hin
      · left
        refine h3 _ hin ?_ f.2 (by simp)
        intro q hq
        have hq1 := (h2 q hq).1
        have hqm : q ∈ adds.map (fun a => (a.1, [a.2])) := by
          rw [← hpairs, hsplit]; simp [hq]
        obtain ⟨c, hc, hcq⟩ := List.mem_map.1 hqm
        have := hfloor c hc (by rw [← hcq] at hq1; exact hq1)
        rw [← hcq]
        exact this

/-- The probe does not look at the last extent of a group with lower high key
bits: with an extent of 5 blocks at key `0xfffffe` and an extent at `0x1000005`,
`dwalk_probe` for key `0x1000001`, which the first extent holds, returns 1 with the
cursor on the extent at `0x1000005`. -/
theorem dwalk_probe_passes_lower_group :
    (dleaf_build 256 zero_block 0
        [(0xfffffe, make_extent 100 5), (0x1000005, make_extent 200 1)]).bind
      (fun s => (dwalk_probe s.1 256 0x1000001).map
        (fun p => (p.1, dwalk_index s.1 p.2, dwalk_block s.1 p.2, dwalk_count s.1 p.2)))
      = some (1, 0x1000005, 200, 1) := by
  decide

/-- C4: on a leaf built by `dleaf_init` and ascending `dwalk_add` calls (the empty
leaf included) `dwalk_probe` returns, for every key, 0 or 1; 0 if and only if the
cursor it leaves satisfies `dwalk_end`; and when it returns 1 the cursor is on an
extent of the leaf: `dwalk_check` passes and `dwalk_index` and the extent word read
there are those of one of the `dwalk_add` calls. -/
theorem dwalk_probe_end_iff {bs : Nat} (block : dleaf) (key0 : Nat) (adds : List (Nat × Nat))
    (hsz : bs ≤ 65536) (hr : ∀ a ∈ adds, a.1 < 2 ^ 48 ∧ a.2 < 2 ^ 64)
    (hasc : (adds.map Prod.fst).Pairwise (· < ·))
    (hfit : 8 + index_bytes (index_build [] adds) ≤ bs) (key : Nat) :
    ∃ L w0 r w, dleaf_build bs block key0 adds = some (L, w0) ∧
      dwalk_probe L bs key = some (r, w) ∧ (r = 0 ∨ r = 1) ∧
      (r = 0 ↔ dwalk_end w = true) ∧
      (r = 1 → dwalk_check L w = true ∧ sizeof_dleaf ≤ w.extent ∧ w.extent + 8 ≤ L.free ∧
        ∃ a ∈ adds, dwalk_index L w = a.1 ∧ extent_at L w.extent = a.2) := by
  obtain ⟨L, w0, hb, hrep, -, hwf, hs, hasc', hpairs⟩ := build_facts block key0 adds hsz hr hasc hfit
  by_cases hnil : adds = []
  · subst hnil
    have hg : L.groups = 0 := by rw [hrep.groups_eq]; rfl
    refine ⟨L, w0, 0, _, hb, dwalk_probe_empty hg key, Or.inl rfl, ?_, by intro h; cases h⟩
    simp [dwalk_end]
  obtain ⟨r, w, hp, hcase⟩ := dwalk_probe_spec hrep hwf hs hasc' (build_ne_nil hnil) key
  refine ⟨L, w0, r, w, hb, hp, ?_⟩
  rcases hcase with ⟨hr0, hend, -⟩ | ⟨hr1, pre, g, post, epre, e, epost, x, hcur, -⟩
  · subst hr0
    refine ⟨Or.inl rfl, ?_, by intro h; cases h⟩
    simp [endcur_end hend]
  · subst hr1
    refine ⟨Or.inr rfl, ?_, fun _ => ?_⟩
    · simp [curat_not_end hcur]
    obtain ⟨hidx, hext⟩ := curat_reads hrep hwf hcur
    obtain ⟨s1, s2, s3, s4, s5, s6⟩ := curat_sizes hrep hcur
    have hx : e.exts = [x] := by simpa using hcur.exts_eq
    have hsplit := leaf_pairs_at hcur.gs_eq hcur.ents_eq
    have hmem : (cur_key g e, [x]) ∈ adds.map (fun a => (a.1, [a.2])) := by
      rw [← hpairs, hsplit, ← hx]; simp
    obtain ⟨a, ha, ha1, ha2⟩ := pair_of_adds hmem
    have c5 := hcur.gstop_eq
    have c6 := hcur.group_eq
    have c7 := hcur.estop_eq
    have c8 := hcur.entry_eq
    have c9 := hcur.exbase_eq
    have c10 := hcur.extent_eq
    have c11 := hcur.exstop_eq
    have hfree := hrep.free_eq
    simp only [extent_table_length, List.length_nil, List.length_cons] at hfree s3 s5 c10
    refine ⟨dwalk_check_on (curat_groups_ne hrep hcur) (by omega) (by omega) (by omega)
      (by omega), by simp only [sizeof_dleaf]; omega, by omega,
      a, ha, by rw [hidx, ha1], by rw [hext, ha2]⟩

theorem dleaf_round_trip_witness :
    ∃ L w0, dleaf_build 256 zero_block 0 [(1, make_extent 100 5), (10, make_extent 200 1)]
        = some (L, w0) ∧
      ∀ a ∈ [(1, make_extent 100 5), (10, make_extent 200 1)], 1 ≤ extent_count a.2 →
        ∃ w, dwalk_probe L 256 a.1 = some (1, w) ∧ dwalk_index L w = a.1 ∧
          dwalk_block L w = extent_block a.2 ∧ dwalk_count L w = extent_count a.2 :=
  dleaf_round_trip zero_block 0 [(1, make_extent 100 5), (10, make_extent 200 1)]
    (by decide) (by decide) (by decide) (by decide)

theorem dwalk_probe_position_witness :
    ∃ L w0 r w, dleaf_build 256 zero_block 0 [(1, make_extent 100 5), (10, make_extent 200 1)]
        = some (L, w0) ∧
      dwalk_probe L 256 3 = some (r, w) ∧
      (r = 1 → ∃ a ∈ [(1, make_extent 100 5), (10, make_extent 200 1)],
        dwalk_index L w = a.1 ∧ extent_at L w.extent = a.2 ∧
        ((a.1 ≤ 3 ∧ 3 < a.1 + extent_count a.2 ∧
            ∀ b ∈ [(1, make_extent 100 5), (10, make_extent 200 1)], b.1 ≤ 3 → b.1 ≤ a.1) ∨
         (3 < a.1 ∧
          (∀ b ∈ [(1, make_extent 100 5), (10, make_extent 200 1)], 3 ≤ b.1 →
            a.1 ≤ b.1 ∨ (b.1 = 3 ∧ extent_count b.2 = 0)) ∧
          ∀ f ∈ [(1, make_extent 100 5), (10, make_extent 200 1)], f.1 ≤ 3 →
            (∀ b ∈ [(1, make_extent 100 5), (10, make_extent 200 1)], b.1 ≤ 3 → b.1 ≤ f.1) →
            ¬ 3 < f.1 + extent_count f.2 ∨ f.1 / 2 ^ 24 < 3 / 2 ^ 24))) :=
  dwalk_probe_position zero_block 0 [(1, make_extent 100 5), (10, make_extent 200 1)]
    (by decide) (by decide) (by decide) (by decide) 3 (by decide)

theorem dwalk_probe_end_iff_witness :
    ∃ L w0 r w, dleaf_build 256 zero_block 0 [(1, make_extent 100 5), (10, make_extent 200 1)]
        = some (L, w0) ∧
      dwalk_probe L 256 7 = some (r, w) ∧ (r = 0 ∨ r = 1) ∧
      (r = 0 ↔ dwalk_end w = true) ∧
      (r = 1 → dwalk_check L w = true ∧ sizeof_dleaf ≤ w.extent ∧ w.extent + 8 ≤ L.free ∧
        ∃ a ∈ [(1, make_extent 100 5), (10, make_extent 200 1)],
          dwalk_index L w = a.1 ∧ extent_at L w.extent = a.2) :=
  dwalk_probe_end_iff zero_block 0 [(1, make_extent 100 5), (10, make_extent 200 1)]
    (by decide) (by decide) (by decide) (by decide) 7

/-! ## Appending, merging and chopping -/

/-- C10, as stated, fails at 64 KiB: the first `dwalk_add` on a fresh 64 KiB leaf
creates a group, but `dleaf_free` goes from `2 ^ 32 - 8` to `65512`, not down by
16 bytes. -/
theorem dwalk_add_64k_free :
    (dleaf_build (2 ^ 16) zero_block 0 []).bind
      (fun s => (dwalk_add s.1 s.2 1 (make_extent 100 1)).map
        (fun r => (dleaf_groups r.1, dleaf_free s.1, dleaf_free r.1)))
      = some (1, 4294967288, 65512) := by
  decide

/-- C10 (amended): `dwalk_add` at the end-of-leaf cursor of a built leaf creates a
new group exactly when the leaf is empty, the key's high 24 bits differ from the
current group's `keyhi`, or the current group already holds `MAX_GROUP_ENTRIES`
entries; unless the leaf is a fresh 64 KiB leaf it then shrinks `dleaf_free` by
exactly 16 bytes, and otherwise by exactly 12 bytes; and every group's 8-bit count
field holds the true number of entries of the group, at most 255. -/
theorem dwalk_add_group_rule {bs : Nat} (block : dleaf) (key0 : Nat) (adds : List (Nat × Nat))
    (key ext : Nat) (hsz : bs ≤ 65536)
    (hr : ∀ a ∈ adds ++ [(key, ext)], a.1 < 2 ^ 48 ∧ a.2 < 2 ^ 64)
    (hasc : ((adds ++ [(key, ext)]).map Prod.fst).Pairwise (· < ·))
    (hfit : 8 + index_bytes (index_build [] (adds ++ [(key, ext)])) ≤ bs)
    (hn : adds ≠ [] ∨ bs < 65536) :
    ∃ L w L' w', dleaf_build bs block key0 adds = some (L, w) ∧
      dwalk_add L w key ext = some (L', w') ∧
      (if dleaf_groups L = 0 ∨ group_keyhi L w.group ≠ key / 2 ^ 24 ∨
          group_count L w.group = MAX_GROUP_ENTRIES then
        dleaf_groups L' = dleaf_groups L + 1 ∧ dleaf_free L' + 16 = dleaf_free L
      else dleaf_groups L' = dleaf_groups L ∧ dleaf_free L' + 12 = dleaf_free L) ∧
      Rep bs L' (index_build [] (adds ++ [(key, ext)])) ∧
      ∀ pre g post, index_build [] (adds ++ [(key, ext)]) = pre ++ g :: post →
        group_count L' (bs - 4 * (pre.length + 1)) = g.ents.length ∧
        g.ents.length ≤ MAX_GROUP_ENTRIES := by
  have hr0 : ∀ a ∈ adds, a.1 < 2 ^ 48 ∧ a.2 < 2 ^ 64 := fun a ha => hr a (by simp [ha])
  have hra := hr (key, ext) (by simp)
  simp only at hra
  rw [List.map_append, List.pairwise_append] at hasc
  obtain ⟨hasc0, -, hlast⟩ := hasc
  have hgs' : index_build [] (adds ++ [(key, ext)]) = index_add (index_build [] adds) key ext := by
    rw [index_build_append]; rfl
  rw [hgs'] at hfit ⊢
  have hfit0 : 8 + index_bytes (index_build [] adds) ≤ bs := by
    have := index_bytes_index_add (index_build [] adds) key ext
    split at this <;> omega
  obtain ⟨L, w, hb, hrep, hcur, hwf, hs, hasc', hpairs⟩ :=
    build_facts block key0 adds hsz hr0 hasc0 hfit0
  have hlt : ∀ p ∈ leaf_pairs (index_build [] adds), p.1 < key := by
    intro p hp
    rw [hpairs] at hp
    obtain ⟨a, ha, rfl⟩ := List.mem_map.1 hp
    exact hlast a.1 (List.mem_map_of_mem _ ha) key (by simp)
  obtain ⟨L', w', hadd, hrep', -, -⟩ := dwalk_add_step hrep hwf hs hcur hra.1 hra.2 hlt hfit
  have hwf' := wf_index_add hwf hs hra.1 hra.2
  refine ⟨L, w, L', w', hb, hadd, ?_, hrep', ?_⟩
  · have hne' : index_add (index_build [] adds) key ext ≠ [] := by
      intro h0
      have := leaf_pairs_index_add (index_build [] adds) key ext
      rw [h0] at this
      simp [leaf_pairs] at this
    have hu : index_build [] adds ≠ [] ∨ bs < 65536 := by
      rcases hn with h | h
      · exact Or.inl (build_ne_nil h)
      · exact Or.inr h
    have hf := dleaf_free_rep hrep hu
    have hf' := dleaf_free_rep hrep' (Or.inl hne')
    have hbytes := index_bytes_index_add (index_build [] adds) key ext
    have hg : dleaf_groups L = (index_build [] adds).length := hrep.groups_eq
    have hg' : dleaf_groups L' = (index_add (index_build [] adds) key ext).length :=
      hrep'.groups_eq
    rw [hg, hg']
    generalize index_build [] adds = gs at *
    rcases snoc_cases gs with h | ⟨pre, g, h⟩
    · subst h
      have hlen : (index_add [] key ext).length = 1 := by rw [index_add_nil]; rfl
      simp only [List.length_nil] at hbytes ⊢
      rw [if_neg (by omega)] at hbytes
      rw [if_pos (Or.inl trivial)]
      have h0 : index_bytes ([] : List AGroup) = 0 := rfl
      omega
    · subst h
      have hgin : g ∈ pre ++ [g] := by simp
      have hk := rep_group_keyhi hrep hwf (show pre ++ [g] = pre ++ g :: [] from rfl)
        (p := w.group) (by have := hcur.1; simp at this; omega)
      have hc := rep_group_count hrep hwf (show pre ++ [g] = pre ++ g :: [] from rfl)
        (p := w.group) (by have := hcur.1; simp at this; omega)
      have hle := (hwf g hgin).2.2.1
      rw [hk, hc]
      have hpl : (pre ++ [g]).length = pre.length + 1 := by simp
      by_cases hcond : g.keyhi ≠ key / 2 ^ 24 ∨ g.ents.length ≥ 255
      · have hlen : (index_add (pre ++ [g]) key ext).length = pre.length + 2 := by
          rw [index_add_new pre g key ext hcond]; simp
        have hcond' : (pre ++ [g]).length = 0 ∨ g.keyhi ≠ key / 2 ^ 24 ∨
            g.ents.length = MAX_GROUP_ENTRIES := by
          rcases hcond with h | h
          · exact Or.inr (Or.inl h)
          · exact Or.inr (Or.inr (by simp only [MAX_GROUP_ENTRIES]; omega))
        rw [if_pos hcond']
        rw [if_neg (by omega)] at hbytes
        omega
      · have hlen : (index_add (pre ++ [g]) key ext).length = pre.length + 1 := by
          rw [index_add_same pre g key ext hcond]; simp
        have hcond' : ¬ ((pre ++ [g]).length = 0 ∨ g.keyhi ≠ key / 2 ^ 24 ∨
            g.ents.length = MAX_GROUP_ENTRIES) := by
          simp only [MAX_GROUP_ENTRIES]
          omega
        rw [if_neg hcond']
        rw [if_pos (by omega)] at hbytes
        omega
  · intro pre g post hsplit
    have hb := (rep_bounds hrep').1
    have hlen : (index_add (index_build [] adds) key ext).length = pre.length + 1 + post.length := by
      rw [hsplit]; simp; omega
    have hgin : g ∈ index_add (index_build [] adds) key ext := by rw [hsplit]; simp
    exact ⟨rep_group_count hrep' hwf' hsplit (by omega), (hwf' g hgin).2.2.1⟩

theorem dwalk_add_group_rule_witness :
    ∃ L w L' w', dleaf_build 256 zero_block 0 [(1, make_extent 100 1)] = some (L, w) ∧
      dwalk_add L w 2 (make_extent 200 1) = some (L', w') ∧
      (if dleaf_groups L = 0 ∨ group_keyhi L w.group ≠ 2 / 2 ^ 24 ∨
          group_count L w.group = MAX_GROUP_ENTRIES then
        dleaf_groups L' = dleaf_groups L + 1 ∧ dleaf_free L' + 16 = dleaf_free L
      else dleaf_groups L' = dleaf_groups L ∧ dleaf_free L' + 12 = dleaf_free L) ∧
      Rep 256 L' (index_build [] ([(1, make_extent 100 1)] ++ [(2, make_extent 200 1)])) ∧
      ∀ pre g post,
        index_build [] ([(1, make_extent 100 1)] ++ [(2, make_extent 200 1)]) = pre ++ g :: post →
        group_count L' (256 - 4 * (pre.length + 1)) = g.ents.length ∧
        g.ents.length ≤ MAX_GROUP_ENTRIES :=
  dwalk_add_group_rule zero_block 0 [(1, make_extent 100 1)] 2 (make_extent 200 1)
    (by decide) (by decide) (by decide) (by decide) (by decide)

/-- C6: a leaf whose one group holds 255 entries and a leaf that holds one entry
under the same high key bits both pass `dleaf_check`, and the second fits in the
free space of the first; after `dleaf_merge` the one group of the merged leaf has 0
in its 8-bit count field and `dleaf_check` fails. -/
theorem dleaf_merge_full_group :
    (dleaf_build 4096 zero_block 0
        ((List.range 255).map (fun i => (i, make_extent (1000 + i) 1)))).bind
      (fun a => (dleaf_build 4096 zero_block 0 [(300, make_extent 5000 1)]).bind
        (fun b => (dleaf_merge 4096 a.1 b.1).map
          (fun m => (decide (dleaf_check 4096 a.1 = some 0 ∧ dleaf_check 4096 b.1 = some 0 ∧
              dleaf_need 4096 b.1 ≤ dleaf_free a.1),
            dleaf_groups m, group_count m (4096 - 4), dleaf_check 4096 m))))
      = some (true, 1, 0, some (-1)) := by
  decide

/-- C7: on the leaf with one-block extents at keys 1, 2 and 3, `dleaf_chop` at 2
returns 1 and frees the blocks of keys 2 and 3, but a following `dwalk_probe` for
key 2 returns 1 with the cursor on the extent at key 2: the entry is still there. -/
theorem dleaf_chop_keeps_entry :
    (dleaf_build 256 zero_block 0
        [(1, make_extent 100 1), (2, make_extent 200 1), (3, make_extent 300 1)]).bind
      (fun s => (dleaf_chop 256 2 s.1).bind
        (fun r => (dwalk_probe r.2.1 256 2).map
          (fun p => (r.1, r.2.2, p.1, dwalk_index r.2.1 p.2, dwalk_block r.2.1 p.2))))
      = some (1, [(200, 1), (300, 1)], 1, 2, 200) := by
  decide

/-- C8: on the leaf with one extent of 5 blocks at key `0xfffffe`, which holds the
logical blocks up to `0x1000002`, `dleaf_chop` at `0x1000001` returns 0 and makes
no `bfree` call, and the extent keeps its 5 blocks. -/
theorem dleaf_chop_misses_straddler :
    (dleaf_build 256 zero_block 0 [(0xfffffe, make_extent 100 5)]).bind
      (fun s => (dleaf_chop 256 0x1000001 s.1).bind
        (fun r => (dwalk_probe r.2.1 256 0xfffffe).map
          (fun p => (r.1, r.2.2, p.1, dwalk_index r.2.1 p.2, dwalk_block r.2.1 p.2,
            dwalk_count r.2.1 p.2))))
      = some (0, [], 1, 0xfffffe, 100, 5) := by
  decide

/-! ## Splitting a leaf -/

/-- C5, as stated, fails at 64 KiB: on the 64 KiB leaf with two entries, which
passes `dleaf_check`, `dleaf_split_at` at the first entry (the entry `dleaf_split`
picks) empties the old leaf, whose 16-bit `used` field then holds 0, and the final
`memset(from + free, 0, used - free)` is called with the size `0 - 8`: neither
`dleaf_split_at` nor `dleaf_split` returns. -/
theorem dleaf_split_at_64k_first :
    (dleaf_build (2 ^ 16) zero_block 0 [(1, make_extent 100 1), (2, make_extent 200 1)]).map
      (fun s => (dleaf_check (2 ^ 16) s.1,
        (dleaf_split_at s.1 zero_block (2 ^ 16 - 8) (2 ^ 16)).map (fun r => r.1),
        (dleaf_split (2 ^ 16) s.1 zero_block).map (fun r => r.1)))
      = some (some 0, none, none) := by
  decide

/-- C5 (amended): for every well-formed leaf `L` and every entry `e` of `L`, unless
the block has 64 KiB and `e` is the first entry of the leaf, `dleaf_split_at(L, R, e)`
returns the group count of `R` and leaves two well-formed leaves: the ordered
`(key, extents)` pairs of `L` followed by those of `R` are the pairs `L` held
before, every key left in `L` is below the key of `e` and every key in `R` is at
or above it; when `e` falls inside a group both leaves keep a part of that group,
and each entry limit of the part in `R` is the old limit less the limit of the
entry in front of `e`. -/
theorem dleaf_split_law {bs : Nat} {L : dleaf} {gs pre post : List AGroup} {g : AGroup}
    {epre epost : List AEntry} {e : AEntry} (R : dleaf) (entry : Nat)
    (hrep : Rep bs L gs) (hwf : WF gs) (hasc : Ascending gs)
    (hg : gs = pre ++ g :: post) (he : g.ents = epre ++ e :: epost)
    (hentry : entry + 4 * (gs.length + ent_count pre + epre.length + 1) = bs)
    (h64 : bs < 65536 ∨ pre ≠ [] ∨ epre ≠ []) :
    ∃ L' R' left right, dleaf_split_at L R entry bs = some (right.length, L', R') ∧
      left = pre ++ (if epre = [] then [] else [⟨g.keyhi, epre⟩]) ∧
      right = ⟨g.keyhi, e :: epost⟩ :: post ∧
      Rep bs L' left ∧ WF left ∧ Rep bs R' right ∧ WF right ∧
      leaf_pairs left ++ leaf_pairs right = leaf_pairs gs ∧
      (∀ p ∈ leaf_pairs left, p.1 < cur_key g e) ∧
      (∀ p ∈ leaf_pairs right, cur_key g e ≤ p.1) ∧
      (epre ≠ [] → ∀ epre' e' epost', e :: epost = epre' ++ e' :: epost' →
        entry_limit R' (bs - 4 * (right.length + epre'.length + 1)) + entry_limit L (entry + 4)
          = entry_limit L (entry - 4 * epre'.length)) := by
  obtain ⟨s1, s2, s3, s4, s5⟩ := split_sizes hrep hg he
  have hgin : g ∈ gs := by rw [hg]; simp
  obtain ⟨w1, w2, w3, w4, w5⟩ := hwf g hgin
  have htl : (epre = [] ∧ (if epre = [] then [] else [(⟨g.keyhi, epre⟩ : AGroup)]) = []) ∨
      (epre ≠ [] ∧ (if epre = [] then [] else [(⟨g.keyhi, epre⟩ : AGroup)]) = [⟨g.keyhi, epre⟩]) := by
    by_cases h : epre = []
    · left; exact ⟨h, by rw [if_pos h]⟩
    · right; exact ⟨h, by rw [if_neg h]⟩
  obtain ⟨L', R', hsplit, hL, hR⟩ := dleaf_split_at_rep R hrep hwf hg he htl h64
  have haddr : bs - 4 * gs.length - 4 * (ent_count pre + epre.length) - 4 = entry := by omega
  rw [haddr] at hsplit
  have hwfl : WF (pre ++ (if epre = [] then [] else [(⟨g.keyhi, epre⟩ : AGroup)])) := by
    intro g' hg'
    rcases List.mem_append.1 hg' with h | h
    · exact hwf g' (by rw [hg]; simp [h])
    · by_cases hc : epre = []
      · rw [if_pos hc] at h; cases h
      · rw [if_neg hc] at h
        simp only [List.mem_singleton] at h
        subst h
        have hle : ext_total epre ≤ ext_total g.ents := by rw [he]; simp
        refine ⟨w1, hc, by simp only; rw [he] at w3; simp at w3; omega, by simp only; omega, ?_⟩
        intro x hx
        exact w5 x (by rw [he]; simp [hx])
  have hwfr : WF ((⟨g.keyhi, e :: epost⟩ : AGroup) :: post) := by
    intro g' hg'
    rcases List.mem_cons.1 hg' with h | h
    · subst h
      have hle : ext_total (e :: epost) ≤ ext_total g.ents := by rw [he]; simp
      refine ⟨w1, by simp, by simp only; rw [he] at w3; simp at w3 ⊢; omega, by simp only; omega,
        ?_⟩
      intro x hx
      exact w5 x (by rw [he]; simp only [List.mem_append]; exact Or.inr hx)
    · exact hwf g' (by rw [hg]; simp [h])
  have hpl : leaf_pairs (pre ++ (if epre = [] then [] else [(⟨g.keyhi, epre⟩ : AGroup)]))
      = pairs_before pre g epre := by
    by_cases hc : epre = []
    · rw [if_pos hc, hc]; simp [pairs_before, entry_pairs]
    · rw [if_neg hc]; simp [pairs_before, leaf_pairs]
  have hpr : leaf_pairs ((⟨g.keyhi, e :: epost⟩ : AGroup) :: post)
      = (cur_key g e, e.exts) :: pairs_after g epost post := by
    simp [leaf_pairs, entry_pairs, pairs_after, cur_key]
  obtain ⟨hbef, haft⟩ := asc_at hasc hg he
  refine ⟨L', R', pre ++ (if epre = [] then [] else [(⟨g.keyhi, epre⟩ : AGroup)]),
    (⟨g.keyhi, e :: epost⟩ : AGroup) :: post, hsplit, rfl, rfl, hL, hwfl, hR, hwfr, ?_, ?_, ?_, ?_⟩
  · rw [hpl, hpr, leaf_pairs_at hg he]
  · rw [hpl]; exact hbef
  · rw [hpr]
    intro p hp
    rcases List.mem_cons.1 hp with h | h
    · rw [h]
    · exact Nat.le_of_lt (haft p h)
  · intro hne epre' e' epost' hd
    have hc : epre.length ≠ 0 := fun h => hne (List.length_eq_zero.1 h)
    have hk : epost.length + 1 = epre'.length + 1 + epost'.length := by
      have := congrArg List.length hd
      simp at this; omega
    have hents' : g.ents = (epre ++ epre') ++ e' :: epost' := by rw [he, hd]; simp
    have h1 := rep_entry_limit hR hwfr
      (show (⟨g.keyhi, e :: epost⟩ : AGroup) :: post = [] ++ ⟨g.keyhi, e :: epost⟩ :: post from rfl)
      (show (⟨g.keyhi, e :: epost⟩ : AGroup).ents = epre' ++ e' :: epost' from hd)
      (p := bs - 4 * ((post.length + 1) + epre'.length + 1))
      (by simp only [List.length_cons, List.length_nil, ent_count]; omega)
    have h2 := split_cut_limit hrep hwf hg he hc (p := entry + 4) (by omega)
    have h3 := rep_entry_limit hrep hwf hg hents' (p := entry - 4 * epre'.length)
      (by simp only [List.length_append]; omega)
    simp only [List.length_cons]
    rw [h1, h2, h3]
    simp only [ext_total_append]
    omega

theorem dleaf_split_law_witness :
    ∃ L w L' R',
      dleaf_build 256 zero_block 0
        [(1, make_extent 100 1), (2, make_extent 200 1), (0x1000000, make_extent 300 1),
          (0x1000005, make_extent 400 2)] = some (L, w) ∧
      dleaf_split_at L zero_block 240 256 = some (2, L', R') ∧
      Rep 256 L' [⟨0, [⟨1, [make_extent 100 1]⟩]⟩] ∧
      Rep 256 R' [⟨0, [⟨2, [make_extent 200 1]⟩]⟩,
        ⟨1, [⟨0, [make_extent 300 1]⟩, ⟨5, [make_extent 400 2]⟩]⟩] ∧
      entry_limit R' (256 - 4 * 3) + entry_limit L 244 = entry_limit L 240 := by
  obtain ⟨L, w, hb, hrep, -, hwf, -, hasc, -⟩ := build_facts zero_block 0
    [(1, make_extent 100 1), (2, make_extent 200 1), (0x1000000, make_extent 300 1),
      (0x1000005, make_extent 400 2)] (show 256 ≤ 65536 by decide) (by decide) (by decide) (by decide)
  obtain ⟨L', R', left, right, h1, h2, h3, h4, -, h6, -, -, -, -, h11⟩ :=
    dleaf_split_law zero_block 240 hrep hwf hasc
      (show index_build [] [(1, make_extent 100 1), (2, make_extent 200 1),
          (0x1000000, make_extent 300 1), (0x1000005, make_extent 400 2)]
        = [] ++ ⟨0, [⟨1, [make_extent 100 1]⟩, ⟨2, [make_extent 200 1]⟩]⟩ ::
            [⟨1, [⟨0, [make_extent 300 1]⟩, ⟨5, [make_extent 400 2]⟩]⟩] by decide)
      (show (⟨0, [⟨1, [make_extent 100 1]⟩, ⟨2, [make_extent 200 1]⟩]⟩ : AGroup).ents
        = [⟨1, [make_extent 100 1]⟩] ++ ⟨2, [make_extent 200 1]⟩ :: [] from rfl)
      (by decide) (Or.inl (by decide))
  subst h2 h3
  have h12 := h11 (by simp) [] ⟨2, [make_extent 200 1]⟩ [] rfl
  exact ⟨L, w, L', R', hb, h1, h4, h6, h12⟩

/-! ## `dwalk_chop` and `dleaf_split`, evaluated -/

/-- C32, evaluated where it fails: on the leaf with one-block extents at keys 1,
2 and 3 in one group, with the cursor on the extent of key 2 (`dwalk_probe` for
2), `dwalk_chop` leaves the cursor at the end and a leaf that passes
`dleaf_check`, but with `free` behind two extents and two entries in the group:
the extent of the cursor is still there, and `dwalk_probe` for 2 finds it.  With
keys 1, `0x1000002`, `0x1000003`, where the cursor on `0x1000002` is on the first
extent of its group, one extent is left. -/
theorem dwalk_chop_keeps_extent :
    (dleaf_build 256 zero_block 0
        [(1, make_extent 100 1), (2, make_extent 200 1), (3, make_extent 300 1)]).bind
      (fun s => (dwalk_probe s.1 256 2).bind
        (fun p => (dwalk_chop s.1 p.2).bind
          (fun r => (dwalk_probe r.1 256 2).map
            (fun q => (decide (p.1 = 1 ∧ p.2.extent = 16 ∧ dwalk_end r.2 = true ∧
                dleaf_check 256 r.1 = some 0),
              r.1.free, group_count r.1 252, q.1, dwalk_index r.1 q.2, dwalk_block r.1 q.2)))))
      = some (true, 24, 2, 1, 2, 200) ∧
    (dleaf_build 256 zero_block 0
        [(1, make_extent 100 1), (0x1000002, make_extent 200 1),
          (0x1000003, make_extent 300 1)]).bind
      (fun s => (dwalk_probe s.1 256 0x1000002).bind
        (fun p => (dwalk_chop s.1 p.2).map
          (fun r => (decide (p.1 = 1 ∧ p.2.extent = 16 ∧ dwalk_end r.2 = true ∧
              dleaf_check 256 r.1 = some 0), r.1.free, r.1.groups, group_count r.1 252))))
      = some (true, 16, 1, 1) := by
  decide

/-- C36, evaluated where it fails: `dleaf_split` passes `edict - entries / 2` to
`dleaf_split_at`, the entry number `entries / 2 - 1`.  A leaf of two entries is
split into an empty leaf and one of two entries, a leaf of four into leaves of
one and three entries. -/
theorem dleaf_split_off_by_one :
    (dleaf_build 256 zero_block 0 [(1, make_extent 100 1), (2, make_extent 200 1)]).bind
      (fun s => (dleaf_split 256 s.1 zero_block).map
        (fun r => (r.1, r.2.1.groups, (256 - 4 * r.2.1.groups - r.2.1.used) / 4,
          r.2.2.groups, (256 - 4 * r.2.2.groups - r.2.2.used) / 4)))
      = some (1, 0, 0, 1, 2) ∧
    (dleaf_build 256 zero_block 0 [(1, make_extent 100 1), (2, make_extent 200 1),
        (3, make_extent 300 1), (4, make_extent 400 1)]).bind
      (fun s => (dleaf_split 256 s.1 zero_block).map
        (fun r => (r.1, r.2.1.groups, (256 - 4 * r.2.1.groups - r.2.1.used) / 4,
          r.2.2.groups, (256 - 4 * r.2.2.groups - r.2.2.used) / 4)))
      = some (2, 1, 1, 1, 3) := by
  decide

/-! ## `dwalk_back` -/

theorem dwalk_back_eval_first {L : dleaf} {w : dwalk} (h : w.extent = 8) :
    dwalk_back L w = some (0, w) := by
  have h0 : dwalk_first w = true := by simp [dwalk_first, sizeof_dleaf, h]
  simp only [dwalk_back, h0, if_true]

theorem dwalk_first_false {w : dwalk} (h : 8 < w.extent) : dwalk_first w = false := by
  have hne : ¬ (8 = w.extent) := by omega
  simp [dwalk_first, sizeof_dleaf, hne]

theorem dwalk_back_eval_extent {L : dleaf} {w : dwalk} {eb : Nat} (hg : L.groups ≠ 0)
    (h0 : 8 < w.extent)
    (heb : (if w.entry + 4 = w.estop + 4 * group_count L w.group then w.exbase
      else w.exbase + 8 * entry_limit L (w.entry + 4)) = eb)
    (h1 : w.gstop ≤ w.group) (h2 : w.estop ≤ w.entry) (h3 : w.exbase ≤ w.extent - 8)
    (h4 : w.extent - 8 < w.exstop) (h5 : eb ≤ w.extent - 8) :
    dwalk_back L w = some (1, dwalk.mk w.gdict w.gstop w.group w.estop w.entry w.exbase
      (w.extent - 8) w.exstop) := by
  have hf := dwalk_first_false h0
  have hlt : ¬ (w.extent - 8 < eb) := by omega
  have hchk := dwalk_check_on (L := L) (w := dwalk.mk w.gdict w.gstop w.group w.estop w.entry
    w.exbase (w.extent - 8) w.exstop) hg h1 h2 h3 h4
  simp only [dwalk_back, hf, heb, hlt, if_false, hchk, if_true, Bool.false_eq_true]

theorem dwalk_back_eval_entry {L : dleaf} {w : dwalk} {eb lim : Nat} (hg : L.groups ≠ 0)
    (h0 : 8 < w.extent)
    (heb : (if w.entry + 4 = w.estop + 4 * group_count L w.group then w.exbase
      else w.exbase + 8 * entry_limit L (w.entry + 4)) = eb)
    (hl : entry_limit L (w.entry + 4) = lim)
    (h1 : w.gstop ≤ w.group) (h2 : w.estop ≤ w.entry) (h3 : w.exbase ≤ w.extent - 8)
    (h4 : w.extent - 8 < w.exbase + 8 * lim) (h5 : w.extent - 8 < eb) :
    dwalk_back L w = some (1, dwalk.mk w.gdict w.gstop w.group w.estop (w.entry + 4) w.exbase
      (w.extent - 8) (w.exbase + 8 * lim)) := by
  subst hl
  subst heb
  have hf := dwalk_first_false h0
  have hlt : ¬ (w.extent - 8 < w.exbase) := by omega
  have hchk := dwalk_check_on (L := L) (w := dwalk.mk w.gdict w.gstop w.group w.estop
    (w.entry + 4) w.exbase (w.extent - 8) (w.exbase + 8 * entry_limit L (w.entry + 4))) hg h1
    (show w.estop ≤ w.entry + 4 by omega) h3 h4
  simp only [dwalk_back, hf, eq_true h5, hlt, if_false, if_true, false_and, hchk,
    Bool.false_eq_true]

theorem dwalk_back_eval_group {L : dleaf} {w : dwalk} {eb tot : Nat} (hg : L.groups ≠ 0)
    (h0 : 8 < w.extent)
    (heb : (if w.entry + 4 = w.estop + 4 * group_count L w.group then w.exbase
      else w.exbase + 8 * entry_limit L (w.entry + 4)) = eb)
    (ht : entry_limit L (w.entry + 4) = tot)
    (h1 : w.gstop ≤ w.group) (h2 : w.group ≠ w.gdict)
    (h3 : w.exbase - 8 * tot ≤ w.extent - 8) (h4 : w.extent - 8 < w.exbase)
    (h5 : w.extent - 8 < eb) (h6 : w.extent - 8 < w.exbase - 8 * tot + 8 * tot) :
    dwalk_back L w = some (1, dwalk.mk w.gdict w.gstop (w.group + 4) (w.entry + 4)
      (w.entry + 4) (w.exbase - 8 * tot) (w.extent - 8) (w.exbase - 8 * tot + 8 * tot)) := by
  subst ht
  subst heb
  have hf := dwalk_first_false h0
  have hchk := dwalk_check_on (L := L) (w := dwalk.mk w.gdict w.gstop (w.group + 4)
    (w.entry + 4) (w.entry + 4) (w.exbase - 8 * entry_limit L (w.entry + 4)) (w.extent - 8)
    (w.exbase - 8 * entry_limit L (w.entry + 4) + 8 * entry_limit L (w.entry + 4))) hg
    (show w.gstop ≤ w.group + 4 by omega)
    (Nat.le_refl _) h3 h6
  simp only [dwalk_back, hf, eq_true h5, eq_true h4, h2, if_false, if_true, and_false,
    hchk, Bool.false_eq_true]

/-! ## `dwalk_back` on a represented leaf -/

theorem exists_concat_of_ne_nil {α : Type} (l : List α) (h : l ≠ []) :
    ∃ a b, l = a ++ [b] := by
  rcases List.eq_nil_or_concat l with h' | ⟨a, b, h'⟩
  · exact absurd h' h
  · exact ⟨a, b, by simpa using h'⟩

section back
variable {bs : Nat} {L : dleaf} {gs pre post : List AGroup} {g : AGroup}
  {epre epost : List AEntry} {e : AEntry} {xpre xpost : List Nat} {x : Nat} {w : dwalk}

/-- The two cursors at one position of the leaf are the same. -/
theorem curat_unique {w' : dwalk}
    (h : CurAt bs gs pre g post epre e epost xpre x xpost w)
    (h' : CurAt bs gs pre g post epre e epost xpre x xpost w') : w = w' := by
  obtain ⟨c1, c2, c3, c4, c5, c6, c7, c8, c9, c10, c11⟩ := h
  obtain ⟨d1, d2, d3, d4, d5, d6, d7, d8, d9, d10, d11⟩ := h'
  rcases w with ⟨a1, a2, a3, a4, a5, a6, a7, a8⟩
  rcases w' with ⟨b1, b2, b3, b4, b5, b6, b7, b8⟩
  dsimp only at c4 c5 c6 c7 c8 c9 c10 c11 d4 d5 d6 d7 d8 d9 d10 d11
  simp only [dwalk.mk.injEq]
  refine ⟨by omega, by omega, by omega, by omega, by omega, by omega, by omega, by omega⟩

/-- The first extent of the entry under the cursor, as `dwalk_back` computes it. -/
theorem curat_entry_exbase (hrep : Rep bs L gs) (hwf : WF gs)
    (hc : CurAt bs gs pre g post epre e epost xpre x xpost w) :
    (if w.entry + 4 = w.estop + 4 * group_count L w.group then w.exbase
      else w.exbase + 8 * entry_limit L (w.entry + 4)) = w.exbase + 8 * ext_total epre := by
  obtain ⟨s1, s2, s3, s4, s5, s6⟩ := curat_sizes hrep hc
  obtain ⟨c1, c2, c3, c4, c5, c6, c7, c8, c9, c10, c11⟩ := hc
  have hcnt := rep_group_count hrep hwf c1 c6
  rw [hcnt]
  rcases List.eq_nil_or_concat epre with h0 | ⟨epre0, e0, h0⟩
  · subst h0
    simp only [List.length_nil] at s4 c8
    rw [if_pos (by omega)]
    simp [ext_total]
  · have h0' : epre = epre0 ++ [e0] := by simpa using h0
    subst h0'
    simp only [List.length_append, List.length_singleton] at s4 c8
    rw [if_neg (by omega)]
    have he : g.ents = epre0 ++ e0 :: (e :: epost) := by rw [c2]; simp
    have hlim := rep_entry_limit hrep hwf c1 he (p := w.entry + 4) (by omega)
    rw [hlim]
    simp only [ext_total_append, ext_total, Nat.add_zero]

/-- At the first extent of the leaf `dwalk_back` returns 0 and leaves the cursor. -/
theorem dwalk_back_first
    (hc : CurAt bs gs [] g post [] e epost [] x xpost w) :
    dwalk_back L w = some (0, w) := by
  apply dwalk_back_eval_first
  have := hc.extent_eq
  simpa [ext_count, ext_total] using this

/-- Step back inside an entry. -/
theorem dwalk_back_extent {x0 : Nat} (hrep : Rep bs L gs) (hwf : WF gs)
    (hc : CurAt bs gs pre g post epre e epost (xpre ++ [x0]) x xpost w) :
    ∃ w', dwalk_back L w = some (1, w') ∧
      CurAt bs gs pre g post epre e epost xpre x0 (x :: xpost) w' := by
  obtain ⟨s1, s2, s3, s4, s5, s6⟩ := curat_sizes hrep hc
  have hg := curat_groups_ne hrep hc
  have heb := curat_entry_exbase hrep hwf hc
  obtain ⟨c1, c2, c3, c4, c5, c6, c7, c8, c9, c10, c11⟩ := hc
  simp only [List.length_append, List.length_singleton] at s3 s5 c10
  refine ⟨_, dwalk_back_eval_extent hg (by omega) heb (by omega) (by omega) (by omega)
    (by omega) (by omega), ?_⟩
  exact ⟨c1, c2, by rw [c3]; simp, c4, c5, c6, c7, c8, c9,
    by show w.extent - 8 = _; omega, c11⟩

/-- Step back to the last extent of the entry before. -/
theorem dwalk_back_entry {e0 : AEntry} (hrep : Rep bs L gs) (hwf : WF gs)
    (hc : CurAt bs gs pre g post (epre ++ [e0]) e epost [] x xpost w) :
    ∃ w' xs0 x0, e0.exts = xs0 ++ [x0] ∧ dwalk_back L w = some (1, w') ∧
      CurAt bs gs pre g post epre e0 (e :: epost) xs0 x0 [] w' := by
  obtain ⟨s1, s2, s3, s4, s5, s6⟩ := curat_sizes hrep hc
  have hg := curat_groups_ne hrep hc
  have heb := curat_entry_exbase hrep hwf hc
  obtain ⟨c1, c2, c3, c4, c5, c6, c7, c8, c9, c10, c11⟩ := hc
  simp only [List.length_append, List.length_singleton, List.length_nil, ext_total_append,
    ext_total, Nat.add_zero] at s2 s3 s4 s5 c8 c10 c11 heb
  have hgin : g ∈ gs := by rw [c1]; simp
  have hein : e0 ∈ g.ents := by rw [c2]; simp
  obtain ⟨xs0, x0, hx0⟩ := exists_concat_of_ne_nil e0.exts ((hwf g hgin).2.2.2.2 e0 hein).2.1
  have he : g.ents = epre ++ e0 :: (e :: epost) := by rw [c2]; simp
  have hlim := rep_entry_limit hrep hwf c1 he (p := w.entry + 4) (by omega)
  have hl1 : e0.exts.length = xs0.length + 1 := by rw [hx0]; simp
  refine ⟨_, xs0, x0, hx0, dwalk_back_eval_entry hg (by omega) heb hlim (by omega) (by omega)
    (by omega) (by omega) (by omega), ?_⟩
  refine ⟨c1, he, hx0, c4, c5, c6, c7, ?_, c9, ?_, ?_⟩
  · show w.entry + 4 + _ = bs
    omega
  · show w.extent - 8 = _
    omega
  · show w.exbase + _ = _
    omega

end back

section back
variable {bs : Nat} {L : dleaf} {gs pre post : List AGroup} {g : AGroup}
  {epre epost : List AEntry} {e : AEntry} {xpre xpost : List Nat} {x : Nat} {w : dwalk}

/-- The last entry and last extent of a group of a well-formed leaf. -/
theorem wf_last (hwf : WF gs) {g0 : AGroup} (hin : g0 ∈ gs) :
    ∃ es0 e0 xs0 x0, g0.ents = es0 ++ [e0] ∧ e0.exts = xs0 ++ [x0] := by
  obtain ⟨es0, e0, he0⟩ := exists_concat_of_ne_nil g0.ents (hwf g0 hin).2.1
  have hein : e0 ∈ g0.ents := by rw [he0]; simp
  obtain ⟨xs0, x0, hx0⟩ := exists_concat_of_ne_nil e0.exts ((hwf g0 hin).2.2.2.2 e0 hein).2.1
  exact ⟨es0, e0, xs0, x0, he0, hx0⟩

/-- Step back to the last extent of the group before. -/
theorem dwalk_back_group {g0 : AGroup} (hrep : Rep bs L gs) (hwf : WF gs)
    (hc : CurAt bs gs (pre ++ [g0]) g post [] e epost [] x xpost w) :
    ∃ w' es0 e0 xs0 x0, g0.ents = es0 ++ [e0] ∧ e0.exts = xs0 ++ [x0] ∧
      dwalk_back L w = some (1, w') ∧
      CurAt bs gs pre g0 (g :: post) es0 e0 [] xs0 x0 [] w' := by
  obtain ⟨s1, s2, s3, s4, s5, s6⟩ := curat_sizes hrep hc
  have hg := curat_groups_ne hrep hc
  have heb := curat_entry_exbase hrep hwf hc
  obtain ⟨c1, c2, c3, c4, c5, c6, c7, c8, c9, c10, c11⟩ := hc
  simp only [List.length_append, List.length_singleton, List.length_nil, ext_total,
    ent_count_append, ext_count_append, ent_count, ext_count, Nat.add_zero, Nat.mul_zero]
    at s1 s2 s3 s4 s5 c6 c7 c8 c9 c10 c11 heb
  have hgs : gs = pre ++ g0 :: (g :: post) := by rw [c1]; simp
  have hgin : g0 ∈ gs := by rw [hgs]; simp
  obtain ⟨es0, e0, xs0, x0, he0, hx0⟩ := wf_last hwf hgin
  have htot := rep_last_limit hrep hwf hgs (p := w.entry + 4) (by omega)
  have hl1 : e0.exts.length = xs0.length + 1 := by rw [hx0]; simp
  have hl2 : g0.ents.length = es0.length + 1 := by rw [he0]; simp
  have hl3 : ext_total g0.ents = ext_total es0 + e0.exts.length := by
    rw [he0]; simp [ext_total]
  refine ⟨_, es0, e0, xs0, x0, he0, hx0, dwalk_back_eval_group hg (by omega) heb htot
    (by omega) (by omega) (by omega) (by omega) (by omega) (by omega), ?_⟩
  refine ⟨hgs, he0, hx0, c4, c5, ?_, ?_, ?_, ?_, ?_, ?_⟩
  · show w.group + 4 + _ = bs
    omega
  · show w.entry + 4 + _ = bs
    omega
  · show w.entry + 4 + _ = bs
    omega
  · show w.exbase - _ = _
    omega
  · show w.extent - 8 = _
    omega
  · show w.exbase - _ + _ = _
    omega

/-- Step back from past the end to the last extent of the leaf. -/
theorem dwalk_back_end (hrep : Rep bs L gs) (hwf : WF gs) (hgs : gs = pre ++ [g])
    (hes : g.ents = epre ++ [e]) (hxs : e.exts = xpre ++ [x]) (hc : EndCur bs gs w) :
    ∃ w', dwalk_back L w = some (1, w') ∧ CurAt bs gs pre g [] epre e [] xpre x [] w' := by
  obtain ⟨⟨a1, a2, a3, a4⟩, a5, a6, a7, a8⟩ := hc
  have hb := (rep_bounds hrep).1
  have hd : gs.dropLast = pre := by rw [hgs]; simp
  rw [hd] at a4
  have hg : L.groups ≠ 0 := by rw [hrep.groups_eq, hgs]; simp
  have n1 : gs.length = pre.length + 1 := by rw [hgs]; simp
  have n2 : ent_count gs = ent_count pre + g.ents.length := by rw [hgs]; simp [ent_count]
  have n3 : ext_count gs = ext_count pre + ext_total g.ents := by rw [hgs]; simp [ext_count]
  have n4 : g.ents.length = epre.length + 1 := by rw [hes]; simp
  have n5 : ext_total g.ents = ext_total epre + e.exts.length := by rw [hes]; simp [ext_total]
  have n6 : e.exts.length = xpre.length + 1 := by rw [hxs]; simp
  have hcnt := rep_group_count hrep hwf (show gs = pre ++ g :: [] from hgs) (p := w.group)
    (by omega)
  have heb : (if w.entry + 4 = w.estop + 4 * group_count L w.group then w.exbase
      else w.exbase + 8 * entry_limit L (w.entry + 4)) = w.exbase + 8 * ext_total epre := by
    rw [hcnt]
    rcases List.eq_nil_or_concat epre with h0 | ⟨epre0, e0, h0⟩
    · subst h0
      simp only [List.length_nil] at n4
      rw [if_pos (by omega)]
      simp [ext_total]
    · have h0' : epre = epre0 ++ [e0] := by simpa using h0
      subst h0'
      simp only [List.length_append, List.length_singleton] at n4
      rw [if_neg (by omega)]
      have he : g.ents = epre0 ++ e0 :: [e] := by rw [hes]; simp
      have hlim := rep_entry_limit hrep hwf (show gs = pre ++ g :: [] from hgs) he
        (p := w.entry + 4) (by omega)
      rw [hlim]
      simp only [ext_total_append, ext_total, Nat.add_zero]
  refine ⟨_, dwalk_back_eval_extent hg (by omega) heb (by omega) (by omega) (by omega)
    (by omega) (by omega), ?_⟩
  refine ⟨hgs, hes, hxs, a5, ?_, ?_, ?_, ?_, a4, ?_, ?_⟩
  · show w.gstop + _ = bs
    omega
  · show w.group + _ = bs
    omega
  · show w.estop + _ = bs
    omega
  · show w.entry + _ = bs
    simp only [List.length_nil] at *
    omega
  · show w.extent - 8 = _
    omega
  · show w.exstop = _
    omega

end back

/-- C33: on a well-formed leaf, for a cursor on any extent, `dwalk_next` followed by
`dwalk_back` gives back the cursor in every field, whether the step stayed inside
the entry, crossed to the next entry, crossed to the next group or ran off the end
of the leaf (the only case where `dwalk_next` returns 0); `dwalk_back` returns 1. -/
theorem dwalk_back_rewinds_next {bs : Nat} {L : dleaf} {gs pre post : List AGroup} {g : AGroup}
    {epre epost : List AEntry} {e : AEntry} {xpre xpost : List Nat} {x : Nat} {w : dwalk}
    (hrep : Rep bs L gs) (hwf : WF gs)
    (hc : CurAt bs gs pre g post epre e epost xpre x xpost w) :
    ∃ r w', dwalk_next L w = some (r, w') ∧ (r = 0 ∨ r = 1) ∧
      (r = 0 ↔ post = [] ∧ epost = [] ∧ xpost = []) ∧
      dwalk_back L w' = some (1, w) := by
  cases xpost with
  | cons x' xs =>
    obtain ⟨w', hn, hc'⟩ := dwalk_next_extent hrep hc
    obtain ⟨w'', hb, hc''⟩ := dwalk_back_extent hrep hwf hc'
    refine ⟨1, w', hn, Or.inr rfl, by simp, ?_⟩
    rw [hb, curat_unique hc hc'']
  | nil =>
    cases epost with
    | cons e' es =>
      obtain ⟨w', x', xs', -, hn, hc'⟩ := dwalk_next_entry hrep hwf hc
      obtain ⟨w'', xs0, x0, hx0, hb, hc''⟩ := dwalk_back_entry hrep hwf hc'
      have hx : xpre ++ [x] = xs0 ++ [x0] := by rw [← hx0, hc.exts_eq]
      obtain ⟨h1, h2⟩ := List.append_inj' hx rfl
      simp only [List.cons.injEq, and_true] at h2
      subst h1 h2
      refine ⟨1, w', hn, Or.inr rfl, by simp, ?_⟩
      rw [hb, curat_unique hc hc'']
    | nil =>
      cases post with
      | cons g' ps =>
        obtain ⟨w', e', es', x', xs', -, -, hn, hc'⟩ := dwalk_next_group hrep hwf hc
        obtain ⟨w'', es0, e0, xs0, x0, he0, hx0, hb, hc''⟩ := dwalk_back_group hrep hwf hc'
        have he : epre ++ [e] = es0 ++ [e0] := by rw [← he0, hc.ents_eq]
        obtain ⟨h1, h2⟩ := List.append_inj' he rfl
        simp only [List.cons.injEq, and_true] at h2
        subst h1 h2
        have hx : xpre ++ [x] = xs0 ++ [x0] := by rw [← hx0, hc.exts_eq]
        obtain ⟨h3, h4⟩ := List.append_inj' hx rfl
        simp only [List.cons.injEq, and_true] at h4
        subst h3 h4
        refine ⟨1, w', hn, Or.inr rfl, by simp, ?_⟩
        rw [hb, curat_unique hc hc'']
      | nil =>
        obtain ⟨w', hn, hc'⟩ := dwalk_next_end hrep hc
        obtain ⟨w'', hb, hc''⟩ := dwalk_back_end hrep hwf hc.gs_eq hc.ents_eq hc.exts_eq hc'
        refine ⟨0, w', hn, Or.inl rfl, by simp, ?_⟩
        rw [hb, curat_unique hc hc'']

theorem dwalk_back_rewinds_next_witness :
    ∃ L w0, dleaf_build 256 zero_block 0 [(1, make_extent 100 5), (10, make_extent 200 1)]
        = some (L, w0) ∧
      ∃ r w', dwalk_next L (dwalk.mk 256 252 252 244 248 8 8 16) = some (r, w') ∧
        (r = 0 ∨ r = 1) ∧
        (r = 0 ↔ ([] : List AGroup) = [] ∧ [AEntry.mk 10 [make_extent 200 1]] = [] ∧
          ([] : List Nat) = []) ∧
        dwalk_back L w' = some (1, dwalk.mk 256 252 252 244 248 8 8 16) := by
  obtain ⟨L, w0, hb, hrep, -, hwf, -⟩ := @build_facts 256 zero_block 0
    [(1, make_extent 100 5), (10, make_extent 200 1)] (by decide) (by decide) (by decide)
    (by decide)
  have hc : CurAt 256 (index_build [] [(1, make_extent 100 5), (10, make_extent 200 1)]) []
      (AGroup.mk 0 [AEntry.mk 1 [make_extent 100 5], AEntry.mk 10 [make_extent 200 1]]) []
      [] (AEntry.mk 1 [make_extent 100 5]) [AEntry.mk 10 [make_extent 200 1]]
      [] (make_extent 100 5) [] (dwalk.mk 256 252 252 244 248 8 8 16) :=
    ⟨by decide, rfl, rfl, rfl, by decide, by decide, by decide, by decide, by decide,
      by decide, by decide⟩
  exact ⟨L, w0, hb, dwalk_back_rewinds_next hrep hwf hc⟩

/-! ## Cursor states -/

section states
variable {bs : Nat} {L : dleaf} {gs pre post : List AGroup} {g : AGroup}
  {epre epost : List AEntry} {e : AEntry} {xpre xpost : List Nat} {x : Nat} {w : dwalk}

/-- The assertions of `dwalk_check` are the invariants of the specification. -/
theorem dwalk_check_iff (L : dleaf) (w : dwalk) :
    dwalk_check L w = true ↔ check_holds L w := by
  unfold dwalk_check check_holds
  by_cases hg : dleaf_groups L = 0
  · rw [if_pos hg]
    simp only [Bool.and_eq_true, beq_iff_eq]
    constructor
    · rintro ⟨⟨⟨⟨h1, h2⟩, h3⟩, h4⟩, h5⟩
      exact ⟨fun _ => ⟨h1, h2, h3, h4, h5.symm⟩, fun h => absurd hg h, fun h => absurd hg h⟩
    · rintro ⟨h, -, -⟩
      obtain ⟨h1, h2, h3, h4, h5⟩ := h hg
      exact ⟨⟨⟨⟨h1, h2⟩, h3⟩, h4⟩, h5.symm⟩
  · rw [if_neg hg]
    by_cases he : w.extent = w.exstop
    · have he' : dwalk_end w = true := by simp [dwalk_end, he]
      rw [if_pos he']
      simp only [Bool.and_eq_true, beq_iff_eq, decide_eq_true_eq]
      constructor
      · rintro ⟨⟨⟨h1, h2⟩, h3⟩, h4⟩
        exact ⟨fun h => absurd h hg, fun _ _ => ⟨h1, h2, h3⟩, fun _ h => absurd he h⟩
      · rintro ⟨-, h, -⟩
        obtain ⟨h1, h2, h3⟩ := h hg he
        exact ⟨⟨⟨h1, h2⟩, h3⟩, he⟩
    · have he' : ¬ (dwalk_end w = true) := by simp [dwalk_end, he]
      rw [if_neg he']
      simp only [Bool.and_eq_true, decide_eq_true_eq]
      constructor
      · rintro ⟨⟨⟨h1, h2⟩, h3⟩, h4⟩
        exact ⟨fun h => absurd h hg, fun _ h => absurd h he, fun _ _ => ⟨h1, h2, h3, h4⟩⟩
      · rintro ⟨-, -, h⟩
        obtain ⟨h1, h2, h3, h4⟩ := h hg he
        exact ⟨⟨⟨h1, h2⟩, h3⟩, h4⟩

theorem curat_check (hrep : Rep bs L gs)
    (hc : CurAt bs gs pre g post epre e epost xpre x xpost w) : dwalk_check L w = true := by
  obtain ⟨s1, s2, s3, s4, s5, s6⟩ := curat_sizes hrep hc
  have hg := curat_groups_ne hrep hc
  obtain ⟨c1, c2, c3, c4, c5, c6, c7, c8, c9, c10, c11⟩ := hc
  exact dwalk_check_on hg (by omega) (by omega) (by omega) (by omega)

theorem endcur_check (hrep : Rep bs L gs) (hwf : WF gs) (hne : gs ≠ [])
    (hc : EndCur bs gs w) : dwalk_check L w = true := by
  obtain ⟨pre, g, hgs⟩ := exists_concat_of_ne_nil gs hne
  obtain ⟨⟨a1, a2, a3, a4⟩, a5, a6, a7, a8⟩ := hc
  have hd : gs.dropLast = pre := by rw [hgs]; simp
  rw [hd] at a4
  have hg : L.groups ≠ 0 := by rw [hrep.groups_eq, hgs]; simp
  have hgin : g ∈ gs := by rw [hgs]; simp
  obtain ⟨es0, e0, xs0, x0, he0, hx0⟩ := wf_last hwf hgin
  have n3 : ext_count gs = ext_count pre + ext_total g.ents := by rw [hgs]; simp [ext_count]
  have n5 : ext_total g.ents = ext_total es0 + e0.exts.length := by rw [he0]; simp [ext_total]
  have n6 : e0.exts.length = xs0.length + 1 := by rw [hx0]; simp
  exact dwalk_check_end hg a6.symm a7.symm (by omega) a8.symm

theorem curok_check (hrep : Rep bs L gs) (hwf : WF gs) (hc : CurOk bs gs w) :
    dwalk_check L w = true := by
  rcases hc with ⟨h1, h2⟩ | ⟨pre, g, post, epre, e, epost, xpre, x, xpost, h⟩ | ⟨h1, h2⟩
  · subst h2
    have hg : L.groups = 0 := by rw [hrep.groups_eq, h1]; rfl
    simp [dwalk_check, dleaf_groups, hg]
  · exact curat_check hrep h
  · exact endcur_check hrep hwf h1 h2

end states

section states
variable {bs : Nat} {L : dleaf} {gs pre post : List AGroup} {g : AGroup}
  {epre epost : List AEntry} {e : AEntry} {xpre xpost : List Nat} {x : Nat} {w : dwalk}

/-- One `dwalk_next` from a cursor on an extent: either it steps off the last
extent and returns 0, or it returns 1 on the next extent of the table, whose key
is not below the key it left. -/
theorem dwalk_next_on (hrep : Rep bs L gs) (hwf : WF gs) (hasc : Ascending gs)
    (hc : CurAt bs gs pre g post epre e epost xpre x xpost w) :
    (∃ w', dwalk_next L w = some (0, w') ∧ EndCur bs gs w' ∧ w'.extent = w.extent + 8 ∧
      w'.extent = 8 + 8 * ext_count gs) ∨
    (∃ w' pre' g' post' epre' e' epost' xpre' x' xpost', dwalk_next L w = some (1, w') ∧
      CurAt bs gs pre' g' post' epre' e' epost' xpre' x' xpost' w' ∧
      w'.extent = w.extent + 8 ∧ cur_key g e ≤ cur_key g' e') := by
  obtain ⟨s1, s2, s3, s4, s5, s6⟩ := curat_sizes hrep hc
  have c10 := hc.extent_eq
  cases xpost with
  | cons x' xs =>
    obtain ⟨w', hn, hc'⟩ := dwalk_next_extent hrep hc
    have d10 := hc'.extent_eq
    simp only [List.length_append, List.length_singleton] at d10
    exact Or.inr ⟨w', _, _, _, _, _, _, _, _, _, hn, hc', by omega, Nat.le_refl _⟩
  | nil =>
    simp only [List.length_nil] at s3 s5
    cases epost with
    | cons e' es =>
      obtain ⟨w', x', xs', -, hn, hc'⟩ := dwalk_next_entry hrep hwf hc
      have d10 := hc'.extent_eq
      simp only [List.length_nil, ext_total_append, ext_total] at d10
      have hlt := (asc_at hasc hc'.gs_eq hc'.ents_eq).1 (cur_key g e, e.exts)
        (by rw [pairs_before_snoc]; simp)
      exact Or.inr ⟨w', _, _, _, _, _, _, _, _, _, hn, hc', by omega, Nat.le_of_lt hlt⟩
    | nil =>
      simp only [List.length_nil, ext_total] at s2 s3 s4
      cases post with
      | cons g' ps =>
        obtain ⟨w', e', es', x', xs', he', -, hn, hc'⟩ := dwalk_next_group hrep hwf hc
        have d10 := hc'.extent_eq
        have htot : ext_total g.ents = ext_total epre + e.exts.length := by
          rw [hc.ents_eq]; simp [ext_total]
        simp only [List.length_nil, ext_count_append, ext_count, ext_total] at d10
        have hlt := (asc_at hasc hc'.gs_eq hc'.ents_eq).1 (cur_key g e, e.exts)
          (by rw [pairs_before_group pre g g' epre e hc.ents_eq]; simp)
        exact Or.inr ⟨w', _, _, _, _, _, _, _, _, _, hn, hc', by omega, Nat.le_of_lt hlt⟩
      | nil =>
        obtain ⟨w', hn, hc'⟩ := dwalk_next_end hrep hc
        have a3 := hc'.1.2.2.1
        simp only [ext_count, List.length_nil] at s3
        exact Or.inl ⟨w', hn, hc', by omega, a3⟩

/-- The cursor states are closed under `dwalk_next`, which never fails on them. -/
theorem curok_next (hrep : Rep bs L gs) (hwf : WF gs) (hasc : Ascending gs)
    (hc : CurOk bs gs w) : ∃ r w', dwalk_next L w = some (r, w') ∧ CurOk bs gs w' := by
  rcases hc with ⟨h1, h2⟩ | ⟨pre, g, post, epre, e, epost, xpre, x, xpost, h⟩ | ⟨h1, h2⟩
  · refine ⟨0, w, ?_, Or.inl ⟨h1, h2⟩⟩
    subst h2
    simp [dwalk_next, dwalk_end]
  · have hne : gs ≠ [] := by rw [h.gs_eq]; simp
    rcases dwalk_next_on hrep hwf hasc h with ⟨w', hn, he, -⟩ |
      ⟨w', pre', g', post', epre', e', epost', xpre', x', xpost', hn, hc', -⟩
    · exact ⟨0, w', hn, Or.inr (Or.inr ⟨hne, he⟩)⟩
    · exact ⟨1, w', hn, Or.inr (Or.inl ⟨_, _, _, _, _, _, _, _, _, hc'⟩)⟩
  · refine ⟨0, w, ?_, Or.inr (Or.inr ⟨h1, h2⟩)⟩
    have := endcur_end h2
    simp only [dwalk_next, this, if_true]

/-- The cursor states are closed under `dwalk_back`, which never fails on them. -/
theorem curok_back (hrep : Rep bs L gs) (hwf : WF gs)
    (hc : CurOk bs gs w) : ∃ r w', dwalk_back L w = some (r, w') ∧ CurOk bs gs w' := by
  rcases hc with ⟨h1, h2⟩ | ⟨pre, g, post, epre, e, epost, xpre, x, xpost, h⟩ | ⟨h1, h2⟩
  · refine ⟨0, w, ?_, Or.inl ⟨h1, h2⟩⟩
    subst h2
    exact dwalk_back_eval_first rfl
  · rcases List.eq_nil_or_concat xpre with h0 | ⟨xpre0, x0, h0⟩
    · subst h0
      rcases List.eq_nil_or_concat epre with h1 | ⟨epre0, e0, h1⟩
      · subst h1
        rcases List.eq_nil_or_concat pre with h2 | ⟨pre0, g0, h2⟩
        · subst h2
          exact ⟨0, w, dwalk_back_first h, Or.inr (Or.inl ⟨_, _, _, _, _, _, _, _, _, h⟩)⟩
        · have h2' : pre = pre0 ++ [g0] := by simpa using h2
          subst h2'
          obtain ⟨w', es0, e0, xs0, x0, -, -, hb, hc'⟩ := dwalk_back_group hrep hwf h
          exact ⟨1, w', hb, Or.inr (Or.inl ⟨_, _, _, _, _, _, _, _, _, hc'⟩)⟩
      · have h1' : epre = epre0 ++ [e0] := by simpa using h1
        subst h1'
        obtain ⟨w', xs0, x0, -, hb, hc'⟩ := dwalk_back_entry hrep hwf h
        exact ⟨1, w', hb, Or.inr (Or.inl ⟨_, _, _, _, _, _, _, _, _, hc'⟩)⟩
    · have h0' : xpre = xpre0 ++ [x0] := by simpa using h0
      subst h0'
      obtain ⟨w', hb, hc'⟩ := dwalk_back_extent hrep hwf h
      exact ⟨1, w', hb, Or.inr (Or.inl ⟨_, _, _, _, _, _, _, _, _, hc'⟩)⟩
  · obtain ⟨pre, g, hgs⟩ := exists_concat_of_ne_nil gs h1
    have hgin : g ∈ gs := by rw [hgs]; simp
    obtain ⟨es0, e0, xs0, x0, he0, hx0⟩ := wf_last hwf hgin
    obtain ⟨w', hb, hc'⟩ := dwalk_back_end hrep hwf hgs he0 hx0 h2
    exact ⟨1, w', hb, Or.inr (Or.inl ⟨_, _, _, _, _, _, _, _, _, hc'⟩)⟩

end states

section probe
variable {bs : Nat} {L : dleaf} {gs : List AGroup}

/-- The cursor `dwalk_probe` leaves on a leaf that holds an ascending index, for
any key: its assertions hold, it returns 0 with the cursor past the last extent
(or at the start values of an empty leaf) and 1 with the cursor on an extent. -/
theorem dwalk_probe_shape (hrep : Rep bs L gs) (hwf : WF gs) (hasc : Ascending gs)
    (key : Nat) :
    ∃ r w, dwalk_probe L bs key = some (r, w) ∧ CurOk bs gs w ∧
      ((r = 0 ∧ dwalk_end w = true) ∨ (r = 1 ∧ dwalk_end w = false)) := by
  by_cases hne : gs = []
  · have hg : L.groups = 0 := by rw [hrep.groups_eq, hne]; rfl
    exact ⟨0, _, dwalk_probe_empty hg key, Or.inl ⟨hne, rfl⟩, Or.inl ⟨rfl, rfl⟩⟩
  have hgne : dleaf_groups L ≠ 0 := by
    show L.groups ≠ 0
    rw [hrep.groups_eq]
    cases gs with
    | nil => exact absurd rfl hne
    | cons a l => simp
  have hgl : dleaf_groups L = gs.length := hrep.groups_eq
  have hb := (rep_bounds hrep).1
  obtain ⟨hand, hshift⟩ := probe_key_bits key
  have hkl : key &&& 0xffffff < 2 ^ 24 := by rw [hand]; exact Nat.mod_lt _ (by norm_num)
  obtain ⟨x, w1, hG, hcase⟩ := probe_groups_spec hrep hwf hasc ((key >>> 24) % 2 ^ 32)
    (key &&& 0xffffff) hkl gs [] (dleaf_groups L)
    (dwalk.mk bs (bs - 4 * dleaf_groups L) bs (bs - 4 * dleaf_groups L) 0 sizeof_dleaf 0 0)
    (by simp) (by rw [hgl]) rfl
    (by show bs - 4 * dleaf_groups L + 4 * gs.length = bs; rw [hgl]; omega)
    (by show bs + 4 * ([] : List AGroup).length = bs; simp)
    (by show bs - 4 * dleaf_groups L + 4 * (gs.length + ent_count []) = bs
        rw [hgl]; simp only [ent_count]; omega)
    (by show sizeof_dleaf = 8 + 8 * ext_count []; simp [ext_count, sizeof_dleaf])
    (by intro g hg; cases hg) (by intro g hg; cases hg)
  rcases hcase with ⟨hx, a1, a2, a3, a4, a5, a6⟩ | ⟨hx, pre, g, post, e, es, hGrp, he, hlt, hpre⟩ |
    ⟨hx, pre, g, post, e, es, hGrp, he, hkh, hlo, hpost⟩
  · subst hx
    obtain ⟨pre, g, hsn⟩ := exists_concat_of_ne_nil gs hne
    have hext : ext_count gs = ext_count pre + ext_total g.ents := by
      rw [hsn]; simp [ext_count]
    have hcnt : ent_count gs = ent_count pre + g.ents.length := by
      rw [hsn]; simp [ent_count]
    have hgin : g ∈ gs := by rw [hsn]; simp
    have hlim := rep_last_limit hrep hwf (show gs = pre ++ g :: [] from hsn) (p := w1.estop)
      (by omega)
    have hd : gs.dropLast = pre := by rw [hsn]; simp
    have hend : EndCur bs gs (dwalk.mk w1.gdict w1.gstop w1.group w1.estop w1.estop
        (w1.exbase - 8 * entry_limit L w1.estop) w1.exbase w1.exbase) := by
      refine ⟨⟨a3, ?_, ?_, ?_⟩, a1, ?_, rfl, rfl⟩
      · show w1.estop + 4 * (gs.length + ent_count gs) = bs
        exact a4
      · show w1.exbase = 8 + 8 * ext_count gs
        exact a5
      · show w1.exbase - 8 * entry_limit L w1.estop = 8 + 8 * ext_count gs.dropLast
        rw [hlim, hd]; omega
      · show w1.gstop = w1.group
        omega
    have hchk := endcur_check hrep hwf hne hend
    exact ⟨0, _, by rw [dwalk_probe_after_loop hgne hG, if_pos hchk],
      Or.inr (Or.inr ⟨hne, hend⟩), Or.inl ⟨rfl, endcur_end hend⟩⟩
  · subst hx
    obtain ⟨x, xs, hxs, hlim, hcur, hchk⟩ := grpat_curat hrep hwf hGrp he
    exact ⟨1, _, by rw [dwalk_probe_no_group hgne hG, hlim, if_pos hchk],
      Or.inr (Or.inl ⟨_, _, _, _, _, _, _, _, _, hcur⟩), Or.inr ⟨rfl, curat_not_end hcur⟩⟩
  · subst hx
    obtain ⟨x, xs, hxs, hlim, hcur, hchk⟩ := grpat_curat hrep hwf hGrp he
    have hgs := hGrp.gs_eq
    have hcnt := rep_group_count hrep hwf hgs (p := w1.group) hGrp.group_eq
    have hfuel : es.length ≤ g.ents.length := by rw [he]; simp
    obtain ⟨w2, epre, e', epost, x', xs', hE, hcur2, hlo2, hin⟩ :=
      probe_entries_spec hrep hwf (key &&& 0xffffff) es [] e x xs g.ents.length _ hfuel hcur hlo
    have hE' : dwalk_probe_entries L (key &&& 0xffffff) (group_count L w1.group)
        (dwalk.mk w1.gdict w1.gstop w1.group w1.estop w1.entry w1.exbase w1.exbase
          (w1.exbase + 8 * entry_limit L w1.entry)) = some w2 := by
      rw [hcnt, hlim]; exact hE
    have hprobe := dwalk_probe_probe_entry hgne hG hE'
    by_cases hhit : key < dwalk_index L w2 + dwalk_count L w2
    · exact ⟨1, w2, by rw [hprobe, if_pos hhit],
        Or.inr (Or.inl ⟨_, _, _, _, _, _, _, _, _, hcur2⟩), Or.inr ⟨rfl, curat_not_end hcur2⟩⟩
    · rw [if_neg hhit] at hprobe
      rcases dwalk_next_on hrep hwf hasc hcur2 with ⟨w3, hn, hend, -⟩ |
        ⟨w3, pre', g', post', epre', e3, epost', xpre', x3, xpost', hn, hcur3, -⟩
      · exact ⟨0, w3, by rw [hprobe, hn]; simp only [endcur_end hend]; rfl,
          Or.inr (Or.inr ⟨hne, hend⟩), Or.inl ⟨rfl, endcur_end hend⟩⟩
      · exact ⟨1, w3, by rw [hprobe, hn]; simp only [curat_not_end hcur3]; rfl,
          Or.inr (Or.inl ⟨_, _, _, _, _, _, _, _, _, hcur3⟩), Or.inr ⟨rfl, curat_not_end hcur3⟩⟩

/-- Any run of `dwalk_next` and `dwalk_back` calls from a cursor state goes through
and stays among the cursor states. -/
theorem dwalk_moves_ok (hrep : Rep bs L gs) (hwf : WF gs) (hasc : Ascending gs)
    (ms : List dwalk_move) :
    ∀ w, CurOk bs gs w → ∃ res, dwalk_moves L w ms = some res ∧ res.length = ms.length ∧
      ∀ p ∈ res, CurOk bs gs p.2 := by
  induction ms with
  | nil => intro w _; exact ⟨[], rfl, rfl, by intro p hp; cases hp⟩
  | cons m ms ih =>
    intro w hw
    have hstep : ∃ r w', dwalk_step L w m = some (r, w') ∧ CurOk bs gs w' := by
      cases m with
      | next => exact curok_next hrep hwf hasc hw
      | back => exact curok_back hrep hwf hw
    obtain ⟨r, w', hs, hw'⟩ := hstep
    obtain ⟨res, hres, hlen, hall⟩ := ih w' hw'
    refine ⟨(r, w') :: res, by simp only [dwalk_moves, hs, hres], by simp [hlen], ?_⟩
    intro p hp
    rcases List.mem_cons.1 hp with h | h
    · rw [h]; exact hw'
    · exact hall p h

end probe

/-- C35: on a leaf that holds a well-formed ascending index (the empty leaf
included), for every key and every run of `dwalk_next` and `dwalk_back` calls after
`dwalk_probe`, no assertion of `dwalk_check` fails: the probe and every call
return, and every cursor on the way passes `dwalk_check`, that is, on an empty
leaf the pointers are at their start values, at the end of the leaf
`group = gstop`, `entry = estop` and `exbase < extent = exstop`, and otherwise
`gstop <= group`, `estop <= entry` and `exbase <= extent < exstop`. -/
theorem dwalk_check_never_fails {bs : Nat} {L : dleaf} {gs : List AGroup}
    (hrep : Rep bs L gs) (hwf : WF gs) (hasc : Ascending gs) (key : Nat)
    (ms : List dwalk_move) :
    ∃ r w res, dwalk_probe L bs key = some (r, w) ∧ dwalk_moves L w ms = some res ∧
      res.length = ms.length ∧
      ∀ c ∈ w :: res.map Prod.snd, dwalk_check L c = true ∧ check_holds L c := by
  obtain ⟨r, w, hp, hw, -⟩ := dwalk_probe_shape hrep hwf hasc key
  obtain ⟨res, hres, hlen, hall⟩ := dwalk_moves_ok hrep hwf hasc ms w hw
  refine ⟨r, w, res, hp, hres, hlen, ?_⟩
  intro c hc
  have hok : CurOk bs gs c := by
    rcases List.mem_cons.1 hc with h | h
    · rw [h]; exact hw
    · obtain ⟨p, hp1, hp2⟩ := List.mem_map.1 h
      rw [← hp2]; exact hall p hp1
  have hchk := curok_check hrep hwf hok
  exact ⟨hchk, (dwalk_check_iff L c).1 hchk⟩

theorem dwalk_check_never_fails_witness :
    ∃ L w0, dleaf_build 256 zero_block 0
        [(1, make_extent 100 5), (10, make_extent 200 1), (0x1000002, make_extent 300 2)]
        = some (L, w0) ∧
      ∃ r w res, dwalk_probe L 256 10 = some (r, w) ∧
        dwalk_moves L w [dwalk_move.next, dwalk_move.next, dwalk_move.next, dwalk_move.back,
          dwalk_move.back, dwalk_move.back, dwalk_move.back] = some res ∧
        res.length = [dwalk_move.next, dwalk_move.next, dwalk_move.next, dwalk_move.back,
          dwalk_move.back, dwalk_move.back, dwalk_move.back].length ∧
        ∀ c ∈ w :: res.map Prod.snd, dwalk_check L c = true ∧ check_holds L c := by
  obtain ⟨L, w0, hb, hrep, -, hwf, -, hasc, -⟩ := @build_facts 256 zero_block 0
    [(1, make_extent 100 5), (10, make_extent 200 1), (0x1000002, make_extent 300 2)]
    (by decide) (by decide) (by decide) (by decide)
  exact ⟨L, w0, hb, dwalk_check_never_fails hrep hwf hasc 10 _⟩

/-! ## Walking the whole leaf -/

section walk
variable {bs : Nat} {L : dleaf} {gs : List AGroup}

/-- The extent words of the leaf, read at their offsets in table order. -/
theorem rep_extent_table (hrep : Rep bs L gs) :
    (List.range (ext_count gs)).map (fun i => extent_at L (8 + 8 * i)) = extent_table gs := by
  apply List.ext_getElem
  · simp
  · intro n h1 h2
    simp only [List.getElem_map, List.getElem_range]
    exact hrep.extent_eq n _ (List.getElem?_eq_getElem h2)

theorem replicate_next_succ (n : Nat) :
    List.replicate (n + 1) dwalk_move.next = dwalk_move.next :: List.replicate n dwalk_move.next :=
  rfl

theorem dwalk_moves_next_cons {w w' : dwalk} {r : Nat} {ms : List dwalk_move}
    {rest : List (Nat × dwalk)} (h1 : dwalk_next L w = some (r, w'))
    (h2 : dwalk_moves L w' ms = some rest) :
    dwalk_moves L w (dwalk_move.next :: ms) = some ((r, w') :: rest) := by
  simp only [dwalk_moves, dwalk_step, h1, h2]

/-- From a cursor with `n` extents behind it, `n + 1` calls of `dwalk_next` return
1 for each of the `n` extents, in table order and with keys that do not decrease,
and then 0 at the end of the leaf. -/
theorem dwalk_walk_from (hrep : Rep bs L gs) (hwf : WF gs) (hasc : Ascending gs) :
    ∀ (n : Nat) (w : dwalk), (∃ pre g post epre e epost xpre x xpost,
        CurAt bs gs pre g post epre e epost xpre x xpost w) →
      w.extent + 8 * (n + 1) = 8 + 8 * ext_count gs →
      ∃ res wN, dwalk_moves L w (List.replicate (n + 1) dwalk_move.next)
          = some (res ++ [(0, wN)]) ∧
        res.map Prod.fst = List.replicate n 1 ∧
        res.map (fun p => p.2.extent) = (List.range n).map (fun i => w.extent + 8 * (i + 1)) ∧
        (∀ p ∈ res, dwalk_index L w ≤ dwalk_index L p.2) ∧
        (res.map (fun p => dwalk_index L p.2)).Pairwise (· ≤ ·) ∧
        EndCur bs gs wN := by
  intro n
  induction n with
  | zero =>
    rintro w ⟨pre, g, post, epre, e, epost, xpre, x, xpost, hc⟩ hrem
    rcases dwalk_next_on hrep hwf hasc hc with ⟨w', hn, hend, h1, h2⟩ |
      ⟨w', pre', g', post', epre', e', epost', xpre', x', xpost', hn, hc', h1, -⟩
    · refine ⟨[], w', ?_, rfl, rfl, (by intro p hp; cases hp), List.Pairwise.nil, hend⟩
      exact dwalk_moves_next_cons hn rfl
    · obtain ⟨s1, s2, s3, s4, s5, s6⟩ := curat_sizes hrep hc'
      have := hc'.extent_eq
      omega
  | succ n ih =>
    rintro w ⟨pre, g, post, epre, e, epost, xpre, x, xpost, hc⟩ hrem
    rcases dwalk_next_on hrep hwf hasc hc with ⟨w', hn, hend, h1, h2⟩ |
      ⟨w', pre', g', post', epre', e', epost', xpre', x', xpost', hn, hc', h1, hle⟩
    · omega
    · obtain ⟨res, wN, hm, hf, hx, hge, hpw, hend⟩ :=
        ih w' ⟨_, _, _, _, _, _, _, _, _, hc'⟩ (by omega)
      have hi : dwalk_index L w ≤ dwalk_index L w' := by
        rw [(curat_reads hrep hwf hc).1, (curat_reads hrep hwf hc').1]; exact hle
      refine ⟨(1, w') :: res, wN, ?_, ?_, ?_, ?_, ?_, hend⟩
      · rw [replicate_next_succ]
        exact dwalk_moves_next_cons hn hm
      · simp only [List.map_cons, hf]; rfl
      · rw [List.range_succ_eq_map, List.map_cons, List.map_cons, List.map_map, hx, h1]
        refine congrArg _ (List.map_congr_left ?_)
        intro i _
        simp only [Function.comp, Nat.succ_eq_add_one]
        omega
      · intro p hp
        rcases List.mem_cons.1 hp with h | h
        · rw [h]; exact hi
        · exact Nat.le_trans hi (hge p h)
      · rw [List.map_cons, List.pairwise_cons]
        refine ⟨?_, hpw⟩
        intro k hk
        obtain ⟨p, hp1, hp2⟩ := List.mem_map.1 hk
        rw [← hp2]
        exact hge p hp1

end walk

section zero
variable {bs : Nat} {L : dleaf} {gs : List AGroup}

theorem pairs_before_nil (g : AGroup) : pairs_before [] g [] = [] := by
  simp [pairs_before, leaf_pairs, entry_pairs]

/-- No pair of an ascending index lies in front of a pair with key 0. -/
theorem before_zero_nil (hwf : WF gs) (hasc : Ascending gs) {pre post : List AGroup}
    {g : AGroup} {epre epost : List AEntry} {e : AEntry} (hg : gs = pre ++ g :: post)
    (he : g.ents = epre ++ e :: epost) (h0 : cur_key g e = 0) : pre = [] ∧ epre = [] := by
  have hlt := (asc_at hasc hg he).1
  rw [h0] at hlt
  constructor
  · cases pre with
    | nil => rfl
    | cons g0 l =>
      have hin : g0 ∈ gs := by rw [hg]; simp
      obtain ⟨e0, es0, he0⟩ := wf_first hwf hin
      have := hlt (g0.keyhi * 2 ^ 24 + e0.keylo, e0.exts)
        (by
          simp only [pairs_before, List.mem_append]
          left
          exact leaf_pairs_mem (List.mem_cons_self _ _)
            (entry_pairs_mem (by rw [he0]; simp)))
      simp at this
  · cases epre with
    | nil => rfl
    | cons e0 l =>
      have := hlt (g.keyhi * 2 ^ 24 + e0.keylo, e0.exts)
        (by
          simp only [pairs_before, List.mem_append]
          right
          exact entry_pairs_mem (List.mem_cons_self _ _))
      simp at this

/-- The probe for key 0 stops on the first extent of the leaf, unless the first
key is 0 and its first extent has count 0. -/
theorem dwalk_probe_zero (hrep : Rep bs L gs) (hwf : WF gs) (hasc : Ascending gs)
    (hne : gs ≠ [])
    (hfirst : ∀ x xs rest, leaf_pairs gs = (0, x :: xs) :: rest → 1 ≤ extent_count x) :
    ∃ w g post e epost x xpost, dwalk_probe L bs 0 = some (1, w) ∧
      CurAt bs gs [] g post [] e epost [] x xpost w := by
  have hgne : dleaf_groups L ≠ 0 := by
    show L.groups ≠ 0
    rw [hrep.groups_eq]
    cases gs with
    | nil => exact absurd rfl hne
    | cons a l => simp
  have hgl : dleaf_groups L = gs.length := hrep.groups_eq
  have hb := (rep_bounds hrep).1
  have hk1 : (0 >>> 24) % 2 ^ 32 = 0 := by decide
  have hk2 : 0 &&& 0xffffff = 0 := by decide
  obtain ⟨x, w1, hG, hcase⟩ := probe_groups_spec hrep hwf hasc ((0 >>> 24) % 2 ^ 32)
    (0 &&& 0xffffff) (by decide) gs [] (dleaf_groups L)
    (dwalk.mk bs (bs - 4 * dleaf_groups L) bs (bs - 4 * dleaf_groups L) 0 sizeof_dleaf 0 0)
    (by simp) (by rw [hgl]) rfl
    (by show bs - 4 * dleaf_groups L + 4 * gs.length = bs; rw [hgl]; omega)
    (by show bs + 4 * ([] : List AGroup).length = bs; simp)
    (by show bs - 4 * dleaf_groups L + 4 * (gs.length + ent_count []) = bs
        rw [hgl]; simp only [ent_count]; omega)
    (by show sizeof_dleaf = 8 + 8 * ext_count []; simp [ext_count, sizeof_dleaf])
    (by intro g hg; cases hg) (by intro g hg; cases hg)
  rcases hcase with ⟨hx, a1, a2, a3, a4, a5, a6⟩ | ⟨hx, pre, g, post, e, es, hGrp, he, hlt, hpre⟩ |
    ⟨hx, pre, g, post, e, es, hGrp, he, hkh, hlo, hpost⟩
  · exfalso
    cases gs with
    | nil => exact hne rfl
    | cons a l =>
      have := a6 a (List.mem_cons_self _ _)
      rw [hk1] at this
      omega
  · subst hx
    have hp : pre = [] := by
      cases pre with
      | nil => rfl
      | cons g0 l =>
        have := hpre g0 (List.mem_cons_self _ _)
        rw [hk1] at this
        omega
    subst hp
    obtain ⟨x, xs, hxs, hlim, hcur, hchk⟩ := grpat_curat hrep hwf hGrp he
    exact ⟨_, g, post, e, es, x, xs, by rw [dwalk_probe_no_group hgne hG, hlim, if_pos hchk],
      hcur⟩
  · subst hx
    rw [hk1] at hkh
    rw [hk2] at hlo
    obtain ⟨x, xs, hxs, hlim, hcur, hchk⟩ := grpat_curat hrep hwf hGrp he
    have hgs := hGrp.gs_eq
    have hcnt := rep_group_count hrep hwf hgs (p := w1.group) hGrp.group_eq
    have hfuel : es.length ≤ g.ents.length := by rw [he]; simp
    obtain ⟨w2, epre, e', epost, x', xs', hE, hcur2, hlo2, hin⟩ :=
      probe_entries_spec hrep hwf (0 &&& 0xffffff) es [] e x xs g.ents.length _ hfuel hcur
        (by rw [hk2]; exact hlo)
    rw [hk2] at hlo2
    have hkey : cur_key g e' = 0 := by
      simp only [cur_key, hkh]
      omega
    obtain ⟨hp, hep⟩ := before_zero_nil hwf hasc hgs hcur2.ents_eq hkey
    subst hp
    subst hep
    have hE' : dwalk_probe_entries L (0 &&& 0xffffff) (group_count L w1.group)
        (dwalk.mk w1.gdict w1.gstop w1.group w1.estop w1.entry w1.exbase w1.exbase
          (w1.exbase + 8 * entry_limit L w1.entry)) = some w2 := by
      rw [hcnt, hlim]; exact hE
    have hprobe := dwalk_probe_probe_entry hgne hG hE'
    obtain ⟨hidx, hext⟩ := curat_reads hrep hwf hcur2
    have hpairs := leaf_pairs_at hgs hcur2.ents_eq
    rw [pairs_before_nil, List.nil_append, hkey, hcur2.exts_eq, List.nil_append] at hpairs
    have hc1 := hfirst x' xs' _ hpairs
    have hhit : 0 < dwalk_index L w2 + dwalk_count L w2 := by
      unfold dwalk_count
      rw [hext]
      omega
    exact ⟨w2, g, post, e', epost, x', xs', by rw [hprobe, if_pos hhit], hcur2⟩

end zero

/-- C34, where it fails as stated: on the leaf with extents at keys 0 and 5, the
first of count 0, `dwalk_probe` for key 0 returns 1 with the cursor on the second
extent (offset 16, key 5), and one `dwalk_next` later the walk is over; with the
extent of count 0 alone in the leaf the probe returns 0 with the cursor at the
end.  Both leaves pass `dleaf_check`. -/
theorem dwalk_probe_zero_skips_first :
    (dleaf_build 256 zero_block 0 [(0, make_extent 100 0), (5, make_extent 200 1)]).bind
      (fun s => (dwalk_probe s.1 256 0).bind
        (fun p => (dwalk_next s.1 p.2).map
          (fun q => (decide (dleaf_check 256 s.1 = some 0), p.1, p.2.extent,
            dwalk_index s.1 p.2, q.1, dwalk_end q.2))))
      = some (true, 1, 16, 5, 0, true) ∧
    (dleaf_build 256 zero_block 0 [(0, make_extent 100 0)]).bind
      (fun s => (dwalk_probe s.1 256 0).map
        (fun p => (decide (dleaf_check 256 s.1 = some 0), p.1, p.2.extent, dwalk_end p.2)))
      = some (true, 0, 16, true) := by
  decide

/-- C34, amended: on a leaf that holds a well-formed ascending index with
`N >= 1` extents, whose first extent has count at least 1 when the first key is 0,
`dwalk_probe` for key 0 returns 1 with the cursor on the first extent; `N` calls
of `dwalk_next` then return 1 exactly `N - 1` times and 0 at the last; the cursors
on the way stand on the extents of the table, each once and in table order, with
`dwalk_index` never decreasing; the last cursor satisfies `dwalk_end`, and on any
cursor that does, `dwalk_next` returns 0 and leaves it as it is. -/
theorem dwalk_walk_all {bs : Nat} {L : dleaf} {gs : List AGroup}
    (hrep : Rep bs L gs) (hwf : WF gs) (hasc : Ascending gs) (hne : gs ≠ [])
    (hfirst : ∀ x xs rest, leaf_pairs gs = (0, x :: xs) :: rest → 1 ≤ extent_count x) :
    ∃ w0 res wN, dwalk_probe L bs 0 = some (1, w0) ∧ w0.extent = sizeof_dleaf ∧
      1 ≤ ext_count gs ∧
      dwalk_moves L w0 (List.replicate (ext_count gs) dwalk_move.next)
        = some (res ++ [(0, wN)]) ∧
      res.map Prod.fst = List.replicate (ext_count gs - 1) 1 ∧
      (w0 :: res.map Prod.snd).map (fun c => c.extent)
        = (List.range (ext_count gs)).map (fun i => sizeof_dleaf + 8 * i) ∧
      (w0 :: res.map Prod.snd).map (fun c => extent_at L c.extent) = extent_table gs ∧
      ((w0 :: res.map Prod.snd).map (dwalk_index L)).Pairwise (· ≤ ·) ∧
      dwalk_end wN = true ∧
      ∀ c, dwalk_end c = true → dwalk_next L c = some (0, c) := by
  obtain ⟨w0, g, post, e, epost, x, xpost, hp, hc⟩ := dwalk_probe_zero hrep hwf hasc hne hfirst
  obtain ⟨s1, s2, s3, s4, s5, s6⟩ := curat_sizes hrep hc
  have h0 : w0.extent = 8 := by
    have := hc.extent_eq
    simpa [ext_count, ext_total] using this
  obtain ⟨m, hm⟩ : ∃ m, ext_count gs = m + 1 := ⟨ext_count gs - 1, by omega⟩
  obtain ⟨res, wN, hmv, hf, hx, hge, hpw, hend⟩ :=
    dwalk_walk_from hrep hwf hasc m w0 ⟨_, _, _, _, _, _, _, _, _, hc⟩ (by omega)
  have hext : (w0 :: res.map Prod.snd).map (fun c => c.extent)
      = (List.range (m + 1)).map (fun i => sizeof_dleaf + 8 * i) := by
    rw [List.range_succ_eq_map, List.map_cons, List.map_cons, List.map_map, List.map_map]
    have h1 : (fun c : dwalk => c.extent) ∘ Prod.snd = fun p : Nat × dwalk => p.2.extent := rfl
    rw [h1, hx, h0]
    refine congrArg _ (List.map_congr_left ?_)
    intro i _
    simp only [Function.comp, Nat.succ_eq_add_one, sizeof_dleaf]
  have htab : (w0 :: res.map Prod.snd).map (fun c => extent_at L c.extent)
      = extent_table gs := by
    have h2 : (w0 :: res.map Prod.snd).map (fun c => extent_at L c.extent)
        = ((w0 :: res.map Prod.snd).map (fun c => c.extent)).map (extent_at L) := by
      rw [List.map_map]; rfl
    rw [h2, hext, List.map_map, ← rep_extent_table hrep, hm]
    rfl
  refine ⟨w0, res, wN, hp, by rw [h0]; rfl, by omega, by rw [hm]; exact hmv,
    by rw [hm]; exact hf, by rw [hm]; exact hext, htab, ?_, endcur_end hend, ?_⟩
  · rw [List.map_cons, List.pairwise_cons, List.map_map]
    refine ⟨?_, hpw⟩
    intro k hk
    obtain ⟨p, hp1, hp2⟩ := List.mem_map.1 hk
    rw [← hp2]
    exact hge p hp1
  · intro c hcend
    simp only [dwalk_next, hcend, if_true]

theorem dwalk_walk_all_witness :
    ∃ L w, dleaf_build 256 zero_block 0
        [(0, make_extent 100 5), (10, make_extent 200 1), (0x1000002, make_extent 300 2)]
        = some (L, w) ∧
      ∃ w0 res wN, dwalk_probe L 256 0 = some (1, w0) ∧ w0.extent = sizeof_dleaf ∧
        1 ≤ ext_count (index_build []
          [(0, make_extent 100 5), (10, make_extent 200 1), (0x1000002, make_extent 300 2)]) ∧
        dwalk_moves L w0 (List.replicate (ext_count (index_build []
          [(0, make_extent 100 5), (10, make_extent 200 1), (0x1000002, make_extent 300 2)]))
            dwalk_move.next) = some (res ++ [(0, wN)]) ∧
        res.map Prod.fst = List.replicate (ext_count (index_build []
          [(0, make_extent 100 5), (10, make_extent 200 1), (0x1000002, make_extent 300 2)])
            - 1) 1 ∧
        (w0 :: res.map Prod.snd).map (fun c => c.extent)
          = (List.range (ext_count (index_build []
            [(0, make_extent 100 5), (10, make_extent 200 1),
              (0x1000002, make_extent 300 2)]))).map (fun i => sizeof_dleaf + 8 * i) ∧
        (w0 :: res.map Prod.snd).map (fun c => extent_at L c.extent)
          = extent_table (index_build []
            [(0, make_extent 100 5), (10, make_extent 200 1), (0x1000002, make_extent 300 2)]) ∧
        ((w0 :: res.map Prod.snd).map (dwalk_index L)).Pairwise (· ≤ ·) ∧
        dwalk_end wN = true ∧
        ∀ c, dwalk_end c = true → dwalk_next L c = some (0, c) := by
  obtain ⟨L, w, hb, hrep, -, hwf, -, hasc, -⟩ := @build_facts 256 zero_block 0
    [(0, make_extent 100 5), (10, make_extent 200 1), (0x1000002, make_extent 300 2)]
    (by decide) (by decide) (by decide) (by decide)
  have hfirst : ∀ x xs rest, leaf_pairs (index_build []
      [(0, make_extent 100 5), (10, make_extent 200 1), (0x1000002, make_extent 300 2)])
      = (0, x :: xs) :: rest → 1 ≤ extent_count x := by
    intro x xs rest h
    have hl : leaf_pairs (index_build []
        [(0, make_extent 100 5), (10, make_extent 200 1), (0x1000002, make_extent 300 2)])
        = [(0, [make_extent 100 5]), (10, [make_extent 200 1]),
          (0x1000002, [make_extent 300 2])] := by decide
    rw [hl] at h
    simp only [List.cons.injEq, Prod.mk.injEq, true_and] at h
    obtain ⟨⟨hx, -⟩, -⟩ := h
    rw [← hx]
    decide
  exact ⟨L, w, hb, dwalk_walk_all hrep hwf hasc (by decide) hfirst⟩

end Dleaf

namespace Dedup

/-! ## `hleaf_seek` -/

theorem hleaf_seek_loop_spec (key : Nat) (leaf : hleaf) :
    ∀ (fuel idx : Nat), leaf.count ≤ idx + fuel → idx ≤ leaf.count →
      (∀ i, i < idx → (leaf.entries i).key < key) →
      ∃ r, hleaf_seek_loop key leaf fuel idx = some r ∧ r ≤ leaf.count ∧
        (∀ i, i < r → (leaf.entries i).key < key) ∧
        (r < leaf.count → key ≤ (leaf.entries r).key) := by
  intro fuel
  induction fuel with
  | zero =>
    intro idx h1 h2 h3
    have : ¬ (idx < leaf.count ∧ (leaf.entries idx).key < key) := by omega
    exact ⟨idx, by simp only [hleaf_seek_loop, this, if_false], h2, h3, by omega⟩
  | succ n ih =>
    intro idx h1 h2 h3
    by_cases hc : idx < leaf.count ∧ (leaf.entries idx).key < key
    · obtain ⟨r, hr, hrest⟩ := ih (idx + 1) (by omega) (by omega) (by
        intro i hi
        rcases Nat.lt_succ_iff_lt_or_eq.1 hi with h | h
        · exact h3 i h
        · rw [h]; exact hc.2)
      exact ⟨r, by simp only [hleaf_seek_loop, hc, and_self, if_true]; exact hr, hrest⟩
    · refine ⟨idx, by simp only [hleaf_seek_loop, hc, if_false], h2, h3, ?_⟩
      intro hlt
      have : ¬ ((leaf.entries idx).key < key) := fun h => hc ⟨hlt, h⟩
      omega

/-! ## The key of `htree_lookup` -/

theorem key_step (sh b : Nat) (hb : b < 256) :
    ((sh <<< 8) % 2 ^ 64) ||| b = (sh * 256) % 2 ^ 64 + b := by
  have h1 : (sh <<< 8) % 2 ^ 64 = 2 ^ 8 * (sh % 2 ^ 56) := by
    rw [Nat.shiftLeft_eq]; omega
  rw [h1, ← Nat.mul_add_lt_is_or (by simpa using hb)]
  omega

/-- The big-endian value of the first eight digest bytes. -/
theorem htree_key_value (sh0 : Nat) (hash : Nat → Nat) (hb : ∀ k, k < 8 → hash k < 256) :
    htree_key sh0 hash =
      hash 0 * 2 ^ 56 + hash 1 * 2 ^ 48 + hash 2 * 2 ^ 40 + hash 3 * 2 ^ 32 +
      hash 4 * 2 ^ 24 + hash 5 * 2 ^ 16 + hash 6 * 2 ^ 8 + hash 7 := by
  have b0 := hb 0 (by omega)
  have b1 := hb 1 (by omega)
  have b2 := hb 2 (by omega)
  have b3 := hb 3 (by omega)
  have b4 := hb 4 (by omega)
  have b5 := hb 5 (by omega)
  have b6 := hb 6 (by omega)
  have b7 := hb 7 (by omega)
  simp only [htree_key, htree_key_loop, Nat.zero_add, Nat.reduceAdd]
  rw [key_step _ _ b0, key_step _ _ b1, key_step _ _ b2, key_step _ _ b3, key_step _ _ b4,
    key_step _ _ b5, key_step _ _ b6, key_step _ _ b7]
  omega

/-! ## Digest comparison -/

theorem digest_cmp_le (hash sha : Nat → Nat) :
    ∀ (fuel k : Nat), k ≤ 20 → digest_cmp hash sha fuel k ≤ 20 := by
  intro fuel
  induction fuel with
  | zero => intro k hk; simpa [digest_cmp] using hk
  | succ n ih =>
    intro k hk
    simp only [digest_cmp]
    split_ifs with h1 h2
    · exact ih (k + 1) (by omega)
    · exact hk
    · exact hk

theorem digest_cmp_spec (hash sha : Nat → Nat) :
    ∀ (fuel k : Nat), 20 ≤ k + fuel → k ≤ 20 →
      (digest_cmp hash sha fuel k = 20 ↔ ∀ j, k ≤ j → j < 20 → hash j = sha j) := by
  intro fuel
  induction fuel with
  | zero =>
    intro k h1 h2
    have : k = 20 := by omega
    subst this
    simp only [digest_cmp, true_iff]
    intro j h3 h4; omega
  | succ n ih =>
    intro k h1 h2
    simp only [digest_cmp]
    by_cases hk : k < 20
    · rw [if_pos hk]
      by_cases he : hash k = sha k
      · rw [if_pos he, ih (k + 1) (by omega) (by omega)]
        constructor
        · intro h j h3 h4
          rcases Nat.eq_or_lt_of_le h3 with h5 | h5
          · rw [← h5]; exact he
          · exact h j h5 h4
        · intro h j h3 h4
          exact h j (by omega) h4
      · rw [if_neg he]
        constructor
        · intro h; omega
        · intro h; exact absurd (h k (Nat.le_refl _) hk) he
    · rw [if_neg hk]
      have : k = 20 := by omega
      subst this
      simp only [true_iff]
      intro j h3 h4; omega

/-- The comparison loop ends with `k == 20` exactly when all 20 bytes agree. -/
theorem digest_eq_iff (hash sha : Nat → Nat) :
    digest_eq hash sha = true ↔ ∀ j, j < 20 → hash j = sha j := by
  unfold digest_eq
  rw [beq_iff_eq, digest_cmp_spec hash sha 20 0 (by omega) (by omega)]
  constructor
  · intro h j hj; exact h j (Nat.zero_le _) hj
  · intro h j _ hj; exact h j hj

/-! ## The bucket scan -/

theorem bucket_scan_miss (hash : Nat → Nat) (bck : bucket) :
    ∀ (fuel i : Nat), bck.count ≤ i + fuel →
      (∀ j, i ≤ j → j < bck.count → digest_eq hash (bck.entries j).sha_hash = false) →
      bucket_scan hash bck fuel i = some none := by
  intro fuel
  induction fuel with
  | zero =>
    intro i h1 _
    have : ¬ (i < bck.count) := by omega
    simp only [bucket_scan, this, if_false]
  | succ n ih =>
    intro i h1 h2
    simp only [bucket_scan]
    by_cases hi : i < bck.count
    · rw [if_pos hi, h2 i (Nat.le_refl _) hi]
      simp only [Bool.false_eq_true, if_false]
      exact ih (i + 1) (by omega) (fun j hj hj2 => h2 j (by omega) hj2)
    · rw [if_neg hi]

theorem bucket_scan_hit (hash : Nat → Nat) (bck : bucket) (m : Nat) (hm : m < bck.count)
    (hhit : digest_eq hash (bck.entries m).sha_hash = true) :
    ∀ (fuel i : Nat), bck.count ≤ i + fuel → i ≤ m →
      (∀ j, i ≤ j → j < m → digest_eq hash (bck.entries j).sha_hash = false) →
      bucket_scan hash bck fuel i = some (some m) := by
  intro fuel
  induction fuel with
  | zero => intro i h1 h2 _; omega
  | succ n ih =>
    intro i h1 h2 h3
    simp only [bucket_scan]
    rw [if_pos (by omega)]
    rcases Nat.eq_or_lt_of_le h2 with h | h
    · subst h; rw [hhit]; simp only [if_true]
    · rw [h3 i (Nat.le_refl _) h]
      simp only [Bool.false_eq_true, if_false]
      exact ih (i + 1) (by omega) (by omega) (fun j hj hj2 => h3 j (by omega) hj2)

/-- The scan never runs out of fuel, and what it returns is the first match. -/
theorem bucket_scan_total (hash : Nat → Nat) (bck : bucket) :
    (bucket_scan hash bck bck.count 0 = some none ∧
      ∀ j, j < bck.count → digest_eq hash (bck.entries j).sha_hash = false) ∨
    (∃ m, bucket_scan hash bck bck.count 0 = some (some m) ∧ m < bck.count ∧
      digest_eq hash (bck.entries m).sha_hash = true ∧
      ∀ j, j < m → digest_eq hash (bck.entries j).sha_hash = false) := by
  by_cases h : ∃ m, m < bck.count ∧ digest_eq hash (bck.entries m).sha_hash = true
  · right
    classical
    let m := Nat.find h
    have hm : m < bck.count ∧ digest_eq hash (bck.entries m).sha_hash = true := Nat.find_spec h
    have hmin : ∀ j, j < m → digest_eq hash (bck.entries j).sha_hash = false := by
      intro j hj
      have := Nat.find_min h hj
      simp only [not_and, Bool.not_eq_true] at this
      exact this (by omega)
    exact ⟨m, bucket_scan_hit hash bck m hm.1 hm.2 bck.count 0 (by omega) (Nat.zero_le _)
      (fun j _ hj => hmin j hj), hm.1, hm.2, hmin⟩
  · left
    have hall : ∀ j, j < bck.count → digest_eq hash (bck.entries j).sha_hash = false := by
      intro j hj
      by_contra hne
      exact h ⟨j, hj, by simpa using hne⟩
    exact ⟨bucket_scan_miss hash bck bck.count 0 (by omega) (fun j _ hj => hall j hj), hall⟩

/-! ## `hleaf_seek`, the lookup key and `bucket_lookup` -/

/-- C17: `hleaf_seek` returns the index of the first entry with key `>= k`, or
`count` when every key is below `k`: the result is at most `count`, every entry
before it has a key below `k`, and the entry at it (if any) has a key `>= k`.
This holds for every hleaf, its keys in ascending order or not. -/
theorem hleaf_seek_first (k : Nat) (leaf : hleaf) :
    ∃ idx, hleaf_seek k leaf = some idx ∧ idx ≤ leaf.count ∧
      (∀ i, i < idx → (leaf.entries i).key < k) ∧
      (idx < leaf.count → k ≤ (leaf.entries idx).key) :=
  hleaf_seek_loop_spec k leaf leaf.count 0 (by omega) (Nat.zero_le _)
    (fun i hi => absurd hi (Nat.not_lt_zero i))

/-- C16: the key `htree_lookup` derives from a digest is the big-endian value of
digest bytes 0..7, whatever the uninitialised accumulator `sh` held: the same
key results for every initial value, and two digests get the same key exactly
when their first 8 bytes agree. -/
theorem htree_key_be (sh0 sh1 : Nat) (h1 h2 : Nat → Nat)
    (hb1 : ∀ k, k < 8 → h1 k < 256) (hb2 : ∀ k, k < 8 → h2 k < 256) :
    htree_key sh0 h1 =
      h1 0 * 2 ^ 56 + h1 1 * 2 ^ 48 + h1 2 * 2 ^ 40 + h1 3 * 2 ^ 32 +
      h1 4 * 2 ^ 24 + h1 5 * 2 ^ 16 + h1 6 * 2 ^ 8 + h1 7 ∧
    htree_key sh1 h1 = htree_key sh0 h1 ∧
    (htree_key sh0 h1 = htree_key sh1 h2 ↔ ∀ k, k < 8 → h1 k = h2 k) := by
  refine ⟨htree_key_value sh0 h1 hb1, ?_, ?_⟩
  · rw [htree_key_value sh1 h1 hb1, htree_key_value sh0 h1 hb1]
  · rw [htree_key_value sh0 h1 hb1, htree_key_value sh1 h2 hb2]
    have a0 := hb1 0 (by omega)
    have a1 := hb1 1 (by omega)
    have a2 := hb1 2 (by omega)
    have a3 := hb1 3 (by omega)
    have a4 := hb1 4 (by omega)
    have a5 := hb1 5 (by omega)
    have a6 := hb1 6 (by omega)
    have a7 := hb1 7 (by omega)
    have c0 := hb2 0 (by omega)
    have c1 := hb2 1 (by omega)
    have c2 := hb2 2 (by omega)
    have c3 := hb2 3 (by omega)
    have c4 := hb2 4 (by omega)
    have c5 := hb2 5 (by omega)
    have c6 := hb2 6 (by omega)
    have c7 := hb2 7 (by omega)
    constructor
    · intro h k hk
      have e0 : h1 0 = h2 0 := by omega
      have e1 : h1 1 = h2 1 := by omega
      have e2 : h1 2 = h2 2 := by omega
      have e3 : h1 3 = h2 3 := by omega
      have e4 : h1 4 = h2 4 := by omega
      have e5 : h1 5 = h2 5 := by omega
      have e6 : h1 6 = h2 6 := by omega
      have e7 : h1 7 = h2 7 := by omega
      interval_cases k <;> assumption
    · intro h
      rw [h 0 (by omega), h 1 (by omega), h 2 (by omega), h 3 (by omega), h 4 (by omega),
        h 5 (by omega), h 6 (by omega), h 7 (by omega)]

theorem htree_key_be_witness :
    htree_key 0 (ex_digest 1) =
      ex_digest 1 0 * 2 ^ 56 + ex_digest 1 1 * 2 ^ 48 + ex_digest 1 2 * 2 ^ 40 +
      ex_digest 1 3 * 2 ^ 32 + ex_digest 1 4 * 2 ^ 24 + ex_digest 1 5 * 2 ^ 16 +
      ex_digest 1 6 * 2 ^ 8 + ex_digest 1 7 ∧
    htree_key 0xdeadbeef (ex_digest 1) = htree_key 0 (ex_digest 1) ∧
    (htree_key 0 (ex_digest 1) = htree_key 0xdeadbeef (ex_digest 2) ↔
      ∀ k, k < 8 → ex_digest 1 k = ex_digest 2 k) :=
  htree_key_be 0 0xdeadbeef (ex_digest 1) (ex_digest 2) (by decide) (by decide)

/-- C15: `bucket_lookup` returns -1 and leaves the state as it was when the inode
has no reference bucket or no entry among the first `count` matches all 20
digest bytes; otherwise it returns the block of the first matching entry and
raises the refcount of that entry, and of no other, by one (the refcount being
below `INT_MAX`, so that the C increment is defined). -/
theorem bucket_lookup_spec (s : dedup) (hash : Nat → Nat) :
    (s.refbucket = 0 → bucket_lookup s hash = some (-1, s)) ∧
    (s.refbucket ≠ 0 →
      (∀ i, i < (s.buckets s.refbucket).count →
        ¬ ∀ k, k < 20 → hash k = ((s.buckets s.refbucket).entries i).sha_hash k) →
      bucket_lookup s hash = some (-1, s)) ∧
    (s.refbucket ≠ 0 → ∀ m, m < (s.buckets s.refbucket).count →
      (∀ k, k < 20 → hash k = ((s.buckets s.refbucket).entries m).sha_hash k) →
      (∀ i, i < m →
        ¬ ∀ k, k < 20 → hash k = ((s.buckets s.refbucket).entries i).sha_hash k) →
      ((s.buckets s.refbucket).entries m).refcount < 2 ^ 31 - 1 →
      ∃ s', bucket_lookup s hash = some (((s.buckets s.refbucket).entries m).block, s') ∧
        ((s'.buckets s.refbucket).entries m).refcount =
          ((s.buckets s.refbucket).entries m).refcount + 1 ∧
        ((s'.buckets s.refbucket).entries m).block =
          ((s.buckets s.refbucket).entries m).block ∧
        ((s'.buckets s.refbucket).entries m).sha_hash =
          ((s.buckets s.refbucket).entries m).sha_hash ∧
        (∀ blk i, (blk ≠ s.refbucket ∨ i ≠ m) →
          (s'.buckets blk).entries i = (s.buckets blk).entries i) ∧
        (∀ blk, (s'.buckets blk).count = (s.buckets blk).count) ∧
        s'.refbucket = s.refbucket ∧ s'.writebucket = s.writebucket) := by
  refine ⟨?_, ?_, ?_⟩
  · intro h0
    simp only [bucket_lookup, h0, if_true]
  · intro h0 hmiss
    have hall : ∀ j, j < (s.buckets s.refbucket).count →
        digest_eq hash ((s.buckets s.refbucket).entries j).sha_hash = false := by
      intro j hj
      have := hmiss j hj
      rw [← digest_eq_iff] at this
      simpa using this
    have hscan := bucket_scan_miss hash (s.buckets s.refbucket) (s.buckets s.refbucket).count 0
      (by omega) (fun j _ hj => hall j hj)
    simp only [bucket_lookup, h0, if_false, hscan]
  · intro h0 m hm hhit hfirst hrc
    have hhit' : digest_eq hash ((s.buckets s.refbucket).entries m).sha_hash = true :=
      (digest_eq_iff _ _).2 hhit
    have hfirst' : ∀ j, j < m →
        digest_eq hash ((s.buckets s.refbucket).entries j).sha_hash = false := by
      intro j hj
      have := hfirst j hj
      rw [← digest_eq_iff] at this
      simpa using this
    have hscan := bucket_scan_hit hash (s.buckets s.refbucket) m hm hhit'
      (s.buckets s.refbucket).count 0 (by omega) (Nat.zero_le _) (fun j _ hj => hfirst' j hj)
    refine ⟨update_entry s s.refbucket m (fun e => entry_set_refcount e
        (((s.buckets s.refbucket).entries m).refcount + 1)), ?_, ?_, ?_, ?_, ?_, ?_, rfl, rfl⟩
    · simp only [bucket_lookup, h0, if_false, hscan, int_inc, hrc, if_true]
    · simp [update_entry, put_bucket, bucket_set_entry, entry_set_refcount]
    · simp [update_entry, put_bucket, bucket_set_entry, entry_set_refcount]
    · simp [update_entry, put_bucket, bucket_set_entry, entry_set_refcount]
    · intro blk i hne
      simp only [update_entry, put_bucket, bucket_set_entry]
      by_cases hb : blk = s.refbucket
      · have : i ≠ m := by
          rcases hne with h | h
          · exact absurd hb h
          · exact h
        rw [if_pos hb, hb]
        simp only [this, if_false]
      · rw [if_neg hb]
    · intro blk
      simp only [update_entry, put_bucket, bucket_set_entry]
      by_cases hb : blk = s.refbucket
      · rw [if_pos hb, hb]
      · rw [if_neg hb]

theorem bucket_lookup_spec_witness :
    ∃ s', bucket_lookup ex_state (ex_digest 2) = some (600, s') ∧
      ((s'.buckets 7).entries 1).refcount = 4 :=
  have h := (bucket_lookup_spec ex_state (ex_digest 2)).2.2 (by decide) 1 (by decide)
    (by decide) (by decide) (by decide)
  h.elim (fun s' hs => ⟨s', hs.1, hs.2.1⟩)

/-! ## Reads after the stores of the dedup path -/

theorem put_bucket_buckets (s : dedup) (blk x : Int) (b : bucket) :
    (put_bucket s blk b).buckets x = if x = blk then b else s.buckets x := rfl
@[simp] theorem put_bucket_leaf (s : dedup) (blk : Int) (b : bucket) :
    (put_bucket s blk b).leaf = s.leaf := rfl
@[simp] theorem put_bucket_writebucket (s : dedup) (blk : Int) (b : bucket) :
    (put_bucket s blk b).writebucket = s.writebucket := rfl
@[simp] theorem put_bucket_refbucket (s : dedup) (blk : Int) (b : bucket) :
    (put_bucket s blk b).refbucket = s.refbucket := rfl
@[simp] theorem put_bucket_pool (s : dedup) (blk : Int) (b : bucket) :
    (put_bucket s blk b).pool = s.pool := rfl
@[simp] theorem put_bucket_epb (s : dedup) (blk : Int) (b : bucket) :
    (put_bucket s blk b).entries_per_bucket = s.entries_per_bucket := rfl

theorem update_entry_entries (s : dedup) (blk x : Int) (i j : Nat)
    (f : bucket_entry → bucket_entry) :
    ((update_entry s blk i f).buckets x).entries j =
      if x = blk ∧ j = i then f ((s.buckets blk).entries i) else (s.buckets x).entries j := by
  unfold update_entry
  rw [put_bucket_buckets]
  by_cases hx : x = blk
  · subst hx
    by_cases hj : j = i
    · subst hj; simp [bucket_set_entry]
    · simp [bucket_set_entry, hj]
  · simp [hx]

@[simp] theorem update_entry_count (s : dedup) (blk x : Int) (i : Nat)
    (f : bucket_entry → bucket_entry) :
    ((update_entry s blk i f).buckets x).count = (s.buckets x).count := by
  unfold update_entry
  rw [put_bucket_buckets]
  by_cases hx : x = blk
  · subst hx; simp [bucket_set_entry]
  · simp [hx]

@[simp] theorem update_entry_leaf (s : dedup) (blk : Int) (i : Nat)
    (f : bucket_entry → bucket_entry) : (update_entry s blk i f).leaf = s.leaf := rfl
@[simp] theorem update_entry_writebucket (s : dedup) (blk : Int) (i : Nat)
    (f : bucket_entry → bucket_entry) :
    (update_entry s blk i f).writebucket = s.writebucket := rfl
@[simp] theorem update_entry_refbucket (s : dedup) (blk : Int) (i : Nat)
    (f : bucket_entry → bucket_entry) :
    (update_entry s blk i f).refbucket = s.refbucket := rfl
@[simp] theorem update_entry_pool (s : dedup) (blk : Int) (i : Nat)
    (f : bucket_entry → bucket_entry) : (update_entry s blk i f).pool = s.pool := rfl
@[simp] theorem update_entry_epb (s : dedup) (blk : Int) (i : Nat)
    (f : bucket_entry → bucket_entry) :
    (update_entry s blk i f).entries_per_bucket = s.entries_per_bucket := rfl

theorem set_bucket_count_count (s : dedup) (blk x : Int) (c : Nat) :
    ((set_bucket_count s blk c).buckets x).count =
      if x = blk then c % 2 ^ 16 else (s.buckets x).count := by
  unfold set_bucket_count
  rw [put_bucket_buckets]
  by_cases hx : x = blk
  · subst hx; simp [bucket_set_count]
  · simp [hx]

@[simp] theorem set_bucket_count_entries (s : dedup) (blk x : Int) (c : Nat) (j : Nat) :
    ((set_bucket_count s blk c).buckets x).entries j = (s.buckets x).entries j := by
  unfold set_bucket_count
  rw [put_bucket_buckets]
  by_cases hx : x = blk
  · subst hx; simp [bucket_set_count]
  · simp [hx]

@[simp] theorem set_bucket_count_leaf (s : dedup) (blk : Int) (c : Nat) :
    (set_bucket_count s blk c).leaf = s.leaf := rfl
@[simp] theorem set_bucket_count_writebucket (s : dedup) (blk : Int) (c : Nat) :
    (set_bucket_count s blk c).writebucket = s.writebucket := rfl
@[simp] theorem set_bucket_count_refbucket (s : dedup) (blk : Int) (c : Nat) :
    (set_bucket_count s blk c).refbucket = s.refbucket := rfl
@[simp] theorem set_bucket_count_pool (s : dedup) (blk : Int) (c : Nat) :
    (set_bucket_count s blk c).pool = s.pool := rfl
@[simp] theorem set_bucket_count_epb (s : dedup) (blk : Int) (c : Nat) :
    (set_bucket_count s blk c).entries_per_bucket = s.entries_per_bucket := rfl

@[simp] theorem set_leaf_entry_buckets (s : dedup) (i : Nat) (e : hleaf_entry) :
    (set_leaf_entry s i e).buckets = s.buckets := rfl
@[simp] theorem set_leaf_entry_writebucket (s : dedup) (i : Nat) (e : hleaf_entry) :
    (set_leaf_entry s i e).writebucket = s.writebucket := rfl
@[simp] theorem set_leaf_entry_refbucket (s : dedup) (i : Nat) (e : hleaf_entry) :
    (set_leaf_entry s i e).refbucket = s.refbucket := rfl
@[simp] theorem set_leaf_entry_count (s : dedup) (i : Nat) (e : hleaf_entry) :
    (set_leaf_entry s i e).leaf.count = s.leaf.count := rfl
theorem set_leaf_entry_entries (s : dedup) (i j : Nat) (e : hleaf_entry) :
    (set_leaf_entry s i e).leaf.entries j = if j = i then e else s.leaf.entries j := rfl

@[simp] theorem entry_set_sha_block (e : bucket_entry) (h : Nat → Nat) :
    (entry_set_sha e h).block = e.block := rfl
@[simp] theorem entry_set_sha_refcount (e : bucket_entry) (h : Nat → Nat) :
    (entry_set_sha e h).refcount = e.refcount := rfl
theorem entry_set_sha_sha (e : bucket_entry) (h : Nat → Nat) (k : Nat) (hk : k < 20) :
    (entry_set_sha e h).sha_hash k = h k := by
  simp [entry_set_sha, SHA_DIGEST_LENGTH, hk]
@[simp] theorem entry_set_block_block (e : bucket_entry) (v : Int) :
    (entry_set_block e v).block = v := rfl
@[simp] theorem entry_set_block_refcount (e : bucket_entry) (v : Int) :
    (entry_set_block e v).refcount = e.refcount := rfl
@[simp] theorem entry_set_block_sha (e : bucket_entry) (v : Int) :
    (entry_set_block e v).sha_hash = e.sha_hash := rfl
@[simp] theorem entry_set_refcount_block (e : bucket_entry) (v : Int) :
    (entry_set_refcount e v).block = e.block := rfl
@[simp] theorem entry_set_refcount_refcount (e : bucket_entry) (v : Int) :
    (entry_set_refcount e v).refcount = v := rfl
@[simp] theorem entry_set_refcount_sha (e : bucket_entry) (v : Int) :
    (entry_set_refcount e v).sha_hash = e.sha_hash := rfl

/-! ## The first collision -/

theorem rotate_keep {s : dedup} (h : (s.buckets s.writebucket).count < s.entries_per_bucket) :
    rotate_writebucket s = some ((s.buckets s.writebucket).count, s) := by
  have : ¬ ((s.buckets s.writebucket).count ≥ s.entries_per_bucket) := by omega
  simp only [rotate_writebucket, this, if_false]

theorem rotate_fresh {s : dedup} {wb : Int} {rest : List Int}
    (h : (s.buckets s.writebucket).count ≥ s.entries_per_bucket) (hp : s.pool = wb :: rest) :
    rotate_writebucket s =
      some (0, set_bucket_count (put_bucket { s with pool := rest, writebucket := wb } wb
        zero_bucket) wb 0) := by
  simp only [rotate_writebucket, h, if_true, init_writebucket, hp]

/-- What the rotation test leaves: the write bucket named afterwards has `count`
entries, `count` is below `entries_per_bucket` unless that is 0, and no other
bucket than a fresh write bucket changes. -/
theorem rotate_spec (s : dedup)
    (hp : (s.buckets s.writebucket).count ≥ s.entries_per_bucket → s.pool ≠ []) :
    ∃ count s', rotate_writebucket s = some (count, s') ∧
      (s'.buckets s'.writebucket).count = count ∧
      (0 < s.entries_per_bucket → count < s.entries_per_bucket) ∧
      s'.leaf = s.leaf ∧ s'.refbucket = s.refbucket ∧
      s'.entries_per_bucket = s.entries_per_bucket ∧
      (∀ x, x ≠ s'.writebucket → s'.buckets x = s.buckets x) ∧
      (((s.buckets s.writebucket).count < s.entries_per_bucket ∧ s' = s) ∨
       ((s.buckets s.writebucket).count ≥ s.entries_per_bucket ∧
          s.pool = s'.writebucket :: s'.pool)) := by
  by_cases h : (s.buckets s.writebucket).count < s.entries_per_bucket
  · exact ⟨_, s, rotate_keep h, rfl, fun _ => h, rfl, rfl, rfl, fun _ _ => rfl, Or.inl ⟨h, rfl⟩⟩
  · have hge : (s.buckets s.writebucket).count ≥ s.entries_per_bucket := by omega
    cases hpool : s.pool with
    | nil => exact absurd hpool (hp hge)
    | cons wb rest =>
      refine ⟨0, _, rotate_fresh hge hpool, ?_, fun h0 => h0, rfl, rfl, rfl, ?_, Or.inr ⟨hge, ?_⟩⟩
      · rw [set_bucket_count_count]
        simp
      · intro x hx
        have hx' : x ≠ wb := hx
        funext
        simp only [set_bucket_count, put_bucket, hx', if_false]
      · rfl

@[simp] theorem set_pool_buckets (s : dedup) (p : List Int) :
    (set_pool s p).buckets = s.buckets := rfl
@[simp] theorem set_pool_leaf (s : dedup) (p : List Int) : (set_pool s p).leaf = s.leaf := rfl
@[simp] theorem set_pool_writebucket (s : dedup) (p : List Int) :
    (set_pool s p).writebucket = s.writebucket := rfl
@[simp] theorem set_pool_refbucket (s : dedup) (p : List Int) :
    (set_pool s p).refbucket = s.refbucket := rfl
@[simp] theorem set_pool_epb (s : dedup) (p : List Int) :
    (set_pool s p).entries_per_bucket = s.entries_per_bucket := rfl
@[simp] theorem set_pool_pool (s : dedup) (p : List Int) : (set_pool s p).pool = p := rfl

/-- The collision bucket as it is filled before the write bucket is looked at. -/
theorem collision_bucket_fill_spec (s : dedup) (col eblk : Int) (eidx tidx : Nat)
    (hash : Nat → Nat) (he : col ≠ eblk) :
    (collision_bucket_fill s col eblk eidx tidx hash).leaf = s.leaf ∧
    (collision_bucket_fill s col eblk eidx tidx hash).writebucket = s.writebucket ∧
    (collision_bucket_fill s col eblk eidx tidx hash).pool = s.pool ∧
    (collision_bucket_fill s col eblk eidx tidx hash).refbucket = s.refbucket ∧
    (collision_bucket_fill s col eblk eidx tidx hash).entries_per_bucket =
      s.entries_per_bucket ∧
    ((collision_bucket_fill s col eblk eidx tidx hash).buckets col).count = 2 ∧
    (∀ k, k < 20 →
      (((collision_bucket_fill s col eblk eidx tidx hash).buckets col).entries 0).sha_hash k =
        ((s.buckets eblk).entries eidx).sha_hash k) ∧
    (((collision_bucket_fill s col eblk eidx tidx hash).buckets col).entries 0).block =
      (s.leaf.entries tidx).block ∧
    (((collision_bucket_fill s col eblk eidx tidx hash).buckets col).entries 0).refcount =
      (s.leaf.entries tidx).offset ∧
    (∀ k, k < 20 →
      (((collision_bucket_fill s col eblk eidx tidx hash).buckets col).entries 1).sha_hash k =
        hash k) ∧
    (∀ x, x ≠ col →
      (collision_bucket_fill s col eblk eidx tidx hash).buckets x = s.buckets x) := by
  have hne : ¬ (eblk = col) := fun h => he h.symm
  refine ⟨?_, ?_, ?_, ?_, ?_, ?_, ?_, ?_, ?_, ?_, ?_⟩
  · simp only [collision_bucket_fill, update_entry_leaf, set_bucket_count_leaf, put_bucket_leaf]
  · simp only [collision_bucket_fill, update_entry_writebucket, set_bucket_count_writebucket,
      put_bucket_writebucket]
  · simp only [collision_bucket_fill, update_entry_pool, set_bucket_count_pool, put_bucket_pool]
  · simp only [collision_bucket_fill, update_entry_refbucket, set_bucket_count_refbucket,
      put_bucket_refbucket]
  · simp only [collision_bucket_fill, update_entry_epb, set_bucket_count_epb, put_bucket_epb]
  · simp only [collision_bucket_fill, update_entry_count, set_bucket_count_count, if_true]
    rfl
  · intro k hk
    simp only [collision_bucket_fill, update_entry_entries, true_and, if_true,
      show ¬ ((0 : Nat) = 1) by omega, if_false, entry_set_refcount_sha, entry_set_block_sha]
    rw [entry_set_sha_sha _ _ _ hk]
    simp only [set_bucket_count_entries, put_bucket_buckets, if_neg hne]
  · simp only [collision_bucket_fill, update_entry_entries, true_and, if_true,
      show ¬ ((0 : Nat) = 1) by omega, if_false, entry_set_refcount_block,
      entry_set_block_block, update_entry_leaf, set_bucket_count_leaf, put_bucket_leaf]
  · simp only [collision_bucket_fill, update_entry_entries, true_and, if_true,
      show ¬ ((0 : Nat) = 1) by omega, if_false, entry_set_refcount_refcount,
      update_entry_leaf, set_bucket_count_leaf, put_bucket_leaf]
  · intro k hk
    simp only [collision_bucket_fill, update_entry_entries, true_and, if_true]
    rw [entry_set_sha_sha _ _ _ hk]
  · intro x hx
    simp only [collision_bucket_fill, update_entry, set_bucket_count, put_bucket, hx, if_false]

/-- The links the branch makes once the write bucket is settled. -/
theorem collision_bucket_link_spec (s : dedup) (col : Int) (tidx count : Nat) :
    (collision_bucket_link s col tidx count).leaf.entries tidx =
      ⟨(s.leaf.entries tidx).key, col, -1⟩ ∧
    (∀ j, j ≠ tidx →
      (collision_bucket_link s col tidx count).leaf.entries j = s.leaf.entries j) ∧
    (collision_bucket_link s col tidx count).leaf.count = s.leaf.count ∧
    (collision_bucket_link s col tidx count).writebucket = s.writebucket ∧
    (∀ x, ((collision_bucket_link s col tidx count).buckets x).count = (s.buckets x).count) ∧
    ((collision_bucket_link s col tidx count).buckets col).entries 0 =
      (s.buckets col).entries 0 ∧
    (((collision_bucket_link s col tidx count).buckets col).entries 1).sha_hash =
      ((s.buckets col).entries 1).sha_hash ∧
    (((collision_bucket_link s col tidx count).buckets col).entries 1).block = s.writebucket ∧
    (((collision_bucket_link s col tidx count).buckets col).entries 1).refcount = count ∧
    (∀ x, x ≠ col → (collision_bucket_link s col tidx count).buckets x = s.buckets x) := by
  refine ⟨?_, ?_, ?_, ?_, ?_, ?_, ?_, ?_, ?_, ?_⟩
  · simp only [collision_bucket_link, set_leaf_entry_entries, if_true, update_entry_leaf]
  · intro j hj
    simp only [collision_bucket_link, set_leaf_entry_entries, hj, if_false, update_entry_leaf]
  · simp only [collision_bucket_link, set_leaf_entry_count, update_entry_leaf]
  · simp only [collision_bucket_link, set_leaf_entry_writebucket, update_entry_writebucket]
  · intro x
    simp only [collision_bucket_link, set_leaf_entry_buckets, update_entry_count]
  · simp only [collision_bucket_link, set_leaf_entry_buckets, update_entry_entries,
      show ¬ ((0 : Nat) = 1) by omega, and_false, if_false]
  · simp only [collision_bucket_link, set_leaf_entry_buckets, update_entry_entries, true_and,
      if_true, entry_set_refcount_sha, entry_set_block_sha]
  · simp only [collision_bucket_link, set_leaf_entry_buckets, update_entry_entries, true_and,
      if_true, entry_set_refcount_block, entry_set_block_block, update_entry_writebucket]
  · simp only [collision_bucket_link, set_leaf_entry_buckets, update_entry_entries, true_and,
      if_true, entry_set_refcount_refcount]
  · intro x hx
    simp only [collision_bucket_link, set_leaf_entry_buckets, update_entry, put_bucket, hx,
      if_false]

/-- The `first == 1` branch of `handle_collision`, with a fresh block for the
collision bucket and, where the write bucket is full, a fresh block for the new
write bucket. -/
theorem handle_collision_first_spec (s : dedup) (eblk : Int) (eidx tidx : Nat)
    (hash : Nat → Nat) (col : Int) (rest : List Int) (hpool : s.pool = col :: rest)
    (hwb : col ≠ s.writebucket) (he : col ≠ eblk)
    (hrot : (s.buckets s.writebucket).count ≥ s.entries_per_bucket →
      ∃ wb rest', rest = wb :: rest' ∧ wb ≠ col ∧ wb ≠ eblk) :
    ∃ s', handle_collision_first s eblk eidx tidx hash = some (0, s') ∧
      s'.leaf.entries tidx = ⟨(s.leaf.entries tidx).key, col, -1⟩ ∧
      (∀ j, j ≠ tidx → s'.leaf.entries j = s.leaf.entries j) ∧
      s'.leaf.count = s.leaf.count ∧
      (s'.buckets col).count = 2 ∧
      (∀ k, k < 20 → ((s'.buckets col).entries 0).sha_hash k =
        ((s.buckets eblk).entries eidx).sha_hash k) ∧
      ((s'.buckets col).entries 0).block = (s.leaf.entries tidx).block ∧
      ((s'.buckets col).entries 0).refcount = (s.leaf.entries tidx).offset ∧
      (∀ k, k < 20 → ((s'.buckets col).entries 1).sha_hash k = hash k) ∧
      ((s'.buckets col).entries 1).block = s'.writebucket ∧
      ((s'.buckets col).entries 1).refcount = ((s'.buckets s'.writebucket).count : Int) ∧
      (0 < s.entries_per_bucket →
        (s'.buckets s'.writebucket).count < s.entries_per_bucket) ∧
      s'.buckets eblk = s.buckets eblk := by
  obtain ⟨a1, a2, a3, a4, a5, a6, a7, a8, a9, a10, a11⟩ :=
    collision_bucket_fill_spec (set_pool s rest) col eblk eidx tidx hash he
  simp only [set_pool_leaf, set_pool_writebucket, set_pool_pool, set_pool_refbucket,
    set_pool_epb, set_pool_buckets] at a1 a2 a3 a4 a5 a7 a8 a9 a11
  have hwcount : ((collision_bucket_fill (set_pool s rest) col eblk eidx tidx hash).buckets
      (collision_bucket_fill (set_pool s rest) col eblk eidx tidx hash).writebucket).count =
      (s.buckets s.writebucket).count := by
    rw [a2, a11 _ (Ne.symm hwb)]
  obtain ⟨count, B, r1, r2, r3, r4, r5, r6, r7, r8⟩ :=
    rotate_spec (collision_bucket_fill (set_pool s rest) col eblk eidx tidx hash) (by
      intro hge
      rw [hwcount, a5] at hge
      obtain ⟨wb, rest', hr, -, -⟩ := hrot hge
      rw [a3, hr]; simp)
  rw [a5] at r3
  have hBw : B.writebucket ≠ col ∧ (B.buckets eblk = s.buckets eblk) := by
    rcases r8 with ⟨-, hB⟩ | ⟨hge, hp⟩
    · subst hB
      rw [a2]
      exact ⟨Ne.symm hwb, a11 _ (Ne.symm he)⟩
    · rw [hwcount, a5] at hge
      obtain ⟨wb, rest', hr, h1, h2⟩ := hrot hge
      rw [a3, hr] at hp
      have hw : wb = B.writebucket := (List.cons.inj hp).1
      rw [← hw]
      refine ⟨h1, ?_⟩
      rw [r7 eblk (by rw [← hw]; exact Ne.symm h2)]
      exact a11 _ (Ne.symm he)
  obtain ⟨l1, l2, l3, l4, l5, l6, l7, l8, l9, l10⟩ := collision_bucket_link_spec B col tidx count
  have hBcol : B.buckets col = (collision_bucket_fill (set_pool s rest) col eblk eidx tidx
      hash).buckets col := r7 col (Ne.symm hBw.1)
  refine ⟨collision_bucket_link B col tidx count, ?_, ?_, ?_, ?_, ?_, ?_, ?_, ?_, ?_, ?_, ?_, ?_,
    ?_⟩
  · simp only [handle_collision_first, hpool, r1]
  · rw [l1, r4, a1]
  · intro j hj; rw [l2 j hj, r4, a1]
  · rw [l3, r4, a1]
  · rw [l5, hBcol, a6]
  · intro k hk; rw [l6, hBcol, a7 k hk]
  · rw [l6, hBcol, a8]
  · rw [l6, hBcol, a9]
  · intro k hk; rw [l7, hBcol, a10 k hk]
  · rw [l8, l4]
  · rw [l9, l4, l10 _ hBw.1, r2]
  · intro h0; rw [l4, l10 _ hBw.1, r2]; exact r3 h0
  · rw [l10 _ (Ne.symm he), hBw.2]

/-! ## The collision paths -/

/-- C12: first prefix collision.  When `htree_lookup` finds an hleaf entry with
the key of the digest and an offset other than -1 (a slot number), and the
bucket entry it names holds a different digest, it returns -1 and leaves the
hleaf entry as `{block = collision bucket, offset = -1}`; the collision bucket,
a block fresh from `balloc`, holds exactly two entries: the existing digest with
the old (bucket block, offset), and the new digest with (current write bucket,
slot where the new entry will be written); the leaf bucket is not modified. -/
theorem htree_first_collision (s : dedup) (sh0 : Nat) (hash : Nat → Nat) (idx : Nat)
    (col : Int) (rest : List Int)
    (hseek : hleaf_seek (htree_key sh0 hash) s.leaf = some idx)
    (hkey : (s.leaf.entries idx).key = htree_key sh0 hash)
    (hoff : (s.leaf.entries idx).offset ≠ -1) (hoff0 : 0 ≤ (s.leaf.entries idx).offset)
    (hdiff : ¬ ∀ k, k < 20 → hash k =
      ((s.buckets (s.leaf.entries idx).block).entries
        (s.leaf.entries idx).offset.toNat).sha_hash k)
    (hpool : s.pool = col :: rest) (hwb : col ≠ s.writebucket)
    (he : col ≠ (s.leaf.entries idx).block)
    (hrot : (s.buckets s.writebucket).count ≥ s.entries_per_bucket →
      ∃ wb rest', rest = wb :: rest' ∧ wb ≠ col ∧ wb ≠ (s.leaf.entries idx).block) :
    ∃ s', htree_lookup s sh0 hash = some (-1, s') ∧
      s'.leaf.entries idx = ⟨htree_key sh0 hash, col, -1⟩ ∧
      (∀ j, j ≠ idx → s'.leaf.entries j = s.leaf.entries j) ∧
      s'.leaf.count = s.leaf.count ∧
      (s'.buckets col).count = 2 ∧
      (∀ k, k < 20 → ((s'.buckets col).entries 0).sha_hash k =
        ((s.buckets (s.leaf.entries idx).block).entries
          (s.leaf.entries idx).offset.toNat).sha_hash k) ∧
      ((s'.buckets col).entries 0).block = (s.leaf.entries idx).block ∧
      ((s'.buckets col).entries 0).refcount = (s.leaf.entries idx).offset ∧
      (∀ k, k < 20 → ((s'.buckets col).entries 1).sha_hash k = hash k) ∧
      ((s'.buckets col).entries 1).block = s'.writebucket ∧
      ((s'.buckets col).entries 1).refcount = ((s'.buckets s'.writebucket).count : Int) ∧
      s'.buckets (s.leaf.entries idx).block = s.buckets (s.leaf.entries idx).block := by
  obtain ⟨s', h1, h2, h3, h4, h5, h6, h7, h8, h9, h10, h11, -, h13⟩ :=
    handle_collision_first_spec s (s.leaf.entries idx).block (s.leaf.entries idx).offset.toNat
      idx hash col rest hpool hwb he hrot
  have hd : digest_eq hash ((s.buckets (s.leaf.entries idx).block).entries
      (s.leaf.entries idx).offset.toNat).sha_hash = false := by
    rw [← digest_eq_iff] at hdiff
    simpa using hdiff
  have hneg : ¬ ((s.leaf.entries idx).offset < 0) := by omega
  refine ⟨s', ?_, by rw [h2, hkey], h3, h4, h5, h6, h7, h8, h9, h10, h11, h13⟩
  simp only [htree_lookup, hseek, hkey, hoff, ne_eq, not_false_eq_true, and_self, if_true,
    hneg, if_false, hd, Bool.false_eq_true, handle_collision, h1]

theorem htree_first_collision_witness :
    ∃ s', htree_lookup ex_one 0 (ex_digest 2) = some (-1, s') ∧
      s'.leaf.entries 0 = ⟨htree_key 0 (ex_digest 2), 21, -1⟩ ∧
      (s'.buckets 21).count = 2 ∧
      ((s'.buckets 21).entries 0).block = 20 ∧ ((s'.buckets 21).entries 0).refcount = 0 ∧
      ((s'.buckets 21).entries 1).block = s'.writebucket ∧
      s'.buckets 20 = ex_one.buckets 20 :=
  have h := htree_first_collision ex_one 0 (ex_digest 2) 0 21 [22, 23] (by decide) (by decide)
    (by decide) (by decide) (by decide) (by decide) (by decide) (by decide)
    (fun _ => ⟨22, [23], rfl, by decide, by decide⟩)
  h.elim (fun s' hs => ⟨s', hs.1, hs.2.1, hs.2.2.2.2.1, hs.2.2.2.2.2.2.1, hs.2.2.2.2.2.2.2.1,
    hs.2.2.2.2.2.2.2.2.2.1, hs.2.2.2.2.2.2.2.2.2.2.2⟩)

/-- C13, evaluated where it fails: digests 1 and 2 (one 8-byte prefix) are
written, which makes the collision bucket in block 21 with the entries of digest
1 and digest 2; then digest 3 of the same prefix is looked up.  The lookup
returns -1 and the count becomes 3, but the digest is stored in slot 1, the
slot the scan looked at last, over the entry of digest 2, and slot 2 is a zero
entry (byte 19 of the digest tells the digests apart). -/
theorem collision_miss_overwrites :
    ((present (ex_empty 8) (ex_digest 1) 501).bind (fun r =>
      (present r.2 (ex_digest 2) 502).bind (fun r =>
        (htree_lookup r.2 0 (ex_digest 3)).map (fun q =>
          (q.1, (r.2.buckets 21).count, ((r.2.buckets 21).entries 1).sha_hash 19,
            (q.2.buckets 21).count, ((q.2.buckets 21).entries 1).sha_hash 19,
            ((q.2.buckets 21).entries 2).sha_hash 19))))) =
      some (-1, 2, 2, 3, 3, 0) := by
  decide

/-- C14, evaluated where it fails: with `entries_per_bucket = 2`, digests 1 and 2
(one 8-byte prefix) fill write bucket 20 and make the collision bucket 21; the
lookup of digest 3 of the same prefix then rotates the write bucket to block 22,
where `make_hash_entry` will use slot 0, but the entry recorded for digest 3
names block 20, the old write bucket, and offset 2, which is not below
`entries_per_bucket`. -/
theorem collision_miss_records_old_bucket :
    ((present (ex_empty 2) (ex_digest 1) 501).bind (fun r =>
      (present r.2 (ex_digest 2) 502).bind (fun r =>
        (htree_lookup r.2 0 (ex_digest 3)).map (fun q =>
          (q.1, r.2.writebucket, q.2.writebucket, (q.2.buckets q.2.writebucket).count,
            ((q.2.buckets 21).entries 1).block, ((q.2.buckets 21).entries 1).refcount))))) =
      some (-1, 20, 22, 0, 20, 2) := by
  decide

/-- C11, evaluated where it fails: digests 1, 2 and 3 (one 8-byte prefix) are
written to the blocks 501, 502 and 503, each after `hash_lookup` returned -1.
Digest 2 is then presented again: `hash_lookup` returns -1, not 502, and the
write path makes a second bucket entry for it (slots 1 and 3 of write bucket 20
hold digest 2, byte 19 telling the digests apart). -/
theorem dedup_lost_after_collisions :
    ((present (ex_empty 8) (ex_digest 1) 501).bind (fun r =>
      (present r.2 (ex_digest 2) 502).bind (fun r =>
        (present r.2 (ex_digest 3) 503).bind (fun r =>
          (present r.2 (ex_digest 2) 502).map (fun q =>
            (q.1, (r.2.buckets 20).count, (q.2.buckets 20).count,
              ((q.2.buckets 20).entries 1).sha_hash 19,
              ((q.2.buckets 20).entries 3).sha_hash 19)))))) =
      some (-1, 3, 4, 2, 2) := by
  decide

/-! ## Entries of a leaf as a list -/

theorem map_range_add {α : Type} (f : Nat → α) (a b : Nat) :
    (List.range (a + b)).map f = (List.range a).map f ++ (List.range b).map (fun i => f (a + i)) := by
  rw [List.range_add, List.map_append, List.map_map]
  rfl

theorem map_range_congr {α : Type} (f g : Nat → α) (n : Nat) (h : ∀ i, i < n → f i = g i) :
    (List.range n).map f = (List.range n).map g := by
  apply List.map_congr_left
  intro i hi
  exact h i (List.mem_range.1 hi)

theorem mem_map_range {α : Type} (f : Nat → α) (n : Nat) (x : α)
    (h : x ∈ (List.range n).map f) : ∃ i, i < n ∧ f i = x := by
  obtain ⟨i, hi, hx⟩ := List.mem_map.1 h
  exact ⟨i, List.mem_range.1 hi, hx⟩

/-- The list with `a` put in at place `idx`. -/
theorem map_range_insert {α : Type} (f g : Nat → α) (idx m : Nat) (a : α)
    (h1 : ∀ i, i < idx → g i = f i) (h2 : g idx = a)
    (h3 : ∀ i, i < m → g (idx + 1 + i) = f (idx + i)) :
    (List.range (idx + m + 1)).map g =
      ((List.range (idx + m)).map f).take idx ++ a :: ((List.range (idx + m)).map f).drop idx := by
  have hlen : ((List.range idx).map f).length = idx := by simp
  rw [map_range_add f idx m, List.take_left' hlen, List.drop_left' hlen]
  have e : idx + m + 1 = idx + (1 + m) := by omega
  rw [e, map_range_add g idx (1 + m), map_range_add (fun i => g (idx + i)) 1 m]
  rw [map_range_congr g f idx h1]
  congr 1
  have hone : (List.range 1).map (fun i => g (idx + i)) = [a] := by
    show [g (idx + 0)] = [a]
    rw [Nat.add_zero, h2]
  rw [hone, List.singleton_append]
  congr 1
  apply map_range_congr
  intro i hi
  rw [← Nat.add_assoc]
  exact h3 i hi

theorem hleaf_seek_spec (k : Nat) (leaf : hleaf) :
    ∃ idx, hleaf_seek k leaf = some idx ∧ idx ≤ leaf.count ∧
      (∀ i, i < idx → (leaf.entries i).key < k) ∧
      (idx < leaf.count → k ≤ (leaf.entries idx).key) :=
  hleaf_seek_loop_spec k leaf leaf.count 0 (by omega) (Nat.zero_le _)
    (fun i hi => absurd hi (Nat.not_lt_zero i))

/-! ## `hleaf_resize` and `hleaf_split` on a sorted leaf -/

theorem resize_entries (leaf : hleaf) (idx : Nat) (e : hleaf_entry) (i : Nat) :
    (hleaf_store (set_hleaf_count (hleaf_vecmove leaf (idx + 1) idx (leaf.count - idx))
      (leaf.count + 1)) idx e).entries i =
      if i = idx then e
      else if idx + 1 ≤ i ∧ i < idx + 1 + (leaf.count - idx) then leaf.entries (i - (idx + 1) + idx)
      else leaf.entries i := rfl

/-- Where `hleaf_seek` stops on a sorted leaf that does not hold `k`. -/
theorem seek_absent {k : Nat} {leaf : hleaf} {idx : Nat} (hasc : keys_ascending leaf)
    (hlt : ∀ i, i < idx → (leaf.entries i).key < k)
    (hge : idx < leaf.count → k ≤ (leaf.entries idx).key)
    (hne : ¬ (idx < leaf.count ∧ (leaf.entries idx).key = k)) :
    ∀ i, idx ≤ i → i < leaf.count → k < (leaf.entries i).key := by
  intro i h1 h2
  have h3 := hge (by omega)
  have h4 : (leaf.entries idx).key ≠ k := fun h => hne ⟨by omega, h⟩
  rcases Nat.eq_or_lt_of_le h1 with h | h
  · rw [← h]; omega
  · have := hasc idx i h h2
    omega

/-- The result of `hleaf_resize` for a key the leaf does not hold. -/
theorem hleaf_resize_absent (epl k : Nat) (leaf : hleaf) (hs : hleaf_sniff leaf = true)
    (hasc : keys_ascending leaf) (habs : ∀ i, i < leaf.count → (leaf.entries i).key ≠ k)
    (hcount : leaf.count ≤ epl) (hepl : epl < 2 ^ 32) :
    ∃ idx, idx ≤ leaf.count ∧ (∀ i, i < idx → (leaf.entries i).key < k) ∧
      (∀ i, idx ≤ i → i < leaf.count → k < (leaf.entries i).key) ∧
      hleaf_resize epl k leaf 1 =
        if leaf.count = epl then some none
        else some (some (idx, set_hleaf_count
          (hleaf_vecmove leaf (idx + 1) idx (leaf.count - idx)) (leaf.count + 1))) := by
  obtain ⟨idx, hseek, hle, hlt, hge⟩ := hleaf_seek_spec k leaf
  have hne : ¬ (idx < leaf.count ∧ (leaf.entries idx).key = k) := fun h => habs idx h.1 h.2
  refine ⟨idx, hle, hlt, seek_absent hasc hlt hge hne, ?_⟩
  have hfree : hleaf_free epl leaf < 1 ↔ leaf.count = epl := by
    unfold hleaf_free
    omega
  have hkey : hleaf_resize epl k leaf 1 =
      if hleaf_free epl leaf < 1 then some none
      else some (some (idx, set_hleaf_count
        (hleaf_vecmove leaf (idx + 1) idx (leaf.count - idx)) (leaf.count + 1))) := by
    simp only [hleaf_resize, hs, not_true_eq_false, if_false, hseek, hne]
  rw [hkey]
  by_cases hfull : leaf.count = epl
  · rw [if_pos (hfree.2 hfull), if_pos hfull]
  · rw [if_neg (fun h => hfull (hfree.1 h)), if_neg hfull]

/-- C37: hleaf entries stay sorted.  On a leaf that passes `hleaf_sniff`, with its
first `count` keys strictly ascending, `k` not among them and a slot free,
`hleaf_resize(k, 1)` returns a slot and counts the leaf up by one; once the caller
has stored its entry for `k` there, the `count + 1` keys are strictly ascending
and the entries are the old ones, as they were and in their order, with the new
one put in between. -/
theorem hleaf_resize_sorted (epl k : Nat) (leaf : hleaf) (hs : hleaf_sniff leaf = true)
    (hasc : keys_ascending leaf) (habs : ∀ i, i < leaf.count → (leaf.entries i).key ≠ k)
    (hfree : leaf.count < epl) (hepl : epl < 2 ^ 32) (block offset : Int) :
    ∃ idx leaf', hleaf_resize epl k leaf 1 = some (some (idx, leaf')) ∧
      leaf'.count = leaf.count + 1 ∧
      keys_ascending (hleaf_store leaf' idx ⟨k, block, offset⟩) ∧
      leaf_entries (hleaf_store leaf' idx ⟨k, block, offset⟩) =
        (leaf_entries leaf).take idx ++ ⟨k, block, offset⟩ :: (leaf_entries leaf).drop idx := by
  obtain ⟨idx, hle, hlt, hgt, hres⟩ := hleaf_resize_absent epl k leaf hs hasc habs (by omega) hepl
  rw [if_neg (by omega)] at hres
  have hcnt : (leaf.count + 1) % 2 ^ 32 = leaf.count + 1 := Nat.mod_eq_of_lt (by omega)
  refine ⟨idx, _, hres, hcnt, ?_, ?_⟩
  · intro i j hij hj
    have hj' : j < leaf.count + 1 := by
      have : j < (leaf.count + 1) % 2 ^ 32 := hj
      omega
    rw [resize_entries, resize_entries]
    by_cases hi1 : i = idx
    · have hj1 : ¬ (j = idx) := by omega
      have hj2 : idx + 1 ≤ j ∧ j < idx + 1 + (leaf.count - idx) := by omega
      rw [if_pos hi1, if_neg hj1, if_pos hj2]
      exact hgt _ (by omega) (by omega)
    · by_cases hi2 : idx + 1 ≤ i ∧ i < idx + 1 + (leaf.count - idx)
      · have hj1 : ¬ (j = idx) := by omega
        have hj2 : idx + 1 ≤ j ∧ j < idx + 1 + (leaf.count - idx) := by omega
        rw [if_neg hi1, if_pos hi2, if_neg hj1, if_pos hj2]
        exact hasc _ _ (by omega) (by omega)
      · rw [if_neg hi1, if_neg hi2]
        have hi3 : i < idx := by omega
        by_cases hj1 : j = idx
        · rw [if_pos hj1]
          exact hlt i hi3
        · by_cases hj2 : idx + 1 ≤ j ∧ j < idx + 1 + (leaf.count - idx)
          · rw [if_neg hj1, if_pos hj2]
            have := hlt i hi3
            have := hgt (j - (idx + 1) + idx) (by omega) (by omega)
            omega
          · rw [if_neg hj1, if_neg hj2]
            exact hasc i j hij (by omega)
  · obtain ⟨m, hm⟩ : ∃ m, leaf.count = idx + m := ⟨leaf.count - idx, by omega⟩
    show (List.range ((leaf.count + 1) % 2 ^ 32)).map _ = _
    rw [hcnt]
    unfold leaf_entries
    rw [hm]
    apply map_range_insert
    · intro i hi
      rw [← hm, resize_entries, if_neg (by omega), if_neg (by omega)]
    · rw [← hm, resize_entries, if_pos rfl]
    · intro i hi
      rw [← hm, resize_entries, if_neg (by omega), if_pos (by omega)]
      congr 1
      omega

theorem hleaf_resize_sorted_witness :
    ∃ idx leaf', hleaf_resize 8 25 ex_leaf 1 = some (some (idx, leaf')) ∧
      leaf'.count = ex_leaf.count + 1 ∧
      keys_ascending (hleaf_store leaf' idx ⟨25, 250, 3⟩) ∧
      leaf_entries (hleaf_store leaf' idx ⟨25, 250, 3⟩) =
        (leaf_entries ex_leaf).take idx ++ ⟨25, 250, 3⟩ :: (leaf_entries ex_leaf).drop idx :=
  hleaf_resize_sorted 8 25 ex_leaf rfl
    (by
      intro i j hij hj
      have hj3 : j < 3 := hj
      interval_cases j <;> interval_cases i <;> decide)
    (by
      intro i hi
      have hi3 : i < 3 := hi
      interval_cases i <;> decide)
    (by decide) (by decide) 250 3

/-- C38: `hleaf_resize(k, 1)` on a leaf that passes `hleaf_sniff`, with strictly
ascending keys and no more than `entries_per_leaf` entries.  It returns `NULL`,
the leaf being as it was, exactly when `k` is not among the keys and
`count = entries_per_leaf`; when `k` is the key of entry `i` it returns that
slot and the leaf as it was, full or not. -/
theorem hleaf_resize_null (epl k : Nat) (leaf : hleaf) (hs : hleaf_sniff leaf = true)
    (hasc : keys_ascending leaf) (hcount : leaf.count ≤ epl) (hepl : epl < 2 ^ 32) :
    (∃ r, hleaf_resize epl k leaf 1 = some r) ∧
    (hleaf_resize epl k leaf 1 = some none ↔
      ((∀ i, i < leaf.count → (leaf.entries i).key ≠ k) ∧ leaf.count = epl)) ∧
    (∀ i, i < leaf.count → (leaf.entries i).key = k →
      hleaf_resize epl k leaf 1 = some (some (i, leaf))) := by
  have hpresent : ∀ i, i < leaf.count → (leaf.entries i).key = k →
      hleaf_resize epl k leaf 1 = some (some (i, leaf)) := by
    intro i hi hk
    obtain ⟨idx, hseek, hle, hlt, hge⟩ := hleaf_seek_spec k leaf
    have h1 : idx ≤ i := by
      by_contra hc
      have := hlt i (by omega)
      omega
    have h2 : idx = i := by
      rcases Nat.eq_or_lt_of_le h1 with h | h
      · exact h
      · have := hasc idx i h hi
        have := hge (by omega)
        omega
    subst h2
    have htest : idx < leaf.count ∧ (leaf.entries idx).key = k := ⟨hi, hk⟩
    simp only [hleaf_resize, hs, not_true_eq_false, if_false, hseek, htest, and_self, if_true]
  by_cases habs : ∀ i, i < leaf.count → (leaf.entries i).key ≠ k
  · obtain ⟨idx, hle, hlt, hgt, hres⟩ := hleaf_resize_absent epl k leaf hs hasc habs hcount hepl
    refine ⟨?_, ?_, hpresent⟩
    · by_cases hfull : leaf.count = epl
      · exact ⟨_, by rw [hres, if_pos hfull]⟩
      · exact ⟨_, by rw [hres, if_neg hfull]⟩
    rw [hres]
    constructor
    · intro h
      refine ⟨habs, ?_⟩
      by_contra hc
      rw [if_neg hc] at h
      cases h
    · intro h
      rw [if_pos h.2]
  · have hex : ∃ i, i < leaf.count ∧ (leaf.entries i).key = k := by
      by_contra hc
      apply habs
      intro i hi hk
      exact hc ⟨i, hi, hk⟩
    obtain ⟨i, hi, hk⟩ := hex
    have hres := hpresent i hi hk
    refine ⟨⟨_, hres⟩, ?_, hpresent⟩
    rw [hres]
    constructor
    · intro h
      cases h
    · intro h
      exact absurd hk (h.1 i hi)

theorem hleaf_resize_null_witness :
    (∃ r, hleaf_resize 3 20 ex_leaf 1 = some r) ∧
    (hleaf_resize 3 20 ex_leaf 1 = some none ↔
      ((∀ i, i < ex_leaf.count → (ex_leaf.entries i).key ≠ 20) ∧ ex_leaf.count = 3)) ∧
    (∀ i, i < ex_leaf.count → (ex_leaf.entries i).key = 20 →
      hleaf_resize 3 20 ex_leaf 1 = some (some (i, ex_leaf))) :=
  hleaf_resize_null 3 20 ex_leaf rfl
    (by
      intro i j hij hj
      have hj3 : j < 3 := hj
      interval_cases j <;> interval_cases i <;> decide)
    (by decide) (by decide)

/-! ## `hleaf_split` -/

theorem split_from_entries (leaf : hleaf) (idx : Nat) :
    (set_hleaf_count leaf idx).entries = leaf.entries := rfl

theorem split_into_entries (leaf into : hleaf) (idx tail i : Nat) :
    (set_hleaf_count (hleaf_veccopy (hleaf_init into) 0 leaf idx tail) tail).entries i =
      if 0 ≤ i ∧ i < 0 + tail then leaf.entries (i - 0 + idx) else into.entries i := rfl

/-- The leaves `hleaf_split` leaves when it cuts at `idx`. -/
theorem split_lists (leaf into : hleaf) (idx tail : Nat) (hc : leaf.count = idx + tail)
    (h32 : leaf.count < 2 ^ 32) :
    leaf_entries (set_hleaf_count leaf idx) = (List.range idx).map leaf.entries ∧
    leaf_entries (set_hleaf_count (hleaf_veccopy (hleaf_init into) 0 leaf idx tail) tail) =
      (List.range tail).map (fun i => leaf.entries (idx + i)) ∧
    leaf_entries leaf = (List.range idx).map leaf.entries ++
      (List.range tail).map (fun i => leaf.entries (idx + i)) := by
  have h1 : idx % 2 ^ 32 = idx := Nat.mod_eq_of_lt (by omega)
  have h2 : tail % 2 ^ 32 = tail := Nat.mod_eq_of_lt (by omega)
  refine ⟨?_, ?_, ?_⟩
  · show (List.range (idx % 2 ^ 32)).map leaf.entries = _
    rw [h1]
  · show (List.range (tail % 2 ^ 32)).map _ = _
    rw [h2]
    apply map_range_congr
    intro i hi
    rw [split_into_entries, if_pos (by omega)]
    congr 1
    omega
  · unfold leaf_entries
    rw [hc, map_range_add]

theorem hleaf_split_eval (k : Nat) (leaf into : hleaf) (hs : hleaf_sniff leaf = true)
    (idx tail : Nat)
    (hidx : (if leaf.count ≠ 0 ∧ k > (leaf.entries (leaf.count - 1)).key then leaf.count
      else leaf.count / 2) = idx) (htail : leaf.count - idx = tail) :
    hleaf_split k leaf into =
      some (if tail ≠ 0 then
          ((set_hleaf_count (hleaf_veccopy (hleaf_init into) 0 leaf idx tail) tail).entries 0).key
        else k, set_hleaf_count leaf idx,
        set_hleaf_count (hleaf_veccopy (hleaf_init into) 0 leaf idx tail) tail) := by
  subst htail
  subst hidx
  simp only [hleaf_split, hs, not_true_eq_false, if_false]

/-- C39: `hleaf_split` on a leaf that passes `hleaf_sniff`, with strictly
ascending keys.  It returns; the entries left in `from` followed by those of
`into` are the entries `from` had, in order; `into` has the magic `0xdade`; every
key left in `from` is below the key returned and every key in `into` is at or
above it; and when `k` is above every key (or the leaf is empty) `k` is returned,
`from` keeps all its entries and `into` is empty. -/
theorem hleaf_split_keeps (k : Nat) (leaf into : hleaf) (hs : hleaf_sniff leaf = true)
    (hasc : keys_ascending leaf) (h32 : leaf.count < 2 ^ 32) :
    ∃ r leaf' into', hleaf_split k leaf into = some (r, leaf', into') ∧
      leaf_entries leaf' ++ leaf_entries into' = leaf_entries leaf ∧
      into'.magic = 0xdade ∧ hleaf_sniff into' = true ∧
      (∀ e ∈ leaf_entries leaf', e.key < r) ∧ (∀ e ∈ leaf_entries into', r ≤ e.key) ∧
      ((∀ e ∈ leaf_entries leaf, e.key < k) →
        r = k ∧ leaf_entries leaf' = leaf_entries leaf ∧ leaf_entries into' = [] ∧
          leaf'.entries = leaf.entries) := by
  by_cases habove : leaf.count ≠ 0 ∧ k > (leaf.entries (leaf.count - 1)).key
  · -- `k` is above the last key: nothing moves
    obtain ⟨l1, l2, l3⟩ := split_lists leaf into leaf.count 0 (by omega) h32
    have hsub : leaf.count - leaf.count = 0 := Nat.sub_self _
    have hall : ∀ e ∈ (List.range leaf.count).map leaf.entries, e.key < k := by
      intro e he
      obtain ⟨i, hi, hx⟩ := mem_map_range _ _ _ he
      rw [← hx]
      rcases Nat.eq_or_lt_of_le (show i ≤ leaf.count - 1 by omega) with h | h
      · rw [h]; exact habove.2
      · have := hasc i (leaf.count - 1) h (by omega)
        omega
    refine ⟨k, set_hleaf_count leaf leaf.count,
      set_hleaf_count (hleaf_veccopy (hleaf_init into) 0 leaf leaf.count 0) 0, ?_, ?_, rfl, rfl,
      ?_, ?_, ?_⟩
    · rw [hleaf_split_eval k leaf into hs leaf.count 0 (if_pos habove) hsub]
      rfl
    · rw [l1, l2, l3]
    · rw [l1]; exact hall
    · rw [l2]; intro e he; cases he
    · intro _
      refine ⟨rfl, ?_, ?_, rfl⟩
      · rw [l1, l3]; simp
      · rw [l2]; rfl
  · -- the cut is at the middle
    obtain ⟨tail, htail⟩ : ∃ t, leaf.count = leaf.count / 2 + t :=
      ⟨leaf.count - leaf.count / 2, by omega⟩
    obtain ⟨l1, l2, l3⟩ := split_lists leaf into (leaf.count / 2) tail htail h32
    have hsub : leaf.count - leaf.count / 2 = tail := by omega
    by_cases ht : tail = 0
    · -- an empty leaf
      have hc0 : leaf.count = 0 := by omega
      have hd0 : leaf.count / 2 = 0 := by omega
      refine ⟨k, set_hleaf_count leaf (leaf.count / 2),
        set_hleaf_count (hleaf_veccopy (hleaf_init into) 0 leaf (leaf.count / 2) tail) tail,
        ?_, ?_, rfl, rfl, ?_, ?_, ?_⟩
      · rw [hleaf_split_eval k leaf into hs (leaf.count / 2) tail (if_neg habove) hsub,
          if_neg (by omega)]
      · rw [l1, l2, l3]
      · rw [l1, hd0]; intro e he; cases he
      · rw [l2, ht]; intro e he; cases he
      · intro _
        refine ⟨rfl, ?_, ?_, rfl⟩
        · rw [l1, l3, ht]; simp
        · rw [l2, ht]; rfl
    · have hr : (set_hleaf_count (hleaf_veccopy (hleaf_init into) 0 leaf (leaf.count / 2) tail)
          tail).entries 0 = leaf.entries (leaf.count / 2) := by
        rw [split_into_entries, if_pos (by omega)]
        congr 1
        omega
      refine ⟨(leaf.entries (leaf.count / 2)).key, set_hleaf_count leaf (leaf.count / 2),
        set_hleaf_count (hleaf_veccopy (hleaf_init into) 0 leaf (leaf.count / 2) tail) tail,
        ?_, ?_, rfl, rfl, ?_, ?_, ?_⟩
      · rw [hleaf_split_eval k leaf into hs (leaf.count / 2) tail (if_neg habove) hsub,
          if_pos ht, hr]
      · rw [l1, l2, l3]
      · rw [l1]
        intro e he
        obtain ⟨i, hi, hx⟩ := mem_map_range _ _ _ he
        rw [← hx]
        exact hasc i (leaf.count / 2) hi (by omega)
      · rw [l2]
        intro e he
        obtain ⟨i, hi, hx⟩ := mem_map_range _ _ _ he
        rw [← hx]
        rcases Nat.eq_zero_or_pos i with h | h
        · rw [h]; exact Nat.le_refl _
        · exact Nat.le_of_lt (hasc (leaf.count / 2) (leaf.count / 2 + i) (by omega) (by omega))
      · intro hall
        exfalso
        apply habove
        refine ⟨by omega, ?_⟩
        apply hall
        unfold leaf_entries
        exact List.mem_map.2 ⟨leaf.count - 1, List.mem_range.2 (by omega), rfl⟩

theorem hleaf_split_keeps_witness :
    ∃ r leaf' into', hleaf_split 15 ex_leaf ex_leaf = some (r, leaf', into') ∧
      leaf_entries leaf' ++ leaf_entries into' = leaf_entries ex_leaf ∧
      into'.magic = 0xdade ∧ hleaf_sniff into' = true ∧
      (∀ e ∈ leaf_entries leaf', e.key < r) ∧ (∀ e ∈ leaf_entries into', r ≤ e.key) ∧
      ((∀ e ∈ leaf_entries ex_leaf, e.key < 15) →
        r = 15 ∧ leaf_entries leaf' = leaf_entries ex_leaf ∧ leaf_entries into' = [] ∧
          leaf'.entries = ex_leaf.entries) :=
  hleaf_split_keeps 15 ex_leaf ex_leaf rfl
    (by
      intro i j hij hj
      have hj3 : j < 3 := hj
      interval_cases j <;> interval_cases i <;> decide)
    (by decide)

end Dedup

namespace Tuxlog

/-! ## Bytes of the log -/

@[simp] theorem store_byte_logmap (s : sb) (blk off v b o : Nat) :
    (store_byte s blk off v).logmap b o = if b = blk ∧ o = off then v % 256 else s.logmap b o :=
  rfl
@[simp] theorem store_byte_logbuf (s : sb) (blk off v : Nat) :
    (store_byte s blk off v).logbuf = s.logbuf := rfl
@[simp] theorem store_byte_logblk (s : sb) (blk off v : Nat) :
    (store_byte s blk off v).logblk = s.logblk := rfl
@[simp] theorem store_byte_logpos (s : sb) (blk off v : Nat) :
    (store_byte s blk off v).logpos = s.logpos := rfl
@[simp] theorem store_byte_logtop (s : sb) (blk off v : Nat) :
    (store_byte s blk off v).logtop = s.logtop := rfl
@[simp] theorem store_byte_lognext (s : sb) (blk off v : Nat) :
    (store_byte s blk off v).lognext = s.lognext := rfl
@[simp] theorem store_byte_blocksize (s : sb) (blk off v : Nat) :
    (store_byte s blk off v).blocksize = s.blocksize := rfl
@[simp] theorem store_byte_bitmap (s : sb) (blk off v : Nat) :
    (store_byte s blk off v).bitmap = s.bitmap := rfl

@[simp] theorem encode48_logbuf (s : sb) (blk off v : Nat) :
    (encode48 s blk off v).logbuf = s.logbuf := by
  simp only [encode48, store_byte_logbuf]
@[simp] theorem encode48_logblk (s : sb) (blk off v : Nat) :
    (encode48 s blk off v).logblk = s.logblk := by
  simp only [encode48, store_byte_logblk]
@[simp] theorem encode48_logpos (s : sb) (blk off v : Nat) :
    (encode48 s blk off v).logpos = s.logpos := by
  simp only [encode48, store_byte_logpos]
@[simp] theorem encode48_logtop (s : sb) (blk off v : Nat) :
    (encode48 s blk off v).logtop = s.logtop := by
  simp only [encode48, store_byte_logtop]
@[simp] theorem encode48_lognext (s : sb) (blk off v : Nat) :
    (encode48 s blk off v).lognext = s.lognext := by
  simp only [encode48, store_byte_lognext]
@[simp] theorem encode48_blocksize (s : sb) (blk off v : Nat) :
    (encode48 s blk off v).blocksize = s.blocksize := by
  simp only [encode48, store_byte_blocksize]
@[simp] theorem encode48_bitmap (s : sb) (blk off v : Nat) :
    (encode48 s blk off v).bitmap = s.bitmap := by
  simp only [encode48, store_byte_bitmap]

/-- The bytes `encode48` leaves in the block it writes. -/
theorem encode48_logmap (s : sb) (blk off v o : Nat) :
    (encode48 s blk off v).logmap blk o =
      if o = off then v / 2 ^ 40 % 256
      else if o = off + 1 then v / 2 ^ 32 % 256
      else if o = off + 2 then v / 2 ^ 24 % 256
      else if o = off + 3 then v / 2 ^ 16 % 256
      else if o = off + 4 then v / 2 ^ 8 % 256
      else if o = off + 5 then v % 256
      else s.logmap blk o := by
  simp only [encode48, store_byte_logmap, true_and]
  by_cases h0 : o = off
  · subst h0; simp
  by_cases h1 : o = off + 1
  · subst h1; simp
  by_cases h2 : o = off + 2
  · subst h2; simp
  by_cases h3 : o = off + 3
  · subst h3; simp
  by_cases h4 : o = off + 4
  · subst h4; simp
  by_cases h5 : o = off + 5
  · subst h5; simp
  simp [h0, h1, h2, h3, h4, h5]

theorem encode48_logmap_other (s : sb) (blk off v b o : Nat) (h : b ≠ blk) :
    (encode48 s blk off v).logmap b o = s.logmap b o := by
  simp [encode48, h]

/-- Reading back what `encode48` wrote. -/
theorem decode48_bytes (mem : Nat → Nat) (off v : Nat)
    (h0 : mem off = v / 2 ^ 40 % 256) (h1 : mem (off + 1) = v / 2 ^ 32 % 256)
    (h2 : mem (off + 2) = v / 2 ^ 24 % 256) (h3 : mem (off + 3) = v / 2 ^ 16 % 256)
    (h4 : mem (off + 4) = v / 2 ^ 8 % 256) (h5 : mem (off + 5) = v % 256) :
    decode48 mem off = v % 2 ^ 48 := by
  unfold decode48
  rw [h0, h1, h2, h3, h4, h5]
  omega

/-! ## `update_bitmap` over a run of events -/

/-- A run of events either leaves a bit as it was, whatever the bitmap, or
forces it to one value, whatever the bitmap. -/
theorem apply_events_bit (events : List replay_event) (i : Nat) :
    (∀ bitmap, apply_events events bitmap i = bitmap i) ∨
    (∃ v, ∀ bitmap, apply_events events bitmap i = v) := by
  induction events with
  | nil => left; intro bitmap; rfl
  | cons e rest ih =>
    cases e with
    | update c p k =>
      rcases ih with h | ⟨v, h⟩
      · left; intro bitmap; exact h bitmap
      · right; exact ⟨v, fun bitmap => h bitmap⟩
    | bitmap block count set =>
      rcases ih with h | ⟨v, h⟩
      · by_cases hc : block ≤ i ∧ i < block + count
        · right
          refine ⟨set, fun bitmap => ?_⟩
          show apply_events rest (update_bitmap bitmap block count set) i = set
          rw [h]; simp [update_bitmap, hc]
        · left
          intro bitmap
          show apply_events rest (update_bitmap bitmap block count set) i = bitmap i
          rw [h]; simp [update_bitmap, hc]
      · right; exact ⟨v, fun bitmap => h _⟩

/-- Applying a run of events twice gives what applying it once gives. -/
theorem apply_events_twice (events : List replay_event) (bitmap : Nat → Bool) :
    apply_events events (apply_events events bitmap) = apply_events events bitmap := by
  funext i
  rcases apply_events_bit events i with h | ⟨v, h⟩
  · rw [h]
  · rw [h, h]

/-! ## The loops of `replay` -/

/-- The record loop reaches `stop` within `stop - data` rounds, and its events
and final position do not depend on the bitmap. -/
theorem replay_records_total (t : logtags) (mem : Nat → Nat) (stop : Nat) :
    ∀ (fuel data : Nat), stop ≤ data + fuel →
      ∃ events pos, ∀ bitmap, replay_records t mem stop fuel data bitmap =
        some (apply_events events bitmap, events, pos) := by
  intro fuel
  induction fuel with
  | zero =>
    intro data h
    have : ¬ (data < stop) := by omega
    exact ⟨[], data, fun bitmap => by simp only [replay_records, this, if_false]; rfl⟩
  | succ n ih =>
    intro data h
    by_cases hd : data < stop
    · by_cases h1 : mem data = t.LOG_ALLOC ∨ mem data = t.LOG_FREE
      · obtain ⟨ev, pos, hev⟩ := ih (data + 1 + 1 + 6) (by omega)
        refine ⟨replay_event.bitmap (decode48 mem (data + 1 + 1)) (mem (data + 1))
          (decide (mem data = t.LOG_ALLOC)) :: ev, pos, fun bitmap => ?_⟩
        simp only [replay_records, hd, if_true, h1, hev]
        rfl
      · by_cases h2 : mem data = t.LOG_UPDATE
        · obtain ⟨ev, pos, hev⟩ := ih (data + 1 + 6 + 6 + 6) (by omega)
          refine ⟨replay_event.update (decode48 mem (data + 1)) (decode48 mem (data + 1 + 6))
            (decode48 mem (data + 1 + 6 + 6)) :: ev, pos, fun bitmap => ?_⟩
          have h1' : ¬ (t.LOG_UPDATE = t.LOG_ALLOC ∨ t.LOG_UPDATE = t.LOG_FREE) := h2 ▸ h1
          simp only [replay_records, hd, if_true, h2, h1', if_false, hev]
          rfl
        · obtain ⟨ev, pos, hev⟩ := ih (data + 1) (by omega)
          refine ⟨ev, pos, fun bitmap => ?_⟩
          simp only [replay_records, hd, if_true, h1, if_false, h2, hev]
    · exact ⟨[], data, fun bitmap => by
        cases n <;> simp only [replay_records, hd, if_false] <;> rfl⟩

theorem apply_events_append (a b : List replay_event) (bitmap : Nat → Bool) :
    apply_events (a ++ b) bitmap = apply_events b (apply_events a bitmap) := by
  induction a generalizing bitmap with
  | nil => rfl
  | cons e rest ih =>
    cases e with
    | bitmap block count set => exact ih _
    | update c p k => exact ih _

/-- One round of the outer loop: its events and final position depend on the log
alone, and the bitmap it leaves is the one the events make. -/
theorem replay_block_spec (t : logtags) (s : sb) :
    ∃ events pos, ∀ s2 : sb, s2.logmap = s.logmap → s2.lognext = s.lognext →
      ∃ s2', replay_block t s2 = some (s2', events, pos) ∧
        s2'.bitmap = apply_events events s2.bitmap ∧ s2'.logmap = s2.logmap ∧
        s2'.lognext = s2.lognext + 1 := by
  obtain ⟨ev, pos, hev⟩ := replay_records_total t (s.logmap s.lognext)
    (sizeof_logblock + (s.logmap s.lognext 2 * 256 + s.logmap s.lognext 3))
    (s.logmap s.lognext 2 * 256 + s.logmap s.lognext 3) sizeof_logblock (by omega)
  refine ⟨ev, pos, fun s2 h1 h2 => ?_⟩
  simp only [replay_block, log_next, h1, h2, hev]
  exact ⟨_, rfl, rfl, rfl, rfl⟩

/-- The outer loop: its events depend on the log alone. -/
theorem replay_blocks_spec (t : logtags) (n : Nat) :
    ∀ (fuel : Nat) (s : sb), n ≤ s.lognext + fuel →
      ∃ events, ∀ s2 : sb, s2.logmap = s.logmap → s2.lognext = s.lognext →
        ∃ s2', replay_blocks t n fuel s2 = some (s2', events) ∧
          s2'.bitmap = apply_events events s2.bitmap ∧ s2'.logmap = s2.logmap ∧
          s2'.lognext = max s2.lognext n := by
  intro fuel
  induction fuel with
  | zero =>
    intro s h
    refine ⟨[], fun s2 h1 h2 => ⟨s2, ?_, rfl, rfl, ?_⟩⟩
    · have : ¬ (s2.lognext < n) := by omega
      simp only [replay_blocks, this, if_false]
    · omega
  | succ k ih =>
    intro s h
    by_cases hc : s.lognext < n
    · obtain ⟨ev1, pos, h1⟩ := replay_block_spec t s
      obtain ⟨s', hs', hb', hm', hn'⟩ := h1 s rfl rfl
      obtain ⟨ev2, h2⟩ := ih s' (by omega)
      refine ⟨ev1 ++ ev2, fun s2 e1 e2 => ?_⟩
      obtain ⟨s2', hs2', hb2', hm2', hn2'⟩ := h1 s2 e1 e2
      obtain ⟨s3, hs3, hb3, hm3, hn3⟩ := h2 s2' (by rw [hm2', hm', e1]) (by rw [hn2', hn', e2])
      have hc2 : s2.lognext < n := by omega
      refine ⟨s3, ?_, ?_, by rw [hm3, hm2'], ?_⟩
      · simp only [replay_blocks, hc2, if_true, hs2', hs3]
      · rw [hb3, hb2', apply_events_append]
      · rw [hn3, hn2']; omega
    · refine ⟨[], fun s2 h1 h2 => ⟨s2, ?_, rfl, rfl, ?_⟩⟩
      · have : ¬ (s2.lognext < n) := by omega
        simp only [replay_blocks, this, if_false]
      · omega

/-! ## Writing records -/

theorem holds_bytes_nil (mem : Nat → Nat) (off : Nat) : holds_bytes mem off [] := by
  intro i hi; simp at hi

theorem holds_bytes_append {mem : Nat → Nat} {off : Nat} {a b : List Nat} :
    holds_bytes mem off (a ++ b) ↔
      holds_bytes mem off a ∧ holds_bytes mem (off + a.length) b := by
  constructor
  · intro h
    constructor
    · intro i hi
      have := h i (by simp; omega)
      rwa [List.getElem?_append_left hi] at this
    · intro i hi
      have := h (a.length + i) (by simp; omega)
      rwa [List.getElem?_append_right (by omega), Nat.add_sub_cancel_left,
        ← Nat.add_assoc] at this
  · rintro ⟨h1, h2⟩ i hi
    by_cases hlt : i < a.length
    · rw [List.getElem?_append_left hlt]; exact h1 i hlt
    · rw [List.getElem?_append_right (by omega)]
      have := h2 (i - a.length) (by simp at hi; omega)
      rwa [show off + a.length + (i - a.length) = off + i by omega] at this

theorem holds_bytes_frame {mem1 mem2 : Nat → Nat} {off : Nat} {l : List Nat}
    (h : holds_bytes mem1 off l)
    (hf : ∀ o, off ≤ o → o < off + l.length → mem2 o = mem1 o) : holds_bytes mem2 off l := by
  intro i hi
  rw [hf (off + i) (by omega) (by omega)]
  exact h i hi

theorem holds_bytes_one {mem : Nat → Nat} {off v : Nat} (h : mem off = v) :
    holds_bytes mem off [v] := by
  intro i hi
  have : i = 0 := by simpa using hi
  subst this
  simp [h]

theorem enc48_length (v : Nat) : (enc48 v).length = 6 := rfl

theorem holds_enc48 (s : sb) (blk off v : Nat) :
    holds_bytes ((encode48 s blk off v).logmap blk) off (enc48 v) := by
  intro i hi
  rw [enc48_length] at hi
  rw [encode48_logmap]
  interval_cases i <;> simp [enc48]

theorem encode48_frame (s : sb) (blk off v o : Nat) (h : o < off ∨ off + 6 ≤ o) :
    (encode48 s blk off v).logmap blk o = s.logmap blk o := by
  rw [encode48_logmap]
  simp only [show ¬ (o = off) by omega, show ¬ (o = off + 1) by omega,
    show ¬ (o = off + 2) by omega, show ¬ (o = off + 3) by omega,
    show ¬ (o = off + 4) by omega, show ¬ (o = off + 5) by omega, if_false]

theorem store_byte_frame (s : sb) (blk off v o : Nat) (h : o ≠ off) :
    (store_byte s blk off v).logmap blk o = s.logmap blk o := by
  simp [h]

theorem store_byte_at (s : sb) (blk off v : Nat) :
    (store_byte s blk off v).logmap blk off = v % 256 := by
  simp

theorem ops_record_length (t : logtags) (ops : List log_op) :
    (ops_record t ops).length = ops_bytes ops := by
  induction ops with
  | nil => rfl
  | cons op rest ih =>
    cases op <;> simp [ops_record, op_record, ops_bytes, op_bytes, ih, enc48_length] <;> omega

/-- With room in the open block `log_begin` changes nothing. -/
theorem log_begin_room {s : sb} {blk pos n : Nat} (h : log_open s blk pos)
    (hroom : pos + n ≤ s.blocksize) : log_begin s n = some s := by
  obtain ⟨h1, h2, h3, h4⟩ := h
  have : ¬ (s.logpos + n > s.logtop) := by rw [h3, h4]; omega
  simp only [log_begin, this, if_false]

@[simp] theorem set_logpos_logmap (s : sb) (p : Nat) : (set_logpos s p).logmap = s.logmap := rfl
@[simp] theorem set_logpos_logbuf (s : sb) (p : Nat) : (set_logpos s p).logbuf = s.logbuf := rfl
@[simp] theorem set_logpos_logblk (s : sb) (p : Nat) : (set_logpos s p).logblk = s.logblk := rfl
@[simp] theorem set_logpos_logpos (s : sb) (p : Nat) : (set_logpos s p).logpos = p := rfl
@[simp] theorem set_logpos_logtop (s : sb) (p : Nat) : (set_logpos s p).logtop = s.logtop := rfl
@[simp] theorem set_logpos_lognext (s : sb) (p : Nat) : (set_logpos s p).lognext = s.lognext := rfl
@[simp] theorem set_logpos_blocksize (s : sb) (p : Nat) :
    (set_logpos s p).blocksize = s.blocksize := rfl
@[simp] theorem set_logpos_bitmap (s : sb) (p : Nat) : (set_logpos s p).bitmap = s.bitmap := rfl

/-- `log_alloc` into an open block with room: the record lies at the old `logpos`. -/
theorem log_alloc_write (t : logtags) {s : sb} {blk pos : Nat} (block count alloc : Nat)
    (h : log_open s blk pos) (hroom : pos + 8 ≤ s.blocksize) :
    ∃ s', log_alloc t s block count alloc = some s' ∧ log_open s' blk (pos + 8) ∧
      holds_bytes (s'.logmap blk) pos (op_record t (log_op.alloc block count alloc)) ∧
      (∀ o, o < pos → s'.logmap blk o = s.logmap blk o) ∧
      s'.lognext = s.lognext ∧ s'.blocksize = s.blocksize ∧ s'.bitmap = s.bitmap := by
  obtain ⟨h1, h2, h3, h4⟩ := h
  refine ⟨set_logpos (encode48 (store_byte (store_byte s blk pos
      (if alloc ≠ 0 then t.LOG_ALLOC else t.LOG_FREE)) blk (pos + 1) count) blk (pos + 2) block)
      (pos + 2 + 6), ?_, ⟨?_, ?_, ?_, ?_⟩, ?_, ?_, ?_, ?_, ?_⟩
  · simp only [log_alloc, log_begin_room ⟨h1, h2, h3, h4⟩ hroom, log_end, store_byte_logblk,
      encode48_logblk, h2, h3]
  · rw [set_logpos_logbuf, encode48_logbuf, store_byte_logbuf, store_byte_logbuf, h1]
  · rw [set_logpos_logblk, encode48_logblk, store_byte_logblk, store_byte_logblk, h2]
  · rw [set_logpos_logpos]
  · rw [set_logpos_logtop, encode48_logtop, store_byte_logtop, store_byte_logtop, h4,
      set_logpos_blocksize, encode48_blocksize, store_byte_blocksize, store_byte_blocksize]
  · rw [set_logpos_logmap]
    simp only [op_record]
    refine holds_bytes_append.2 ⟨?_, holds_enc48 _ _ _ _⟩
    refine (holds_bytes_append (a := [_]) (b := [_])).2 ⟨?_, ?_⟩
    · refine holds_bytes_one ?_
      rw [encode48_frame _ _ _ _ _ (by omega), store_byte_frame _ _ _ _ _ (by omega),
        store_byte_at]
    · simp only [List.length_singleton]
      refine holds_bytes_one ?_
      rw [encode48_frame _ _ _ _ _ (by omega), store_byte_at]
  · intro o ho
    rw [set_logpos_logmap, encode48_frame _ _ _ _ _ (by omega),
      store_byte_frame _ _ _ _ _ (by omega), store_byte_frame _ _ _ _ _ (by omega)]
  · rw [set_logpos_lognext, encode48_lognext, store_byte_lognext, store_byte_lognext]
  · rw [set_logpos_blocksize, encode48_blocksize, store_byte_blocksize, store_byte_blocksize]
  · rw [set_logpos_bitmap, encode48_bitmap, store_byte_bitmap, store_byte_bitmap]

/-- `log_update` into an open block with room: the record lies at the old `logpos`. -/
theorem log_update_write (t : logtags) {s : sb} {blk pos : Nat} (child parent key : Nat)
    (h : log_open s blk pos) (hroom : pos + 19 ≤ s.blocksize) :
    ∃ s', log_update t s child parent key = some s' ∧ log_open s' blk (pos + 19) ∧
      holds_bytes (s'.logmap blk) pos (op_record t (log_op.update child parent key)) ∧
      (∀ o, o < pos → s'.logmap blk o = s.logmap blk o) ∧
      s'.lognext = s.lognext ∧ s'.blocksize = s.blocksize ∧ s'.bitmap = s.bitmap := by
  obtain ⟨h1, h2, h3, h4⟩ := h
  refine ⟨set_logpos (encode48 (encode48 (encode48 (store_byte s blk pos t.LOG_UPDATE) blk
      (pos + 1) child) blk (pos + 1 + 6) parent) blk (pos + 1 + 6 + 6) key)
      (pos + 1 + 6 + 6 + 6), ?_, ⟨?_, ?_, ?_, ?_⟩, ?_, ?_, ?_, ?_, ?_⟩
  · simp only [log_update, log_begin_room ⟨h1, h2, h3, h4⟩ hroom, log_end, store_byte_logblk,
      encode48_logblk, h2, h3]
  · rw [set_logpos_logbuf, encode48_logbuf, encode48_logbuf, encode48_logbuf,
      store_byte_logbuf, h1]
  · rw [set_logpos_logblk, encode48_logblk, encode48_logblk, encode48_logblk,
      store_byte_logblk, h2]
  · rw [set_logpos_logpos]
  · rw [set_logpos_logtop, encode48_logtop, encode48_logtop, encode48_logtop,
      store_byte_logtop, h4, set_logpos_blocksize, encode48_blocksize, encode48_blocksize,
      encode48_blocksize, store_byte_blocksize]
  · rw [set_logpos_logmap]
    simp only [op_record]
    refine holds_bytes_append.2 ⟨holds_bytes_append.2 ⟨?_, ?_⟩, ?_⟩
    · refine (holds_bytes_append (a := [_])).2 ⟨?_, ?_⟩
      · refine holds_bytes_one ?_
        rw [encode48_frame _ _ _ _ _ (by omega), encode48_frame _ _ _ _ _ (by omega),
          encode48_frame _ _ _ _ _ (by omega), store_byte_at]
      · simp only [List.length_singleton]
        refine holds_bytes_frame
          (holds_enc48 (store_byte s blk pos t.LOG_UPDATE) blk (pos + 1) child) ?_
        intro o ho1 ho2
        rw [enc48_length] at ho2
        rw [encode48_frame _ _ _ _ _ (by omega), encode48_frame _ _ _ _ _ (by omega)]
    · simp only [List.length_append, List.length_singleton, enc48_length]
      refine holds_bytes_frame (holds_enc48 (encode48 (store_byte s blk pos t.LOG_UPDATE) blk
        (pos + 1) child) blk (pos + 1 + 6) parent) ?_
      intro o ho1 ho2
      rw [enc48_length] at ho2
      rw [encode48_frame _ _ _ _ _ (by omega)]
    · simp only [List.length_append, List.length_singleton, enc48_length]
      exact holds_enc48 _ _ _ _
  · intro o ho
    rw [set_logpos_logmap, encode48_frame _ _ _ _ _ (by omega),
      encode48_frame _ _ _ _ _ (by omega), encode48_frame _ _ _ _ _ (by omega),
      store_byte_frame _ _ _ _ _ (by omega)]
  · rw [set_logpos_lognext, encode48_lognext, encode48_lognext, encode48_lognext,
      store_byte_lognext]
  · rw [set_logpos_blocksize, encode48_blocksize, encode48_blocksize, encode48_blocksize,
      store_byte_blocksize]
  · rw [set_logpos_bitmap, encode48_bitmap, encode48_bitmap, encode48_bitmap,
      store_byte_bitmap]

/-- A run of calls into an open block with room: the records lie one behind the
other from the old `logpos` on. -/
theorem log_ops_write (t : logtags) (ops : List log_op) :
    ∀ {s : sb} {blk pos : Nat}, log_open s blk pos → pos + ops_bytes ops ≤ s.blocksize →
    ∃ s', log_ops t s ops = some s' ∧ log_open s' blk (pos + ops_bytes ops) ∧
      holds_bytes (s'.logmap blk) pos (ops_record t ops) ∧
      (∀ o, o < pos → s'.logmap blk o = s.logmap blk o) ∧
      s'.lognext = s.lognext ∧ s'.blocksize = s.blocksize ∧ s'.bitmap = s.bitmap := by
  induction ops with
  | nil =>
    intro s blk pos h _
    exact ⟨s, rfl, by simpa [ops_bytes] using h, holds_bytes_nil _ _, fun _ _ => rfl, rfl, rfl,
      rfl⟩
  | cons op rest ih =>
    intro s blk pos h hroom
    have hstep : ∃ s1, log_ops t s (op :: rest) = log_ops t s1 rest ∧
        log_open s1 blk (pos + op_bytes op) ∧
        holds_bytes (s1.logmap blk) pos (op_record t op) ∧
        (∀ o, o < pos → s1.logmap blk o = s.logmap blk o) ∧
        s1.lognext = s.lognext ∧ s1.blocksize = s.blocksize ∧ s1.bitmap = s.bitmap := by
      cases op with
      | alloc block count alloc =>
        obtain ⟨s1, e1, r1⟩ := log_alloc_write t block count alloc h
          (by simp only [ops_bytes, op_bytes] at hroom; omega)
        exact ⟨s1, by simp only [log_ops, e1], r1⟩
      | update child parent key =>
        obtain ⟨s1, e1, r1⟩ := log_update_write t child parent key h
          (by simp only [ops_bytes, op_bytes] at hroom; omega)
        exact ⟨s1, by simp only [log_ops, e1], r1⟩
    obtain ⟨s1, e1, o1, b1, f1, n1, z1, m1⟩ := hstep
    obtain ⟨s2, e2, o2, b2, f2, n2, z2, m2⟩ := ih o1
      (by rw [z1]; simp only [ops_bytes] at hroom; omega)
    have hlen : (op_record t op).length = op_bytes op := by
      have := ops_record_length t [op]
      simpa [ops_record, ops_bytes] using this
    refine ⟨s2, by rw [e1, e2], ?_, ?_, ?_, by rw [n2, n1], by rw [z2, z1], by rw [m2, m1]⟩
    · simpa [ops_bytes, Nat.add_assoc] using o2
    · simp only [ops_record]
      refine holds_bytes_append.2 ⟨holds_bytes_frame b1 ?_, by rw [hlen]; exact b2⟩
      intro o ho1 ho2
      rw [hlen] at ho2
      exact f2 o ho2
    · intro o ho
      rw [f2 o (by omega), f1 o ho]

/-- The first `log_begin` of a fresh superblock takes log block 0 and writes its
header. -/
theorem log_begin_fresh (bs : Nat) (logmap : Nat → Nat → Nat) (bitmap : Nat → Bool) (n : Nat)
    (hn : 0 < n) :
    ∃ s, log_begin (fresh_sb bs logmap bitmap) n = some s ∧ log_open s 0 sizeof_logblock ∧
      s.lognext = 1 ∧ s.blocksize = bs ∧ s.bitmap = bitmap := by
  have : (fresh_sb bs logmap bitmap).logpos + n > (fresh_sb bs logmap bitmap).logtop := by
    simp only [fresh_sb]; omega
  refine ⟨store_byte (store_byte (store_byte (store_byte (log_next (fresh_sb bs logmap bitmap))
      0 0 0xc0) 0 1 0xde) 0 2 0) 0 3 0, ?_, ⟨rfl, rfl, rfl, rfl⟩, rfl, rfl, rfl⟩
  simp only [log_begin, this, if_true, store_byte_logblk]
  rfl

/-- A non-empty run of calls that fits in one block, from a fresh superblock. -/
theorem log_ops_fresh (t : logtags) (bs : Nat) (logmap : Nat → Nat → Nat)
    (bitmap : Nat → Bool) (ops : List log_op) (hne : ops ≠ [])
    (hfit : sizeof_logblock + ops_bytes ops ≤ bs) :
    ∃ s', log_ops t (fresh_sb bs logmap bitmap) ops = some s' ∧
      log_open s' 0 (sizeof_logblock + ops_bytes ops) ∧
      holds_bytes (s'.logmap 0) sizeof_logblock (ops_record t ops) ∧
      s'.lognext = 1 ∧ s'.blocksize = bs ∧ s'.bitmap = bitmap := by
  cases ops with
  | nil => exact absurd rfl hne
  | cons op rest =>
    obtain ⟨s0, e0, o0, n0, z0, m0⟩ := log_begin_fresh bs logmap bitmap (op_bytes op)
      (by cases op <;> simp [op_bytes])
    have hsame : log_ops t (fresh_sb bs logmap bitmap) (op :: rest) =
        log_ops t s0 (op :: rest) := by
      have hroom : sizeof_logblock + op_bytes op ≤ s0.blocksize := by
        rw [z0]; simp only [ops_bytes] at hfit; omega
      have e1 := log_begin_room o0 hroom
      cases op with
      | alloc block count alloc =>
        simp only [op_bytes] at e0 e1
        simp only [log_ops, log_alloc, e0, e1]
      | update child parent key =>
        simp only [op_bytes] at e0 e1
        simp only [log_ops, log_update, e0, e1]
    obtain ⟨s', e, o, b, -, n, z, m⟩ := log_ops_write t (op :: rest) o0 (by rw [z0]; exact hfit)
    exact ⟨s', by rw [hsame, e], o, b, by rw [n, n0], by rw [z, z0], by rw [m, m0]⟩

@[simp] theorem set_logbuf_logmap (s : sb) (b : Option Nat) :
    (set_logbuf s b).logmap = s.logmap := rfl
@[simp] theorem set_logbuf_lognext (s : sb) (b : Option Nat) :
    (set_logbuf s b).lognext = s.lognext := rfl
@[simp] theorem set_logbuf_bitmap (s : sb) (b : Option Nat) :
    (set_logbuf s b).bitmap = s.bitmap := rfl
@[simp] theorem zero_bytes_lognext (s : sb) (blk off n : Nat) :
    (zero_bytes s blk off n).lognext = s.lognext := rfl
@[simp] theorem zero_bytes_bitmap (s : sb) (blk off n : Nat) :
    (zero_bytes s blk off n).bitmap = s.bitmap := rfl
theorem zero_bytes_logmap (s : sb) (blk off n b o : Nat) :
    (zero_bytes s blk off n).logmap b o =
      if b = blk ∧ off ≤ o ∧ o < off + n then 0 else s.logmap b o := rfl

/-- `log_finish` on an open block: the header holds the bytes written, the
records stay, the tail is zero. -/
theorem log_finish_open {s : sb} {blk pos : Nat} (h : log_open s blk pos)
    (h4 : sizeof_logblock ≤ pos) (hle : pos ≤ s.blocksize) (hsz : s.blocksize ≤ 65536) :
    ∃ s2, log_finish s = some s2 ∧
      s2.logmap blk 2 * 256 + s2.logmap blk 3 = pos - sizeof_logblock ∧
      (∀ o, sizeof_logblock ≤ o → o < pos → s2.logmap blk o = s.logmap blk o) ∧
      (∀ o, pos ≤ o → o < s.blocksize → s2.logmap blk o = 0) ∧
      s2.lognext = s.lognext ∧ s2.bitmap = s.bitmap ∧ s2.logbuf = none := by
  obtain ⟨h1, h2, h3, h5⟩ := h
  have hge : s.logtop ≥ s.logpos := by rw [h3, h5]; exact hle
  unfold sizeof_logblock at h4
  refine ⟨set_logbuf (zero_bytes (store_byte (store_byte s blk 2
      ((pos - sizeof_logblock) % 65536 / 256)) blk 3 ((pos - sizeof_logblock) % 65536)) blk pos
      (s.blocksize - pos)) none, ?_, ?_, ?_, ?_, ?_, ?_, rfl⟩
  · have hle' : s.blocksize ≥ pos := hle
    simp only [log_finish, h1, store_byte_logblk, store_byte_logpos,
      store_byte_logtop, h2, h3, h5, hle', not_true_eq_false, if_false]
  · rw [set_logbuf_logmap, zero_bytes_logmap, zero_bytes_logmap,
      if_neg (by omega), if_neg (by omega), store_byte_frame _ _ _ _ _ (by omega),
      store_byte_at, store_byte_at]
    unfold sizeof_logblock
    omega
  · intro o ho1 ho2
    unfold sizeof_logblock at ho1
    rw [set_logbuf_logmap, zero_bytes_logmap, if_neg (by omega),
      store_byte_frame _ _ _ _ _ (by omega), store_byte_frame _ _ _ _ _ (by omega)]
  · intro o ho1 ho2
    rw [set_logbuf_logmap, zero_bytes_logmap, if_pos ⟨rfl, by omega, by omega⟩]
  · rw [set_logbuf_lognext, zero_bytes_lognext, store_byte_lognext, store_byte_lognext]
  · rw [set_logbuf_bitmap, zero_bytes_bitmap, store_byte_bitmap, store_byte_bitmap]

theorem holds_bytes_get {mem : Nat → Nat} {off : Nat} {l : List Nat} (h : holds_bytes mem off l)
    (i v : Nat) (hv : l[i]? = some v) : mem (off + i) = v := by
  have hi : i < l.length := by
    by_contra hc
    rw [List.getElem?_eq_none (by omega)] at hv
    cases hv
  have := h i hi
  rw [hv] at this
  exact (Option.some.inj this).symm

theorem decode48_holds {mem : Nat → Nat} {off v : Nat} (h : holds_bytes mem off (enc48 v)) :
    decode48 mem off = v % 2 ^ 48 :=
  decode48_bytes mem off v (holds_bytes_get h 0 (v / 2 ^ 40 % 256) rfl)
    (holds_bytes_get h 1 (v / 2 ^ 32 % 256) rfl) (holds_bytes_get h 2 (v / 2 ^ 24 % 256) rfl)
    (holds_bytes_get h 3 (v / 2 ^ 16 % 256) rfl) (holds_bytes_get h 4 (v / 2 ^ 8 % 256) rfl)
    (holds_bytes_get h 5 (v % 256) rfl)

theorem ops_length_le (ops : List log_op) : ops.length ≤ ops_bytes ops := by
  induction ops with
  | nil => exact Nat.le_refl _
  | cons op rest ih => cases op <;> simp only [List.length_cons, ops_bytes, op_bytes] <;> omega

/-- The record loop over the records of a run of calls yields the events of the
calls, in order, and stops right behind the last record. -/
theorem replay_records_ops (t : logtags) (ht : t.ok) (mem : Nat → Nat) (ops : List log_op) :
    ∀ (fuel data : Nat) (bitmap : Nat → Bool),
      holds_bytes mem data (ops_record t ops) → ops.length ≤ fuel →
      replay_records t mem (data + ops_bytes ops) fuel data bitmap =
        some (apply_events (ops.map op_event) bitmap, ops.map op_event,
          data + ops_bytes ops) := by
  obtain ⟨t1, t2, t3, t4, t5, d1, d2, d3, d4, d5, d6, d7, d8, d9, d10⟩ := ht
  induction ops with
  | nil =>
    intro fuel data bitmap _ _
    have : ¬ (data < data + ops_bytes []) := by simp [ops_bytes]
    cases fuel <;> simp only [replay_records, this, if_false] <;> rfl
  | cons op rest ih =>
    intro fuel data bitmap hb hf
    obtain ⟨f, rfl⟩ : ∃ f, fuel = f + 1 := ⟨fuel - 1, by simp at hf; omega⟩
    simp only [ops_record] at hb
    obtain ⟨hb1, hb2⟩ := holds_bytes_append.1 hb
    have hlen : (op_record t op).length = op_bytes op := by
      have := ops_record_length t [op]
      simpa [ops_record, ops_bytes] using this
    rw [hlen] at hb2
    have hpos : 0 < op_bytes op := by cases op <;> simp [op_bytes]
    have hlt : data < data + ops_bytes (op :: rest) := by simp only [ops_bytes]; omega
    have hih := ih f (data + op_bytes op)
    cases op with
    | alloc block count alloc =>
      simp only [op_record] at hb1
      obtain ⟨hb3, hb4⟩ := holds_bytes_append.1 hb1
      simp only [List.length_cons, List.length_nil] at hb4
      have e0 := holds_bytes_get hb3 0 ((if alloc ≠ 0 then t.LOG_ALLOC else t.LOG_FREE) % 256) rfl
      have e1 := holds_bytes_get hb3 1 (count % 256) rfl
      have e2 := decode48_holds hb4
      simp only [Nat.add_zero] at e0
      have hcode : mem data = t.LOG_ALLOC ∨ mem data = t.LOG_FREE := by
        rw [e0]; split_ifs
        · left; omega
        · right; omega
      have hset : decide (mem data = t.LOG_ALLOC) = decide (alloc ≠ 0) := by
        rw [e0]
        by_cases ha : alloc ≠ 0
        · rw [if_pos ha, Nat.mod_eq_of_lt t1]; simp [ha]
        · rw [if_neg ha, Nat.mod_eq_of_lt t2]
          have : ¬ (t.LOG_FREE = t.LOG_ALLOC) := fun h => d1 h.symm
          simp [ha, this]
      simp only [op_bytes] at hih hb2
      have hrec := hih (update_bitmap bitmap (block % 2 ^ 48) (count % 256) (decide (alloc ≠ 0)))
        hb2 (by simp at hf; omega)
      have hstop : data + ops_bytes (log_op.alloc block count alloc :: rest) =
          data + 8 + ops_bytes rest := by simp only [ops_bytes, op_bytes]; omega
      rw [hstop] at hlt ⊢
      simp only [replay_records, hlt, if_true, hcode, hset, e1,
        show data + 1 + 1 = data + 2 by omega, e2, show data + 2 + 6 = data + 8 by omega, hrec]
      rfl
    | update child parent key =>
      simp only [op_record] at hb1
      obtain ⟨hb3, hb4⟩ := holds_bytes_append.1 hb1
      obtain ⟨hb5, hb6⟩ := holds_bytes_append.1 hb3
      obtain ⟨hb7, hb8⟩ := holds_bytes_append.1 hb5
      simp only [List.length_append, List.length_cons, List.length_nil, enc48_length] at hb4 hb6 hb8
      have e0 := holds_bytes_get hb7 0 (t.LOG_UPDATE % 256) rfl
      simp only [Nat.add_zero] at e0
      rw [Nat.mod_eq_of_lt t3] at e0
      have e1 := decode48_holds hb8
      have e2 := decode48_holds hb6
      have e3 := decode48_holds hb4
      have hcode : ¬ (t.LOG_UPDATE = t.LOG_ALLOC ∨ t.LOG_UPDATE = t.LOG_FREE) := by
        intro h
        rcases h with h | h
        · exact d2 h.symm
        · exact d5 h.symm
      simp only [op_bytes] at hih hb2
      have hrec := hih bitmap hb2 (by simp at hf; omega)
      have hstop : data + ops_bytes (log_op.update child parent key :: rest) =
          data + 19 + ops_bytes rest := by simp only [ops_bytes, op_bytes]; omega
      rw [hstop] at hlt ⊢
      simp only [Nat.zero_add] at e1 e2 e3
      simp only [replay_records, hlt, if_true, e0, hcode, if_false, e1,
        show data + 1 + 6 = data + (0 + 1 + 6) by omega, e2,
        show data + (0 + 1 + 6) + 6 = data + (0 + 1 + 6 + 6) by omega, e3,
        show data + (0 + 1 + 6 + 6) + 6 = data + 19 by omega, hrec]
      rfl

/-! ## The log and its replay -/

/-- C18: log record round trip.  For every non-empty run of `log_alloc` and
`log_update` calls that fits in one log block of a fresh superblock, followed
by `log_finish`, the header holds the bytes written and `replay` decodes
exactly the records written, in order, stopping right at `bytes`: one
`update_bitmap` call per `log_alloc` with (block mod 2^48, count mod 256, set
iff alloc != 0), and child, parent and key (mod 2^48) of every `log_update`. -/
theorem log_round_trip (t : logtags) (ht : t.ok) (bs : Nat) (logmap : Nat → Nat → Nat)
    (bitmap : Nat → Bool) (ops : List log_op) (hne : ops ≠ []) (hbs : bs ≤ 65536)
    (hfit : sizeof_logblock + ops_bytes ops ≤ bs) :
    ∃ s1 s2 s3 s4, log_ops t (fresh_sb bs logmap bitmap) ops = some s1 ∧
      log_finish s1 = some s2 ∧
      s2.logmap 0 2 * 256 + s2.logmap 0 3 = ops_bytes ops ∧
      replay_block t { s2 with lognext := 0 } =
        some (s3, ops.map op_event, sizeof_logblock + ops_bytes ops) ∧
      replay t s2 = some (s4, ops.map op_event) ∧
      s4.bitmap = apply_events (ops.map op_event) bitmap := by
  obtain ⟨s1, e1, o1, b1, n1, z1, m1⟩ := log_ops_fresh t bs logmap bitmap ops hne hfit
  obtain ⟨s2, e2, hdr, keep, -, n2, m2, -⟩ := log_finish_open o1 (by omega)
    (by rw [z1]; exact hfit) (by rw [z1]; exact hbs)
  have hdr' : s2.logmap 0 2 * 256 + s2.logmap 0 3 = ops_bytes ops := by rw [hdr]; omega
  have hb2 : holds_bytes (s2.logmap 0) sizeof_logblock (ops_record t ops) := by
    refine holds_bytes_frame b1 ?_
    intro o h1 h2
    rw [ops_record_length] at h2
    exact keep o h1 h2
  have hrec := replay_records_ops t ht (s2.logmap 0) ops (ops_bytes ops) sizeof_logblock
    s2.bitmap hb2 (ops_length_le ops)
  have hblock : replay_block t { s2 with lognext := 0 } =
      some ({ (log_next { s2 with lognext := 0 }) with
          bitmap := apply_events (ops.map op_event) s2.bitmap },
        ops.map op_event, sizeof_logblock + ops_bytes ops) := by
    simp only [replay_block, log_next, hdr', hrec]
  refine ⟨s1, s2, _, { (log_next { s2 with lognext := 0 }) with
      bitmap := apply_events (ops.map op_event) s2.bitmap }, e1, e2, hdr', hblock, ?_, ?_⟩
  · have h01 : (0 : Nat) < 1 := by omega
    have h11 : ¬ ((0 : Nat) + 1 < 1) := by omega
    simp only [replay, n2, n1, replay_blocks, h01, if_true, hblock, log_next, h11, if_false,
      List.append_nil]
  · show apply_events (ops.map op_event) s2.bitmap = apply_events (ops.map op_event) bitmap
    rw [m2, m1]

theorem log_round_trip_witness :
    ∃ s1 s2 s3 s4, log_ops ex_tags (fresh_sb 256 (fun _ _ => 0) (fun _ => false)) ex_ops = some s1 ∧
      log_finish s1 = some s2 ∧
      s2.logmap 0 2 * 256 + s2.logmap 0 3 = ops_bytes ex_ops ∧
      replay_block ex_tags { s2 with lognext := 0 } =
        some (s3, ex_ops.map op_event, sizeof_logblock + ops_bytes ex_ops) ∧
      replay ex_tags s2 = some (s4, ex_ops.map op_event) ∧
      s4.bitmap = apply_events (ex_ops.map op_event) (fun _ => false) :=
  log_round_trip ex_tags (by unfold logtags.ok; decide) 256 (fun _ _ => 0) (fun _ => false)
    ex_ops (by decide) (by decide) (by decide)

/-- C19, evaluated where it fails: an `IROOT` record written by `log_iroot`
followed by the `ALLOC` record of `log_alloc(9, 6, 1)`.  `replay` has no case for
`LOG_IROOT`, its `default` consumes the tag byte only, the body bytes are read as
opcodes, and what is applied is not the `ALLOC` of (9, 6) but two records made
of body bytes. -/
theorem replay_iroot_misparse :
    ((((log_iroot ex_tags (fresh_sb 256 (fun _ _ => 0) (fun _ => false)) 0x111111111111 2).bind
        (fun s => log_alloc ex_tags s 9 6 1)).bind log_finish).bind
        (fun s => (replay ex_tags s).map Prod.snd)) =
      some [replay_event.bitmap 131078 0 true, replay_event.bitmap 589824 0 true] := by
  decide

/-- C20: replay idempotence.  For every log and every starting bitmap `replay`
returns, and running it a second time decodes the same records and leaves the
bitmap the first run left. -/
theorem replay_twice (t : logtags) (s : sb) :
    ∃ s1 events, replay t s = some (s1, events) ∧
      ∃ s2, replay t s1 = some (s2, events) ∧ s2.bitmap = s1.bitmap := by
  obtain ⟨ev, h⟩ := replay_blocks_spec t s.lognext s.lognext { s with lognext := 0 }
    (by show s.lognext ≤ 0 + s.lognext; omega)
  obtain ⟨s1, e1, b1, m1, n1⟩ := h { s with lognext := 0 } rfl rfl
  have hn1 : s1.lognext = s.lognext := by
    rw [n1]; show max 0 s.lognext = s.lognext; omega
  obtain ⟨s2, e2, b2, m2, n2⟩ := h { s1 with lognext := 0 } (by rw [show
    ({ s1 with lognext := 0 } : sb).logmap = s1.logmap from rfl, m1]) rfl
  refine ⟨s1, ev, e1, s2, ?_, ?_⟩
  · simp only [replay, hn1]
    exact e2
  · rw [b2]
    show apply_events ev s1.bitmap = s1.bitmap
    rw [b1]
    exact apply_events_twice ev _

/-! ## Room for the record writers -/

theorem store_byte_out (s : sb) (blk off v b o : Nat) (h : ¬ (b = blk ∧ o = off)) :
    (store_byte s blk off v).logmap b o = s.logmap b o := by
  rw [store_byte_logmap, if_neg h]

theorem encode48_out (s : sb) (blk off v b o : Nat)
    (h : ¬ (b = blk ∧ off ≤ o ∧ o < off + 6)) :
    (encode48 s blk off v).logmap b o = s.logmap b o := by
  by_cases hb : b = blk
  · subst hb
    exact encode48_frame s b off v o (by omega)
  · exact encode48_logmap_other s blk off v b o hb

/-- With `logpos` at or below `logtop`, `log_begin` returns, and with the room
asked for when the request fits a block. -/
theorem log_begin_spec (s : sb) (n : Nat) (hinv : s.logpos ≤ s.logtop)
    (hn : n + sizeof_logblock ≤ s.blocksize) :
    ∃ s', log_begin s n = some s' ∧ s'.logpos + n ≤ s'.logtop ∧
      s'.blocksize = s.blocksize := by
  by_cases hroom : s.logpos + n > s.logtop
  · cases hb : s.logbuf with
    | none =>
      refine ⟨store_byte (store_byte (store_byte (store_byte (log_next s) s.lognext 0 0xc0)
        s.lognext 1 0xde) s.lognext 2 0) s.lognext 3 0, ?_, ?_, rfl⟩
      · simp only [log_begin, hroom, if_true, hb]
        rfl
      · show sizeof_logblock + n ≤ s.blocksize
        omega
    | some blk =>
      have hge : s.logtop ≥ s.logpos := hinv
      refine ⟨store_byte (store_byte (store_byte (store_byte (log_next
        (set_logbuf (zero_bytes (store_byte (store_byte s blk 2
          ((s.logpos - sizeof_logblock) % 65536 / 256)) blk 3
          ((s.logpos - sizeof_logblock) % 65536)) s.logblk s.logpos (s.logtop - s.logpos)) none))
        s.lognext 0 0xc0) s.lognext 1 0xde) s.lognext 2 0) s.lognext 3 0, ?_, ?_, rfl⟩
      · simp only [log_begin, hroom, if_true, hb, log_finish, hge, not_true_eq_false, if_false]
        rfl
      · show sizeof_logblock + n ≤ s.blocksize
        omega
  · refine ⟨s, ?_, by omega, rfl⟩
    simp only [log_begin, hroom, if_false]

/-- The `log_finish` of a state with a log buffer and `logpos` at or below
`logtop` returns, and moves neither. -/
theorem log_finish_total (s : sb) (blk : Nat) (hb : s.logbuf = some blk)
    (hinv : s.logpos ≤ s.logtop) :
    ∃ s', log_finish s = some s' ∧ s'.logpos = s.logpos ∧ s'.logtop = s.logtop ∧
      s'.blocksize = s.blocksize ∧ s'.logbuf = none := by
  have hge : s.logtop ≥ s.logpos := hinv
  refine ⟨set_logbuf (zero_bytes (store_byte (store_byte s blk 2
      ((s.logpos - sizeof_logblock) % 65536 / 256)) blk 3
      ((s.logpos - sizeof_logblock) % 65536)) s.logblk s.logpos (s.logtop - s.logpos)) none,
    ?_, rfl, rfl, rfl, rfl⟩
  simp only [log_finish, hb, hge, not_true_eq_false, if_false]
  rfl

theorem log_alloc_wrote (t : logtags) (s : sb) (block count alloc : Nat)
    (hinv : s.logpos ≤ s.logtop) (hbs : 8 + sizeof_logblock ≤ s.blocksize) :
    ∃ s0 s', log_begin s 8 = some s0 ∧ log_alloc t s block count alloc = some s' ∧
      s0.logpos + 8 ≤ s0.logtop ∧ s0.blocksize = s.blocksize ∧ wrote s0 s' 8 := by
  obtain ⟨s0, h0, hroom, hb0⟩ := log_begin_spec s 8 hinv hbs
  refine ⟨s0, set_logpos (encode48 (store_byte (store_byte s0 s0.logblk s0.logpos
      (if alloc ≠ 0 then t.LOG_ALLOC else t.LOG_FREE)) s0.logblk (s0.logpos + 1) count)
      s0.logblk (s0.logpos + 2) block) (s0.logpos + 2 + 6), h0, ?_, hroom, hb0,
      rfl, ?_, ?_, ?_, ?_⟩
  · simp only [log_alloc, h0, log_end, store_byte_logblk, encode48_logblk]
  · simp only [set_logpos_logtop, encode48_logtop, store_byte_logtop]
  · simp only [set_logpos_blocksize, encode48_blocksize, store_byte_blocksize]
  · simp only [set_logpos_logbuf, encode48_logbuf, store_byte_logbuf]
  · intro b o h
    rw [set_logpos_logmap, encode48_out _ _ _ _ _ _ (by omega),
      store_byte_out _ _ _ _ _ _ (by omega), store_byte_out _ _ _ _ _ _ (by omega)]

theorem log_update_wrote (t : logtags) (s : sb) (child parent key : Nat)
    (hinv : s.logpos ≤ s.logtop) (hbs : 19 + sizeof_logblock ≤ s.blocksize) :
    ∃ s0 s', log_begin s 19 = some s0 ∧ log_update t s child parent key = some s' ∧
      s0.logpos + 19 ≤ s0.logtop ∧ s0.blocksize = s.blocksize ∧ wrote s0 s' 19 := by
  obtain ⟨s0, h0, hroom, hb0⟩ := log_begin_spec s 19 hinv hbs
  refine ⟨s0, set_logpos (encode48 (encode48 (encode48 (store_byte s0 s0.logblk s0.logpos
      t.LOG_UPDATE) s0.logblk (s0.logpos + 1) child) s0.logblk (s0.logpos + 1 + 6) parent)
      s0.logblk (s0.logpos + 1 + 6 + 6) key) (s0.logpos + 1 + 6 + 6 + 6), h0, ?_, hroom, hb0,
      rfl, ?_, ?_, ?_, ?_⟩
  · simp only [log_update, h0, log_end, store_byte_logblk, encode48_logblk]
  · simp only [set_logpos_logtop, encode48_logtop, store_byte_logtop]
  · simp only [set_logpos_blocksize, encode48_blocksize, store_byte_blocksize]
  · simp only [set_logpos_logbuf, encode48_logbuf, store_byte_logbuf]
  · intro b o h
    rw [set_logpos_logmap, encode48_out _ _ _ _ _ _ (by omega),
      encode48_out _ _ _ _ _ _ (by omega), encode48_out _ _ _ _ _ _ (by omega),
      store_byte_out _ _ _ _ _ _ (by omega)]

theorem log_droot_wrote (t : logtags) (s : sb) (newroot oldroot key : Nat)
    (hinv : s.logpos ≤ s.logtop) (hbs : 19 + sizeof_logblock ≤ s.blocksize) :
    ∃ s0 s', log_begin s 19 = some s0 ∧ log_droot t s newroot oldroot key = some s' ∧
      s0.logpos + 19 ≤ s0.logtop ∧ s0.blocksize = s.blocksize ∧ wrote s0 s' 19 := by
  obtain ⟨s0, h0, hroom, hb0⟩ := log_begin_spec s 19 hinv hbs
  refine ⟨s0, set_logpos (encode48 (encode48 (encode48 (store_byte s0 s0.logblk s0.logpos
      t.LOG_IROOT) s0.logblk (s0.logpos + 1) newroot) s0.logblk (s0.logpos + 1 + 6) oldroot)
      s0.logblk (s0.logpos + 1 + 6 + 6) key) (s0.logpos + 1 + 6 + 6 + 6), h0, ?_, hroom, hb0,
      rfl, ?_, ?_, ?_, ?_⟩
  · simp only [log_droot, h0, log_end, store_byte_logblk, encode48_logblk]
  · simp only [set_logpos_logtop, encode48_logtop, store_byte_logtop]
  · simp only [set_logpos_blocksize, encode48_blocksize, store_byte_blocksize]
  · simp only [set_logpos_logbuf, encode48_logbuf, store_byte_logbuf]
  · intro b o h
    rw [set_logpos_logmap, encode48_out _ _ _ _ _ _ (by omega),
      encode48_out _ _ _ _ _ _ (by omega), encode48_out _ _ _ _ _ _ (by omega),
      store_byte_out _ _ _ _ _ _ (by omega)]

theorem log_iroot_wrote (t : logtags) (s : sb) (newroot oldroot : Nat)
    (hinv : s.logpos ≤ s.logtop) (hbs : 19 + sizeof_logblock ≤ s.blocksize) :
    ∃ s0 s', log_begin s 19 = some s0 ∧ log_iroot t s newroot oldroot = some s' ∧
      s0.logpos + 19 ≤ s0.logtop ∧ s0.blocksize = s.blocksize ∧ wrote s0 s' 13 := by
  obtain ⟨s0, h0, hroom, hb0⟩ := log_begin_spec s 19 hinv hbs
  refine ⟨s0, set_logpos (encode48 (encode48 (store_byte s0 s0.logblk s0.logpos
      t.LOG_IROOT) s0.logblk (s0.logpos + 1) newroot) s0.logblk (s0.logpos + 1 + 6) oldroot)
      (s0.logpos + 1 + 6 + 6), h0, ?_, hroom, hb0, rfl, ?_, ?_, ?_, ?_⟩
  · simp only [log_iroot, h0, log_end, store_byte_logblk, encode48_logblk]
  · simp only [set_logpos_logtop, encode48_logtop, store_byte_logtop]
  · simp only [set_logpos_blocksize, encode48_blocksize, store_byte_blocksize]
  · simp only [set_logpos_logbuf, encode48_logbuf, store_byte_logbuf]
  · intro b o h
    rw [set_logpos_logmap, encode48_out _ _ _ _ _ _ (by omega),
      encode48_out _ _ _ _ _ _ (by omega), store_byte_out _ _ _ _ _ _ (by omega)]

theorem log_redirect_wrote (t : logtags) (s : sb) (newblock oldblock : Nat)
    (hinv : s.logpos ≤ s.logtop) (hbs : 19 + sizeof_logblock ≤ s.blocksize) :
    ∃ s0 s', log_begin s 19 = some s0 ∧ log_redirect t s newblock oldblock = some s' ∧
      s0.logpos + 19 ≤ s0.logtop ∧ s0.blocksize = s.blocksize ∧ wrote s0 s' 13 := by
  obtain ⟨s0, h0, hroom, hb0⟩ := log_begin_spec s 19 hinv hbs
  refine ⟨s0, set_logpos (encode48 (encode48 (store_byte s0 s0.logblk s0.logpos
      t.LOG_REDIRECT) s0.logblk (s0.logpos + 1) newblock) s0.logblk (s0.logpos + 1 + 6) oldblock)
      (s0.logpos + 1 + 6 + 6), h0, ?_, hroom, hb0, rfl, ?_, ?_, ?_, ?_⟩
  · simp only [log_redirect, h0, log_end, store_byte_logblk, encode48_logblk]
  · simp only [set_logpos_logtop, encode48_logtop, store_byte_logtop]
  · simp only [set_logpos_blocksize, encode48_blocksize, store_byte_blocksize]
  · simp only [set_logpos_logbuf, encode48_logbuf, store_byte_logbuf]
  · intro b o h
    rw [set_logpos_logmap, encode48_out _ _ _ _ _ _ (by omega),
      encode48_out _ _ _ _ _ _ (by omega), store_byte_out _ _ _ _ _ _ (by omega)]

/-- Every record writer returns and writes the bytes of its record, no more than
it asked `log_begin` for. -/
theorem log_write_wrote (t : logtags) (s : sb) (c : log_call)
    (hinv : s.logpos ≤ s.logtop) (hbs : 19 + sizeof_logblock ≤ s.blocksize) :
    ∃ s0 s', log_begin s (call_reserve c) = some s0 ∧ log_write t s c = some s' ∧
      s0.logpos + call_reserve c ≤ s0.logtop ∧ s0.blocksize = s.blocksize ∧
      wrote s0 s' (call_bytes c) ∧ call_bytes c ≤ call_reserve c := by
  cases c with
  | alloc block count alloc =>
    obtain ⟨s0, s', h1, h2, h3, h4, h5⟩ := log_alloc_wrote t s block count alloc hinv (by omega)
    exact ⟨s0, s', h1, h2, h3, h4, h5, by simp [call_bytes, call_reserve]⟩
  | update child parent key =>
    obtain ⟨s0, s', h1, h2, h3, h4, h5⟩ := log_update_wrote t s child parent key hinv hbs
    exact ⟨s0, s', h1, h2, h3, h4, h5, by simp [call_bytes, call_reserve]⟩
  | droot newroot oldroot key =>
    obtain ⟨s0, s', h1, h2, h3, h4, h5⟩ := log_droot_wrote t s newroot oldroot key hinv hbs
    exact ⟨s0, s', h1, h2, h3, h4, h5, by simp [call_bytes, call_reserve]⟩
  | iroot newroot oldroot =>
    obtain ⟨s0, s', h1, h2, h3, h4, h5⟩ := log_iroot_wrote t s newroot oldroot hinv hbs
    exact ⟨s0, s', h1, h2, h3, h4, h5, by simp [call_bytes, call_reserve]⟩
  | redirect newblock oldblock =>
    obtain ⟨s0, s', h1, h2, h3, h4, h5⟩ := log_redirect_wrote t s newblock oldblock hinv hbs
    exact ⟨s0, s', h1, h2, h3, h4, h5, by simp [call_bytes, call_reserve]⟩

/-- A run of record writers returns, with `logpos` at or below `logtop`. -/
theorem log_writes_spec (t : logtags) (calls : List log_call) :
    ∀ s : sb, s.logpos ≤ s.logtop → 19 + sizeof_logblock ≤ s.blocksize →
      ∃ s', log_writes t s calls = some s' ∧ s'.logpos ≤ s'.logtop ∧
        s'.blocksize = s.blocksize := by
  induction calls with
  | nil => intro s hinv _; exact ⟨s, rfl, hinv, rfl⟩
  | cons c rest ih =>
    intro s hinv hbs
    obtain ⟨s0, s1, h1, h2, h3, h4, ⟨w1, w2, w3, _⟩, hle⟩ := log_write_wrote t s c hinv hbs
    obtain ⟨s', e1, e2, e3⟩ := ih s1 (by omega) (by omega)
    refine ⟨s', ?_, e2, by omega⟩
    simp only [log_writes, h2, e1]

/-! ## Finishing a log block -/

/-- C21: `log_finish` on an open log block, `logpos` between the header and
`logtop`, the end of a block of at most 64 KiB.  It returns; bytes 2 and 3 of
the header hold `logpos - log->data` big-endian, every byte from `logpos` to the
end of the block is zero, the payload before `logpos` is as it was, and `logbuf`
is `NULL`. -/
theorem log_finish_header {s : sb} {blk pos : Nat} (h : log_open s blk pos)
    (h4 : sizeof_logblock ≤ pos) (hle : pos ≤ s.blocksize) (hsz : s.blocksize ≤ 65536) :
    ∃ s', log_finish s = some s' ∧
      s'.logmap blk 2 = (pos - sizeof_logblock) / 256 ∧
      s'.logmap blk 3 = (pos - sizeof_logblock) % 256 ∧
      s'.logmap blk 2 * 256 + s'.logmap blk 3 = pos - sizeof_logblock ∧
      (∀ o, pos ≤ o → o < s.blocksize → s'.logmap blk o = 0) ∧
      (∀ o, sizeof_logblock ≤ o → o < pos → s'.logmap blk o = s.logmap blk o) ∧
      s'.logbuf = none := by
  obtain ⟨h1, h2, h3, h5⟩ := h
  have hge : s.logtop ≥ s.logpos := by rw [h3, h5]; exact hle
  unfold sizeof_logblock at h4
  have hb2 : (set_logbuf (zero_bytes (store_byte (store_byte s blk 2
      ((pos - sizeof_logblock) % 65536 / 256)) blk 3 ((pos - sizeof_logblock) % 65536)) blk pos
      (s.blocksize - pos)) none).logmap blk 2 = (pos - sizeof_logblock) / 256 := by
    rw [set_logbuf_logmap, zero_bytes_logmap, if_neg (by omega),
      store_byte_frame _ _ _ _ _ (by omega), store_byte_at]
    unfold sizeof_logblock
    omega
  have hb3 : (set_logbuf (zero_bytes (store_byte (store_byte s blk 2
      ((pos - sizeof_logblock) % 65536 / 256)) blk 3 ((pos - sizeof_logblock) % 65536)) blk pos
      (s.blocksize - pos)) none).logmap blk 3 = (pos - sizeof_logblock) % 256 := by
    rw [set_logbuf_logmap, zero_bytes_logmap, if_neg (by omega), store_byte_at]
    unfold sizeof_logblock
    omega
  refine ⟨set_logbuf (zero_bytes (store_byte (store_byte s blk 2
      ((pos - sizeof_logblock) % 65536 / 256)) blk 3 ((pos - sizeof_logblock) % 65536)) blk pos
      (s.blocksize - pos)) none, ?_, hb2, hb3, ?_, ?_, ?_, rfl⟩
  · have hle' : s.blocksize ≥ pos := hle
    simp only [log_finish, h1, store_byte_logblk, store_byte_logpos,
      store_byte_logtop, h2, h3, h5, hle', not_true_eq_false, if_false]
  · rw [hb2, hb3]
    omega
  · intro o ho1 ho2
    rw [set_logbuf_logmap, zero_bytes_logmap, if_pos ⟨rfl, by omega, by omega⟩]
  · intro o ho1 ho2
    unfold sizeof_logblock at ho1
    rw [set_logbuf_logmap, zero_bytes_logmap, if_neg (by omega),
      store_byte_frame _ _ _ _ _ (by omega), store_byte_frame _ _ _ _ _ (by omega)]

theorem log_finish_header_witness :
    ∃ s', log_finish ex_open = some s' ∧
      s'.logmap 0 2 = (12 - sizeof_logblock) / 256 ∧
      s'.logmap 0 3 = (12 - sizeof_logblock) % 256 ∧
      s'.logmap 0 2 * 256 + s'.logmap 0 3 = 12 - sizeof_logblock ∧
      (∀ o, 12 ≤ o → o < ex_open.blocksize → s'.logmap 0 o = 0) ∧
      (∀ o, sizeof_logblock ≤ o → o < 12 → s'.logmap 0 o = ex_open.logmap 0 o) ∧
      s'.logbuf = none :=
  log_finish_header ⟨rfl, rfl, rfl, rfl⟩ (by decide) (by decide) (by decide)

/-- C22: room for the records.  In a state with `logpos` at or below `logtop`
and a block that holds the header and the largest request, 19 bytes:
`log_begin` returns for every request that fits a block, with that many bytes
between the position and `logtop`; each of the five writers returns, moves
`logpos` by the bytes of its record (8, 19, 19, 13, 13), changes no byte outside
them, and that is no more than it asked `log_begin` for; after every run of
writers `logpos` is at or below `logtop`, and `log_finish` then passes its
assertion and leaves it so. -/
theorem log_pos_le_top (t : logtags) (s : sb) (hinv : s.logpos ≤ s.logtop)
    (hbs : 19 + sizeof_logblock ≤ s.blocksize) :
    (∀ bytes, bytes + sizeof_logblock ≤ s.blocksize →
      ∃ s0, log_begin s bytes = some s0 ∧ s0.logpos + bytes ≤ s0.logtop) ∧
    (∀ c, ∃ s0 s', log_begin s (call_reserve c) = some s0 ∧ log_write t s c = some s' ∧
      wrote s0 s' (call_bytes c) ∧ call_bytes c ≤ call_reserve c ∧ s'.logpos ≤ s'.logtop) ∧
    (∀ calls, ∃ s', log_writes t s calls = some s' ∧ s'.logpos ≤ s'.logtop ∧
      ∀ blk, s'.logbuf = some blk →
        ∃ s'', log_finish s' = some s'' ∧ s''.logpos ≤ s''.logtop ∧
          s''.blocksize = s.blocksize) := by
  refine ⟨?_, ?_, ?_⟩
  · intro bytes hb
    obtain ⟨s0, h0, hroom, _⟩ := log_begin_spec s bytes hinv hb
    exact ⟨s0, h0, hroom⟩
  · intro c
    obtain ⟨s0, s', h1, h2, h3, h4, hw, hle⟩ := log_write_wrote t s c hinv hbs
    refine ⟨s0, s', h1, h2, hw, hle, ?_⟩
    obtain ⟨w1, w2, _⟩ := hw
    omega
  · intro calls
    obtain ⟨s', e1, e2, e3⟩ := log_writes_spec t calls s hinv hbs
    refine ⟨s', e1, e2, ?_⟩
    intro blk hblk
    obtain ⟨s'', f1, f2, f3, f4, _⟩ := log_finish_total s' blk hblk e2
    exact ⟨s'', f1, by omega, by omega⟩

theorem log_pos_le_top_witness :
    (∀ bytes, bytes + sizeof_logblock ≤ ex_open.blocksize →
      ∃ s0, log_begin ex_open bytes = some s0 ∧ s0.logpos + bytes ≤ s0.logtop) ∧
    (∀ c, ∃ s0 s', log_begin ex_open (call_reserve c) = some s0 ∧
      log_write ex_tags ex_open c = some s' ∧
      wrote s0 s' (call_bytes c) ∧ call_bytes c ≤ call_reserve c ∧ s'.logpos ≤ s'.logtop) ∧
    (∀ calls, ∃ s', log_writes ex_tags ex_open calls = some s' ∧ s'.logpos ≤ s'.logtop ∧
      ∀ blk, s'.logbuf = some blk →
        ∃ s'', log_finish s' = some s'' ∧ s''.logpos ≤ s''.logtop ∧
          s''.blocksize = ex_open.blocksize) :=
  log_pos_le_top ex_tags ex_open (by decide) (by decide)

/-- C23, evaluated where it fails: `log_alloc(9, 6, 1)` on a fresh superblock of
256-byte blocks, then `log_finish`, then `log_alloc(0x99, 3, 0)`.  The
`log_begin` after `log_finish` finds `logpos + 8 <= logtop`, takes no new block
(`lognext` stays 1, `logbuf` stays `NULL`) and returns offset 12 of the finished
block 0; the second record is written there, behind the 8 bytes the header
counts. -/
theorem log_begin_after_finish :
    (((log_alloc ex_tags (fresh_sb 256 (fun _ _ => 0) (fun _ => false)) 9 6 1).bind
        log_finish).bind (fun s => (log_begin s 8).map
          (fun s0 => (s0.logbuf, s0.logblk, s0.logpos, s0.lognext)))) =
      some (none, 0, 12, 1) ∧
    (((log_alloc ex_tags (fresh_sb 256 (fun _ _ => 0) (fun _ => false)) 9 6 1).bind
        log_finish).bind (fun s => (log_alloc ex_tags s 0x99 3 0).map
          (fun s' => (s'.logbuf, s'.logpos, s'.lognext, s'.logmap 0 2 * 256 + s'.logmap 0 3,
            (List.range 8).map (fun i => s'.logmap 0 (12 + i)))))) =
      some (none, 20, 1, 8, [1, 3, 0, 0, 0, 0, 0, 0x99]) := by
  decide

end Tuxlog

namespace Defree

/-! ## Retiring more than one page -/

set_option maxRecDepth 1000000

/-- C24, evaluated where it fails: 257 calls `defer_free(100 + i, 1)`, which
fill the first page (256 extents) and put one extent on a second, then
`retire_defree`.  Its inner loop runs to `defreepos`, a pointer into the newest
page, for every page.  With the second page below the first in memory only the
last pair is passed to `bfree` and the 256 pairs of the full page are dropped;
with the second page right above the first the last pair is passed to `bfree`
twice.  The 256 calls that fill one page are retired one `bfree` each. -/
theorem retire_defree_two_pages :
    deferred_then_retired [0x2000, 0x1000] (ex_extents 257) = some [(356, 1)] ∧
    deferred_then_retired [0x1000, 0x2000] (ex_extents 257) =
      some ((356, 1) :: ex_extents 257) ∧
    deferred_then_retired [0x1000] (ex_extents 256) = some (ex_extents 256) := by
  decide

end Defree

namespace Commit

/-! ## One call of `change_end` -/

theorem and_dirty_states (x : Nat) : x &&& (BUFFER_DIRTY_STATES - 1) = x % 4 :=
  Nat.and_pow_two_sub_one_eq_mod x 2

@[simp] theorem set_delta_delta (s : sb) (d : Nat) : (set_delta s d).delta = d := rfl
@[simp] theorem set_delta_crudehack (s : sb) (d : Nat) :
    (set_delta s d).crudehack = s.crudehack := rfl
@[simp] theorem set_delta_dev_bits (s : sb) (d : Nat) : (set_delta s d).dev_bits = s.dev_bits := rfl
@[simp] theorem set_delta_dev_fd (s : sb) (d : Nat) : (set_delta s d).dev_fd = s.dev_fd := rfl
@[simp] theorem set_delta_flushed (s : sb) (d : Nat) : (set_delta s d).flushed = s.flushed := rfl
@[simp] theorem set_delta_dirty (s : sb) (d : Nat) : (set_delta s d).dirty = s.dirty := rfl
@[simp] theorem set_delta_state (s : sb) (d : Nat) : (set_delta s d).state = s.state := rfl
@[simp] theorem set_delta_written (s : sb) (d : Nat) : (set_delta s d).written = s.written := rfl
@[simp] theorem set_crudehack_delta (s : sb) (v : Nat) : (set_crudehack s v).delta = s.delta := rfl
@[simp] theorem set_crudehack_crudehack (s : sb) (v : Nat) :
    (set_crudehack s v).crudehack = v := rfl
@[simp] theorem set_crudehack_dev_bits (s : sb) (v : Nat) :
    (set_crudehack s v).dev_bits = s.dev_bits := rfl
@[simp] theorem set_crudehack_dev_fd (s : sb) (v : Nat) :
    (set_crudehack s v).dev_fd = s.dev_fd := rfl
@[simp] theorem set_crudehack_flushed (s : sb) (v : Nat) :
    (set_crudehack s v).flushed = s.flushed := rfl
@[simp] theorem set_crudehack_dirty (s : sb) (v : Nat) :
    (set_crudehack s v).dirty = s.dirty := rfl
@[simp] theorem set_crudehack_state (s : sb) (v : Nat) :
    (set_crudehack s v).state = s.state := rfl
@[simp] theorem set_crudehack_written (s : sb) (v : Nat) :
    (set_crudehack s v).written = s.written := rfl
@[simp] theorem diskwrite_delta (s : sb) (b k : Nat) : (diskwrite s b k).delta = s.delta := rfl
@[simp] theorem diskwrite_crudehack (s : sb) (b k : Nat) :
    (diskwrite s b k).crudehack = s.crudehack := rfl
@[simp] theorem diskwrite_dev_bits (s : sb) (b k : Nat) :
    (diskwrite s b k).dev_bits = s.dev_bits := rfl
@[simp] theorem diskwrite_dev_fd (s : sb) (b k : Nat) : (diskwrite s b k).dev_fd = s.dev_fd := rfl
@[simp] theorem diskwrite_flushed (s : sb) (b k : Nat) :
    (diskwrite s b k).flushed = s.flushed := rfl
@[simp] theorem diskwrite_state (s : sb) (b k : Nat) : (diskwrite s b k).state = s.state := rfl
@[simp] theorem diskwrite_dirty (s : sb) (b k : Nat) : (diskwrite s b k).dirty = s.dirty := rfl
@[simp] theorem diskwrite_written (s : sb) (b k : Nat) :
    (diskwrite s b k).written = s.written ++ [(b, k)] := rfl
@[simp] theorem set_buffer_clean_delta (s : sb) (b : Nat) :
    (set_buffer_clean s b).delta = s.delta := rfl
@[simp] theorem set_buffer_clean_crudehack (s : sb) (b : Nat) :
    (set_buffer_clean s b).crudehack = s.crudehack := rfl
@[simp] theorem set_buffer_clean_dev_bits (s : sb) (b : Nat) :
    (set_buffer_clean s b).dev_bits = s.dev_bits := rfl
@[simp] theorem set_buffer_clean_dev_fd (s : sb) (b : Nat) :
    (set_buffer_clean s b).dev_fd = s.dev_fd := rfl
@[simp] theorem set_buffer_clean_flushed (s : sb) (b : Nat) :
    (set_buffer_clean s b).flushed = s.flushed := rfl
@[simp] theorem set_buffer_clean_written (s : sb) (b : Nat) :
    (set_buffer_clean s b).written = s.written := rfl
theorem set_buffer_clean_state (s : sb) (b c : Nat) :
    (set_buffer_clean s b).state c = if c = b then BUFFER_CLEAN else s.state c := rfl
@[simp] theorem flush_state_delta (s : sb) (v : Nat) : (flush_state s v).delta = s.delta := rfl
@[simp] theorem flush_state_crudehack (s : sb) (v : Nat) :
    (flush_state s v).crudehack = s.crudehack := rfl
@[simp] theorem flush_state_dev_bits (s : sb) (v : Nat) :
    (flush_state s v).dev_bits = s.dev_bits := rfl
@[simp] theorem flush_state_dev_fd (s : sb) (v : Nat) : (flush_state s v).dev_fd = s.dev_fd := rfl
@[simp] theorem flush_state_flushed (s : sb) (v : Nat) :
    (flush_state s v).flushed = s.flushed ++ [v] := rfl

/-- The fields `write_bitmap`, `stage_delta` and the work between two calls
of `change_end` leave alone. -/
theorem write_bitmap_total (e : env) (s : sb) (b : Nat)
    (hmap : ∀ b, (e.map_region b).1 < 0 ∨ (e.map_region b).1 = 1) :
    ∃ s' err, write_bitmap e s b = some (s', err) ∧ s'.delta = s.delta ∧
      s'.crudehack = s.crudehack ∧ s'.dev_bits = s.dev_bits ∧ s'.dev_fd = s.dev_fd ∧
      s'.flushed = s.flushed := by
  unfold write_bitmap
  rcases hmap b with h | h
  · exact ⟨s, (e.map_region b).1, by rw [if_pos h], rfl, rfl, rfl, rfl, rfl⟩
  · have h0 : ¬ ((e.map_region b).1 < 0) := by omega
    have h1 : ¬ ((e.map_region b).1 ≠ 1) := by omega
    simp only [h0, h1, if_false]
    split
    · exact ⟨s, _, rfl, rfl, rfl, rfl, rfl, rfl⟩
    · split
      · exact ⟨_, _, rfl, rfl, rfl, rfl, rfl, rfl⟩
      · exact ⟨_, _, rfl, rfl, rfl, rfl, rfl, rfl⟩

theorem stage_loop_total (e : env) (hmap : ∀ b, (e.map_region b).1 < 0 ∨ (e.map_region b).1 = 1)
    (l : List Nat) : ∀ s : sb,
    ∃ s' err, stage_loop e l s = some (s', err) ∧ s'.delta = s.delta ∧
      s'.crudehack = s.crudehack ∧ s'.dev_bits = s.dev_bits ∧ s'.dev_fd = s.dev_fd ∧
      s'.flushed = s.flushed := by
  induction l with
  | nil => intro s; exact ⟨s, 0, rfl, rfl, rfl, rfl, rfl, rfl⟩
  | cons b rest ih =>
    intro s
    obtain ⟨s1, err, h, h1, h2, h3, h4, h5⟩ := write_bitmap_total e s b hmap
    by_cases herr : err ≠ -EAGAIN
    · refine ⟨s1, err, ?_, h1, h2, h3, h4, h5⟩
      simp only [stage_loop, h]
      rw [if_pos herr]
    · obtain ⟨s2, err2, g, g1, g2, g3, g4, g5⟩ := ih s1
      refine ⟨s2, err2, ?_, by omega, by omega, by omega, by omega, by rw [g5, h5]⟩
      simp only [stage_loop, h]
      rw [if_neg herr, g]

theorem stage_delta_total (e : env)
    (hmap : ∀ b, (e.map_region b).1 < 0 ∨ (e.map_region b).1 = 1) (s : sb)
    (hdev : 8 ≤ s.dev_bits ∧ s.dev_fd ≠ 0) :
    ∃ s' err, stage_delta e s = some (s', err) ∧ s'.delta = s.delta ∧
      s'.crudehack = s.crudehack ∧ s'.dev_bits = s.dev_bits ∧ s'.dev_fd = s.dev_fd ∧
      s'.flushed = s.flushed := by
  obtain ⟨s', err, h, r⟩ := stage_loop_total e hmap s.dirty s
  refine ⟨s', err, ?_, r⟩
  have hd : s.dev_bits ≥ 8 ∧ s.dev_fd ≠ 0 := hdev
  unfold stage_delta
  rw [if_neg (not_not.2 hd), h]

/-- One `change_end`: it returns; `crudehack` is counted up; when the count is a
multiple of ten `delta` is counted up and `flush_state` is called with the tag of
the delta before, else neither happens. -/
theorem change_end_spec (e : env)
    (hmap : ∀ b, (e.map_region b).1 < 0 ∨ (e.map_region b).1 = 1) (s : sb)
    (hdev : 8 ≤ s.dev_bits ∧ s.dev_fd ≠ 0) :
    ∃ s', change_end e s = some s' ∧ s'.crudehack = (s.crudehack + 1) % 2 ^ 32 ∧
      s'.dev_bits = s.dev_bits ∧ s'.dev_fd = s.dev_fd ∧
      ((s.crudehack + 1) % 2 ^ 32 % 10 = 0 → s'.delta = (s.delta + 1) % 2 ^ 32 ∧
        s'.flushed = s.flushed ++ [(BUFFER_DIRTY +
          ((((s.delta + 1) % 2 ^ 32 + 2 ^ 32 - 1) % 2 ^ 32) &&& (BUFFER_DIRTY_STATES - 1)))
            % 2 ^ 32]) ∧
      (¬ (s.crudehack + 1) % 2 ^ 32 % 10 = 0 → s'.delta = s.delta ∧ s'.flushed = s.flushed) := by
  by_cases hc : (s.crudehack + 1) % 2 ^ 32 % 10 = 0
  · obtain ⟨s1, err, h, h1, h2, h3, h4, h5⟩ := stage_delta_total e hmap
      (set_delta (set_crudehack s ((s.crudehack + 1) % 2 ^ 32)) ((s.delta + 1) % 2 ^ 32)) hdev
    refine ⟨commit_delta s1, ?_, ?_, ?_, ?_, ?_, ?_⟩
    · simp only [change_end, need_delta, hc, decide_True, if_true, set_crudehack_delta, h]
    · simp only [commit_delta, flush_state_crudehack, h2, set_delta_crudehack,
        set_crudehack_crudehack]
    · simp only [commit_delta, flush_state_dev_bits, h3, set_delta_dev_bits,
        set_crudehack_dev_bits]
    · simp only [commit_delta, flush_state_dev_fd, h4, set_delta_dev_fd, set_crudehack_dev_fd]
    · intro _
      refine ⟨?_, ?_⟩
      · simp only [commit_delta, flush_state_delta, h1, set_delta_delta]
      · simp only [commit_delta, flush_state_flushed, h1, h5, set_delta_delta, set_delta_flushed,
          set_crudehack_flushed]
    · intro h; exact absurd hc h
  · refine ⟨set_crudehack s ((s.crudehack + 1) % 2 ^ 32), ?_, rfl, rfl, rfl, ?_, ?_⟩
    · simp only [change_end, need_delta, hc, decide_False, Bool.false_eq_true, if_false]
    · intro h; exact absurd h hc
    · intro _; exact ⟨rfl, rfl⟩

/-! ## The loop of `change_end` calls -/

theorem change_loop_succ (e : env) (work : Nat → sb → sb) (k : Nat) (s : sb) :
    change_loop e work (k + 1) s =
      (change_loop e work k s).bind (fun s1 => change_end e (work k s1)) := by
  show (match change_loop e work k s with
    | none => none
    | some s => change_end e (work k s)) = _
  cases change_loop e work k s <;> rfl

theorem and_three (x : Nat) : x &&& 3 = x % 4 :=
  Nat.and_pow_two_sub_one_eq_mod x 2

theorem delta_step_yes (d k : Nat) (hc : (k + 1) % 10 = 0) :
    ((d + k / 10) % 2 ^ 32 + 1) % 2 ^ 32 = (d + (k + 1) / 10) % 2 ^ 32 := by
  have h : (k + 1) / 10 = k / 10 + 1 := by omega
  rw [h]
  omega

theorem delta_step_no (d k : Nat) (hc : ¬ (k + 1) % 10 = 0) :
    (d + k / 10) % 2 ^ 32 = (d + (k + 1) / 10) % 2 ^ 32 := by
  have h : (k + 1) / 10 = k / 10 := by omega
  rw [h]

/-- After `k` calls from the start of the program, `k` below `2 ^ 32`: `crudehack`
is `k` and `delta` has been counted up once for every ten. -/
theorem change_loop_spec (e : env)
    (hmap : ∀ b, (e.map_region b).1 < 0 ∨ (e.map_region b).1 = 1) (work : Nat → sb → sb)
    (hwork : ∀ i s, (work i s).delta = s.delta ∧ (work i s).crudehack = s.crudehack ∧
      (work i s).dev_bits = s.dev_bits ∧ (work i s).dev_fd = s.dev_fd)
    (s : sb) (hdev : 8 ≤ s.dev_bits ∧ s.dev_fd ≠ 0) (hstart : s.crudehack = 0)
    (hd : s.delta < 2 ^ 32) (k : Nat) (hk : k < 2 ^ 32) :
    ∃ s', change_loop e work k s = some s' ∧ s'.crudehack = k ∧
      s'.delta = (s.delta + k / 10) % 2 ^ 32 ∧ s'.dev_bits = s.dev_bits ∧
      s'.dev_fd = s.dev_fd := by
  induction k with
  | zero =>
    refine ⟨s, rfl, hstart, ?_, rfl, rfl⟩
    omega
  | succ k ih =>
    obtain ⟨s1, e1, c1, d1, b1, f1⟩ := ih (by omega)
    obtain ⟨w1, w2, w3, w4⟩ := hwork k s1
    obtain ⟨s2, e2, c2, b2, f2, hyes, hno⟩ := change_end_spec e hmap (work k s1)
      (by rw [w3, w4, b1, f1]; exact hdev)
    refine ⟨s2, ?_, ?_, ?_, by omega, by omega⟩
    · rw [change_loop_succ, e1]
      exact e2
    · rw [c2, w2, c1]
      exact Nat.mod_eq_of_lt hk
    · have hk1 : (k + 1) % 2 ^ 32 = k + 1 := Nat.mod_eq_of_lt hk
      rw [w2, c1, hk1] at hyes hno
      by_cases hc : (k + 1) % 10 = 0
      · rw [(hyes hc).1, w1, d1]
        exact delta_step_yes s.delta k hc
      · rw [(hno hc).1, w1, d1]
        exact delta_step_no s.delta k hc

/-! ## Commits and the tags of the dirty ring -/

/-- C25: commit monotonicity.  From the start of the program (`crudehack` 0),
with one caller, a device that passes the assertion of `stage_delta` and a
`map_region` that maps or fails, for `k` below `2 ^ 32` iterations of the loop of
`main` whose work leaves `delta` alone: the loop returns with `delta` the
initial value plus `k / 10`, as an `unsigned`; each `change_end` in it leaves
`delta` as it was or counts it up by one, and counts it up exactly when the
number of the call is a multiple of ten. -/
theorem change_end_every_tenth (e : env)
    (hmap : ∀ b, (e.map_region b).1 < 0 ∨ (e.map_region b).1 = 1) (work : Nat → sb → sb)
    (hwork : ∀ i s, (work i s).delta = s.delta ∧ (work i s).crudehack = s.crudehack ∧
      (work i s).dev_bits = s.dev_bits ∧ (work i s).dev_fd = s.dev_fd)
    (s : sb) (hdev : 8 ≤ s.dev_bits ∧ s.dev_fd ≠ 0) (hstart : s.crudehack = 0)
    (hd : s.delta < 2 ^ 32) (k : Nat) (hk : k < 2 ^ 32) :
    ∃ s', change_loop e work k s = some s' ∧ s'.delta = (s.delta + k / 10) % 2 ^ 32 ∧
      ∀ i, i < k → ∃ s1 s2, change_loop e work i s = some s1 ∧
        change_end e (work i s1) = some s2 ∧
        (s2.delta = s1.delta ∨ s2.delta = (s1.delta + 1) % 2 ^ 32) ∧
        (s2.delta = (s1.delta + 1) % 2 ^ 32 ↔ (i + 1) % 10 = 0) := by
  obtain ⟨s', e1, c1, d1, b1, f1⟩ := change_loop_spec e hmap work hwork s hdev hstart hd k hk
  refine ⟨s', e1, d1, ?_⟩
  intro i hi
  obtain ⟨s1, g1, gc, gd, gb, gf⟩ :=
    change_loop_spec e hmap work hwork s hdev hstart hd i (by omega)
  obtain ⟨w1, w2, w3, w4⟩ := hwork i s1
  obtain ⟨s2, e2, c2, b2, f2, hyes, hno⟩ := change_end_spec e hmap (work i s1)
    (by rw [w3, w4, gb, gf]; exact hdev)
  have hi1 : (i + 1) % 2 ^ 32 = i + 1 := Nat.mod_eq_of_lt (by omega)
  rw [w2, gc, hi1, w1] at hyes hno
  have hlt : s1.delta < 2 ^ 32 := by rw [gd]; exact Nat.mod_lt _ (by norm_num)
  refine ⟨s1, s2, g1, e2, ?_, ?_⟩
  · by_cases hc : (i + 1) % 10 = 0
    · exact Or.inr (hyes hc).1
    · exact Or.inl (hno hc).1
  · constructor
    · intro h
      by_contra hc
      have h2 := (hno hc).1
      omega
    · intro hc
      exact (hyes hc).1

theorem change_end_every_tenth_witness :
    ∃ s', change_loop ex_env (fun _ s => s) 21 (ex_sb 7 0 (fun _ => 3) []) = some s' ∧
      s'.delta = ((ex_sb 7 0 (fun _ => 3) []).delta + 21 / 10) % 2 ^ 32 ∧
      ∀ i, i < 21 → ∃ s1 s2,
        change_loop ex_env (fun _ s => s) i (ex_sb 7 0 (fun _ => 3) []) = some s1 ∧
        change_end ex_env ((fun _ s => s) i s1) = some s2 ∧
        (s2.delta = s1.delta ∨ s2.delta = (s1.delta + 1) % 2 ^ 32) ∧
        (s2.delta = (s1.delta + 1) % 2 ^ 32 ↔ (i + 1) % 10 = 0) :=
  change_end_every_tenth ex_env (fun _ => Or.inr rfl) (fun _ s => s)
    (fun _ _ => ⟨rfl, rfl, rfl, rfl⟩) (ex_sb 7 0 (fun _ => 3) []) (by decide) rfl (by decide) 21
    (by decide)

/-- C25, where it fails: `crudehack` and `delta` are `unsigned`.  From the start
of the program with `delta` 0, call number `2 ^ 32` makes `crudehack` wrap to 0
and commits, six calls after the commit before it: `delta` is 429496730 and not
`2 ^ 32 / 10`.  And the commit at `delta = 2 ^ 32 - 1` leaves `delta` 0. -/
theorem change_loop_wraps :
    (∃ s', change_loop ex_env (fun _ s => s) (2 ^ 32) (ex_sb 0 0 (fun _ => 3) []) = some s' ∧
      s'.delta = 429496730 ∧ 2 ^ 32 / 10 = 429496729) ∧
    (change_end ex_env (ex_sb (2 ^ 32 - 1) 9 (fun _ => 3) [])).map (fun s => s.delta) =
      some 0 := by
  constructor
  · obtain ⟨s1, g1, gc, gd, gb, gf⟩ := change_loop_spec ex_env (fun _ => Or.inr rfl)
      (fun _ s => s) (fun _ _ => ⟨rfl, rfl, rfl, rfl⟩) (ex_sb 0 0 (fun _ => 3) [])
      (by decide) rfl (by decide) 4294967295 (by norm_num)
    obtain ⟨s2, e2, c2, b2, f2, hyes, hno⟩ := change_end_spec ex_env (fun _ => Or.inr rfl) s1
      (by rw [gb, gf]; decide)
    rw [gc] at hyes
    have h2 := (hyes (by norm_num)).1
    have hpow : (2 : Nat) ^ 32 = 4294967295 + 1 := by norm_num
    refine ⟨s2, ?_, ?_, by norm_num⟩
    · rw [hpow, change_loop_succ, g1]
      exact e2
    · rw [h2, gd]
      show ((0 + 4294967295 / 10) % 2 ^ 32 + 1) % 2 ^ 32 = 429496730
      norm_num
  · decide

/-- C26: the tag of the delta just closed.  For every value `d` of the `unsigned`
counter `delta`, the maximum included, a `change_end` that commits (the count of
`need_delta` reaches a multiple of ten) returns with `delta` counted up and has
called `flush_state` once, with `BUFFER_DIRTY + (d & 3)`; that is a dirty state,
and not `BUFFER_DIRTY + ((d + 1) & 3)`, the tag of the new `delta`. -/
theorem commit_delta_tag (e : env)
    (hmap : ∀ b, (e.map_region b).1 < 0 ∨ (e.map_region b).1 = 1) (s : sb)
    (hdev : 8 ≤ s.dev_bits ∧ s.dev_fd ≠ 0) (hd : s.delta < 2 ^ 32)
    (hneed : (s.crudehack + 1) % 2 ^ 32 % 10 = 0) :
    ∃ s', change_end e s = some s' ∧ s'.delta = (s.delta + 1) % 2 ^ 32 ∧
      s'.flushed = s.flushed ++ [BUFFER_DIRTY + (s.delta &&& 3)] ∧
      BUFFER_DIRTY ≤ BUFFER_DIRTY + (s.delta &&& 3) ∧
      BUFFER_DIRTY + (s.delta &&& 3) < BUFFER_STATES ∧
      BUFFER_DIRTY + (s.delta &&& 3) ≠ BUFFER_DIRTY + ((s.delta + 1) &&& 3) ∧
      BUFFER_DIRTY + (s'.delta &&& 3) = BUFFER_DIRTY + ((s.delta + 1) &&& 3) := by
  obtain ⟨s', e1, c1, b1, f1, hyes, hno⟩ := change_end_spec e hmap s hdev
  obtain ⟨hdelta, hflush⟩ := hyes hneed
  have hback : ((s.delta + 1) % 2 ^ 32 + 2 ^ 32 - 1) % 2 ^ 32 = s.delta := by omega
  refine ⟨s', e1, hdelta, ?_, ?_, ?_, ?_, ?_⟩
  · rw [hflush, hback, and_dirty_states, and_three]
    unfold BUFFER_DIRTY
    have h3 : (3 + s.delta % 4) % 2 ^ 32 = 3 + s.delta % 4 := by omega
    rw [h3]
  · omega
  · rw [and_three]
    unfold BUFFER_STATES BUFFER_DIRTY BUFFER_DIRTY_STATES
    omega
  · rw [and_three, and_three]
    omega
  · rw [hdelta, and_three, and_three]
    omega

theorem commit_delta_tag_witness :
    ∃ s', change_end ex_env (ex_sb (2 ^ 32 - 1) 9 (fun _ => 3) []) = some s' ∧
      s'.delta = ((ex_sb (2 ^ 32 - 1) 9 (fun _ => 3) []).delta + 1) % 2 ^ 32 ∧
      s'.flushed = (ex_sb (2 ^ 32 - 1) 9 (fun _ => 3) []).flushed ++
        [BUFFER_DIRTY + ((ex_sb (2 ^ 32 - 1) 9 (fun _ => 3) []).delta &&& 3)] ∧
      BUFFER_DIRTY ≤ BUFFER_DIRTY + ((ex_sb (2 ^ 32 - 1) 9 (fun _ => 3) []).delta &&& 3) ∧
      BUFFER_DIRTY + ((ex_sb (2 ^ 32 - 1) 9 (fun _ => 3) []).delta &&& 3) < BUFFER_STATES ∧
      BUFFER_DIRTY + ((ex_sb (2 ^ 32 - 1) 9 (fun _ => 3) []).delta &&& 3) ≠
        BUFFER_DIRTY + (((ex_sb (2 ^ 32 - 1) 9 (fun _ => 3) []).delta + 1) &&& 3) ∧
      BUFFER_DIRTY + (s'.delta &&& 3) =
        BUFFER_DIRTY + (((ex_sb (2 ^ 32 - 1) 9 (fun _ => 3) []).delta + 1) &&& 3) :=
  commit_delta_tag ex_env (fun _ => Or.inr rfl) (ex_sb (2 ^ 32 - 1) 9 (fun _ => 3) [])
    (by decide) (by decide) (by decide)

/-! ## Writing the bitmap buffers -/

/-- C27 (amended): `write_bitmap` on a buffer that `map_region` maps (it returns
1).  A buffer in state `BUFFER_DIRTY + (delta & 3)` gets `-EAGAIN` and the state is
as before: no `diskwrite`, no change of the buffer.  For a dirty buffer with
another tag `diskwrite` is called once, for that buffer, with `seg.block` as the
offset it is passed, and 0 is returned; when `diskwrite` returns 0 the buffer is
clean and off the dirty list, else it is as it was. -/
theorem write_bitmap_current (e : env) (s : sb) (b : Nat) (hmap : (e.map_region b).1 = 1) :
    (s.state b = BUFFER_DIRTY + (s.delta &&& 3) → write_bitmap e s b = some (s, -EAGAIN)) ∧
    (BUFFER_DIRTY ≤ s.state b → s.state b < BUFFER_STATES →
      s.state b ≠ BUFFER_DIRTY + (s.delta &&& 3) →
      ∃ s', write_bitmap e s b = some (s', 0) ∧
        s'.written = s.written ++ [(b, (e.map_region b).2)] ∧
        (e.diskwrite (e.map_region b).2 = 0 → s'.state b = BUFFER_CLEAN ∧ b ∉ s'.dirty) ∧
        (e.diskwrite (e.map_region b).2 ≠ 0 → s'.state = s.state ∧ s'.dirty = s.dirty)) := by
  have h0 : ¬ ((e.map_region b).1 < 0) := by omega
  have h1 : ¬ ((e.map_region b).1 ≠ 1) := by omega
  constructor
  · intro hst
    have hcur : (s.state b + 2 ^ 32 - BUFFER_DIRTY) % 2 ^ 32
        = s.delta &&& (BUFFER_DIRTY_STATES - 1) := by
      rw [hst, and_dirty_states, and_three]
      unfold BUFFER_DIRTY
      omega
    unfold write_bitmap
    simp only [h0, h1, if_false]
    rw [if_pos hcur]
  · intro hlo hhi hst
    have hcur : ¬ ((s.state b + 2 ^ 32 - BUFFER_DIRTY) % 2 ^ 32
        = s.delta &&& (BUFFER_DIRTY_STATES - 1)) := by
      rw [and_dirty_states]
      rw [and_three] at hst
      unfold BUFFER_STATES BUFFER_DIRTY BUFFER_DIRTY_STATES at hhi
      unfold BUFFER_DIRTY at hlo hst ⊢
      omega
    by_cases hw : e.diskwrite (e.map_region b).2 = 0
    · refine ⟨set_buffer_clean (diskwrite s b (e.map_region b).2) b, ?_, rfl, ?_, ?_⟩
      · unfold write_bitmap
        simp only [h0, h1, if_false]
        rw [if_neg hcur, if_pos hw]
      · intro _
        refine ⟨?_, ?_⟩
        · rw [set_buffer_clean_state, if_pos rfl]
        · show b ∉ (diskwrite s b (e.map_region b).2).dirty.filter (fun c => c ≠ b)
          simp
      · intro h; exact absurd hw h
    · refine ⟨diskwrite s b (e.map_region b).2, ?_, rfl, ?_, ?_⟩
      · unfold write_bitmap
        simp only [h0, h1, if_false]
        rw [if_neg hcur, if_neg hw]
      · intro h; exact absurd h hw
      · intro _; exact ⟨rfl, rfl⟩

theorem write_bitmap_current_witness :
    ((ex_sb 1 0 (fun b => if b = 0 then 4 else 3) [0, 1]).state 0 =
        BUFFER_DIRTY + ((ex_sb 1 0 (fun b => if b = 0 then 4 else 3) [0, 1]).delta &&& 3) →
      write_bitmap ex_env (ex_sb 1 0 (fun b => if b = 0 then 4 else 3) [0, 1]) 0 =
        some (ex_sb 1 0 (fun b => if b = 0 then 4 else 3) [0, 1], -EAGAIN)) ∧
    (BUFFER_DIRTY ≤ (ex_sb 1 0 (fun b => if b = 0 then 4 else 3) [0, 1]).state 0 →
      (ex_sb 1 0 (fun b => if b = 0 then 4 else 3) [0, 1]).state 0 < BUFFER_STATES →
      (ex_sb 1 0 (fun b => if b = 0 then 4 else 3) [0, 1]).state 0 ≠
        BUFFER_DIRTY + ((ex_sb 1 0 (fun b => if b = 0 then 4 else 3) [0, 1]).delta &&& 3) →
      ∃ s', write_bitmap ex_env (ex_sb 1 0 (fun b => if b = 0 then 4 else 3) [0, 1]) 0 =
          some (s', 0) ∧
        s'.written = (ex_sb 1 0 (fun b => if b = 0 then 4 else 3) [0, 1]).written ++
          [(0, (ex_env.map_region 0).2)] ∧
        (ex_env.diskwrite (ex_env.map_region 0).2 = 0 →
          s'.state 0 = BUFFER_CLEAN ∧ 0 ∉ s'.dirty) ∧
        (ex_env.diskwrite (ex_env.map_region 0).2 ≠ 0 →
          s'.state = (ex_sb 1 0 (fun b => if b = 0 then 4 else 3) [0, 1]).state ∧
          s'.dirty = (ex_sb 1 0 (fun b => if b = 0 then 4 else 3) [0, 1]).dirty)) :=
  write_bitmap_current ex_env (ex_sb 1 0 (fun b => if b = 0 then 4 else 3) [0, 1]) 0 rfl

/-- C27, where it fails: the buffer has the tag of the current delta,
`BUFFER_DIRTY + (1 & 3)`, and `map_region` fails with -5.  `write_bitmap` returns
at its first test, with -5 and not `-EAGAIN`. -/
theorem write_bitmap_map_error :
    (ex_sb 1 0 (fun _ => 4) [0]).state 0 =
      BUFFER_DIRTY + ((ex_sb 1 0 (fun _ => 4) [0]).delta &&& 3) ∧
    (write_bitmap ex_env_nomap (ex_sb 1 0 (fun _ => 4) [0]) 0).map Prod.snd = some (-5) ∧
    -EAGAIN ≠ -5 := by
  decide

/-- The offset of the `diskwrite` in `write_bitmap` is the number of the block:
with blocks of 256 bytes and buffer 0 mapped to block 100 the call is made with
offset 100, where the byte offset of block 100 is 25600. -/
theorem write_bitmap_offset_is_block :
    (write_bitmap ex_env (ex_sb 1 0 (fun _ => 3) [0]) 0).map (fun r => r.1.written)
      = some [(0, 100)] ∧
    (ex_env.map_region 0).2 = 100 ∧
    (ex_env.map_region 0).2 * (ex_sb 1 0 (fun _ => 3) [0]).blocksize = 25600 := by
  decide

/-- C28, evaluated where it fails: delta 1, so the current tag is
`BUFFER_DIRTY + 1`.  With the dirty list of buffers 0 and 1, both of tag 0,
`stage_delta` writes buffer 0, gets 0 from `write_bitmap` and returns 0 at once:
buffer 1 is not written and stays dirty.  With buffer 5 of the current tag in
front, the loop does not stop there: `-EAGAIN` is the one value on which it goes
on, to write buffer 0 and return. -/
theorem stage_delta_one_write :
    (stage_delta ex_env (ex_sb 1 0 (fun _ => 3) [0, 1])).map
        (fun r => (r.2, r.1.written)) = some (0, [(0, 100)]) ∧
    (stage_delta ex_env (ex_sb 1 0 (fun _ => 3) [0, 1])).map
        (fun r => (r.1.dirty, r.1.state 0, r.1.state 1)) =
      some ([1], BUFFER_CLEAN, BUFFER_DIRTY) ∧
    (stage_delta ex_env (ex_sb 1 0 (fun b => if b = 5 then 4 else 3) [5, 0, 1])).map
        (fun r => (r.2, r.1.written)) = some (0, [(0, 100)]) ∧
    (stage_delta ex_env (ex_sb 1 0 (fun b => if b = 5 then 4 else 3) [5, 0, 1])).map
        (fun r => (r.1.dirty, r.1.state 0, r.1.state 1)) =
      some ([5, 1], BUFFER_CLEAN, BUFFER_DIRTY) := by
  decide

/-- C29, evaluated where it fails: the `diskwrite` of block 100, the block of
buffer 0, returns -5.  `write_bitmap` has called it, keeps the buffer dirty and
returns 0; `stage_delta` returns that 0 to its caller. -/
theorem write_bitmap_drops_error :
    ex_env_eio.diskwrite (ex_env_eio.map_region 0).2 = -5 ∧
    (write_bitmap ex_env_eio (ex_sb 1 0 (fun _ => 3) [0, 1]) 0).map
        (fun r => (r.2, r.1.written)) = some (0, [(0, 100)]) ∧
    (write_bitmap ex_env_eio (ex_sb 1 0 (fun _ => 3) [0, 1]) 0).map
        (fun r => (r.1.dirty, r.1.state 0)) = some ([0, 1], BUFFER_DIRTY) ∧
    (stage_delta ex_env_eio (ex_sb 1 0 (fun _ => 3) [0, 1])).map
        (fun r => (r.2, r.1.written)) = some (0, [(0, 100)]) := by
  decide

end Commit

namespace Iattr

/-! ## Big-endian stores and loads -/

theorem be_store_out (n : Nat) : ∀ (m : Nat → Nat) (a v x : Nat), x < a ∨ a + n ≤ x →
    be_store n m a v x = m x := by
  induction n with
  | zero => intro m a v x _; rfl
  | succ n ih =>
    intro m a v x h
    show (if x = a + n then v % 256 else be_store n m a (v / 256) x) = m x
    rw [if_neg (by omega)]
    exact ih m a (v / 256) x (by omega)

theorem be_load_congr (n : Nat) (m1 m2 : Nat → Nat) (a : Nat)
    (h : ∀ x, a ≤ x → x < a + n → m1 x = m2 x) : be_load n m1 a = be_load n m2 a := by
  induction n with
  | zero => rfl
  | succ n ih =>
    show be_load n m1 a * 256 + m1 (a + n) = be_load n m2 a * 256 + m2 (a + n)
    rw [ih (fun x h1 h2 => h x h1 (by omega)), h (a + n) (by omega) (by omega)]

theorem be_load_store (n : Nat) : ∀ (m : Nat → Nat) (a v : Nat),
    be_load n (be_store n m a v) a = v % 256 ^ n := by
  induction n with
  | zero => intro m a v; simp [be_load, Nat.mod_one]
  | succ n ih =>
    intro m a v
    show be_load n (be_store (n + 1) m a v) a * 256 + be_store (n + 1) m a v (a + n) = _
    have h1 : be_load n (be_store (n + 1) m a v) a = be_load n (be_store n m a (v / 256)) a := by
      apply be_load_congr
      intro x hx1 hx2
      show (if x = a + n then v % 256 else be_store n m a (v / 256) x) = _
      rw [if_neg (by omega)]
    have h2 : be_store (n + 1) m a v (a + n) = v % 256 := by
      show (if a + n = a + n then v % 256 else be_store n m a (v / 256) (a + n)) = _
      rw [if_pos rfl]
    rw [h1, h2, ih, pow_succ, Nat.mul_comm (256 ^ n) 256, Nat.mod_mul]
    ring

theorem be_load_other (n k : Nat) (m : Nat → Nat) (a b v : Nat) (h : a + n ≤ b ∨ b + k ≤ a) :
    be_load n (be_store k m b v) a = be_load n m a := by
  apply be_load_congr
  intro x hx1 hx2
  exact be_store_out k m b v x (by omega)

theorem be_load_add (a b : Nat) (m : Nat → Nat) (p : Nat) :
    be_load (a + b) m p = be_load a m p * 256 ^ b + be_load b m (p + a) := by
  induction b with
  | zero => simp [be_load]
  | succ b ih =>
    show be_load (a + b) m p * 256 + m (p + (a + b)) =
      be_load a m p * 256 ^ (b + 1) + (be_load b m (p + a) * 256 + m (p + a + b))
    rw [ih, pow_succ, Nat.add_assoc p a b]
    ring

theorem mask48 (v : Nat) : v &&& (0xffffffffffffffff >>> 16) = v % 2 ^ 48 :=
  Nat.and_pow_two_sub_one_eq_mod v 48

theorem mask12 (v : Nat) : v &&& 0xfff = v % 2 ^ 12 :=
  Nat.and_pow_two_sub_one_eq_mod v 12

theorem shl_or (a b n : Nat) (h : b < 2 ^ n) : (a <<< n) ||| b = a * 2 ^ n + b := by
  rw [Nat.shiftLeft_eq, Nat.mul_comm a (2 ^ n), ← Nat.mul_add_lt_is_or h]

theorem head_of_kind (kind : Nat) : (kind <<< 12) ||| 0 = kind * 2 ^ 12 := by
  rw [shl_or kind 0 12 (Nat.two_pow_pos 12), Nat.add_zero]

/-! ## One attribute -/

theorem msize_loads (mm m : Nat → Nat) (p mtime isize : Nat)
    (hok : mtime < 2 ^ 48 ∧ isize < 2 ^ 64)
    (hag : ∀ x, p ≤ x → x < p + 16 → mm x = (encode_msize 0 m p mtime isize).1 x) :
    be_load 2 mm p = MTIME_SIZE_ATTR * 2 ^ 12 ∧
    be_load 8 mm p = MTIME_SIZE_ATTR * 2 ^ 12 * 2 ^ 48 + mtime ∧
    be_load 8 mm (p + 8) = isize := by
  obtain ⟨M, hM⟩ : ∃ M, M = (encode_msize 0 m p mtime isize).1 := ⟨_, rfl⟩
  rw [← hM] at hag
  have hM' : M = be_store 8 (be_store 4 (be_store 2 (be_store 2 m p
      ((MTIME_SIZE_ATTR <<< 12) ||| 0)) (p + 2) (mtime >>> 32)) (p + 2 + 2) mtime)
      (p + 2 + 2 + 4) isize := hM
  have hA : be_load 2 M p = MTIME_SIZE_ATTR * 2 ^ 12 := by
    rw [hM', be_load_other 2 8 _ p _ _ (by omega), be_load_other 2 4 _ p _ _ (by omega),
      be_load_other 2 2 _ p _ _ (by omega), be_load_store, head_of_kind]
    unfold MTIME_SIZE_ATTR
    norm_num
  have hB : be_load 2 M (p + 2) = mtime / 2 ^ 32 := by
    rw [hM', be_load_other 2 8 _ (p + 2) _ _ (by omega),
      be_load_other 2 4 _ (p + 2) _ _ (by omega), be_load_store, Nat.shiftRight_eq_div_pow]
    omega
  have hC : be_load 4 M (p + 2 + 2) = mtime % 2 ^ 32 := by
    rw [hM', be_load_other 4 8 _ (p + 2 + 2) _ _ (by omega), be_load_store]
    norm_num
  have hD : be_load 8 M (p + 2 + 2 + 4) = isize := by
    rw [hM', be_load_store]
    omega
  have h6 : be_load 6 M (p + 2) = be_load 2 M (p + 2) * 256 ^ 4 + be_load 4 M (p + 2 + 2) :=
    be_load_add 2 4 M (p + 2)
  have h8 : be_load 8 M p = be_load 2 M p * 256 ^ 6 + be_load 6 M (p + 2) :=
    be_load_add 2 6 M p
  refine ⟨?_, ?_, ?_⟩
  · rw [be_load_congr 2 mm M p (fun x h1 h2 => hag x h1 (by omega)), hA]
  · rw [be_load_congr 8 mm M p (fun x h1 h2 => hag x h1 (by omega)), h8, h6, hA, hB, hC]
    unfold MTIME_SIZE_ATTR
    omega
  · rw [be_load_congr 8 mm M (p + 8) (fun x h1 h2 => hag x (by omega) (by omega))]
    have e : p + 8 = p + 2 + 2 + 4 := by omega
    rw [e, hD]

theorem step_msize (mm m : Nat → Nat) (p mtime isize limit fuel : Nat) (ia : iattrs)
    (hok : mtime < 2 ^ 48 ∧ isize < 2 ^ 64)
    (hag : ∀ x, p ≤ x → x < p + 16 → mm x = (encode_msize 0 m p mtime isize).1 x)
    (hlim : p + 16 ≤ limit) :
    decode_loop mm limit (fuel + 1) p ia =
      decode_loop mm limit fuel (p + 16) { ia with isize := isize, mtime := mtime } := by
  obtain ⟨l1, l2, l3⟩ := msize_loads mm m p mtime isize hok hag
  have hcond : p < limit - 1 := by omega
  have hver : (MTIME_SIZE_ATTR * 2 ^ 12) &&& 0xfff = 0 := by decide
  have hkind : (MTIME_SIZE_ATTR * 2 ^ 12) >>> 12 = MTIME_SIZE_ATTR := by decide
  have hm : (MTIME_SIZE_ATTR * 2 ^ 12 * 2 ^ 48 + mtime) % 2 ^ 48 = mtime := by
    unfold MTIME_SIZE_ATTR; omega
  have e1 : p + 2 - 2 = p := by omega
  have e2 : p + 8 + 8 = p + 16 := by omega
  simp only [decode_loop, hcond, if_true, decode_two, decode_eight, l1, hver, ne_eq,
    not_true_eq_false, if_false, hkind, e1, l2, l3, mask48, hm, e2]

theorem btree_loads (mm m : Nat → Nat) (p block depth : Nat)
    (hok : block < 2 ^ 48 ∧ depth < 2 ^ 16)
    (hag : ∀ x, p ≤ x → x < p + 10 → mm x = (encode_btree 0 m p block depth).1 x) :
    be_load 2 mm p = DATA_BTREE_ATTR * 2 ^ 12 ∧
    be_load 8 mm (p + 2) = depth * 2 ^ 48 + block := by
  obtain ⟨M, hM⟩ : ∃ M, M = (encode_btree 0 m p block depth).1 := ⟨_, rfl⟩
  rw [← hM] at hag
  have hM' : M = be_store 8 (be_store 2 m p ((DATA_BTREE_ATTR <<< 12) ||| 0)) (p + 2)
      ((depth <<< 48) ||| block) := hM
  have hA : be_load 2 M p = DATA_BTREE_ATTR * 2 ^ 12 := by
    rw [hM', be_load_other 2 8 _ p _ _ (by omega), be_load_store, head_of_kind]
    unfold DATA_BTREE_ATTR
    norm_num
  have hB : be_load 8 M (p + 2) = depth * 2 ^ 48 + block := by
    rw [hM', be_load_store, shl_or depth block 48 hok.1]
    omega
  refine ⟨?_, ?_⟩
  · rw [be_load_congr 2 mm M p (fun x h1 h2 => hag x h1 (by omega)), hA]
  · rw [be_load_congr 8 mm M (p + 2) (fun x h1 h2 => hag x (by omega) (by omega)), hB]

theorem step_btree (mm m : Nat → Nat) (p block depth limit fuel : Nat) (ia : iattrs)
    (hok : block < 2 ^ 48 ∧ depth < 2 ^ 16)
    (hag : ∀ x, p ≤ x → x < p + 10 → mm x = (encode_btree 0 m p block depth).1 x)
    (hlim : p + 10 ≤ limit) :
    decode_loop mm limit (fuel + 1) p ia =
      decode_loop mm limit fuel (p + 10)
        { ia with root_block := block, root_depth := depth } := by
  obtain ⟨l1, l2⟩ := btree_loads mm m p block depth hok hag
  have hcond : p < limit - 1 := by omega
  have hver : (DATA_BTREE_ATTR * 2 ^ 12) &&& 0xfff = 0 := by decide
  have hkind : (DATA_BTREE_ATTR * 2 ^ 12) >>> 12 = DATA_BTREE_ATTR := by decide
  have hne : ¬ (DATA_BTREE_ATTR = MTIME_SIZE_ATTR) := by decide
  have hb : (depth * 2 ^ 48 + block) % 2 ^ 48 = block := by omega
  have hd : (depth * 2 ^ 48 + block) >>> 48 = depth := by
    rw [Nat.shiftRight_eq_div_pow]
    omega
  have e2 : p + 2 + 8 = p + 10 := by omega
  simp only [decode_loop, hcond, if_true, decode_two, decode_eight, l1, hver, ne_eq,
    not_true_eq_false, if_false, hkind, hne, l2, mask48, hb, hd, e2]

theorem owner_loads (mm m : Nat → Nat) (p ctime mode uid gid : Nat)
    (hok : ctime < 2 ^ 48 ∧ mode < 2 ^ 32 ∧ uid < 2 ^ 32 ∧ gid < 2 ^ 32)
    (hag : ∀ x, p ≤ x → x < p + 20 → mm x = (encode_owner 0 m p ctime mode uid gid).1 x) :
    be_load 2 mm p = CTIME_OWNER_ATTR * 2 ^ 12 ∧
    be_load 2 mm (p + 2) = ctime / 2 ^ 32 ∧
    be_load 4 mm (p + 2 + 2) = ctime % 2 ^ 32 ∧
    be_load 4 mm (p + 2 + 2 + 4) = mode ∧
    be_load 4 mm (p + 2 + 2 + 4 + 4) = uid ∧
    be_load 4 mm (p + 2 + 2 + 4 + 4 + 4) = gid := by
  obtain ⟨M, hM⟩ : ∃ M, M = (encode_owner 0 m p ctime mode uid gid).1 := ⟨_, rfl⟩
  rw [← hM] at hag
  have hM' : M = be_store 4 (be_store 4 (be_store 4 (be_store 4 (be_store 2 (be_store 2 m p
      ((CTIME_OWNER_ATTR <<< 12) ||| 0)) (p + 2) (ctime >>> 32)) (p + 2 + 2) ctime)
      (p + 2 + 2 + 4) mode) (p + 2 + 2 + 4 + 4) uid) (p + 2 + 2 + 4 + 4 + 4) gid := hM
  have hA : be_load 2 M p = CTIME_OWNER_ATTR * 2 ^ 12 := by
    rw [hM', be_load_other 2 4 _ p _ _ (by omega), be_load_other 2 4 _ p _ _ (by omega),
      be_load_other 2 4 _ p _ _ (by omega), be_load_other 2 4 _ p _ _ (by omega),
      be_load_other 2 2 _ p _ _ (by omega), be_load_store, head_of_kind]
    unfold CTIME_OWNER_ATTR
    norm_num
  have hB : be_load 2 M (p + 2) = ctime / 2 ^ 32 := by
    rw [hM', be_load_other 2 4 _ (p + 2) _ _ (by omega),
      be_load_other 2 4 _ (p + 2) _ _ (by omega), be_load_other 2 4 _ (p + 2) _ _ (by omega),
      be_load_other 2 4 _ (p + 2) _ _ (by omega), be_load_store, Nat.shiftRight_eq_div_pow]
    omega
  have hC : be_load 4 M (p + 2 + 2) = ctime % 2 ^ 32 := by
    rw [hM', be_load_other 4 4 _ (p + 2 + 2) _ _ (by omega),
      be_load_other 4 4 _ (p + 2 + 2) _ _ (by omega),
      be_load_other 4 4 _ (p + 2 + 2) _ _ (by omega), be_load_store]
    norm_num
  have hD : be_load 4 M (p + 2 + 2 + 4) = mode := by
    rw [hM', be_load_other 4 4 _ (p + 2 + 2 + 4) _ _ (by omega),
      be_load_other 4 4 _ (p + 2 + 2 + 4) _ _ (by omega), be_load_store]
    omega
  have hE : be_load 4 M (p + 2 + 2 + 4 + 4) = uid := by
    rw [hM', be_load_other 4 4 _ (p + 2 + 2 + 4 + 4) _ _ (by omega), be_load_store]
    omega
  have hF : be_load 4 M (p + 2 + 2 + 4 + 4 + 4) = gid := by
    rw [hM', be_load_store]
    omega
  refine ⟨?_, ?_, ?_, ?_, ?_, ?_⟩
  · rw [be_load_congr 2 mm M p (fun x h1 h2 => hag x h1 (by omega)), hA]
  · rw [be_load_congr 2 mm M (p + 2) (fun x h1 h2 => hag x (by omega) (by omega)), hB]
  · rw [be_load_congr 4 mm M (p + 2 + 2) (fun x h1 h2 => hag x (by omega) (by omega)), hC]
  · rw [be_load_congr 4 mm M (p + 2 + 2 + 4) (fun x h1 h2 => hag x (by omega) (by omega)), hD]
  · rw [be_load_congr 4 mm M (p + 2 + 2 + 4 + 4) (fun x h1 h2 => hag x (by omega) (by omega)),
      hE]
  · rw [be_load_congr 4 mm M (p + 2 + 2 + 4 + 4 + 4)
      (fun x h1 h2 => hag x (by omega) (by omega)), hF]

theorem step_owner (mm m : Nat → Nat) (p ctime mode uid gid limit fuel : Nat) (ia : iattrs)
    (hok : ctime < 2 ^ 48 ∧ mode < 2 ^ 32 ∧ uid < 2 ^ 32 ∧ gid < 2 ^ 32)
    (hag : ∀ x, p ≤ x → x < p + 20 → mm x = (encode_owner 0 m p ctime mode uid gid).1 x)
    (hlim : p + 20 ≤ limit) :
    decode_loop mm limit (fuel + 1) p ia =
      decode_loop mm limit fuel (p + 20)
        { ia with ctime := ctime, mode := mode, uid := uid, gid := gid } := by
  obtain ⟨l1, l2, l3, l4, l5, l6⟩ := owner_loads mm m p ctime mode uid gid hok hag
  have hcond : p < limit - 1 := by omega
  have hver : (CTIME_OWNER_ATTR * 2 ^ 12) &&& 0xfff = 0 := by decide
  have hkind : (CTIME_OWNER_ATTR * 2 ^ 12) >>> 12 = CTIME_OWNER_ATTR := by decide
  have hne1 : ¬ (CTIME_OWNER_ATTR = MTIME_SIZE_ATTR) := by decide
  have hne2 : ¬ (CTIME_OWNER_ATTR = DATA_BTREE_ATTR) := by decide
  have hc : ((ctime / 2 ^ 32) <<< 32) ||| (ctime % 2 ^ 32) = ctime := by
    rw [shl_or _ _ 32 (Nat.mod_lt _ (Nat.two_pow_pos 32))]
    omega
  have e2 : p + 2 + 2 + 4 + 4 + 4 + 4 = p + 20 := by omega
  simp only [decode_loop, hcond, if_true, decode_two, decode_four, decode_six, l1, hver, ne_eq,
    not_true_eq_false, if_false, hkind, hne1, hne2, l2, l3, l4, l5, l6, hc, e2]

/-! ## A run of attributes -/

theorem encode_item_next (v : Nat) (m : Nat → Nat) (p : Nat) (it : attr_item) :
    (encode_item v m p it).2 = p + item_size it := by
  cases it <;> rfl

theorem encode_item_frame (v : Nat) (m : Nat → Nat) (p : Nat) (it : attr_item) (x : Nat)
    (h : x < p) : (encode_item v m p it).1 x = m x := by
  cases it with
  | msize mtime isize =>
    show be_store 8 (be_store 4 (be_store 2 (be_store 2 m p _) (p + 2) _) (p + 2 + 2) _)
      (p + 2 + 2 + 4) _ x = m x
    rw [be_store_out _ _ _ _ _ (Or.inl (by omega)), be_store_out _ _ _ _ _ (Or.inl (by omega)),
      be_store_out _ _ _ _ _ (Or.inl (by omega)), be_store_out _ _ _ _ _ (Or.inl (by omega))]
  | btree block depth =>
    show be_store 8 (be_store 2 m p _) (p + 2) _ x = m x
    rw [be_store_out _ _ _ _ _ (Or.inl (by omega)), be_store_out _ _ _ _ _ (Or.inl (by omega))]
  | owner ctime mode uid gid =>
    show be_store 4 (be_store 4 (be_store 4 (be_store 4 (be_store 2 (be_store 2 m p _) (p + 2) _)
      (p + 2 + 2) _) (p + 2 + 2 + 4) _) (p + 2 + 2 + 4 + 4) _) (p + 2 + 2 + 4 + 4 + 4) _ x = m x
    rw [be_store_out _ _ _ _ _ (Or.inl (by omega)), be_store_out _ _ _ _ _ (Or.inl (by omega)),
      be_store_out _ _ _ _ _ (Or.inl (by omega)), be_store_out _ _ _ _ _ (Or.inl (by omega)),
      be_store_out _ _ _ _ _ (Or.inl (by omega)), be_store_out _ _ _ _ _ (Or.inl (by omega))]

theorem encode_items_next (v : Nat) (items : List attr_item) : ∀ (m : Nat → Nat) (p : Nat),
    (encode_items v m p items).2 = p + items_size items := by
  induction items with
  | nil => intro m p; rfl
  | cons it rest ih =>
    intro m p
    show (encode_items v (encode_item v m p it).1 (encode_item v m p it).2 rest).2 = _
    rw [ih, encode_item_next]
    show p + item_size it + items_size rest = p + (item_size it + items_size rest)
    omega

theorem encode_items_frame (v : Nat) (items : List attr_item) :
    ∀ (m : Nat → Nat) (p x : Nat), x < p → (encode_items v m p items).1 x = m x := by
  induction items with
  | nil => intro m p x _; rfl
  | cons it rest ih =>
    intro m p x h
    show (encode_items v (encode_item v m p it).1 (encode_item v m p it).2 rest).1 x = _
    rw [ih _ _ x (by rw [encode_item_next]; omega), encode_item_frame v m p it x h]

theorem item_size_pos (it : attr_item) : 2 ≤ item_size it := by
  cases it <;> simp [item_size]

/-- One turn of the loop of `decode_attrs` over the bytes of one attribute. -/
theorem step_item (mm m : Nat → Nat) (p limit fuel : Nat) (ia : iattrs) (it : attr_item)
    (hok : item_ok it)
    (hag : ∀ x, p ≤ x → x < p + item_size it → mm x = (encode_item 0 m p it).1 x)
    (hlim : p + item_size it ≤ limit) :
    decode_loop mm limit (fuel + 1) p ia =
      decode_loop mm limit fuel (p + item_size it) (set_item ia it) := by
  cases it with
  | msize mtime isize => exact step_msize mm m p mtime isize limit fuel ia hok hag hlim
  | btree block depth => exact step_btree mm m p block depth limit fuel ia hok hag hlim
  | owner ctime mode uid gid =>
    exact step_owner mm m p ctime mode uid gid limit fuel ia hok hag hlim

/-- The loop of `decode_attrs` over the bytes of a run of attributes takes one
turn for each and sets what each holds. -/
theorem decode_items (items : List attr_item) :
    ∀ (m mm : Nat → Nat) (p limit fuel : Nat) (ia : iattrs),
      (∀ it ∈ items, item_ok it) →
      (∀ x, p ≤ x → x < p + items_size items → mm x = (encode_items 0 m p items).1 x) →
      p + items_size items ≤ limit →
      decode_loop mm limit (fuel + items.length) p ia =
        decode_loop mm limit fuel (p + items_size items) (items.foldl set_item ia) := by
  induction items with
  | nil => intro m mm p limit fuel ia _ _ _; rfl
  | cons it rest ih =>
    intro m mm p limit fuel ia hok hag hlim
    have hsz : items_size (it :: rest) = item_size it + items_size rest := rfl
    rw [hsz] at hag hlim
    have hfin : (encode_items 0 m p (it :: rest)).1 =
        (encode_items 0 (encode_item 0 m p it).1 (p + item_size it) rest).1 := by
      show (encode_items 0 (encode_item 0 m p it).1 (encode_item 0 m p it).2 rest).1 = _
      rw [encode_item_next]
    rw [hfin] at hag
    have hag1 : ∀ x, p ≤ x → x < p + item_size it → mm x = (encode_item 0 m p it).1 x := by
      intro x h1 h2
      rw [hag x h1 (by omega), encode_items_frame 0 rest _ _ x h2]
    have hstep := step_item mm m p limit (fuel + rest.length) ia it
      (hok it (List.mem_cons_self _ _)) hag1 (by omega)
    have hrest := ih (encode_item 0 m p it).1 mm (p + item_size it) limit fuel (set_item ia it)
      (fun i hi => hok i (List.mem_cons_of_mem _ hi))
      (fun x h1 h2 => hag x (by omega) (by omega)) (by omega)
    show decode_loop mm limit (fuel + (rest.length + 1)) p ia =
      decode_loop mm limit fuel (p + items_size (it :: rest)) (rest.foldl set_item (set_item ia it))
    rw [hsz, ← Nat.add_assoc, ← Nat.add_assoc, hstep, hrest]

theorem decode_loop_end (mm : Nat → Nat) (limit fuel : Nat) (ia : iattrs) :
    decode_loop mm limit fuel limit ia = some (ia, limit) := by
  have h : ¬ (limit < limit - 1) := by omega
  cases fuel <;> simp only [decode_loop, h, if_false]

theorem items_length_le (items : List attr_item) : items.length ≤ items_size items := by
  induction items with
  | nil => exact Nat.le_refl _
  | cons it rest ih =>
    have := item_size_pos it
    show rest.length + 1 ≤ item_size it + items_size rest
    omega

/-- The `decode_attrs` over the bytes of a run of attributes with values in range:
it sets what each holds, in order, and stops at the end of the bytes. -/
theorem decode_encode_items (items : List attr_item) (m : Nat → Nat) (p : Nat)
    (hok : ∀ it ∈ items, item_ok it) :
    (encode_items 0 m p items).2 = p + items_size items ∧
    decode_attrs (encode_items 0 m p items).1 p (items_size items) =
      some (items.foldl set_item ⟨0, 0, 0, 0, 0, 0, 0, 0⟩, p + items_size items) := by
  refine ⟨encode_items_next 0 items m p, ?_⟩
  have hlen := items_length_le items
  have hfuel : items_size items = (items_size items - items.length) + items.length := by omega
  unfold decode_attrs
  have h := decode_items items m (encode_items 0 m p items).1 p (p + items_size items)
    (items_size items - items.length) ⟨0, 0, 0, 0, 0, 0, 0, 0⟩ hok (fun _ _ _ => rfl)
    (Nat.le_refl _)
  rw [← hfuel] at h
  rw [h, decode_loop_end]

theorem items_size_perm {l1 l2 : List attr_item} (h : l1.Perm l2) :
    items_size l1 = items_size l2 := by
  induction h with
  | nil => rfl
  | cons x _ ih => show item_size x + _ = item_size x + _; rw [ih]
  | swap x y l =>
    show item_size y + (item_size x + items_size l) = item_size x + (item_size y + items_size l)
    omega
  | trans _ _ ih1 ih2 => rw [ih1, ih2]

/-! ## The round trip of `main` -/

/-- C30: inode attribute round trip.  With `sb->version` 0, `mtime`, `ctime` and
`root.block` below `2 ^ 48`, `depth` below `2 ^ 16` and the other values in the
range of their types: after `encode_msize`, `encode_btree` and `encode_owner` in
any order, each at the address the one before returned, 46 bytes are written,
and `decode_attrs` over them returns having decoded exactly `root`, `mtime`,
`ctime`, `isize`, `mode`, `uid` and `gid`, with `attr` at the end of the
bytes. -/
theorem attrs_round_trip (m : Nat → Nat) (p : Nat)
    (mtime isize block depth ctime mode uid gid : Nat)
    (hmtime : mtime < 2 ^ 48) (hisize : isize < 2 ^ 64) (hblock : block < 2 ^ 48)
    (hdepth : depth < 2 ^ 16) (hctime : ctime < 2 ^ 48) (hmode : mode < 2 ^ 32)
    (huid : uid < 2 ^ 32) (hgid : gid < 2 ^ 32) (items : List attr_item)
    (horder : items.Perm [attr_item.msize mtime isize, attr_item.btree block depth,
      attr_item.owner ctime mode uid gid]) :
    (encode_items 0 m p items).2 = p + 46 ∧
    decode_attrs (encode_items 0 m p items).1 p ((encode_items 0 m p items).2 - p) =
      some (⟨block, depth, mtime, ctime, isize, mode, uid, gid⟩,
        (encode_items 0 m p items).2) := by
  have hsize : items_size items = 46 := by
    rw [items_size_perm horder]
    rfl
  have hok : ∀ it ∈ items, item_ok it := by
    intro it hit
    have hmem := horder.mem_iff.1 hit
    simp only [List.mem_cons, List.mem_singleton, List.not_mem_nil, or_false] at hmem
    rcases hmem with h | h | h
    · rw [h]; exact ⟨hmtime, hisize⟩
    · rw [h]; exact ⟨hblock, hdepth⟩
    · rw [h]; exact ⟨hctime, hmode, huid, hgid⟩
  have hfold : items.foldl set_item ⟨0, 0, 0, 0, 0, 0, 0, 0⟩ =
      ⟨block, depth, mtime, ctime, isize, mode, uid, gid⟩ := by
    have hcomm : ∀ x ∈ [attr_item.msize mtime isize, attr_item.btree block depth,
        attr_item.owner ctime mode uid gid], ∀ y ∈ [attr_item.msize mtime isize,
        attr_item.btree block depth, attr_item.owner ctime mode uid gid], ∀ z : iattrs,
        set_item (set_item z x) y = set_item (set_item z y) x := by
      intro x hx y hy z
      simp only [List.mem_cons, List.mem_singleton, List.not_mem_nil, or_false] at hx hy
      rcases hx with hx | hx | hx <;> rcases hy with hy | hy | hy <;> rw [hx, hy] <;> rfl
    have hperm := List.Perm.foldl_eq' horder.symm hcomm (⟨0, 0, 0, 0, 0, 0, 0, 0⟩ : iattrs)
    rw [← hperm]
    rfl
  obtain ⟨h1, h2⟩ := decode_encode_items items m p hok
  rw [hsize] at h1 h2
  have hsub : p + 46 - p = 46 := by omega
  rw [h1, hsub, h2, hfold]
  exact ⟨rfl, rfl⟩

theorem attrs_round_trip_witness :
    (encode_items 0 (fun _ => 0) 0 ex_items).2 = 0 + 46 ∧
    decode_attrs (encode_items 0 (fun _ => 0) 0 ex_items).1 0
        ((encode_items 0 (fun _ => 0) 0 ex_items).2 - 0) =
      some (⟨0xcaba1f00d, 3, 0xdec0debead, 0xdeadfaced00d, 0x123456789, 0x666, 0x12121212,
        0x34343434⟩, (encode_items 0 (fun _ => 0) 0 ex_items).2) :=
  attrs_round_trip (fun _ => 0) 0 0xdec0debead 0x123456789 0xcaba1f00d 3 0xdeadfaced00d 0x666
    0x12121212 0x34343434 (by norm_num) (by norm_num) (by norm_num) (by norm_num) (by norm_num)
    (by norm_num) (by norm_num) (by norm_num) ex_items (List.Perm.refl _)

/-! ## The size `howmuch` predicts -/

/-- C40, evaluated where it fails: `atsize[CTIME_OWNER_ATTR]` is 20, and
`encode_owner` writes 18 bytes behind the head (six of `ctime`, four each of
`mode`, `uid` and `gid`).  For the three kinds of `main`, `howmuch` gives 48 and
the three encoders write 46 bytes; for `CTIME_OWNER_ATTR` alone 22 against 20.
For the other two kinds the table is right. -/
theorem howmuch_owner_two_more :
    howmuch [DATA_BTREE_ATTR, MTIME_SIZE_ATTR, CTIME_OWNER_ATTR] = some 48 ∧
    ex_items.map item_kind = [MTIME_SIZE_ATTR, DATA_BTREE_ATTR, CTIME_OWNER_ATTR] ∧
    encoded_bytes (fun _ => 0) 0 ex_items = 46 ∧
    howmuch [CTIME_OWNER_ATTR] = some 22 ∧
    encoded_bytes (fun _ => 0) 0 [attr_item.owner 0xdeadfaced00d 0x666 0x12121212 0x34343434]
      = 20 ∧
    howmuch [MTIME_SIZE_ATTR] = some 16 ∧
    encoded_bytes (fun _ => 0) 0 [attr_item.msize 0xdec0debead 0x123456789] = 16 ∧
    howmuch [DATA_BTREE_ATTR] = some 10 ∧
    encoded_bytes (fun _ => 0) 0 [attr_item.btree 0xcaba1f00d 3] = 10 := by
  decide

end Iattr

namespace Ileaf

/-! ## `ileaf_resize` followed by `ileaf_lookup` -/

section resize
variable {bs hdr inum s : Nat} {leaf : ileaf}

theorem ileaf_resize_fits (hin : leaf.ibase ≤ inum)
    (hfit : hdr + 2 * max leaf.count (inum - leaf.ibase + 1) + s
      ≤ leaf.free + size_at leaf (inum - leaf.ibase)) :
    ileaf_resize bs hdr inum leaf s = some (some (bs - attrs_upto leaf (inum - leaf.ibase) - s),
      ileaf.mk leaf.magic leaf.ibase (max leaf.count (inum - leaf.ibase + 1) % 2 ^ 16)
        ((leaf.free + size_at leaf (inum - leaf.ibase) - s) % 2 ^ 16)
        (fun j => if j = inum - leaf.ibase then s % 2 ^ 16 else size_at leaf j)
        (fun a =>
          if leaf.free + size_at leaf (inum - leaf.ibase) - s ≤ a ∧
              a < bs - attrs_upto leaf (inum - leaf.ibase) - s
                + min (size_at leaf (inum - leaf.ibase)) s
          then leaf.mem (a + s - size_at leaf (inum - leaf.ibase)) else leaf.mem a)) := by
  have h1 : ¬ (inum < leaf.ibase) := by omega
  simp only [ileaf_resize, h1, if_false, hfit, if_true]

theorem ileaf_resize_full (hin : leaf.ibase ≤ inum)
    (hfit : ¬ (hdr + 2 * max leaf.count (inum - leaf.ibase + 1) + s
      ≤ leaf.free + size_at leaf (inum - leaf.ibase))) :
    ileaf_resize bs hdr inum leaf s = some (none, leaf) := by
  have h1 : ¬ (inum < leaf.ibase) := by omega
  simp only [ileaf_resize, h1, if_false, hfit]

theorem ileaf_lookup_eq (hin : leaf.ibase ≤ inum) :
    ileaf_lookup bs inum leaf
      = some (attr_offset bs leaf (inum - leaf.ibase), size_at leaf (inum - leaf.ibase)) := by
  have h1 : ¬ (inum < leaf.ibase) := by omega
  simp only [ileaf_lookup, h1, if_false]

theorem size_at_behind {i : Nat} (h : leaf.count ≤ i) : size_at leaf i = 0 := by
  have : ¬ (i < leaf.count) := by omega
  simp only [size_at, this, if_false]

theorem attrs_upto_mono (leaf : ileaf) {m n : Nat} (h : m ≤ n) :
    attrs_upto leaf m ≤ attrs_upto leaf n := by
  induction n with
  | zero =>
    have : m = 0 := by omega
    subst this
    exact Nat.le_refl _
  | succ n ih =>
    rcases Nat.lt_or_ge m (n + 1) with h1 | h1
    · have := ih (by omega)
      simp only [attrs_upto]
      omega
    · have : m = n + 1 := by omega
      subst this
      exact Nat.le_refl _

/-- Entries behind the directory add nothing to the packed bytes. -/
theorem attrs_upto_behind (leaf : ileaf) {n : Nat} (h : leaf.count ≤ n) :
    attrs_upto leaf n = attrs_upto leaf leaf.count := by
  induction n with
  | zero =>
    have : leaf.count = 0 := by omega
    rw [this]
  | succ n ih =>
    rcases Nat.lt_or_ge n leaf.count with h1 | h1
    · have : leaf.count = n + 1 := by omega
      rw [this]
    · simp only [attrs_upto, size_at_behind h1, Nat.add_zero]
      exact ih h1

/-- The sizes after a resize: entry `i` has the new size, every other entry the
size it had. -/
theorem size_at_resized {i c f : Nat} {m : Nat → Nat} (hc : max leaf.count (i + 1) ≤ c)
    (j : Nat) :
    size_at (ileaf.mk leaf.magic leaf.ibase c f
      (fun j => if j = i then s else size_at leaf j) m) j
      = if j = i then s else size_at leaf j := by
  unfold size_at
  simp only
  by_cases hj : j < c
  · rw [if_pos hj]
  · rw [if_neg hj]
    have h1 : j ≠ i := by omega
    have h2 : ¬ (j < leaf.count) := by omega
    rw [if_neg h1, if_neg h2]

/-- The packed bytes after a resize of entry `i` from `old` to `s`. -/
theorem attrs_upto_resized {l2 : ileaf} {i : Nat}
    (hs : ∀ j, size_at l2 j = if j = i then s else size_at leaf j) (n : Nat) :
    attrs_upto l2 n
      = if n ≤ i then attrs_upto leaf n else attrs_upto leaf n - size_at leaf i + s := by
  induction n with
  | zero => simp [attrs_upto]
  | succ n ih =>
    simp only [attrs_upto, ih, hs n]
    rcases Nat.lt_trichotomy n i with h | h | h
    · have h1 : n ≤ i := by omega
      have h2 : n + 1 ≤ i := by omega
      have h3 : n ≠ i := by omega
      rw [if_pos h1, if_pos h2, if_neg h3]
    · subst h
      have h2 : ¬ (n + 1 ≤ n) := by omega
      rw [if_pos (Nat.le_refl _), if_neg h2, if_pos rfl]
      omega
    · have h1 : ¬ (n ≤ i) := by omega
      have h2 : ¬ (n + 1 ≤ i) := by omega
      have h3 : n ≠ i := by omega
      rw [if_neg h1, if_neg h2, if_neg h3]
      have h4 : attrs_upto leaf (i + 1) ≤ attrs_upto leaf n := attrs_upto_mono leaf (by omega)
      simp only [attrs_upto] at h4
      omega

end resize

theorem attrs_upto_le_total (leaf : ileaf) (n : Nat) :
    attrs_upto leaf n ≤ attrs_upto leaf leaf.count := by
  rcases Nat.le_total n leaf.count with h | h
  · exact attrs_upto_mono leaf h
  · rw [attrs_upto_behind leaf h]

/-- The arithmetic of a record in front of the resized one: its bytes lie at or
above the end of the moved region. -/
theorem front_outside {bs Ai Aj1 s old k : Nat} (h1 : Aj1 ≤ Ai) (h2 : Ai + s ≤ bs) :
    ¬ (bs - Aj1 + k < bs - Ai - s + min old s) := by
  have : min old s ≤ s := Nat.min_le_right _ _
  omega

/-- The arithmetic of a record behind the resized one: its bytes lie in the moved
region and come from where they were. -/
theorem behind_inside {bs A Ai Aj szj s old free k : Nat} (h1 : Ai + old ≤ Aj)
    (h2 : Aj + szj ≤ A) (h3 : free + A = bs) (h4 : s ≤ free + old) (hk : k < szj) :
    (free + old - s ≤ bs - (Aj + szj - old + s) + k ∧
      bs - (Aj + szj - old + s) + k < bs - Ai - s + min old s) ∧
    bs - (Aj + szj - old + s) + k + s - old = bs - (Aj + szj) + k := by
  have : 0 ≤ min old s := Nat.zero_le _
  omega

/-- The leaf a resize that fits leaves, with the 16-bit stores done. -/
theorem ileaf_resize_done {bs hdr inum s : Nat} {leaf : ileaf} (hbs : bs < 2 ^ 16)
    (hfree : leaf.free + attrs_upto leaf leaf.count = bs) (hin : leaf.ibase ≤ inum)
    (hfit : hdr + 2 * max leaf.count (inum - leaf.ibase + 1) + s
      ≤ leaf.free + size_at leaf (inum - leaf.ibase)) :
    ileaf_resize bs hdr inum leaf s = some (some (bs - attrs_upto leaf (inum - leaf.ibase) - s),
      ileaf.mk leaf.magic leaf.ibase (max leaf.count (inum - leaf.ibase + 1))
        (leaf.free + size_at leaf (inum - leaf.ibase) - s)
        (fun j => if j = inum - leaf.ibase then s else size_at leaf j)
        (fun a =>
          if leaf.free + size_at leaf (inum - leaf.ibase) - s ≤ a ∧
              a < bs - attrs_upto leaf (inum - leaf.ibase) - s
                + min (size_at leaf (inum - leaf.ibase)) s
          then leaf.mem (a + s - size_at leaf (inum - leaf.ibase)) else leaf.mem a)) := by
  have hA := attrs_upto_le_total leaf (inum - leaf.ibase + 1)
  simp only [attrs_upto] at hA
  have h1 : max leaf.count (inum - leaf.ibase + 1) % 2 ^ 16
      = max leaf.count (inum - leaf.ibase + 1) := Nat.mod_eq_of_lt (by omega)
  have h2 : (leaf.free + size_at leaf (inum - leaf.ibase) - s) % 2 ^ 16
      = leaf.free + size_at leaf (inum - leaf.ibase) - s := Nat.mod_eq_of_lt (by omega)
  have h3 : s % 2 ^ 16 = s := Nat.mod_eq_of_lt (by omega)
  rw [ileaf_resize_fits hin hfit, h1, h2, h3]

/-- What a resize that fits leaves behind, for the resized inode and the others. -/
theorem ileaf_resize_fit_spec {bs hdr inum s : Nat} {leaf l2 : ileaf} {i : Nat}
    (hi : i = inum - leaf.ibase)
    (hfree : leaf.free + attrs_upto leaf leaf.count = bs) (hin : leaf.ibase ≤ inum)
    (hfit : hdr + 2 * max leaf.count (i + 1) + s ≤ leaf.free + size_at leaf i)
    (hl2 : l2 = ileaf.mk leaf.magic leaf.ibase (max leaf.count (i + 1))
        (leaf.free + size_at leaf i - s)
        (fun j => if j = i then s else size_at leaf j)
        (fun a =>
          if leaf.free + size_at leaf i - s ≤ a ∧
              a < bs - attrs_upto leaf i - s + min (size_at leaf i) s
          then leaf.mem (a + s - size_at leaf i) else leaf.mem a)) :
    ileaf_lookup bs inum l2 = some (bs - attrs_upto leaf i - s, s) ∧
    (∀ other, other ≠ inum → leaf.ibase ≤ other →
      ∃ p q sz, ileaf_lookup bs other leaf = some (p, sz) ∧
        ileaf_lookup bs other l2 = some (q, sz) ∧
        ∀ k, k < sz → l2.mem (q + k) = leaf.mem (p + k)) ∧
    l2.free + attrs_upto l2 l2.count = bs ∧ hdr + 2 * l2.count ≤ l2.free := by
  have hib : l2.ibase = leaf.ibase := by rw [hl2]
  have hs : ∀ j, size_at l2 j = if j = i then s else size_at leaf j := by
    intro j
    rw [hl2]
    exact size_at_resized (Nat.le_refl _) j
  have hup := attrs_upto_resized hs
  have hA := attrs_upto_le_total leaf (i + 1)
  simp only [attrs_upto] at hA
  have hmem : ∀ a, l2.mem a =
      if leaf.free + size_at leaf i - s ≤ a ∧
          a < bs - attrs_upto leaf i - s + min (size_at leaf i) s
      then leaf.mem (a + s - size_at leaf i) else leaf.mem a := by
    intro a; rw [hl2]
  refine ⟨?_, ?_, ?_, ?_⟩
  · have hin2 : l2.ibase ≤ inum := by rw [hib]; exact hin
    rw [ileaf_lookup_eq hin2, hib, ← hi, hs i, if_pos rfl]
    unfold attr_offset
    rw [hup (i + 1), if_neg (by omega)]
    simp only [attrs_upto]
    have : attrs_upto leaf i + size_at leaf i - size_at leaf i + s = attrs_upto leaf i + s := by
      omega
    rw [this, Nat.sub_sub]
  · intro other hne hge
    have hge2 : l2.ibase ≤ other := by rw [hib]; exact hge
    have hj : other - leaf.ibase ≠ i := by omega
    refine ⟨attr_offset bs leaf (other - leaf.ibase), attr_offset bs l2 (other - leaf.ibase),
      size_at leaf (other - leaf.ibase), ileaf_lookup_eq hge, ?_, ?_⟩
    · rw [ileaf_lookup_eq hge2, hib, hs (other - leaf.ibase), if_neg hj]
    · intro k hk
      have hAj := attrs_upto_le_total leaf (other - leaf.ibase + 1)
      simp only [attrs_upto] at hAj
      unfold attr_offset
      rcases Nat.lt_or_ge (other - leaf.ibase) i with hlt | hgt
      · have hm := attrs_upto_mono leaf (show other - leaf.ibase + 1 ≤ i by omega)
        simp only [attrs_upto] at hm
        have h2 : attrs_upto leaf i + s ≤ bs := by omega
        rw [hup (other - leaf.ibase + 1), if_pos (by omega)]
        simp only [attrs_upto]
        rw [hmem, if_neg (fun h => front_outside hm h2 h.2)]
      · have hm := attrs_upto_mono leaf (show i + 1 ≤ other - leaf.ibase by omega)
        simp only [attrs_upto] at hm
        have h4 : s ≤ leaf.free + size_at leaf i := by omega
        obtain ⟨h1, h2⟩ := @behind_inside bs _ _ _ _ s _ _ _ hm hAj hfree h4 hk
        rw [hup (other - leaf.ibase + 1), if_neg (by omega)]
        simp only [attrs_upto]
        rw [hmem, if_pos h1, h2]
  · have h1 : l2.free = leaf.free + size_at leaf i - s := by rw [hl2]
    have h2 : l2.count = max leaf.count (i + 1) := by rw [hl2]
    rw [h1, h2, hup, if_neg (by omega),
      attrs_upto_behind leaf (show leaf.count ≤ max leaf.count (i + 1) by omega)]
    omega
  · have h1 : l2.free = leaf.free + size_at leaf i - s := by rw [hl2]
    have h2 : l2.count = max leaf.count (i + 1) := by rw [hl2]
    rw [h1, h2]
    omega

/-- C31: on a consistent ileaf (the records fill the block from `free` to its end,
the directory ends at or before `free`, block size below 64 KiB) and for every
inode number at or above `ibase` and every size, `ileaf_resize` returns; when it
returns a pointer, a following `ileaf_lookup` of the inode returns that pointer and
the new size; when it returns null the leaf is as it was; after a resize to 0 the
lookup returns size 0; every other inode keeps its size and the bytes of its
record; the leaf stays consistent. -/
theorem ileaf_resize_lookup (bs hdr inum s : Nat) (leaf : ileaf) (hbs : bs < 2 ^ 16)
    (hfree : leaf.free + attrs_upto leaf leaf.count = bs)
    (hdir : hdr + 2 * leaf.count ≤ leaf.free) (hin : leaf.ibase ≤ inum) :
    ∃ r, ileaf_resize bs hdr inum leaf s = some r ∧
      (∀ ptr, r.1 = some ptr → ileaf_lookup bs inum r.2 = some (ptr, s)) ∧
      (r.1 = none → r.2 = leaf) ∧
      (s = 0 → ∃ ptr, ileaf_lookup bs inum r.2 = some (ptr, 0)) ∧
      (∀ other, other ≠ inum → leaf.ibase ≤ other →
        ∃ p q sz, ileaf_lookup bs other leaf = some (p, sz) ∧
          ileaf_lookup bs other r.2 = some (q, sz) ∧
          ∀ k, k < sz → r.2.mem (q + k) = leaf.mem (p + k)) ∧
      r.2.free + attrs_upto r.2 r.2.count = bs ∧ hdr + 2 * r.2.count ≤ r.2.free := by
  by_cases hfit : hdr + 2 * max leaf.count (inum - leaf.ibase + 1) + s
      ≤ leaf.free + size_at leaf (inum - leaf.ibase)
  · obtain ⟨h1, h2, h3, h4⟩ :=
      ileaf_resize_fit_spec rfl hfree hin hfit rfl
    refine ⟨_, ileaf_resize_done hbs hfree hin hfit, ?_, ?_, ?_, h2, h3, h4⟩
    · intro ptr hptr
      simp only [Option.some.injEq] at hptr
      rw [← hptr]
      exact h1
    · intro h
      cases h
    · intro h0
      exact ⟨_, by rw [h1, h0]⟩
  · refine ⟨_, ileaf_resize_full hin hfit, ?_, fun _ => rfl, ?_, ?_, hfree, hdir⟩
    · intro ptr hptr
      cases hptr
    · intro h0
      have hc : leaf.count ≤ inum - leaf.ibase := by
        rcases Nat.lt_or_ge (inum - leaf.ibase) leaf.count with h | h
        · exfalso
          apply hfit
          have : max leaf.count (inum - leaf.ibase + 1) = leaf.count := by omega
          rw [this, h0]
          omega
        · exact h
      exact ⟨_, by rw [ileaf_lookup_eq hin, size_at_behind hc]⟩
    · intro other _ hge
      exact ⟨_, _, _, ileaf_lookup_eq hge, ileaf_lookup_eq hge, fun _ _ => rfl⟩

theorem ileaf_resize_lookup_witness :
    (main_appends 16).isSome = true ∧
    (ileaf_resize 4096 16 0x16 (main_leaf 16) 1).map Prod.fst = some (some 4086) ∧
    ∃ r, ileaf_resize 4096 16 0x16 (main_leaf 16) 1 = some r ∧
      (∀ ptr, r.1 = some ptr → ileaf_lookup 4096 0x16 r.2 = some (ptr, 1)) ∧
      (r.1 = none → r.2 = main_leaf 16) ∧
      (1 = 0 → ∃ ptr, ileaf_lookup 4096 0x16 r.2 = some (ptr, 0)) ∧
      (∀ other, other ≠ 0x16 → (main_leaf 16).ibase ≤ other →
        ∃ p q sz, ileaf_lookup 4096 other (main_leaf 16) = some (p, sz) ∧
          ileaf_lookup 4096 other r.2 = some (q, sz) ∧
          ∀ k, k < sz → r.2.mem (q + k) = (main_leaf 16).mem (p + k)) ∧
      r.2.free + attrs_upto r.2 r.2.count = 4096 ∧ 16 + 2 * r.2.count ≤ r.2.free :=
  ⟨by decide, by decide,
    ileaf_resize_lookup 4096 16 0x16 1 (main_leaf 16) (by decide) (by decide) (by decide)
      (by decide)⟩

end Ileaf
